import Mathlib

/-!
# Verification development for a slice of Chromium

Shallow embeddings of

* `content/browser/code_cache/generated_code_cache.cc`
* `components/services/storage/dom_storage/dom_storage_database.cc`
* `services/network/test/test_url_loader_factory.{h,cc}`

followed by theorems about them.  Definitions come first, theorems after.

Conventions of the embedding:

* `std::string` is `List Char`; byte buffers are `List Nat`;
* a raw pointer to a heap object is the object's identity, a `Nat`;
* code that can crash or has undefined behaviour returns `Except Fault _`;
* callbacks handed in by the caller are identities (`Nat`); running one is
  recorded in an observation log instead of being executed.
-/

deriving instance DecidableEq for Except

/-! ## Part I: definitions -/

namespace GeneratedCodeCache

/-! ### Cache keys (`generated_code_cache.cc`, lines 18-118) -/

/-- Modelled from the spec: `GURL` and `net::SimplifyUrlForRequest` are not part
of the sources at hand.  A URL is represented by the two observations the cache
makes of it: `is_valid()` and the spec of its simplified form,
`net::SimplifyUrlForRequest(url).spec()`. -/
structure GURL where
  is_valid : Bool
  simplified_spec : List Char
deriving DecidableEq, Repr

/-- The constant `kPrefix`. -/
def kPrefix : List Char := "_key".toList

/-- The constant `kSeparator`: a space followed by a line feed. -/
def kSeparator : List Char := " \n".toList

/-- The value `std::string::npos` on a 64-bit target. -/
def npos : Nat := 2 ^ 64 - 1

/-- Ways in which the embedded code can leave defined behaviour.  The first
constructor is an artefact of the embedding (recursion is bounded by fuel), the
others are crashes of the C++ code. -/
inductive Fault where
  | out_of_fuel
  | null_backend
  | dangling_operation
  | missing_queue
  | empty_queue
  | out_of_range
  | not_in_flight
  | completion_out_of_order
  | backend_already_created
  | null_callback
  | null_buffer
deriving DecidableEq, Repr

/-- The function `GetCacheKey`.  `CheckValidKeys` consists of `DCHECK`s only and
enforces nothing in production code, so it has no counterpart here. -/
def GetCacheKey (resource_url origin_lock : GURL) : List Char :=
  let key := kPrefix
  let key := key ++ resource_url.simplified_spec
  let key := key ++ kSeparator
  if origin_lock.is_valid then key ++ origin_lock.simplified_spec else key

/-- The origin-lock part of a cache key: what `GetCacheKey` puts after the
separator. -/
def lockPart (origin_lock : GURL) : List Char :=
  if origin_lock.is_valid then origin_lock.simplified_spec else []

/-- Search loop of `std::string::find`: the position of the first occurrence of
`needle` in `hay`, counted from `pos`, or `npos`. -/
def findFrom (needle : List Char) : List Char → Nat → Nat
  | [], pos => if needle.isPrefixOf [] then pos else npos
  | c :: rest, pos =>
    if needle.isPrefixOf (c :: rest) then pos else findFrom needle rest (pos + 1)

/-- The call `hay.find(needle)`. -/
def find (hay needle : List Char) : Nat := findFrom needle hay 0

/-- The call `s.substr(pos, count)`, which throws when `pos > s.size()`. -/
def substr (s : List Char) (pos count : Nat) : Except Fault (List Char) :=
  if s.length < pos then .error .out_of_range else .ok ((s.drop pos).take count)

/-- The function `GeneratedCodeCache::GetResourceURLFromKey`.  The subtraction
is one of `size_t` values and wraps modulo `2 ^ 64`. -/
def GetResourceURLFromKey (key : List Char) : Except Fault (List Char) :=
  let kPrefixStringLen := kPrefix.length
  substr key kPrefixStringLen ((find key kSeparator + 2 ^ 64 - kPrefixStringLen) % 2 ^ 64)

/-! ### The cache (`generated_code_cache.cc`, lines 132-636)

`CollectStatistics` only feeds UMA histograms and has no counterpart here. -/

/-- The enum `BackendState`. -/
inductive BackendState where
  | kInitializing
  | kInitialized
  | kFailed
deriving DecidableEq, Repr

/-- The enum `Operation`. -/
inductive Operation where
  | kFetch
  | kWrite
  | kDelete
  | kGetBackend
deriving DecidableEq, Repr

/-- The class `PendingOperation`.  `id` is the address of the heap object made
by `std::make_unique`.  A `scoped_refptr` buffer is `none` when null and
otherwise holds the buffer's contents: the `int64_t` of the eight-byte time
buffer, the bytes of the data buffer.  A callback is `none` once taken. -/
structure PendingOperation where
  id : Nat
  op_ : Operation
  key_ : List Char
  time_buffer_ : Option Int
  data_buffer_ : Option (List Nat)
  read_callback_ : Option Nat
  backend_callback_ : Option Nat
deriving DecidableEq, Repr

/-- Modelled from the spec: the entry of `disk_cache::Backend`, which is not part
of the sources at hand.  Stream `kResponseTimeStream` holds `none` when it has
fewer than eight bytes and otherwise the `int64_t` stored there; stream
`kDataStream` holds bytes. -/
structure Entry where
  response_time : Option Int
  data : List Nat
deriving DecidableEq, Repr

/-- Modelled from the spec: `disk_cache::EntryResult`, reduced to `net_error()`
and `opened()`. -/
structure EntryResult where
  net_error : Int
  opened : Bool
deriving DecidableEq, Repr

/-- The constant `net::OK`. -/
def net_OK : Int := 0

/-- The constant `net::ERR_FAILED`. -/
def net_ERR_FAILED : Int := -2

/-- The constant `kResponseTimeSizeInBytes`, `sizeof(int64_t)`. -/
def kResponseTimeSizeInBytes : Int := 8

/-- A request handed to the disk cache that returned `net::ERR_IO_PENDING`; the
constructor tells which completion callback is bound, `op` is the
`PendingOperation*` bound into it. -/
inductive Request where
  | OpenOrCreateEntry (op : Nat) (key : List Char)
  | WriteResponseTime (op : Nat) (key : List Char) (time : Int)
  | WriteData (op : Nat) (key : List Char) (data : List Nat)
  | OpenEntry (op : Nat) (key : List Char)
  | ReadResponseTime (op : Nat) (key : List Char)
  | ReadData (op : Nat) (key : List Char) (len : Nat)
deriving DecidableEq, Repr

/-- The `PendingOperation*` bound into the completion callback of a request. -/
def Request.op : Request → Nat
  | .OpenOrCreateEntry op _ => op
  | .WriteResponseTime op _ _ => op
  | .WriteData op _ _ => op
  | .OpenEntry op _ => op
  | .ReadResponseTime op _ => op
  | .ReadData op _ _ => op

/-- The key of the entry a request works on. -/
def Request.key : Request → List Char
  | .OpenOrCreateEntry _ key => key
  | .WriteResponseTime _ key _ => key
  | .WriteData _ key _ => key
  | .OpenEntry _ key => key
  | .ReadResponseTime _ key => key
  | .ReadData _ key _ => key

/-- How the disk cache answers one request: `pending` is a return of
`net::ERR_IO_PENDING` (the callback runs later), `done ok` a synchronous
completion, successful or not. -/
inductive Decision where
  | pending
  | done (ok : Bool)
deriving DecidableEq, Repr

/-- What an observer of the cache sees: callbacks being run, and the three
points of an operation's life in `active_entries_map_`. -/
inductive Obs where
  | read_callback (cb : Nat) (response_time : Int) (data : List Nat)
  | backend_callback (cb : Nat) (backend : Bool)
  | enqueued (op : Nat) (key : List Char)
  | issued (op : Nat) (key : List Char)
  | closed (op : Nat) (key : List Char)
deriving DecidableEq, Repr

/-- The members of `GeneratedCodeCache` together with its environment.
`backend_` tells whether the pointer is non-null.  `pending_ops_` and the
queues of `active_entries_map_` have their front at the head of the list.
`store`, `in_flight` and `script` are the disk cache: its entries, the requests
it has not completed yet, and its answers to the requests to come.  `log` is
the list of observations, oldest first. -/
structure State where
  backend_state_ : BackendState
  backend_ : Bool
  pending_ops_ : List PendingOperation
  active_entries_map_ : List (List Char × List PendingOperation)
  next_id : Nat
  store : List (List Char × Entry)
  in_flight : List Request
  script : List Decision
  log : List Obs
deriving DecidableEq, Repr

namespace Backend

/-- Modelled from the spec: replaces the entry stored under `key`, adding it when
there is none. -/
def put (store : List (List Char × Entry)) (key : List Char) (e : Entry) :
    List (List Char × Entry) :=
  match store.lookup key with
  | none => store ++ [(key, e)]
  | some _ => store.map (fun p => if p.1 == key then (key, e) else p)

/-- Modelled from the spec: the entry stored under `key`; an entry that does not
exist reads as an empty one. -/
def get (store : List (List Char × Entry)) (key : List Char) : Entry :=
  (store.lookup key).getD ⟨none, []⟩

/-- Modelled from the spec: `disk_cache::Backend::OpenOrCreateEntry`. -/
def OpenOrCreateEntry (store : List (List Char × Entry)) (key : List Char) (ok : Bool) :
    EntryResult × List (List Char × Entry) :=
  if ok then
    match store.lookup key with
    | none => (⟨net_OK, false⟩, store ++ [(key, ⟨none, []⟩)])
    | some _ => (⟨net_OK, true⟩, store)
  else (⟨net_ERR_FAILED, false⟩, store)

/-- Modelled from the spec: `disk_cache::Backend::OpenEntry`, which fails when
there is no entry. -/
def OpenEntry (store : List (List Char × Entry)) (key : List Char) (ok : Bool) : EntryResult :=
  if ok && (store.lookup key).isSome then ⟨net_OK, true⟩ else ⟨net_ERR_FAILED, false⟩

/-- Modelled from the spec: `disk_cache::Backend::DoomEntry`. -/
def DoomEntry (store : List (List Char × Entry)) (key : List Char) : List (List Char × Entry) :=
  store.filter (fun p => !(p.1 == key))

/-- Modelled from the spec: `Entry::WriteData` on `kResponseTimeStream` at offset 0
with `truncate`; the result is the number of bytes written or a net error. -/
def WriteResponseTime (store : List (List Char × Entry)) (key : List Char) (time : Int)
    (ok : Bool) : Int × List (List Char × Entry) :=
  if ok then (kResponseTimeSizeInBytes, put store key { get store key with response_time := some time })
  else (net_ERR_FAILED, store)

/-- Modelled from the spec: `Entry::WriteData` on `kDataStream` at offset 0 with
`truncate`. -/
def WriteData (store : List (List Char × Entry)) (key : List Char) (data : List Nat)
    (ok : Bool) : Int × List (List Char × Entry) :=
  if ok then ((data.length : Int), put store key { get store key with data := data })
  else (net_ERR_FAILED, store)

/-- Modelled from the spec: `Entry::ReadData` on `kResponseTimeStream`: the number
of bytes read or a net error, and what was put into the buffer. -/
def ReadResponseTime (store : List (List Char × Entry)) (key : List Char) (ok : Bool) :
    Int × Option Int :=
  if ok then
    match (get store key).response_time with
    | some t => (kResponseTimeSizeInBytes, some t)
    | none => (0, none)
  else (net_ERR_FAILED, none)

/-- Modelled from the spec: `Entry::ReadData` on `kDataStream` into a buffer of
`len` bytes. -/
def ReadData (store : List (List Char × Entry)) (key : List Char) (len : Nat) (ok : Bool) :
    Int × List Nat :=
  if ok then ((((get store key).data.take len).length : Int), (get store key).data.take len)
  else (net_ERR_FAILED, [])

/-- Modelled from the spec: `Entry::GetDataSize(kDataStream)`. -/
def GetDataSize (store : List (List Char × Entry)) (key : List Char) : Nat :=
  (get store key).data.length

end Backend

/-- The state a freshly constructed `GeneratedCodeCache` is in while
`disk_cache::CreateCacheBackend` runs, over a disk holding `store`. -/
def initial (store : List (List Char × Entry)) : State :=
  { backend_state_ := .kInitializing, backend_ := false, pending_ops_ := [],
    active_entries_map_ := [], next_id := 0, store := store, in_flight := [],
    script := [], log := [] }

/-- Modelled from the spec: takes the disk cache's answer to the next request,
made for operation `op`.  The disk cache answers `net::ERR_IO_PENDING` once the
script is used up, and also while an earlier request of the same operation is
in flight: it completes the requests of one operation in the order they were
made, which is what `VerifyCompletions` asserts. -/
def nextDecision (op : Nat) (s : State) : Decision × State :=
  match s.script with
  | [] => (.pending, s)
  | d :: rest =>
    (if s.in_flight.any (fun r => r.op == op) then .pending else d, { s with script := rest })

/-- The object a `PendingOperation*` points to: the operation with that identity
owned by one of the queues of `active_entries_map_`. -/
def findOp (m : List (List Char × List PendingOperation)) (op : Nat) : Option PendingOperation :=
  (m.flatMap (fun p => p.2)).find? (fun o => o.id == op)

/-- Dereferences a `PendingOperation*`; an operation that no queue owns has been
destroyed. -/
def deref (s : State) (op : Nat) : Except Fault PendingOperation :=
  match findOp s.active_entries_map_ op with
  | some o => .ok o
  | none => .error .dangling_operation

/-- Assignment through a `PendingOperation*`. -/
def updateOp (m : List (List Char × List PendingOperation)) (op : Nat)
    (f : PendingOperation → PendingOperation) : List (List Char × List PendingOperation) :=
  m.map (fun p => (p.1, p.2.map (fun o => if o.id == op then f o else o)))

/-- Assignment `active_entries_map_[key] = queue` for a key that is present. -/
def setQueue (m : List (List Char × List PendingOperation)) (key : List Char)
    (queue : List PendingOperation) : List (List Char × List PendingOperation) :=
  m.map (fun p => if p.1 == key then (p.1, queue) else p)

/-- The call `active_entries_map_.erase(it)` for the iterator at `key`. -/
def eraseQueue (m : List (List Char × List PendingOperation)) (key : List Char) :
    List (List Char × List PendingOperation) :=
  m.filter (fun p => !(p.1 == key))

/-- Assignment through a `PendingOperation*`, as a change of state. -/
def modifyOp (op : Nat) (f : PendingOperation → PendingOperation) (s : State) : State :=
  { s with active_entries_map_ := updateOp s.active_entries_map_ op f }

/-- Appends to the observation log. -/
def observe (o : Obs) (s : State) : State := { s with log := s.log ++ [o] }

/-- Registers a request for which the disk cache returned `net::ERR_IO_PENDING`. -/
def defer (r : Request) (s : State) : State := { s with in_flight := s.in_flight ++ [r] }

/-- The call `op->TakeReadCallback().Run(response_time, data)`. -/
def runReadCallback (op : Nat) (response_time : Int) (data : List Nat) (s : State) :
    Except Fault State := do
  let o ← deref s op
  match o.read_callback_ with
  | none => .error .null_callback
  | some cb =>
    pure (observe (.read_callback cb response_time data)
      (modifyOp op (fun o => { o with read_callback_ := none }) s))

/-- The function `GeneratedCodeCache::DoomEntry`; `backend_->` faults on a null
`backend_`. -/
def DoomEntry (op : PendingOperation) (s : State) : Except Fault State :=
  if s.backend_ then .ok { s with store := Backend.DoomEntry s.store op.key_ }
  else .error .null_backend

/-- The function `GeneratedCodeCache::DequeueOperation`, returning the dequeued
operation and the new state. -/
def DequeueOperation (op : PendingOperation) (s : State) :
    Except Fault (PendingOperation × State) :=
  match s.active_entries_map_.lookup op.key_ with
  | none => .error .missing_queue
  | some [] => .error .empty_queue
  | some (result :: rest) =>
    if rest.isEmpty then
      .ok (result, { s with active_entries_map_ := eraseQueue s.active_entries_map_ op.key_ })
    else
      .ok (result, { s with active_entries_map_ := setQueue s.active_entries_map_ op.key_ rest })

/-- The function `GeneratedCodeCache::CloseOperationAndIssueNext`; `next` is
`IssueNextOperation`. -/
def CloseOperationAndIssueNext (next : List Char → State → Except Fault State)
    (op : PendingOperation) (s : State) : Except Fault State := do
  let (_, s) ← DequeueOperation op s
  next op.key_ (observe (.closed op.id op.key_) s)

/-- The function `GeneratedCodeCache::WriteResponseTimeComplete`. -/
def WriteResponseTimeComplete (op : Nat) (rv : Int) (s : State) : Except Fault State :=
  if rv ≠ kResponseTimeSizeInBytes then do
    let _ ← deref s op
    pure (modifyOp op (fun o => { o with time_buffer_ := none }) s)
  else pure s

/-- The function `GeneratedCodeCache::WriteDataComplete`. -/
def WriteDataComplete (next : List Char → State → Except Fault State) (op : Nat) (rv : Int)
    (s : State) : Except Fault State := do
  let o ← deref s op
  match o.data_buffer_ with
  | none => .error .null_buffer
  | some data =>
    let s ← (if rv ≠ (data.length : Int) ∨ o.time_buffer_ = none then DoomEntry o s else pure s)
    CloseOperationAndIssueNext next o s

/-- Completion of `Entry::WriteData` on the response time stream. -/
def completeWriteResponseTime (op : Nat) (key : List Char) (time : Int) (ok : Bool)
    (s : State) : Except Fault State :=
  let (rv, store) := Backend.WriteResponseTime s.store key time ok
  WriteResponseTimeComplete op rv { s with store := store }

/-- Completion of `Entry::WriteData` on the data stream. -/
def completeWriteData (next : List Char → State → Except Fault State) (op : Nat)
    (key : List Char) (data : List Nat) (ok : Bool) (s : State) : Except Fault State :=
  let (rv, store) := Backend.WriteData s.store key data ok
  WriteDataComplete next op rv { s with store := store }

/-- The function `GeneratedCodeCache::OpenCompleteForWrite`. -/
def OpenCompleteForWrite (next : List Char → State → Except Fault State) (op : Nat)
    (entry_result : EntryResult) (s : State) : Except Fault State := do
  let o ← deref s op
  if entry_result.net_error ≠ net_OK then
    CloseOperationAndIssueNext next o s
  else
    match o.time_buffer_ with
    | none => .error .null_buffer
    | some time =>
      let s ←
        (match nextDecision op s with
        | (.pending, s) => pure (defer (.WriteResponseTime op o.key_ time) s)
        | (.done ok, s) => completeWriteResponseTime op o.key_ time ok s)
      let o ← deref s op
      match o.data_buffer_ with
      | none => .error .null_buffer
      | some data =>
        match nextDecision op s with
        | (.pending, s) => pure (defer (.WriteData op o.key_ data) s)
        | (.done ok, s) => completeWriteData next op o.key_ data ok s

/-- Completion of `Backend::OpenOrCreateEntry`. -/
def completeOpenOrCreateEntry (next : List Char → State → Except Fault State) (op : Nat)
    (key : List Char) (ok : Bool) (s : State) : Except Fault State :=
  let (result, store) := Backend.OpenOrCreateEntry s.store key ok
  OpenCompleteForWrite next op result { s with store := store }

/-- The function `GeneratedCodeCache::WriteEntryImpl`. -/
def WriteEntryImpl (next : List Char → State → Except Fault State) (op : PendingOperation)
    (s : State) : Except Fault State :=
  if s.backend_state_ ≠ .kInitialized then
    CloseOperationAndIssueNext next op s
  else if !s.backend_ then .error .null_backend
  else
    match nextDecision op.id s with
    | (.pending, s) => pure (defer (.OpenOrCreateEntry op.id op.key_) s)
    | (.done ok, s) => completeOpenOrCreateEntry next op.id op.key_ ok s

/-- The function `GeneratedCodeCache::ReadResponseTimeComplete`. -/
def ReadResponseTimeComplete (op : Nat) (rv : Int) (s : State) : Except Fault State :=
  if rv ≠ kResponseTimeSizeInBytes then do
    let _ ← deref s op
    pure (modifyOp op (fun o => { o with time_buffer_ := none }) s)
  else pure s

/-- The function `GeneratedCodeCache::ReadDataComplete`. -/
def ReadDataComplete (next : List Char → State → Except Fault State) (op : Nat) (rv : Int)
    (s : State) : Except Fault State := do
  let o ← deref s op
  match o.data_buffer_ with
  | none => .error .null_buffer
  | some data =>
    let s ←
      (match o.time_buffer_ with
      | none => runReadCallback op 0 [] s >>= DoomEntry o
      | some raw_response_time =>
        if rv ≠ (data.length : Int) then runReadCallback op 0 [] s >>= DoomEntry o
        else runReadCallback op raw_response_time data s)
    CloseOperationAndIssueNext next o s

/-- Completion of `Entry::ReadData` on the response time stream: the disk cache
fills the buffer the operation holds, then runs the callback. -/
def completeReadResponseTime (op : Nat) (key : List Char) (ok : Bool) (s : State) :
    Except Fault State :=
  match Backend.ReadResponseTime s.store key ok with
  | (rv, some time) =>
    ReadResponseTimeComplete op rv
      (modifyOp op (fun o => { o with time_buffer_ := o.time_buffer_.map (fun _ => time) }) s)
  | (rv, none) => ReadResponseTimeComplete op rv s

/-- Completion of `Entry::ReadData` on the data stream: the disk cache fills the
front of the buffer the operation holds, then runs the callback. -/
def completeReadData (next : List Char → State → Except Fault State) (op : Nat)
    (key : List Char) (len : Nat) (ok : Bool) (s : State) : Except Fault State :=
  let (rv, bytes) := Backend.ReadData s.store key len ok
  ReadDataComplete next op rv
    (modifyOp op (fun o => { o with
      data_buffer_ := o.data_buffer_.map (fun buffer => bytes ++ buffer.drop bytes.length) }) s)

/-- The function `GeneratedCodeCache::OpenCompleteForRead`. -/
def OpenCompleteForRead (next : List Char → State → Except Fault State) (op : Nat)
    (entry_result : EntryResult) (s : State) : Except Fault State := do
  let o ← deref s op
  if entry_result.net_error ≠ net_OK then do
    let s ← runReadCallback op 0 [] s
    CloseOperationAndIssueNext next o s
  else
    let data_size := Backend.GetDataSize s.store o.key_
    let s := modifyOp op (fun o => { o with
      time_buffer_ := some 0, data_buffer_ := some (List.replicate data_size 0) }) s
    let s ←
      (match nextDecision op s with
      | (.pending, s) => pure (defer (.ReadResponseTime op o.key_) s)
      | (.done ok, s) => completeReadResponseTime op o.key_ ok s)
    match nextDecision op s with
    | (.pending, s) => pure (defer (.ReadData op o.key_ data_size) s)
    | (.done ok, s) => completeReadData next op o.key_ data_size ok s

/-- Completion of `Backend::OpenEntry`. -/
def completeOpenEntry (next : List Char → State → Except Fault State) (op : Nat)
    (key : List Char) (ok : Bool) (s : State) : Except Fault State :=
  OpenCompleteForRead next op (Backend.OpenEntry s.store key ok) s

/-- The function `GeneratedCodeCache::FetchEntryImpl`. -/
def FetchEntryImpl (next : List Char → State → Except Fault State) (op : PendingOperation)
    (s : State) : Except Fault State :=
  if s.backend_state_ ≠ .kInitialized then do
    let s ← runReadCallback op.id 0 [] s
    CloseOperationAndIssueNext next op s
  else if !s.backend_ then .error .null_backend
  else
    match nextDecision op.id s with
    | (.pending, s) => pure (defer (.OpenEntry op.id op.key_) s)
    | (.done ok, s) => completeOpenEntry next op.id op.key_ ok s

/-- The function `GeneratedCodeCache::DeleteEntryImpl`. -/
def DeleteEntryImpl (next : List Char → State → Except Fault State) (op : PendingOperation)
    (s : State) : Except Fault State := do
  let s ← DoomEntry op s
  CloseOperationAndIssueNext next op s

/-- The function `GeneratedCodeCache::DoPendingGetBackend`. -/
def DoPendingGetBackend (op : PendingOperation) (s : State) : Except Fault State :=
  match op.backend_callback_ with
  | none => .error .null_callback
  | some cb =>
    if s.backend_state_ = .kInitialized then pure (observe (.backend_callback cb s.backend_) s)
    else pure (observe (.backend_callback cb false) s)

/-- The function `GeneratedCodeCache::IssueOperation`. -/
def IssueOperation (next : List Char → State → Except Fault State) (op : PendingOperation)
    (s : State) : Except Fault State :=
  match op.op_ with
  | .kFetch => FetchEntryImpl next op s
  | .kWrite => WriteEntryImpl next op s
  | .kDelete => DeleteEntryImpl next op s
  | .kGetBackend => DoPendingGetBackend op s

/-- The function `GeneratedCodeCache::IssueNextOperation`.  It is reached again
from every completion that closes an operation; `fuel` bounds that recursion. -/
def IssueNextOperation : Nat → List Char → State → Except Fault State
  | 0, _, _ => .error .out_of_fuel
  | fuel + 1, key, s =>
    match s.active_entries_map_.lookup key with
    | none => .ok s
    | some [] => .error .empty_queue
    | some (front :: _) =>
      IssueOperation (IssueNextOperation fuel) front (observe (.issued front.id key) s)

/-- The function `GeneratedCodeCache::EnqueueOperationAndIssueIfNext`. -/
def EnqueueOperationAndIssueIfNext (fuel : Nat) (op : PendingOperation) (s : State) :
    Except Fault State :=
  match s.active_entries_map_.lookup op.key_ with
  | none =>
    IssueNextOperation fuel op.key_ (observe (.enqueued op.id op.key_)
      { s with active_entries_map_ := s.active_entries_map_ ++ [(op.key_, [op])] })
  | some queue =>
    .ok (observe (.enqueued op.id op.key_)
      { s with active_entries_map_ := setQueue s.active_entries_map_ op.key_ (queue ++ [op]) })

/-- The loop of `GeneratedCodeCache::IssuePendingOperations`; `bound` limits the
number of iterations. -/
def IssuePendingOperationsLoop (fuel : Nat) : Nat → State → Except Fault State
  | 0, s => if s.pending_ops_.isEmpty then .ok s else .error .out_of_fuel
  | bound + 1, s =>
    match s.pending_ops_ with
    | [] => .ok s
    | op :: rest => do
      let s := { s with pending_ops_ := rest }
      let s ←
        (if op.op_ ≠ .kGetBackend then EnqueueOperationAndIssueIfNext fuel op s
        else IssueOperation (IssueNextOperation fuel) op s)
      IssuePendingOperationsLoop fuel bound s

/-- The function `GeneratedCodeCache::IssuePendingOperations`. -/
def IssuePendingOperations (fuel : Nat) (s : State) : Except Fault State :=
  IssuePendingOperationsLoop fuel s.pending_ops_.length s

/-- The function `GeneratedCodeCache::DidCreateBackend`. -/
def DidCreateBackend (fuel : Nat) (rv : Int) (s : State) : Except Fault State :=
  if rv ≠ net_OK then IssuePendingOperations fuel { s with backend_state_ := .kFailed }
  else IssuePendingOperations fuel { s with backend_ := true, backend_state_ := .kInitialized }

/-- The function `GeneratedCodeCache::GetBackend`. -/
def GetBackend (callback : Nat) (s : State) : Except Fault State :=
  match s.backend_state_ with
  | .kFailed => pure (observe (.backend_callback callback false) s)
  | .kInitialized => pure (observe (.backend_callback callback s.backend_) s)
  | .kInitializing =>
    pure { s with
      pending_ops_ := s.pending_ops_ ++ [⟨s.next_id, .kGetBackend, [], none, none, none, some callback⟩],
      next_id := s.next_id + 1 }

/-- The function `GeneratedCodeCache::WriteEntry`.  A `base::Time` is the
`int64_t` count of microseconds since the Windows epoch it wraps, so that
`ToDeltaSinceWindowsEpoch().InMicroseconds()` is the identity. -/
def WriteEntry (fuel : Nat) (url origin_lock : GURL) (response_time : Int) (data : List Nat)
    (s : State) : Except Fault State :=
  if s.backend_state_ = .kFailed then pure s
  else
    let key := GetCacheKey url origin_lock
    let op : PendingOperation := ⟨s.next_id, .kWrite, key, some response_time, some data, none, none⟩
    let s := { s with next_id := s.next_id + 1 }
    if s.backend_state_ ≠ .kInitialized then pure { s with pending_ops_ := s.pending_ops_ ++ [op] }
    else EnqueueOperationAndIssueIfNext fuel op s

/-- The function `GeneratedCodeCache::FetchEntry`.  The null `base::Time()` is 0
and the empty `mojo_base::BigBuffer()` is the empty list. -/
def FetchEntry (fuel : Nat) (url origin_lock : GURL) (read_data_callback : Nat) (s : State) :
    Except Fault State :=
  if s.backend_state_ = .kFailed then pure (observe (.read_callback read_data_callback 0 []) s)
  else
    let key := GetCacheKey url origin_lock
    let op : PendingOperation := ⟨s.next_id, .kFetch, key, none, none, some read_data_callback, none⟩
    let s := { s with next_id := s.next_id + 1 }
    if s.backend_state_ ≠ .kInitialized then pure { s with pending_ops_ := s.pending_ops_ ++ [op] }
    else EnqueueOperationAndIssueIfNext fuel op s

/-- The function `GeneratedCodeCache::DeleteEntry`. -/
def DeleteEntry (fuel : Nat) (url origin_lock : GURL) (s : State) : Except Fault State :=
  if s.backend_state_ = .kFailed then pure s
  else
    let key := GetCacheKey url origin_lock
    let op : PendingOperation := ⟨s.next_id, .kDelete, key, none, none, none, none⟩
    let s := { s with next_id := s.next_id + 1 }
    if s.backend_state_ ≠ .kInitialized then pure { s with pending_ops_ := s.pending_ops_ ++ [op] }
    else EnqueueOperationAndIssueIfNext fuel op s

/-- Runs the completion callback bound into a request, with the disk cache
reporting success or failure. -/
def Complete (next : List Char → State → Except Fault State) (r : Request) (ok : Bool)
    (s : State) : Except Fault State :=
  match r with
  | .OpenOrCreateEntry op key => completeOpenOrCreateEntry next op key ok s
  | .WriteResponseTime op key time => completeWriteResponseTime op key time ok s
  | .WriteData op key data => completeWriteData next op key data ok s
  | .OpenEntry op key => completeOpenEntry next op key ok s
  | .ReadResponseTime op key => completeReadResponseTime op key ok s
  | .ReadData op key len => completeReadData next op key len ok s

/-- What can happen to the cache: a call of its interface, the end of
`disk_cache::CreateCacheBackend`, or the completion of the request at
position `i` of the requests in flight. -/
inductive Event where
  | WriteEntry (url origin_lock : GURL) (response_time : Int) (data : List Nat)
  | FetchEntry (url origin_lock : GURL) (read_data_callback : Nat)
  | DeleteEntry (url origin_lock : GURL)
  | GetBackend (callback : Nat)
  | DidCreateBackend (rv : Int)
  | Complete (i : Nat) (ok : Bool)
deriving DecidableEq, Repr

/-- One event, run to its end.  `script` holds the disk cache's answers to the
requests made while the event is handled.  `DidCreateBackend` happens once.  The
disk cache completes the requests of one operation in the order they were made,
which is what `VerifyCompletions` asserts. -/
def step (fuel : Nat) (script : List Decision) (e : Event) (s : State) : Except Fault State :=
  let s := { s with script := script }
  match e with
  | .WriteEntry url origin_lock response_time data =>
    WriteEntry fuel url origin_lock response_time data s
  | .FetchEntry url origin_lock read_data_callback =>
    FetchEntry fuel url origin_lock read_data_callback s
  | .DeleteEntry url origin_lock => DeleteEntry fuel url origin_lock s
  | .GetBackend callback => GetBackend callback s
  | .DidCreateBackend rv =>
    if s.backend_state_ = .kInitializing then DidCreateBackend fuel rv s
    else .error .backend_already_created
  | .Complete i ok =>
    match s.in_flight.get? i with
    | none => .error .not_in_flight
    | some r =>
      if (s.in_flight.take i).any (fun r' => r'.op == r.op) then .error .completion_out_of_order
      else Complete (IssueNextOperation fuel) r ok { s with in_flight := s.in_flight.eraseIdx i }

/-- The states the cache can be in: those reached from a fresh cache by events
that do not fault. -/
inductive Reachable : State → Prop where
  | initial (store : List (List Char × Entry)) : Reachable (initial store)
  | step {s s' : State} (fuel : Nat) (script : List Decision) (e : Event) :
      Reachable s → step fuel script e s = .ok s' → Reachable s'

/-! ### Reading the observation log -/

/-- The operations put into the queue of `key`, oldest first. -/
def enqueuedOn (log : List Obs) (key : List Char) : List Nat :=
  log.filterMap (fun o =>
    match o with
    | .enqueued op k => if k = key then some op else none
    | _ => none)

/-- The operations of `key` handed to `IssueOperation`, oldest first. -/
def issuedOn (log : List Obs) (key : List Char) : List Nat :=
  log.filterMap (fun o =>
    match o with
    | .issued op k => if k = key then some op else none
    | _ => none)

/-- The operations of `key` closed by `CloseOperationAndIssueNext`, oldest
first. -/
def closedOn (log : List Obs) (key : List Char) : List Nat :=
  log.filterMap (fun o =>
    match o with
    | .closed op k => if k = key then some op else none
    | _ => none)

/-- One step of the check that the operations of `key` take turns.  The state is
the operation that is issued and not closed, if any; the check fails, with
`none`, when an operation is issued while another one is open, or when an
operation is closed that is not the open one. -/
def serialStep (key : List Char) (current : Option (Option Nat)) (o : Obs) :
    Option (Option Nat) :=
  match current with
  | none => none
  | some cur =>
    match o with
    | .issued op k =>
      if k = key then (if cur = none then some (some op) else none) else some cur
    | .closed op k =>
      if k = key then (if cur = some op then some none else none) else some cur
    | _ => some cur

/-- Runs the check over a whole log: `some cur` when the operations of `key` took
turns all along, `cur` being the operation that is issued and not closed at
the end. -/
def openOperation (log : List Obs) (key : List Char) : Option (Option Nat) :=
  log.foldl (serialStep key) (some none)

/-- The queue `active_entries_map_` holds for `key`, empty when it holds none. -/
def queueOf (s : State) (key : List Char) : List PendingOperation :=
  (s.active_entries_map_.lookup key).getD []

/-- The identity of the operation at the front of the queue of `key`. -/
def frontOf (s : State) (key : List Char) : Option Nat :=
  (queueOf s key).head?.map (fun o => o.id)

/-- What holds of the cache between two events (`hole = none`) and, with
`hole = some key`, at the point where the front of the queue of `key` has not
been issued yet: keys and identities are unique, every queue is non-empty and
holds operations of its key, the log agrees with the queues, and every request
in flight belongs to an operation that was issued. -/
def Inv (hole : Option (List Char)) (s : State) : Prop :=
  (s.active_entries_map_.map (fun p => p.1)).Nodup ∧
  (∀ p ∈ s.active_entries_map_, p.2 ≠ [] ∧ ∀ o ∈ p.2, o.key_ = p.1) ∧
  (∀ k, enqueuedOn s.log k = closedOn s.log k ++ (queueOf s k).map (fun o => o.id)) ∧
  (∀ k, openOperation s.log k = some (if hole = some k then none else frontOf s k)) ∧
  (∀ k, (enqueuedOn s.log k).Nodup) ∧
  (∀ k k' id, id ∈ enqueuedOn s.log k → id ∈ enqueuedOn s.log k' → k = k') ∧
  (∀ k, ∀ id ∈ enqueuedOn s.log k, id < s.next_id) ∧
  (∀ o ∈ s.pending_ops_, o.id < s.next_id ∧ ∀ k, o.id ∉ enqueuedOn s.log k) ∧
  (s.pending_ops_.map (fun o => o.id)).Nodup ∧
  (∀ r ∈ s.in_flight, ∃ k, r.op ∈ issuedOn s.log k)

/-- The continuation handed to the completion handlers re-establishes the
invariant once the front of a queue has been taken off. -/
def NextOK (next : List Char → State → Except Fault State) : Prop :=
  ∀ k s s', Inv (some k) s → next k s = .ok s' → Inv none s'

/-- The operation with identity `op` is in the queue of `key`. -/
def Owned (s : State) (op : Nat) (key : List Char) : Prop :=
  ∃ o ∈ queueOf s key, o.id = op

/-- The operation with identity `op` was handed to `IssueOperation`. -/
def Issued (s : State) (op : Nat) : Prop :=
  ∃ k, op ∈ issuedOn s.log k

/-- Going from `s` to `s'` no operation left its queue and none was forgotten
to be issued. -/
def Keep (s s' : State) : Prop :=
  (∀ op key, Owned s op key → Owned s' op key) ∧ (∀ op, Issued s op → Issued s' op)

/-- Runs a list of events, each with its fuel and the disk cache's answers. -/
def runEvents : List (Nat × List Decision × Event) → State → Except Fault State
  | [], s => .ok s
  | (fuel, script, e) :: rest, s =>
    match step fuel script e s with
    | .ok s' => runEvents rest s'
    | .error f => .error f

/-- A resource URL for examples. -/
def exampleUrl : GURL := ⟨true, "http://a/s.js".toList⟩

/-- An origin lock for examples. -/
def exampleLock : GURL := ⟨true, "http://b/".toList⟩

/-- The state of an initialised cache after `WriteEntry` and `FetchEntry` for the
same key, the disk cache not having answered yet. -/
def exampleBusy : State :=
  { backend_state_ := .kInitialized, backend_ := true, pending_ops_ := [],
    active_entries_map_ := [(GetCacheKey exampleUrl exampleLock,
      [⟨0, .kWrite, GetCacheKey exampleUrl exampleLock, some 7, some [1, 2], none, none⟩,
       ⟨1, .kFetch, GetCacheKey exampleUrl exampleLock, none, none, some 9, none⟩])],
    next_id := 2, store := [],
    in_flight := [.OpenOrCreateEntry 0 (GetCacheKey exampleUrl exampleLock)],
    script := [],
    log := [.enqueued 0 (GetCacheKey exampleUrl exampleLock),
      .issued 0 (GetCacheKey exampleUrl exampleLock),
      .enqueued 1 (GetCacheKey exampleUrl exampleLock)] }

/-! ### One write followed by one fetch -/

/-- The read callbacks run for `cb`, oldest first, with their arguments. -/
def readCallbacks (cb : Nat) (log : List Obs) : List (Int × List Nat) :=
  log.filterMap (fun o =>
    match o with
    | .read_callback c response_time data => if c = cb then some (response_time, data) else none
    | _ => none)

/-- The disk cache answers every request of a script with success. -/
def scriptOK (script : List Decision) : Prop := ∀ x ∈ script, x ≠ .done false

/-- The disk cache completes requests with success: each item gives the fuel and
the script of the event (the fuel is raised by the two steps a close needs) and
the position of the completed request among those in flight. -/
def completions (xs : List (Nat × List Decision × Nat)) : List (Nat × List Decision × Event) :=
  xs.map (fun x => (x.1 + 2, x.2.1, .Complete x.2.2 true))

/-- The events of `WriteEntry` followed by `FetchEntry` for the same resource, with
the completions the disk cache makes between the two calls and after them. -/
def roundTrip (url origin_lock : GURL) (response_time : Int) (data : List Nat) (cb : Nat)
    (w f : Nat × List Decision) (before after : List (Nat × List Decision × Nat)) :
    List (Nat × List Decision × Event) :=
  (w.1 + 2, w.2, .WriteEntry url origin_lock response_time data) ::
    (completions before ++
      (f.1 + 2, f.2, .FetchEntry url origin_lock cb) :: completions after)

/-- A cache whose backend could not be created, with nothing queued. -/
def failedState : State :=
  { backend_state_ := .kFailed, backend_ := false, pending_ops_ := [],
    active_entries_map_ := [], next_id := 0, store := [], in_flight := [],
    script := [], log := [] }

/-! ### Requests and the operations they belong to -/

/-- The requests in flight that were made for operation `op`, oldest first. -/
def reqsOf (op : Nat) (l : List Request) : List Request := l.filter (fun r => r.op == op)

/-- An upper bound on the number of requests a request in flight can still lead
to: opening an entry is followed by two reads or writes. -/
def weight : Request → Nat
  | .OpenOrCreateEntry _ _ => 3
  | .OpenEntry _ _ => 3
  | _ => 1

/-- The number of operations in the queues of `active_entries_map_`. -/
def queued (s : State) : Nat := (s.active_entries_map_.map (fun p => p.2.length)).sum

/-- A measure of the work the cache has still to do: ten for every queued
operation plus the weights of the requests in flight.  Every completion makes it
smaller. -/
def load (s : State) : Nat := 10 * queued s + (s.in_flight.map weight).sum

/-- An operation at the front of its queue, between two events: it is a write or
a fetch that waits for the disk cache, with the requests `rs` in flight, and it
holds the buffers and the callback its completion handlers use. -/
def FrontOK (o : PendingOperation) (rs : List Request) : Prop :=
  match o.op_ with
  | .kWrite =>
    o.data_buffer_ ≠ none ∧
      ((rs = [.OpenOrCreateEntry o.id o.key_] ∧ o.time_buffer_ ≠ none) ∨
        (∃ time data, rs = [.WriteResponseTime o.id o.key_ time, .WriteData o.id o.key_ data]) ∨
        (∃ data, rs = [.WriteData o.id o.key_ data]))
  | .kFetch =>
    o.read_callback_ ≠ none ∧
      (rs = [.OpenEntry o.id o.key_] ∨
        (o.data_buffer_ ≠ none ∧
          ((∃ len, rs = [.ReadResponseTime o.id o.key_, .ReadData o.id o.key_ len]) ∨
            (∃ len, rs = [.ReadData o.id o.key_ len]))))
  | _ => False

/-- An operation that has not been issued yet holds what it was made with. -/
def WaitOK (o : PendingOperation) : Prop :=
  match o.op_ with
  | .kWrite => o.time_buffer_ ≠ none ∧ o.data_buffer_ ≠ none
  | .kFetch => o.read_callback_ ≠ none
  | .kDelete => True
  | .kGetBackend => False

/-- An operation of `pending_ops_` holds what it was made with. -/
def PendOK (o : PendingOperation) : Prop := o.op_ = .kGetBackend ∨ WaitOK o

/-- What holds of an initialised cache, besides `Inv`: the backend is there, the
front of every queue is a write or a fetch with requests in flight, the
operations behind it have not been touched, and every request in flight belongs
to the front of the queue of its key.  The operation `ex`, if any, is the one
being handled: nothing is said of its requests and of what it holds. -/
def GI (ex : Option Nat) (s : State) : Prop :=
  s.backend_state_ = .kInitialized ∧ s.backend_ = true ∧
  (∀ K q, s.active_entries_map_.lookup K = some q →
    ∃ front rest, q = front :: rest ∧
      (some front.id ≠ ex → FrontOK front (reqsOf front.id s.in_flight)) ∧
      ∀ o ∈ rest, WaitOK o) ∧
  (∀ r ∈ s.in_flight, some r.op ≠ ex →
    ∃ front rest, s.active_entries_map_.lookup r.key = some (front :: rest) ∧ front.id = r.op) ∧
  (∀ o ∈ s.pending_ops_, PendOK o)

/-- What holds of a cache whose backend is not there (yet): nothing is queued and
nothing is in flight. -/
def GN (s : State) : Prop :=
  s.backend_state_ ≠ .kInitialized ∧ s.active_entries_map_ = [] ∧ s.in_flight = [] ∧
    ∀ o ∈ s.pending_ops_, PendOK o

/-- The invariant `GI` at the point where the front of the queue of `key` has been
taken off and the next operation, if any, has not been issued yet. -/
def GHole (key : List Char) (s : State) : Prop :=
  match s.active_entries_map_.lookup key with
  | none => GI none s
  | some [] => False
  | some (front :: _) => GI (some front.id) s ∧ WaitOK front ∧ reqsOf front.id s.in_flight = []

/-- The operation `o`, at the front of the queue of its key with `rest` behind it,
is being handled: it was issued, and the invariants hold of all the others. -/
def Busy (s : State) (o : PendingOperation) (rest : List PendingOperation) : Prop :=
  Inv none s ∧ GI (some o.id) s ∧ Issued s o.id ∧
    s.active_entries_map_.lookup o.key_ = some (o :: rest)

/-- The operation `o'` is `o` up to its time buffer. -/
def SameBut (o o' : PendingOperation) : Prop :=
  o'.id = o.id ∧ o'.key_ = o.key_ ∧ o'.op_ = o.op_ ∧ o'.data_buffer_ = o.data_buffer_ ∧
    o'.read_callback_ = o.read_callback_

/-- The state after `DequeueOperation` took the front off the queue of `key`,
leaving `rest`. -/
def dequeue (key : List Char) (rest : List PendingOperation) (s : State) : State :=
  { s with active_entries_map_ :=
      (if rest.isEmpty then eraseQueue s.active_entries_map_ key
      else setQueue s.active_entries_map_ key rest) }

/-- The result of a handler: a state with the property `Q`, or a fault that `E`
allows. -/
def Res {α : Type} (E : Fault → Prop) (Q : α → Prop) : Except Fault α → Prop
  | .ok a => Q a
  | .error e => E e

/-- The continuation handed to a handler, `IssueNextOperation` with some fuel:
it re-establishes the invariants and adds at most one request that opens an
entry.  It runs out of fuel only if `E` allows that, or the queue has `n`
operations or more. -/
def NextR (E : Fault → Prop) (n : Nat) (next : List Char → State → Except Fault State) : Prop :=
  ∀ K s, Inv (some K) s → GHole K s → ((queueOf s K).length < n ∨ E .out_of_fuel) →
    Res E (fun s' => Inv none s' ∧ GI none s' ∧ load s' ≤ load s + 3) (next K s)

/-! ### One write followed by one fetch, on a cache that is busy -/

/-- A `WriteEntry` followed by a `FetchEntry` for the same key: the key, the
identity of the write operation (the fetch operation is made next), what is
written, the callback of the fetch, the runs of a callback of that name seen
before, and whether the name is fresh: no operation queued at the time of the
write holds a callback of that name. -/
structure Trip where
  key : List Char
  write_id : Nat
  response_time : Int
  data : List Nat
  callback : Nat
  seen : List (Int × List Nat)
  fresh : Prop

/-- The write operation of a trip. -/
def Trip.writeOp (c : Trip) : PendingOperation :=
  ⟨c.write_id, .kWrite, c.key, some c.response_time, some c.data, none, none⟩

/-- The fetch operation of a trip, with the buffers and the callback it holds. -/
def Trip.fetchOp (c : Trip) (time_buffer : Option Int) (data_buffer : Option (List Nat))
    (read_callback : Option Nat) : PendingOperation :=
  ⟨c.write_id + 1, .kFetch, c.key, time_buffer, data_buffer, read_callback, none⟩

/-- What is queued behind the write operation of a trip: the fetch operation,
once `FetchEntry` has been called. -/
def Trip.behind (c : Trip) (fetch : Bool) : List PendingOperation :=
  if fetch then [c.fetchOp none none (some c.callback)] else []

/-- How far the two operations of a trip have come.  For the write, `fetch`
telling whether `FetchEntry` has been called: it waits behind other operations
of its key (`wait`); it is at the front of its queue and makes its requests
(`wfront`: none made yet, `wrt`: the write of the response time is in flight,
`wtimed`: the response time is written, `wstored`: the data are written too,
`wdata0`: the write of the response time has just completed); it waits for the
disk cache (`wopen`, `wboth`, `wdata`).  Then the write is closed:
`written` before `FetchEntry` is called, and for the fetch `ffront`, `fopened`,
`frrt`, `fdata0`, `ftimed`, `fread` and `fcalled` while it makes its requests and
runs its callback, `fopen`, `fboth` and `fdata` while it waits for the disk cache, and
`done` once it is closed. -/
inductive Stage where
  | wait (fetch : Bool)
  | wfront (fetch : Bool)
  | wopen (fetch : Bool)
  | wrt (fetch : Bool)
  | wboth (fetch : Bool)
  | wtimed (fetch : Bool)
  | wdata0 (fetch : Bool)
  | wdata (fetch : Bool)
  | wstored (fetch : Bool)
  | written
  | ffront
  | fopen
  | fopened
  | frrt
  | fboth
  | ftimed
  | fdata0
  | fdata
  | fread
  | fcalled
  | done
deriving DecidableEq, Repr

/-- Whether `FetchEntry` has been called. -/
def Stage.fetch : Stage → Bool
  | .wait b | .wfront b | .wopen b | .wrt b | .wboth b | .wtimed b | .wdata0 b | .wdata b
  | .wstored b => b
  | .written => false
  | _ => true

/-- The stages the cache can be in between two events. -/
def Stage.stable : Stage → Bool
  | .wait _ | .wopen _ | .wboth _ | .wdata _ | .written | .fopen | .fboth | .fdata | .done => true
  | _ => false

/-- The stages in which the front of the queue of the key may be issued. -/
def Stage.holeOK : Stage → Bool
  | .wait _ | .wfront _ | .written | .ffront | .done => true
  | _ => false

/-- The requests of the write operation that are in flight. -/
def Stage.wreqs (c : Trip) : Stage → List Request
  | .wopen _ => [.OpenOrCreateEntry c.write_id c.key]
  | .wrt _ => [.WriteResponseTime c.write_id c.key c.response_time]
  | .wboth _ =>
    [.WriteResponseTime c.write_id c.key c.response_time, .WriteData c.write_id c.key c.data]
  | .wdata0 _ | .wdata _ => [.WriteData c.write_id c.key c.data]
  | _ => []

/-- The requests of the fetch operation that are in flight. -/
def Stage.freqs (c : Trip) : Stage → List Request
  | .fopen => [.OpenEntry (c.write_id + 1) c.key]
  | .frrt => [.ReadResponseTime (c.write_id + 1) c.key]
  | .fboth =>
    [.ReadResponseTime (c.write_id + 1) c.key, .ReadData (c.write_id + 1) c.key c.data.length]
  | .fdata0 | .fdata => [.ReadData (c.write_id + 1) c.key c.data.length]
  | _ => []

/-- What is known of the entry of the key: nothing (0), that it holds the response
time (1), that it holds the response time and the data (2). -/
def Stage.level : Stage → Nat
  | .wtimed _ | .wdata _ => 1
  | .wstored _ | .written | .ffront | .fopen | .fopened | .frrt | .fboth | .ftimed | .fdata0
  | .fdata | .fread => 2
  | _ => 0

/-- What is known of the log: the fetch is not closed (0) and its callback was
just run (1), or the fetch is closed (2). -/
def Stage.logKind : Stage → Nat
  | .fcalled => 1
  | .done => 2
  | _ => 0

/-- The queue of the key of a trip, as `active_entries_map_` has it. -/
def Stage.queue (c : Trip) : Stage → Option (List PendingOperation) → Prop
  | .wait b, q =>
    ∃ ahead, ahead ≠ [] ∧ (∀ o ∈ ahead, o.id < c.write_id) ∧
      q = some (ahead ++ c.writeOp :: c.behind b)
  | .wfront b, q | .wopen b, q | .wrt b, q | .wboth b, q | .wtimed b, q | .wdata0 b, q
  | .wdata b, q | .wstored b, q => q = some (c.writeOp :: c.behind b)
  | .written, q | .done, q => q = none
  | .ffront, q | .fopen, q => q = some [c.fetchOp none none (some c.callback)]
  | .fopened, q | .frrt, q | .fboth, q | .fdata0, q =>
    q = some [c.fetchOp (some 0) (some (List.replicate c.data.length 0)) (some c.callback)]
  | .ftimed, q | .fdata, q =>
    q = some [c.fetchOp (some c.response_time) (some (List.replicate c.data.length 0))
      (some c.callback)]
  | .fread, q => q = some [c.fetchOp (some c.response_time) (some c.data) (some c.callback)]
  | .fcalled, q => q = some [c.fetchOp (some c.response_time) (some c.data) none]

/-- What the disk cache holds under the key of a trip. -/
def StoreIs (c : Trip) (level : Nat) (store : List (List Char × Entry)) : Prop :=
  (1 ≤ level → (Backend.get store c.key).response_time = some c.response_time) ∧
  (2 ≤ level → Backend.get store c.key = ⟨some c.response_time, c.data⟩ ∧
    (store.lookup c.key).isSome = true)

/-- What the log says of the fetch of a trip. -/
def LogIs (c : Trip) (kind : Nat) (log : List Obs) : Prop :=
  (kind ≤ 1 → Obs.closed (c.write_id + 1) c.key ∉ log) ∧
  (kind = 1 → ∃ pre, log = pre ++ [.read_callback c.callback c.response_time c.data]) ∧
  (kind = 2 → ∃ pre post, log =
    pre ++ [.read_callback c.callback c.response_time c.data, .closed (c.write_id + 1) c.key] ++
      post)

/-- The keys of `active_entries_map_` are distinct, and every queue is non-empty
and holds operations of its key. -/
def MapOK (s : State) : Prop :=
  (s.active_entries_map_.map (fun p => p.1)).Nodup ∧
    ∀ p ∈ s.active_entries_map_, p.2 ≠ [] ∧ ∀ o ∈ p.2, o.key_ = p.1

/-- The cache is in a given stage of a trip: initialised, with a disk cache that
answers with success; the operations of other keys are older than the write; the
queue of the key, the requests of the two operations, the entry and the log are
as the stage says; and if the name of the callback is fresh, no other operation
holds a callback of that name and the callback was run only as the stage
says. -/
def Trk (c : Trip) (st : Stage) (s : State) : Prop :=
  s.backend_state_ = .kInitialized ∧ s.backend_ = true ∧ scriptOK s.script ∧ MapOK s ∧
  (∀ K q, K ≠ c.key → s.active_entries_map_.lookup K = some q → ∀ o ∈ q, o.id < c.write_id) ∧
  st.queue c (s.active_entries_map_.lookup c.key) ∧
  reqsOf c.write_id s.in_flight = st.wreqs c ∧
  reqsOf (c.write_id + 1) s.in_flight = st.freqs c ∧
  StoreIs c st.level s.store ∧
  s.next_id = c.write_id + 1 + (if st.fetch then 1 else 0) ∧
  LogIs c st.logKind s.log ∧
  (c.fresh →
    (∀ K q, s.active_entries_map_.lookup K = some q → ∀ o ∈ q, o.id ≠ c.write_id + 1 →
      o.read_callback_ ≠ some c.callback) ∧
    readCallbacks c.callback s.log =
      c.seen ++ (if st.logKind = 0 then [] else [(c.response_time, c.data)]))

/-- The continuation handed to a handler keeps the cache in a stage of the trip,
when it is called where the front of a queue may be issued. -/
def NextT (c : Trip) (next : List Char → State → Except Fault State) : Prop :=
  ∀ K s s' st, Trk c st s → (K = c.key → st.holeOK = true) → (K ≠ c.key → st.stable = true) →
    next K s = .ok s' → ∃ st', Trk c st' s' ∧ st'.stable = true ∧ st'.fetch = st.fetch

/-- The trip that starts in `s` with a call of `WriteEntry`: the write operation
gets the next identity, and the name of the callback is fresh if no queued
operation holds a callback of that name. -/
def tripAt (s : State) (key : List Char) (response_time : Int) (data : List Nat) (cb : Nat) :
    Trip :=
  { key := key, write_id := s.next_id, response_time := response_time, data := data,
    callback := cb, seen := readCallbacks cb s.log,
    fresh := ∀ K q, s.active_entries_map_.lookup K = some q →
      ∀ o ∈ q, o.read_callback_ ≠ some cb }

/-- The cache is reachable and, between two events, in a stage of the trip `c`,
`fetch` telling whether `FetchEntry` has been called. -/
def OnTrip (c : Trip) (fetch : Bool) (s : State) : Prop :=
  Reachable s ∧ ∃ st : Stage, Trk c st s ∧ st.stable = true ∧ st.fetch = fetch

/-- The disk cache completes the oldest request in flight, `n` times, answering
nothing at once; `fuel` is the fuel of each event. -/
def drain (fuel n : Nat) : List (Nat × List Decision × Event) :=
  List.replicate n (fuel, [], .Complete 0 true)

/-- The faults at which a run of completions can stop: a completion the disk
cache cannot make (of a request that is not in flight, or not the oldest of its
operation), or the end of the fuel, the latter only if `P`. -/
def RunFault (P : Prop) (f : Fault) : Prop :=
  f = .not_in_flight ∨ f = .completion_out_of_order ∨ (f = .out_of_fuel ∧ P)

end GeneratedCodeCache
namespace DomStorage

/-! ### `DomStorageDatabase` (`dom_storage_database.cc`) -/

/-- Modelled from the spec: `leveldb::Status`, which is not part of the sources at
hand, reduced to its code and message. -/
inductive Status where
  | OK
  | NotFound (msg : List Char)
  | Corruption (msg : List Char)
  | IOError (msg : List Char)
deriving DecidableEq, Repr

/-- The call `status.ok()`. -/
def Status.ok : Status → Bool
  | .OK => true
  | _ => false

/-- The constant `kInvalidDatabaseMessage`. -/
def kInvalidDatabaseMessage : List Char := "DomStorageDatabase no longer valid.".toList

/-- The struct `DomStorageDatabase::KeyValuePair`; keys and values are byte
vectors. -/
structure KeyValuePair where
  key : List Nat
  value : List Nat
deriving DecidableEq, Repr

/-- Modelled from the spec: one record of a `leveldb::WriteBatch`. -/
inductive BatchOp where
  | Put (key value : List Nat)
  | Delete (key : List Nat)
deriving DecidableEq, Repr

/-- Modelled from the spec: the order of `leveldb::BytewiseComparator`, the
lexicographic order on bytes in which a proper prefix comes first. -/
def bytewiseLt : List Nat → List Nat → Bool
  | [], [] => false
  | [], _ :: _ => true
  | _ :: _, [] => false
  | a :: as, b :: bs => if a < b then true else if b < a then false else bytewiseLt as bs

/-- The call `key.starts_with(prefix)` of `leveldb::Slice`. -/
def starts_with (key pre : List Nat) : Bool := pre.isPrefixOf key

/-- Modelled from the spec: the contents of a `leveldb::DB`, the entries in
ascending bytewise order of their keys, every key once. -/
abbrev DB := List (List Nat × List Nat)

/-- Modelled from the spec: ascending bytewise order of the keys, every key
once. -/
def DB.ordered : DB → Bool
  | [] => true
  | [_] => true
  | a :: b :: rest => bytewiseLt a.1 b.1 && DB.ordered (b :: rest)

/-- Modelled from the spec: `leveldb::DB::Get`. -/
def DB.Get (db : DB) (key : List Nat) : Status × List Nat :=
  match db.lookup key with
  | some value => (.OK, value)
  | none => (.NotFound [], [])

/-- Modelled from the spec: `leveldb::DB::Put`, keeping the entries in order. -/
def DB.Put : DB → List Nat → List Nat → DB
  | [], key, value => [(key, value)]
  | e :: rest, key, value =>
    if bytewiseLt key e.1 then (key, value) :: e :: rest
    else if e.1 == key then (key, value) :: rest
    else e :: DB.Put rest key value

/-- Modelled from the spec: `leveldb::DB::Delete`. -/
def DB.Delete (db : DB) (key : List Nat) : DB := db.filter (fun e => !(e.1 == key))

/-- Modelled from the spec: `leveldb::DB::Write`, which applies the records of a
batch in order. -/
def DB.Write (db : DB) (batch : List BatchOp) : DB :=
  batch.foldl (fun db op =>
    match op with
    | .Put key value => DB.Put db key value
    | .Delete key => DB.Delete db key) db

/-- Modelled from the spec: `leveldb::Iterator::Seek`, which positions the
iterator at the first entry whose key is at or past `target`; the iterator is
the list of entries from its position on. -/
def Seek (db : DB) (target : List Nat) : List (List Nat × List Nat) :=
  db.dropWhile (fun e => bytewiseLt e.1 target)

/-- The `for` loop of `ForEachWithPrefix` over the entries from the iterator's
position on, threading the state `function` captures by reference. -/
def ForEachLoop {σ : Type} (pre : List Nat) (function : σ → List Nat → List Nat → σ) :
    List (List Nat × List Nat) → σ → σ
  | [], acc => acc
  | e :: rest, acc =>
    if !starts_with e.1 pre then acc
    else ForEachLoop pre function rest (function acc e.1 e.2)

/-- The function template `ForEachWithPrefix`; an iterator over entries held in
memory ends with status OK. -/
def ForEachWithPrefix {σ : Type} (db : DB) (pre : List Nat)
    (function : σ → List Nat → List Nat → σ) (acc : σ) : Status × σ :=
  (.OK, ForEachLoop pre function (Seek db pre) acc)

/-- The members of `DomStorageDatabase` that its methods read or write: `db_`,
`none` when the pointer is null. -/
structure DomStorageDatabase where
  db_ : Option DB
deriving DecidableEq, Repr

/-- The method `DomStorageDatabase::Get`, returning the status and `*out_value`. -/
def DomStorageDatabase.Get (self : DomStorageDatabase) (key : List Nat) (out_value : List Nat) :
    Status × List Nat :=
  match self.db_ with
  | none => (.IOError kInvalidDatabaseMessage, out_value)
  | some db =>
    let (status, value) := db.Get key
    (status, value)

/-- The method `DomStorageDatabase::Put`, returning the status and the database
afterwards. -/
def DomStorageDatabase.Put (self : DomStorageDatabase) (key value : List Nat) :
    Status × DomStorageDatabase :=
  match self.db_ with
  | none => (.IOError kInvalidDatabaseMessage, self)
  | some db => (.OK, ⟨some (db.Put key value)⟩)

/-- The method `DomStorageDatabase::Delete`. -/
def DomStorageDatabase.Delete (self : DomStorageDatabase) (key : List Nat) :
    Status × DomStorageDatabase :=
  match self.db_ with
  | none => (.IOError kInvalidDatabaseMessage, self)
  | some db => (.OK, ⟨some (db.Delete key)⟩)

/-- The method `DomStorageDatabase::GetPrefixed`, returning the status, `*entries`
and the database afterwards. -/
def DomStorageDatabase.GetPrefixed (self : DomStorageDatabase) (pre : List Nat)
    (entries : List KeyValuePair) : Status × List KeyValuePair × DomStorageDatabase :=
  match self.db_ with
  | none => (.IOError kInvalidDatabaseMessage, entries, self)
  | some db =>
    let (status, entries) :=
      ForEachWithPrefix db pre (fun entries key value => entries ++ [⟨key, value⟩]) entries
    (status, entries, self)

/-- The method `DomStorageDatabase::DeletePrefixed`, returning the status, `*batch`
and the database afterwards. -/
def DomStorageDatabase.DeletePrefixed (self : DomStorageDatabase) (pre : List Nat)
    (batch : List BatchOp) : Status × List BatchOp × DomStorageDatabase :=
  match self.db_ with
  | none => (.IOError kInvalidDatabaseMessage, batch, self)
  | some db =>
    let (status, batch) :=
      ForEachWithPrefix db pre (fun batch key _ => batch ++ [.Delete key]) batch
    (status, batch, self)

/-- The call `v.resize(n)` of `std::vector<uint8_t>`. -/
def resize (v : List Nat) (n : Nat) : List Nat := v.take n ++ List.replicate (n - v.length) 0

/-- The call `std::copy(first, last, v.begin() + offset)` with the source range
given as a list. -/
def copyInto (source : List Nat) (v : List Nat) (offset : Nat) : List Nat :=
  v.take offset ++ source ++ v.drop (offset + source.length)

/-- The body of the lambda in `DomStorageDatabase::CopyPrefixed`; its state is
`new_key`, captured by reference, and `*batch`.  The suffix length is a
`size_t` difference. -/
def CopyPrefixedBody (pre new_pre : List Nat) (state : List Nat × List BatchOp)
    (key value : List Nat) : List Nat × List BatchOp :=
  let suffix_length := (key.length + 2 ^ 64 - pre.length) % 2 ^ 64
  let new_key := resize state.1 (new_pre.length + suffix_length)
  let new_key := copyInto (key.drop pre.length) new_key new_pre.length
  (new_key, state.2 ++ [.Put new_key value])

/-- The method `DomStorageDatabase::CopyPrefixed`, returning the status, `*batch`
and the database afterwards. -/
def DomStorageDatabase.CopyPrefixed (self : DomStorageDatabase) (pre new_pre : List Nat)
    (batch : List BatchOp) : Status × List BatchOp × DomStorageDatabase :=
  match self.db_ with
  | none => (.IOError kInvalidDatabaseMessage, batch, self)
  | some db =>
    let new_key := new_pre
    let (status, state) :=
      ForEachWithPrefix db pre (CopyPrefixedBody pre new_pre) (new_key, batch)
    (status, state.2, self)

/-- The method `DomStorageDatabase::Commit`, returning the status, `*batch` and
the database afterwards. -/
def DomStorageDatabase.Commit (self : DomStorageDatabase) (batch : List BatchOp) :
    Status × List BatchOp × DomStorageDatabase :=
  match self.db_ with
  | none => (.IOError kInvalidDatabaseMessage, batch, self)
  | some db => (.OK, batch, ⟨some (db.Write batch)⟩)

/-- The method `DomStorageDatabase::RewriteDB`.  `leveldb_env::RewriteDB` is not
part of the sources at hand; `rewritten` is its status and the database it
leaves in `db_`. -/
def DomStorageDatabase.RewriteDB (self : DomStorageDatabase) (rewritten : DB → Status × Option DB) :
    Status × DomStorageDatabase :=
  match self.db_ with
  | none => (.IOError kInvalidDatabaseMessage, self)
  | some db =>
    let (status, db_) := rewritten db
    if !status.ok then (status, ⟨none⟩) else (status, ⟨db_⟩)

end DomStorage

namespace TestURLLoaderFactory

/-! ### `TestURLLoaderFactory` (`test_url_loader_factory.{h,cc}`) -/

/-- Modelled from the spec: `GURL`, which is not part of the sources at hand; a
URL is its spec, on which its equality and its order are decided. -/
structure GURL where
  spec : List Char
deriving DecidableEq, Repr

/-- Modelled from the spec: `mojom::URLResponseHead`, reduced to the status code
`CreateURLResponseHead` is given and to `mime_type`. -/
structure URLResponseHead where
  http_status : Nat
  mime_type : List Char
deriving DecidableEq, Repr

/-- Modelled from the spec: `URLLoaderCompletionStatus`, reduced to the two
members the factory reads or writes. -/
structure URLLoaderCompletionStatus where
  error_code : Int
  decoded_body_length : Int
deriving DecidableEq, Repr

/-- The constant `net::OK`. -/
def net_OK : Int := 0

/-- The enumerator `kResponseDefault`. -/
def kResponseDefault : Nat := 0

/-- The enumerator `kResponseOnlyRedirectsNoDestination`. -/
def kResponseOnlyRedirectsNoDestination : Nat := 1

/-- The enumerator `kSendHeadersOnNetworkError`. -/
def kSendHeadersOnNetworkError : Nat := 2

/-- The type `Redirects`; a `net::RedirectInfo` is an identity. -/
abbrev Redirects := List (Nat × URLResponseHead)

/-- The struct `Response`. -/
structure Response where
  url : GURL
  redirects : Redirects
  head : URLResponseHead
  content : List Char
  status : URLLoaderCompletionStatus
  flags : Nat
deriving DecidableEq, Repr

/-- The struct `PendingRequest`.  `client` is the identity of the
`mojom::URLLoaderClient` behind the pointer, `request` is reduced to its URL. -/
structure PendingRequest where
  client : Nat
  request_url : GURL
  options : Nat
deriving DecidableEq, Repr

/-- A call the factory makes: on a `mojom::URLLoaderClient`, or of the
interceptor. -/
inductive Call where
  | OnReceiveRedirect (client : Nat) (redirect_info : Nat) (head : URLResponseHead)
  | OnReceiveResponse (client : Nat) (head : URLResponseHead)
  | OnStartLoadingResponseBody (client : Nat) (content : List Char)
  | OnComplete (client : Nat) (status : URLLoaderCompletionStatus)
  | Interceptor (interceptor : Nat) (url : GURL)
deriving DecidableEq, Repr

/-- The members of `TestURLLoaderFactory`, and the calls it has made so far,
oldest first.  `responses_` is a `std::map`, here a list of pairs with every key
once. -/
structure State where
  responses_ : List (GURL × Response)
  pending_requests_ : List PendingRequest
  interceptor_ : Option Nat
  calls : List Call
deriving DecidableEq, Repr

/-- The assignment `responses_[url] = response`. -/
def assign (responses : List (GURL × Response)) (url : GURL) (response : Response) :
    List (GURL × Response) :=
  match responses.lookup url with
  | none => responses ++ [(url, response)]
  | some _ => responses.map (fun p => if p.1 == url then (url, response) else p)

/-- The static function `TestURLLoaderFactory::SimulateResponse`, as the list of
calls it makes on `client`. -/
def SimulateResponse (client : Nat) (redirects : Redirects) (head : URLResponseHead)
    (content : List Char) (status : URLLoaderCompletionStatus) (response_flags : Nat) :
    List Call :=
  let calls := redirects.map (fun redirect => Call.OnReceiveRedirect client redirect.1 redirect.2)
  if response_flags &&& kResponseOnlyRedirectsNoDestination ≠ 0 then calls
  else
    let calls :=
      if response_flags &&& kSendHeadersOnNetworkError ≠ 0 ∨ status.error_code = net_OK then
        calls ++ [.OnReceiveResponse client head]
      else calls
    let calls :=
      if status.error_code = net_OK then calls ++ [.OnStartLoadingResponseBody client content]
      else calls
    calls ++ [.OnComplete client status]

/-- The function `TestURLLoaderFactory::CreateLoaderAndStartInternal`. -/
def CreateLoaderAndStartInternal (url : GURL) (client : Nat) (s : State) : Bool × State :=
  match s.responses_.lookup url with
  | none => (false, s)
  | some it =>
    let redirects := it.redirects.map (fun redirect => (redirect.1, redirect.2))
    (true, { s with
      calls := s.calls ++ SimulateResponse client redirects it.head it.content it.status it.flags })

/-- The loop of `AddResponse` over `pending_requests_`, returning the requests
that stay. -/
def AddResponseLoop : List PendingRequest → State → List PendingRequest × State
  | [], s => ([], s)
  | it :: rest, s =>
    match CreateLoaderAndStartInternal it.request_url it.client s with
    | (true, s) => AddResponseLoop rest s
    | (false, s) =>
      let (kept, s) := AddResponseLoop rest s
      (it :: kept, s)

/-- The function `TestURLLoaderFactory::AddResponse`. -/
def AddResponse (url : GURL) (head : URLResponseHead) (content : List Char)
    (status : URLLoaderCompletionStatus) (redirects : Redirects) (flags : Nat) (s : State) :
    State :=
  let response : Response :=
    { url := url, redirects := redirects, head := head, content := content,
      status := { status with decoded_body_length := content.length }, flags := flags }
  let s := { s with responses_ := assign s.responses_ url response }
  let (kept, s) := AddResponseLoop s.pending_requests_ s
  { s with pending_requests_ := kept }

/-- The function `TestURLLoaderFactory::ClearResponses`. -/
def ClearResponses (s : State) : State := { s with responses_ := [] }

/-- The function `TestURLLoaderFactory::SetInterceptor`. -/
def SetInterceptor (interceptor : Option Nat) (s : State) : State :=
  { s with interceptor_ := interceptor }

/-- The function `TestURLLoaderFactory::CreateLoaderAndStart`. -/
def CreateLoaderAndStart (options : Nat) (url_request : GURL) (client : Nat) (s : State) :
    State :=
  let s :=
    match s.interceptor_ with
    | some interceptor => { s with calls := s.calls ++ [.Interceptor interceptor url_request] }
    | none => s
  match CreateLoaderAndStartInternal url_request client s with
  | (true, s) => s
  | (false, s) =>
    { s with pending_requests_ := s.pending_requests_ ++ [⟨client, url_request, options⟩] }

/-- The arguments of one call of `AddResponse`. -/
structure AddResponseArgs where
  url : GURL
  head : URLResponseHead
  content : List Char
  status : URLLoaderCompletionStatus
  redirects : Redirects
  flags : Nat
deriving DecidableEq, Repr

/-- A sequence of calls of `AddResponse`, in order. -/
def AddResponses (calls : List AddResponseArgs) (s : State) : State :=
  calls.foldl (fun s a => AddResponse a.url a.head a.content a.status a.redirects a.flags s) s

/-! ### Requests that wait for a response -/

/-- The enumerator `kMatchDefault`. -/
def kMatchDefault : Nat := 0

/-- The enumerator `kUrlMatchPrefix`. -/
def kUrlMatchPrefix : Nat := 1

/-- The enumerator `kMostRecentMatch`. -/
def kMostRecentMatch : Nat := 2

/-- Modelled from the spec: `base::ToLowerASCII` on one character. -/
def ToLowerASCII (c : Char) : Char :=
  if 'A' ≤ c ∧ c ≤ 'Z' then Char.ofNat (c.toNat + 32) else c

/-- Modelled from the spec: `base::StartsWith(str, search_for,
base::CompareCase::INSENSITIVE_ASCII)`, which is not part of the sources at hand:
`str` begins with `search_for` when ASCII letters are compared without case. -/
def StartsWith (str search_for : List Char) : Bool :=
  (search_for.map ToLowerASCII).isPrefixOf (str.map ToLowerASCII)

/-- The conversion `static_cast<int>` of a `size_t`, on a platform whose `int` has
32 bits. -/
def static_cast_int (n : Nat) : Int := ((n : Int) + 2 ^ 31) % 2 ^ 32 - 2 ^ 31

/-- The function `TestURLLoaderFactory::IsPending` after its `RunUntilIdle`:
`encountered_error` tells of every client whether its pipe is closed by then.  The
second component is what is stored in `*request_out`, as the position of the
request in `pending_requests_` (`position` counts the candidates passed). -/
def IsPendingLoop (encountered_error : Nat → Bool) (url : List Char) :
    List PendingRequest → Nat → Bool × Option Nat
  | [], _ => (false, none)
  | candidate :: rest, position =>
    if candidate.request_url.spec = url then (!encountered_error candidate.client, some position)
    else IsPendingLoop encountered_error url rest (position + 1)

/-- The function `TestURLLoaderFactory::IsPending`. -/
def IsPending (encountered_error : Nat → Bool) (url : List Char) (s : State) :
    Bool × Option Nat :=
  IsPendingLoop encountered_error url s.pending_requests_ 0

/-- The function `TestURLLoaderFactory::NumPending` after its `RunUntilIdle`. -/
def NumPending (encountered_error : Nat → Bool) (s : State) : Nat :=
  s.pending_requests_.foldl
    (fun pending candidate => if !encountered_error candidate.client then pending + 1 else pending)
    0

/-- The function `TestURLLoaderFactory::GetPendingRequest`. -/
def GetPendingRequest (index : Nat) (s : State) : Option PendingRequest :=
  if index ≥ s.pending_requests_.length then none else s.pending_requests_.get? index

/-- The test of the loop of `SimulateResponseForPendingRequest` on one request
whose client has not encountered an error. -/
def urlMatches (url : GURL) ( url_match_prefix : Bool) (request : PendingRequest) : Bool :=
  request.request_url == url ||
    ( url_match_prefix && StartsWith request.request_url.spec url.spec)

/-- The loop of `SimulateResponseForPendingRequest` without `kMostRecentMatch`, at
position `i` with `remaining` positions to go: the position of the request that
is found. -/
def ForwardLoop (encountered_error : Nat → Bool) (url : GURL) ( url_match_prefix : Bool)
    (pending : List PendingRequest) : Nat → Nat → Option Nat
  | 0, _ => none
  | remaining + 1, i =>
    match pending.get? i with
    | none => none
    | some request =>
      if encountered_error request.client then
        ForwardLoop encountered_error url url_match_prefix pending remaining (i + 1)
      else if urlMatches url url_match_prefix request then some i
      else ForwardLoop encountered_error url url_match_prefix pending remaining (i + 1)

/-- The loop of `SimulateResponseForPendingRequest` with `kMostRecentMatch`, at
position `i`, given as `i + 1`. -/
def ReverseLoop (encountered_error : Nat → Bool) (url : GURL) ( url_match_prefix : Bool)
    (pending : List PendingRequest) : Nat → Option Nat
  | 0 => none
  | i + 1 =>
    match pending.get? i with
    | none => none
    | some request =>
      if encountered_error request.client then
        ReverseLoop encountered_error url url_match_prefix pending i
      else if urlMatches url url_match_prefix request then some i
      else ReverseLoop encountered_error url url_match_prefix pending i

/-- The function `TestURLLoaderFactory::SimulateResponseForPendingRequest` with a
`GURL`, after its `RunUntilIdle`. -/
def SimulateResponseForPendingRequest (encountered_error : Nat → Bool) (url : GURL)
    (completion_status : URLLoaderCompletionStatus) (response_head : URLResponseHead)
    (content : List Char) (flags : Nat) (s : State) : Bool × State :=
  if s.pending_requests_.isEmpty then (false, s)
  else
    let url_match_prefix := flags &&& kUrlMatchPrefix ≠ 0
    let reverse := flags &&& kMostRecentMatch ≠ 0
    let size := static_cast_int s.pending_requests_.length
    let found :=
      if reverse then
        ReverseLoop encountered_error url url_match_prefix s.pending_requests_ size.toNat
      else ForwardLoop encountered_error url url_match_prefix s.pending_requests_ size.toNat 0
    match found with
    | none => (false, s)
    | some i =>
      match s.pending_requests_.get? i with
      | none => (false, s)
      | some request =>
        let status := { completion_status with decoded_body_length := content.length }
        (true, { s with
          pending_requests_ := s.pending_requests_.eraseIdx i,
          calls := s.calls ++
            SimulateResponse request.client [] response_head content status kResponseDefault })

/-- A request the loop of `SimulateResponseForPendingRequest` stops at: its client
has not encountered an error and its URL is a match. -/
def eligible (encountered_error : Nat → Bool) (url : GURL) ( url_match_prefix : Bool)
    (request : PendingRequest) : Bool :=
  !encountered_error request.client && urlMatches url url_match_prefix request

/-- The calls made on the client of a pending request when `responses` holds a
response for its URL, and none otherwise. -/
def wakeUp (responses : List (GURL × Response)) (request : PendingRequest) : List Call :=
  match responses.lookup request.request_url with
  | none => []
  | some it =>
    SimulateResponse request.client it.redirects it.head it.content it.status it.flags

/-- A factory with four requests waiting: three for URLs that differ only in the
case of a letter, one for another host. -/
def examplePending : State :=
  { responses_ := [],
    pending_requests_ :=
      [⟨1, ⟨"http://a/Foo".toList⟩, 0⟩, ⟨2, ⟨"http://a/foo".toList⟩, 0⟩,
        ⟨3, ⟨"http://b/".toList⟩, 0⟩, ⟨4, ⟨"http://a/foo".toList⟩, 0⟩],
    interceptor_ := none, calls := [] }

/-- A factory with two requests waiting for the same URL. -/
def exampleTwice : State :=
  { responses_ := [],
    pending_requests_ := [⟨1, ⟨"http://a/".toList⟩, 0⟩, ⟨2, ⟨"http://a/".toList⟩, 0⟩],
    interceptor_ := none, calls := [] }

end TestURLLoaderFactory
namespace blink

/-! ### Compositor element ids (`compositor_element_id.cc`)

The header that declares `kCompositorNamespaceBitCount` and the enumerators of
`CompositorElementIdNamespace` is not part of the sources at hand: the bit count
and the values of `kMax` and `kMaxRepresentable` are parameters, and a namespace
is the value of its enumerator. -/

/-- The conversion `static_cast<uint64_t>`. -/
def to_uint64 (n : Nat) : Nat := n % 2 ^ 64

/-- The conversion `static_cast<unsigned>`, on a platform whose `unsigned` has 32
bits. -/
def to_unsigned (n : Nat) : Nat := n % 2 ^ 32

/-- The `DCHECK` of `CreateCompositorElementId`. -/
def CreateCompositorElementId_DCHECK (kMaxRepresentable : Nat) (blink_id : Nat) : Bool :=
  blink_id > 0 && blink_id < (2 ^ 64 - 1) / to_unsigned kMaxRepresentable

/-- The function `CreateCompositorElementId`, in 64-bit unsigned arithmetic. -/
def CreateCompositorElementId (kCompositorNamespaceBitCount : Nat) (blink_id : Nat)
    (namespace_id : Nat) : Nat :=
  let id := (blink_id <<< kCompositorNamespaceBitCount) % 2 ^ 64
  (id + to_uint64 namespace_id) % 2 ^ 64

/-- The `DCHECK_LE` of `CompositorElementIdFromUniqueObjectId`. -/
def CompositorElementIdFromUniqueObjectId_DCHECK (kMax : Nat) (namespace_id : Nat) : Bool :=
  namespace_id ≤ kMax

/-- The function `CompositorElementIdFromUniqueObjectId` with a namespace. -/
def CompositorElementIdFromUniqueObjectId (kCompositorNamespaceBitCount : Nat) (id : Nat)
    (namespace_id : Nat) : Nat :=
  CreateCompositorElementId kCompositorNamespaceBitCount id namespace_id

/-- The function `NamespaceFromCompositorElementId`. -/
def NamespaceFromCompositorElementId (kMaxRepresentable : Nat) (element_id : Nat) : Nat :=
  element_id % to_uint64 kMaxRepresentable

end blink

namespace crostini

/-! ### `CrostiniPackageService` (`crostini_package_service.cc`)

The service is run by events: calls of its interface and the signals and
callbacks of `CrostiniManager`.  What it calls in turn (functions of
`CrostiniManager`, callbacks, `UpdateProgress` of a notification) is recorded in a
log. -/

/-- Modelled from the spec: `ContainerId`, which is not part of the sources at
hand. -/
structure ContainerId where
  vm_name : List Char
  container_name : List Char
deriving DecidableEq, Repr

/-- Modelled from the spec: the enum `PackageOperationStatus`. -/
inductive PackageOperationStatus where
  | QUEUED
  | SUCCEEDED
  | FAILED
  | RUNNING
  | WAITING_FOR_APP_REGISTRY_UPDATE
deriving DecidableEq, Repr

/-- Modelled from the spec: the enum `InstallLinuxPackageProgressStatus`. -/
inductive InstallLinuxPackageProgressStatus where
  | SUCCEEDED
  | FAILED
  | DOWNLOADING
  | INSTALLING
deriving DecidableEq, Repr

/-- Modelled from the spec: the enum `UninstallPackageProgressStatus`. -/
inductive UninstallPackageProgressStatus where
  | SUCCEEDED
  | FAILED
  | UNINSTALLING
deriving DecidableEq, Repr

/-- Modelled from the spec: the enum `CrostiniResult`, of which the service tells
`SUCCESS` from the rest. -/
inductive CrostiniResult where
  | SUCCESS
  | INSTALL_LINUX_PACKAGE_FAILED
  | other (code : Nat)
deriving DecidableEq, Repr

/-- Modelled from the spec: the enum `CrostiniPackageNotification::NotificationType`. -/
inductive NotificationType where
  | PACKAGE_INSTALL
  | APPLICATION_UNINSTALL
deriving DecidableEq, Repr

/-- Modelled from the spec: `CrostiniPackageNotification`, which is not part of the
sources at hand: what it is made of, the status and progress `UpdateProgress`
gave it last, and whether `ForceAllowAutoHide` was called. -/
structure CrostiniPackageNotification where
  notification_id : Nat
  notification_type : NotificationType
  status : PackageOperationStatus
  progress_percent : Int
  container_id : ContainerId
  app_name : List Char
  allow_auto_hide : Bool
deriving DecidableEq, Repr

/-- Modelled from the spec: `CrostiniPackageNotification::UpdateProgress`. -/
def CrostiniPackageNotification.UpdateProgress (n : CrostiniPackageNotification)
    (status : PackageOperationStatus) (progress_percent : Int) : CrostiniPackageNotification :=
  { n with status := status, progress_percent := progress_percent }

/-- Modelled from the spec: `CrostiniRegistryService::Registration`. -/
structure Registration where
  VmName : List Char
  ContainerName : List Char
  Name : List Char
  DesktopFileId : List Char
deriving DecidableEq, Repr

/-- What the service reads from the rest of the browser while it handles one
event: the registrations `CrostiniRegistryService::GetRegistration` finds, and
`IsCrostiniUIAllowedForProfile`. -/
structure Env where
  registrations : List (List Char × Registration)
  ui_allowed : Bool
deriving DecidableEq, Repr

/-- Modelled from the spec: `CrostiniRegistryService::GetRegistration`. -/
def Env.GetRegistration (env : Env) (app_id : List Char) : Option Registration :=
  env.registrations.lookup app_id

/-- The struct `QueuedInstall`; a callback is an identity. -/
structure QueuedInstall where
  package_path : List Char
  callback : Nat
  notification : CrostiniPackageNotification
deriving DecidableEq, Repr

/-- The struct `QueuedUninstall`. -/
structure QueuedUninstall where
  app_id : List Char
  notification : CrostiniPackageNotification
deriving DecidableEq, Repr

/-- What the service calls.  `StartQueued` is the call
`next.notification->UpdateProgress(RUNNING, 0)` of `StartQueuedOperation`, with
which a queued operation becomes the running one; `UpdateProgress` is the call
of `UpdatePackageOperationStatus` on the running notification. -/
inductive Obs where
  | UpdateProgress (notification : Nat) (container_id : ContainerId)
      (status : PackageOperationStatus) (progress_percent : Int)
  | StartQueued (notification : Nat) (container_id : ContainerId)
  | InstallLinuxPackage (vm_name container_name package_path : List Char) (callback : Nat)
  | RestartCrostini (vm_name container_name : List Char) (desktop_file_id : List Char)
  | UninstallPackageOwningFile (vm_name container_name desktop_file_id : List Char)
  | InstallCallback (callback : Nat) (result : CrostiniResult)
  | StateChange (callback : Nat) (status : PackageOperationStatus)
deriving DecidableEq, Repr

/-- Ways in which the service ends otherwise than by returning. -/
inductive Fault where
  | out_of_fuel
  | null_notification
  | use_after_erase
deriving DecidableEq, Repr

/-- The members of `CrostiniPackageService`, and the log of its calls, oldest
first.  The maps are lists of pairs with every key once, in the order in which
the keys were put in.  A running notification is a `std::unique_ptr`, which can
be null. -/
structure State where
  running_notifications_ : List (ContainerId × Option CrostiniPackageNotification)
  queued_installs_ : List (ContainerId × List QueuedInstall)
  queued_uninstalls_ : List (ContainerId × List QueuedUninstall)
  finished_notifications_ : List CrostiniPackageNotification
  has_pending_app_list_updates_ : List ContainerId
  testing_state_change_callback_ : Option Nat
  next_notification_id_ : Nat
  log : List Obs
deriving DecidableEq, Repr

/-- The service as its constructor leaves it. -/
def initial : State :=
  { running_notifications_ := [], queued_installs_ := [], queued_uninstalls_ := [],
    finished_notifications_ := [], has_pending_app_list_updates_ := [],
    testing_state_change_callback_ := none, next_notification_id_ := 0, log := [] }

/-- The call `map.erase(key)`. -/
def erase {β : Type} (m : List (ContainerId × β)) (key : ContainerId) : List (ContainerId × β) :=
  m.filter (fun p => !(p.1 == key))

/-- The assignment `map[key] = value`, also that to the value behind an iterator
at `key`. -/
def assign {β : Type} (m : List (ContainerId × β)) (key : ContainerId) (value : β) :
    List (ContainerId × β) :=
  match m.lookup key with
  | none => m ++ [(key, value)]
  | some _ => m.map (fun p => if p.1 == key then (key, value) else p)

/-- The call `map.emplace(key, value)`, which leaves a key that is there alone. -/
def emplace {β : Type} (m : List (ContainerId × β)) (key : ContainerId) (value : β) :
    List (ContainerId × β) :=
  match m.lookup key with
  | none => m ++ [(key, value)]
  | some _ => m

/-- Appends to the log. -/
def observe (o : Obs) (s : State) : State := { s with log := s.log ++ [o] }

/-- The function `InstallStatusToOperationStatus`. -/
def InstallStatusToOperationStatus :
    InstallLinuxPackageProgressStatus → PackageOperationStatus
  | .SUCCEEDED => .SUCCEEDED
  | .FAILED => .FAILED
  | .DOWNLOADING => .RUNNING
  | .INSTALLING => .RUNNING

/-- The function `UninstallStatusToOperationStatus`. -/
def UninstallStatusToOperationStatus : UninstallPackageProgressStatus → PackageOperationStatus
  | .SUCCEEDED => .SUCCEEDED
  | .FAILED => .FAILED
  | .UNINSTALLING => .RUNNING

/-- The function `CrostiniPackageService::GetUniqueNotificationId`; the id is the
number printed into the string. -/
def GetUniqueNotificationId (s : State) : Nat × State :=
  (s.next_notification_id_, { s with next_notification_id_ := s.next_notification_id_ + 1 })

/-- The function `CrostiniPackageService::ContainerHasRunningOperation`. -/
def ContainerHasRunningOperation (container_id : ContainerId) (s : State) : Bool :=
  (s.running_notifications_.lookup container_id).isSome

/-- The function `CrostiniPackageService::ContainerHasQueuedOperation`. -/
def ContainerHasQueuedOperation (container_id : ContainerId) (s : State) : Bool :=
  (match s.queued_installs_.lookup container_id with
    | some q => !q.isEmpty
    | none => false) ||
  (match s.queued_uninstalls_.lookup container_id with
    | some q => !q.isEmpty
    | none => false)

/-- The function `CrostiniPackageService::CreateRunningNotification`. -/
def CreateRunningNotification (container_id : ContainerId)
    (notification_type : NotificationType) (app_name : List Char) (s : State) :
    Except Fault State :=
  match
    (match s.running_notifications_.lookup container_id with
      | none => Except.ok s
      | some none => Except.error Fault.null_notification
      | some (some n) =>
        Except.ok { s with
          finished_notifications_ := s.finished_notifications_ ++ [{ n with allow_auto_hide := true }],
          running_notifications_ := erase s.running_notifications_ container_id }) with
  | .error f => .error f
  | .ok s =>
    let (id, s) := GetUniqueNotificationId s
    .ok { s with
      running_notifications_ := assign s.running_notifications_ container_id
        (some ⟨id, notification_type, .RUNNING, 0, container_id, app_name, false⟩) }

/-- The function `CrostiniPackageService::CreateQueuedUninstall`. -/
def CreateQueuedUninstall (container_id : ContainerId) (app_id app_name : List Char)
    (s : State) : State :=
  let (id, s) := GetUniqueNotificationId s
  let queue := (s.queued_uninstalls_.lookup container_id).getD []
  { s with
    queued_uninstalls_ := assign s.queued_uninstalls_ container_id
      (queue ++ [⟨app_id, ⟨id, .APPLICATION_UNINSTALL, .QUEUED, 0, container_id, app_name, false⟩⟩]) }

/-- The function `CrostiniPackageService::CreateQueuedInstall`. -/
def CreateQueuedInstall (container_id : ContainerId) (package : List Char) (callback : Nat)
    (s : State) : State :=
  let (id, s) := GetUniqueNotificationId s
  let queue := (s.queued_installs_.lookup container_id).getD []
  { s with
    queued_installs_ := assign s.queued_installs_ container_id
      (queue ++ [⟨package, callback, ⟨id, .PACKAGE_INSTALL, .QUEUED, 0, container_id, [], false⟩⟩]) }

/-- The function `CrostiniPackageService::UpdatePackageOperationStatus`; `start`
stands for `StartQueuedOperation`. -/
def UpdatePackageOperationStatusWith (start : ContainerId → State → Except Fault State)
    (container_id : ContainerId) (status : PackageOperationStatus) (progress_percent : Int)
    (s : State) : Except Fault State :=
  match s.running_notifications_.lookup container_id with
  | none => .ok s
  | some none =>
    .ok { s with running_notifications_ := erase s.running_notifications_ container_id }
  | some (some n) =>
    let status :=
      if status = .SUCCEEDED ∧ container_id ∈ s.has_pending_app_list_updates_ then
        PackageOperationStatus.WAITING_FOR_APP_REGISTRY_UPDATE
      else status
    let n := n.UpdateProgress status progress_percent
    let s := observe (.UpdateProgress n.notification_id container_id status progress_percent)
      { s with running_notifications_ := assign s.running_notifications_ container_id (some n) }
    match
      (if status = .SUCCEEDED ∨ status = .FAILED then
        let s := { s with
          finished_notifications_ := s.finished_notifications_ ++ [n],
          running_notifications_ := erase s.running_notifications_ container_id }
        if ContainerHasQueuedOperation container_id s then start container_id s else .ok s
      else .ok s) with
    | .error f => .error f
    | .ok s =>
      match s.testing_state_change_callback_ with
      | some callback => .ok (observe (.StateChange callback status) s)
      | none => .ok s

/-- The function `CrostiniPackageService::UninstallApplication`; `update` stands
for `UpdatePackageOperationStatus`. -/
def UninstallApplicationWith
    (update : ContainerId → PackageOperationStatus → Int → State → Except Fault State)
    (env : Env) (registration : Registration) (_app_id : List Char) (s : State) :
    Except Fault State :=
  let container_id : ContainerId := ⟨registration.VmName, registration.ContainerName⟩
  if !env.ui_allowed then update container_id .FAILED 0 s
  else
    .ok (observe
      (.RestartCrostini registration.VmName registration.ContainerName registration.DesktopFileId)
      s)

/-- The function `CrostiniPackageService::StartQueuedOperation`; `update` stands
for `UpdatePackageOperationStatus`.  When the call made for a queued uninstall has
erased the queue the iterator points at, the clean-up reads an erased element.
The `NOTREACHED()` at the end does nothing in a release build. -/
def StartQueuedOperationWith
    (update : ContainerId → PackageOperationStatus → Int → State → Except Fault State)
    (env : Env) (container_id : ContainerId) (s : State) : Except Fault State :=
  match s.queued_uninstalls_.lookup container_id with
  | some (next :: rest) =>
    let n := next.notification.UpdateProgress .RUNNING 0
    let s := observe (.StartQueued n.notification_id container_id)
      { s with
        running_notifications_ := emplace s.running_notifications_ container_id (some n),
        queued_uninstalls_ := assign s.queued_uninstalls_ container_id rest }
    match
      (match env.GetRegistration next.app_id with
        | some registration => UninstallApplicationWith update env registration next.app_id s
        | none => update container_id .SUCCEEDED 100 s) with
    | .error f => .error f
    | .ok s =>
      match s.queued_uninstalls_.lookup container_id with
      | none => .error .use_after_erase
      | some queue =>
        if queue.isEmpty then
          .ok { s with queued_uninstalls_ := erase s.queued_uninstalls_ container_id }
        else .ok s
  | _ =>
    match s.queued_installs_.lookup container_id with
    | some (next :: rest) =>
      let n := next.notification.UpdateProgress .RUNNING 0
      let s := observe (.StartQueued n.notification_id container_id)
        { s with
          running_notifications_ := emplace s.running_notifications_ container_id (some n),
          queued_installs_ := assign s.queued_installs_ container_id rest }
      let s := observe
        (.InstallLinuxPackage container_id.vm_name container_id.container_name next.package_path
          next.callback) s
      if rest.isEmpty then
        .ok { s with queued_installs_ := erase s.queued_installs_ container_id }
      else .ok s
    | _ => .ok s

/-- The function `CrostiniPackageService::UpdatePackageOperationStatus`, with
`fuel` for the operations it may start. -/
def UpdatePackageOperationStatus (env : Env) :
    Nat → ContainerId → PackageOperationStatus → Int → State → Except Fault State
  | 0 => UpdatePackageOperationStatusWith (fun _ _ => .error .out_of_fuel)
  | fuel + 1 =>
    UpdatePackageOperationStatusWith
      (StartQueuedOperationWith (UpdatePackageOperationStatus env fuel) env)

/-- The function `CrostiniPackageService::StartQueuedOperation`. -/
def StartQueuedOperation (env : Env) (fuel : Nat) (container_id : ContainerId) (s : State) :
    Except Fault State :=
  StartQueuedOperationWith (UpdatePackageOperationStatus env fuel) env container_id s

/-- The function `CrostiniPackageService::UninstallApplication`. -/
def UninstallApplication (env : Env) (fuel : Nat) (registration : Registration)
    (app_id : List Char) (s : State) : Except Fault State :=
  UninstallApplicationWith (UpdatePackageOperationStatus env fuel) env registration app_id s

/-- The function `CrostiniPackageService::QueueInstallLinuxPackage`; `path` is what
`ConvertFileSystemURLToPathInsideCrostini` makes of `package_url`, if anything. -/
def QueueInstallLinuxPackage (vm_name container_name : List Char) (path : Option (List Char))
    (callback : Nat) (s : State) : Except Fault State :=
  match path with
  | none => .ok (observe (.InstallCallback callback .INSTALL_LINUX_PACKAGE_FAILED) s)
  | some path =>
    let container_id : ContainerId := ⟨vm_name, container_name⟩
    if ContainerHasRunningOperation container_id s then
      .ok (CreateQueuedInstall container_id path callback s)
    else
      match CreateRunningNotification container_id .PACKAGE_INSTALL [] s with
      | .error f => .error f
      | .ok s => .ok (observe (.InstallLinuxPackage vm_name container_name path callback) s)

/-- The value of `display_progress` in `OnInstallLinuxPackageProgress`; the
division of `int` rounds towards zero. -/
def display_progress (status : InstallLinuxPackageProgressStatus) (progress_percent : Int) :
    Int :=
  let display_progress := Int.tdiv progress_percent 2
  if status = .INSTALLING then display_progress + 50 else display_progress

/-- The function `CrostiniPackageService::OnInstallLinuxPackageProgress`. -/
def OnInstallLinuxPackageProgress (env : Env) (fuel : Nat) (container_id : ContainerId)
    (status : InstallLinuxPackageProgressStatus) (progress_percent : Int) (s : State) :
    Except Fault State :=
  UpdatePackageOperationStatus env fuel container_id (InstallStatusToOperationStatus status)
    (display_progress status progress_percent) s

/-- The function `CrostiniPackageService::OnUninstallPackageProgress`. -/
def OnUninstallPackageProgress (env : Env) (fuel : Nat) (container_id : ContainerId)
    (status : UninstallPackageProgressStatus) (progress_percent : Int) (s : State) :
    Except Fault State :=
  UpdatePackageOperationStatus env fuel container_id (UninstallStatusToOperationStatus status)
    progress_percent s

/-- The `while` loop of `OnVmShutdown` for one container. -/
def FailWhileRunning (env : Env) (fuel : Nat) : Nat → ContainerId → State → Except Fault State
  | 0, container_id, s =>
    if ContainerHasRunningOperation container_id s then .error .out_of_fuel else .ok s
  | rounds + 1, container_id, s =>
    if ContainerHasRunningOperation container_id s then
      match UpdatePackageOperationStatus env fuel container_id .FAILED 0 s with
      | .error f => .error f
      | .ok s => FailWhileRunning env fuel rounds container_id s
    else .ok s

/-- The second `for` loop of `OnVmShutdown`. -/
def FailAll (env : Env) (fuel : Nat) : List ContainerId → State → Except Fault State
  | [], s => .ok s
  | container_id :: rest, s =>
    match FailWhileRunning env fuel fuel container_id s with
    | .error f => .error f
    | .ok s => FailAll env fuel rest s

/-- The function `CrostiniPackageService::OnVmShutdown`. -/
def OnVmShutdown (env : Env) (fuel : Nat) (vm_name : List Char) (s : State) :
    Except Fault State :=
  let to_remove :=
    (s.running_notifications_.filter (fun p => p.1.vm_name == vm_name)).map (fun p => p.1)
  FailAll env fuel to_remove s

/-- The function `CrostiniPackageService::QueueUninstallApplication`. -/
def QueueUninstallApplication (env : Env) (fuel : Nat) (app_id : List Char) (s : State) :
    Except Fault State :=
  match env.GetRegistration app_id with
  | none => .ok s
  | some registration =>
    let container_id : ContainerId := ⟨registration.VmName, registration.ContainerName⟩
    if ContainerHasRunningOperation container_id s then
      .ok (CreateQueuedUninstall container_id app_id registration.Name s)
    else
      match CreateRunningNotification container_id .APPLICATION_UNINSTALL registration.Name s with
      | .error f => .error f
      | .ok s => UninstallApplication env fuel registration app_id s

/-- The function `CrostiniPackageService::OnPendingAppListUpdates`. -/
def OnPendingAppListUpdates (env : Env) (fuel : Nat) (container_id : ContainerId) (count : Int)
    (s : State) : Except Fault State :=
  let s :=
    if count ≠ 0 then
      if container_id ∈ s.has_pending_app_list_updates_ then s
      else { s with has_pending_app_list_updates_ := s.has_pending_app_list_updates_ ++ [container_id] }
    else
      { s with
        has_pending_app_list_updates_ :=
          s.has_pending_app_list_updates_.filter (fun c => !(c == container_id)) }
  match s.running_notifications_.lookup container_id with
  | none => .ok s
  | some none => .error .null_notification
  | some (some n) =>
    if n.status = .WAITING_FOR_APP_REGISTRY_UPDATE ∧ count = 0 then
      UpdatePackageOperationStatus env fuel container_id .SUCCEEDED 100 s
    else .ok s

/-- The function `CrostiniPackageService::OnInstallLinuxPackage`. -/
def OnInstallLinuxPackage (env : Env) (fuel : Nat) (vm_name container_name : List Char)
    (callback : Nat) (result : CrostiniResult) (s : State) : Except Fault State :=
  let s := observe (.InstallCallback callback result) s
  if result ≠ .SUCCESS then
    UpdatePackageOperationStatus env fuel ⟨vm_name, container_name⟩ .FAILED 0 s
  else .ok s

/-- The function `CrostiniPackageService::OnCrostiniRunningForUninstall`. -/
def OnCrostiniRunningForUninstall (env : Env) (fuel : Nat) (container_id : ContainerId)
    (desktop_file_id : List Char) (result : CrostiniResult) (s : State) : Except Fault State :=
  if result ≠ .SUCCESS then UpdatePackageOperationStatus env fuel container_id .FAILED 0 s
  else
    .ok (observe
      (.UninstallPackageOwningFile container_id.vm_name container_id.container_name
        desktop_file_id) s)

/-- The function `CrostiniPackageService::OnUninstallPackageOwningFile`. -/
def OnUninstallPackageOwningFile (env : Env) (fuel : Nat) (container_id : ContainerId)
    (result : CrostiniResult) (s : State) : Except Fault State :=
  if result ≠ .SUCCESS then UpdatePackageOperationStatus env fuel container_id .FAILED 0 s
  else .ok s

/-- The loop of `NotificationCompleted`: the finished notifications without the
first one that is `notification`. -/
def eraseFinished (notification : Nat) :
    List CrostiniPackageNotification → List CrostiniPackageNotification
  | [] => []
  | n :: rest =>
    if n.notification_id = notification then rest else n :: eraseFinished notification rest

/-- The function `CrostiniPackageService::NotificationCompleted`; its
`NOTREACHED()` does nothing in a release build. -/
def NotificationCompleted (notification : Nat) (s : State) : State :=
  { s with finished_notifications_ := eraseFinished notification s.finished_notifications_ }

/-- The function `CrostiniPackageService::Shutdown`. -/
def Shutdown (s : State) : State :=
  { s with
    running_notifications_ := [], queued_installs_ := [], queued_uninstalls_ := [],
    finished_notifications_ := [] }

/-- The function `CrostiniPackageService::SetNotificationStateChangeCallbackForTesting`. -/
def SetNotificationStateChangeCallbackForTesting (state_change_callback : Option Nat)
    (s : State) : State :=
  { s with testing_state_change_callback_ := state_change_callback }

/-- What can happen to the service: a call of its interface, a signal of
`CrostiniManager`, or one of the callbacks the service has bound. -/
inductive Event where
  | QueueInstallLinuxPackage (vm_name container_name : List Char) (path : Option (List Char))
      (callback : Nat)
  | QueueUninstallApplication (app_id : List Char)
  | OnInstallLinuxPackageProgress (container_id : ContainerId)
      (status : InstallLinuxPackageProgressStatus) (progress_percent : Int)
  | OnUninstallPackageProgress (container_id : ContainerId)
      (status : UninstallPackageProgressStatus) (progress_percent : Int)
  | OnVmShutdown (vm_name : List Char)
  | OnPendingAppListUpdates (container_id : ContainerId) (count : Int)
  | OnInstallLinuxPackage (vm_name container_name : List Char) (callback : Nat)
      (result : CrostiniResult)
  | OnCrostiniRunningForUninstall (container_id : ContainerId) (desktop_file_id : List Char)
      (result : CrostiniResult)
  | OnUninstallPackageOwningFile (container_id : ContainerId) (result : CrostiniResult)
  | NotificationCompleted (notification : Nat)
  | SetNotificationStateChangeCallbackForTesting (state_change_callback : Option Nat)
  | Shutdown
deriving DecidableEq, Repr

/-- One event, handled to its end in the surroundings `env`. -/
def step (env : Env) (fuel : Nat) (e : Event) (s : State) : Except Fault State :=
  match e with
  | .QueueInstallLinuxPackage vm_name container_name path callback =>
    QueueInstallLinuxPackage vm_name container_name path callback s
  | .QueueUninstallApplication app_id => QueueUninstallApplication env fuel app_id s
  | .OnInstallLinuxPackageProgress container_id status progress_percent =>
    OnInstallLinuxPackageProgress env fuel container_id status progress_percent s
  | .OnUninstallPackageProgress container_id status progress_percent =>
    OnUninstallPackageProgress env fuel container_id status progress_percent s
  | .OnVmShutdown vm_name => OnVmShutdown env fuel vm_name s
  | .OnPendingAppListUpdates container_id count =>
    OnPendingAppListUpdates env fuel container_id count s
  | .OnInstallLinuxPackage vm_name container_name callback result =>
    OnInstallLinuxPackage env fuel vm_name container_name callback result s
  | .OnCrostiniRunningForUninstall container_id desktop_file_id result =>
    OnCrostiniRunningForUninstall env fuel container_id desktop_file_id result s
  | .OnUninstallPackageOwningFile container_id result =>
    OnUninstallPackageOwningFile env fuel container_id result s
  | .NotificationCompleted notification => .ok (NotificationCompleted notification s)
  | .SetNotificationStateChangeCallbackForTesting state_change_callback =>
    .ok (SetNotificationStateChangeCallbackForTesting state_change_callback s)
  | .Shutdown => .ok (Shutdown s)

/-- The states the service can be in: those reached from a fresh service by events
that do not fault. -/
inductive Reachable : State → Prop where
  | initial : Reachable initial
  | step {s s' : State} (env : Env) (fuel : Nat) (e : Event) :
      Reachable s → step env fuel e s = .ok s' → Reachable s'

/-- Runs a list of events, each with its surroundings and its fuel. -/
def runEvents : List (Env × Nat × Event) → State → Except Fault State
  | [], s => .ok s
  | (env, fuel, e) :: rest, s =>
    match step env fuel e s with
    | .ok s' => runEvents rest s'
    | .error f => .error f

/-! ### Reading the log -/

/-- Whether a status ends an operation. -/
def isFinal (status : PackageOperationStatus) : Bool :=
  status = .SUCCEEDED || status = .FAILED

/-- Whether the call `o` may come right after `before`: a queued operation of a
container is started right after the running notification of that container was
moved to `SUCCEEDED` or `FAILED`, and not otherwise. -/
def followsFinish (before : Option Obs) (o : Obs) : Bool :=
  match o with
  | .StartQueued _ container_id =>
    match before with
    | some (.UpdateProgress _ container status _) => container = container_id && isFinal status
    | _ => false
  | _ => true

/-- Whether every start of a queued operation in a log comes right after the end
of the running one; `before` is the call before the log. -/
def wellStarted : Option Obs → List Obs → Bool
  | _, [] => true
  | before, o :: rest => followsFinish before o && wellStarted (some o) rest

/-- The last call of a log, or `before` when the log is empty. -/
def lastObs (before : Option Obs) (log : List Obs) : Option Obs :=
  match log.getLast? with
  | some o => some o
  | none => before

/-- The last call of the log is the move of the running notification of
`container_id` to `SUCCEEDED` or `FAILED`. -/
def LastFinal (container_id : ContainerId) (s : State) : Prop :=
  ∃ notification status progress_percent,
    s.log.getLast? = some (.UpdateProgress notification container_id status progress_percent) ∧
      isFinal status = true

/-- The keys of `running_notifications_`. -/
def runningContainers (s : State) : List ContainerId :=
  s.running_notifications_.map (fun p => p.1)

/-- The invariant of the service: no container has two running notifications, and
queued operations were started only after the end of running ones. -/
def Inv (s : State) : Prop :=
  (runningContainers s).Nodup ∧ wellStarted none s.log = true

/-- A function that stands for `UpdatePackageOperationStatus` keeps the invariant. -/
def UpdateOK
    (update : ContainerId → PackageOperationStatus → Int → State → Except Fault State) : Prop :=
  ∀ c status progress_percent s s', Inv s → update c status progress_percent s = .ok s' → Inv s'

/-- A function that stands for `StartQueuedOperation` keeps the invariant when it
is called right after the end of the running operation. -/
def StartOK (start : ContainerId → State → Except Fault State) : Prop :=
  ∀ c s s', Inv s → LastFinal c s → start c s = .ok s' → Inv s'

/-- A container for examples. -/
def exampleContainer : ContainerId := ⟨"termina".toList, "penguin".toList⟩

/-- Surroundings for examples: one registered application, Crostini allowed. -/
def exampleEnv : Env :=
  { registrations :=
      [("app".toList, ⟨"termina".toList, "penguin".toList, "App".toList, "app.desktop".toList⟩)],
    ui_allowed := true }

/-- The service after `QueueInstallLinuxPackage` of a package on a fresh service:
the install runs on the example container. -/
def exampleRunning : State :=
  { running_notifications_ :=
      [(exampleContainer, some ⟨0, .PACKAGE_INSTALL, .RUNNING, 0, exampleContainer, [], false⟩)],
    queued_installs_ := [], queued_uninstalls_ := [], finished_notifications_ := [],
    has_pending_app_list_updates_ := [], testing_state_change_callback_ := none,
    next_notification_id_ := 1,
    log := [.InstallLinuxPackage "termina".toList "penguin".toList "a.deb".toList 1] }

/-- The service after `QueueInstallLinuxPackage`, `QueueUninstallApplication` of
the registered application and the `SUCCEEDED` signal of the install: the install
is finished and the queued uninstall runs. -/
def exampleStarted : State :=
  { running_notifications_ :=
      [(exampleContainer,
        some ⟨1, .APPLICATION_UNINSTALL, .RUNNING, 0, exampleContainer, "App".toList, false⟩)],
    queued_installs_ := [], queued_uninstalls_ := [],
    finished_notifications_ := [⟨0, .PACKAGE_INSTALL, .SUCCEEDED, 50, exampleContainer, [], false⟩],
    has_pending_app_list_updates_ := [], testing_state_change_callback_ := none,
    next_notification_id_ := 2,
    log :=
      [.InstallLinuxPackage "termina".toList "penguin".toList "a.deb".toList 1,
        .UpdateProgress 0 exampleContainer .SUCCEEDED 50,
        .StartQueued 1 exampleContainer,
        .RestartCrostini "termina".toList "penguin".toList "app.desktop".toList] }

end crostini

/-! ## Part II: theorems -/

namespace GeneratedCodeCache

/-! ### Cache keys -/

theorem kSeparator_eq : kSeparator = [Char.ofNat 32, Char.ofNat 10] := by decide

theorem GetCacheKey_eq (u l : GURL) :
    GetCacheKey u l = kPrefix ++ (u.simplified_spec ++ (kSeparator ++ lockPart l)) := by
  unfold GetCacheKey lockPart
  split <;> simp

/-- Two strings without separator that are followed by a separator and agree
afterwards are equal. -/
theorem separator_split : ∀ (a c b d : List Char),
    ¬ kSeparator <:+: a → ¬ kSeparator <:+: c →
    a ++ (kSeparator ++ b) = c ++ (kSeparator ++ d) → a = c ∧ b = d := by
  intro a
  induction a with
  | nil =>
    intro c b d _ hc h
    cases c with
    | nil => simpa using h
    | cons y c' =>
      exfalso
      rw [kSeparator_eq] at h hc
      cases c' with
      | nil => simp at h
      | cons z c'' =>
        simp at h
        apply hc
        rw [← h.1, ← h.2.1]
        exact ⟨[], c'', by simp⟩
  | cons x a' ih =>
    intro c b d ha hc h
    cases c with
    | nil =>
      exfalso
      rw [kSeparator_eq] at h ha
      cases a' with
      | nil => simp at h
      | cons z a'' =>
        simp at h
        apply ha
        rw [h.1, h.2.1]
        exact ⟨[], a'', by simp⟩
    | cons y c' =>
      simp only [List.cons_append, List.cons.injEq] at h
      have ha' : ¬ kSeparator <:+: a' := fun hh => ha (List.infix_cons hh)
      have hc' : ¬ kSeparator <:+: c' := fun hh => hc (List.infix_cons hh)
      obtain ⟨h1, h2⟩ := ih c' b d ha' hc' h.2
      exact ⟨by rw [h.1, h1], h2⟩

theorem findFrom_separator : ∀ (a b : List Char) (pos : Nat),
    ¬ kSeparator <:+: a → findFrom kSeparator (a ++ (kSeparator ++ b)) pos = pos + a.length := by
  intro a
  induction a with
  | nil => intro b pos _; simp [kSeparator_eq, findFrom, List.isPrefixOf]
  | cons x a' ih =>
    intro b pos ha
    have ha' : ¬ kSeparator <:+: a' := fun hh => ha (List.infix_cons hh)
    have hne : kSeparator.isPrefixOf (x :: a' ++ (kSeparator ++ b)) = false := by
      rw [kSeparator_eq] at ha ⊢
      cases a' with
      | nil => simp [List.isPrefixOf]
      | cons z a'' =>
        simp [List.isPrefixOf]
        intro h1 h2
        apply ha
        rw [h1, h2]
        exact ⟨[], a'', by simp⟩
    simp only [List.cons_append] at hne ⊢
    rw [findFrom, hne]
    simp only [Bool.false_eq_true, if_false]
    rw [ih b (pos + 1) ha']
    simp; omega


/-- C3: the cache key is the prefix, the simplified spec of the resource URL, the
separator and the origin-lock part, in this order; and when the simplified
specs of two resource URLs contain no separator, equal keys have equal specs
and equal origin-lock parts. -/
theorem cache_key_separates (u1 l1 u2 l2 : GURL)
    (h1 : ¬ kSeparator <:+: u1.simplified_spec) (h2 : ¬ kSeparator <:+: u2.simplified_spec) :
    GetCacheKey u1 l1 =
        "_key".toList ++ u1.simplified_spec ++ " \n".toList ++
          (if l1.is_valid then l1.simplified_spec else []) ∧
      (GetCacheKey u1 l1 = GetCacheKey u2 l2 →
        u1.simplified_spec = u2.simplified_spec ∧
          (if l1.is_valid then l1.simplified_spec else []) =
            (if l2.is_valid then l2.simplified_spec else [])) := by
  refine ⟨?_, ?_⟩
  · rw [GetCacheKey_eq]; simp [kPrefix, kSeparator, lockPart]
  · intro h
    rw [GetCacheKey_eq, GetCacheKey_eq] at h
    exact separator_split _ _ _ _ h1 h2 (List.append_cancel_left h)

theorem cache_key_separates_witness :
    (¬ kSeparator <:+: "http://a/b".toList ∧ ¬ kSeparator <:+: "http://a/b".toList) ∧
      (GetCacheKey ⟨true, "http://a/b".toList⟩ ⟨false, "x".toList⟩ =
          "_key".toList ++ "http://a/b".toList ++ " \n".toList ++
            (if (GURL.mk false "x".toList).is_valid then (GURL.mk false "x".toList).simplified_spec
              else []) ∧
        (GetCacheKey ⟨true, "http://a/b".toList⟩ ⟨false, "x".toList⟩ =
            GetCacheKey ⟨true, "http://a/b".toList⟩ ⟨false, "y".toList⟩ →
          (GURL.mk true "http://a/b".toList).simplified_spec =
              (GURL.mk true "http://a/b".toList).simplified_spec ∧
            (if (GURL.mk false "x".toList).is_valid then (GURL.mk false "x".toList).simplified_spec
              else []) =
              (if (GURL.mk false "y".toList).is_valid then (GURL.mk false "y".toList).simplified_spec
                else []))) :=
  ⟨⟨by decide, by decide⟩,
    cache_key_separates ⟨true, "http://a/b".toList⟩ ⟨false, "x".toList⟩
      ⟨true, "http://a/b".toList⟩ ⟨false, "y".toList⟩ (by decide) (by decide)⟩

/-- C4: when the simplified spec of the resource URL contains no separator (and
the key is short enough to be a `std::string`), `GetResourceURLFromKey` gives
back that spec from the key `GetCacheKey` makes, whatever the origin lock. -/
theorem resource_url_from_cache_key (url origin_lock : GURL)
    (h : ¬ kSeparator <:+: url.simplified_spec)
    (hlen : (GetCacheKey url origin_lock).length < npos) :
    GetResourceURLFromKey (GetCacheKey url origin_lock) = .ok url.simplified_spec := by
  rw [GetCacheKey_eq] at hlen ⊢
  have hfind : find (kPrefix ++ (url.simplified_spec ++ (kSeparator ++ lockPart origin_lock)))
      kSeparator = 4 + url.simplified_spec.length := by
    unfold find
    have : kPrefix = ['_', 'k', 'e', 'y'] := by decide
    rw [this]
    simp only [List.cons_append, List.nil_append]
    rw [findFrom, if_neg (by simp [kSeparator_eq, List.isPrefixOf])]
    rw [findFrom, if_neg (by simp [kSeparator_eq, List.isPrefixOf])]
    rw [findFrom, if_neg (by simp [kSeparator_eq, List.isPrefixOf])]
    rw [findFrom, if_neg (by simp [kSeparator_eq, List.isPrefixOf])]
    rw [findFrom_separator _ _ _ h]
  unfold GetResourceURLFromKey
  simp only [hfind]
  have hk : kPrefix.length = 4 := by decide
  simp only [List.length_append, hk, npos] at hlen
  have hcount : (4 + url.simplified_spec.length + 2 ^ 64 - kPrefix.length) % 2 ^ 64 =
      url.simplified_spec.length := by
    rw [hk]; omega
  rw [hcount]
  unfold substr
  rw [if_neg (by simp)]
  simp [← hk]

theorem resource_url_from_cache_key_witness :
    (¬ kSeparator <:+: "http://a/b".toList ∧
      (GetCacheKey ⟨true, "http://a/b".toList⟩ ⟨false, []⟩).length < npos) ∧
      GetResourceURLFromKey (GetCacheKey ⟨true, "http://a/b".toList⟩ ⟨false, []⟩) =
        .ok (GURL.mk true "http://a/b".toList).simplified_spec :=
  ⟨⟨by decide, by decide⟩,
    resource_url_from_cache_key ⟨true, "http://a/b".toList⟩ ⟨false, []⟩ (by decide) (by decide)⟩

end GeneratedCodeCache

namespace GeneratedCodeCache

/-! ### A failed backend -/

/-- C5: once `backend_state_` is `kFailed`, `FetchEntry` runs its callback at once
with the null time and an empty buffer, `GetBackend` runs its callback with
`nullptr`, `WriteEntry` and `DeleteEntry` return without effect, and none of
the four changes `pending_ops_` or `active_entries_map_`. -/
theorem failed_backend_rejects (s : State) (h : s.backend_state_ = .kFailed) (fuel : Nat)
    (url origin_lock : GURL) (callback : Nat) (response_time : Int) (data : List Nat) :
    (∃ s', FetchEntry fuel url origin_lock callback s = .ok s' ∧
        s'.log = s.log ++ [.read_callback callback 0 []] ∧
        s'.pending_ops_ = s.pending_ops_ ∧ s'.active_entries_map_ = s.active_entries_map_ ∧
        s'.in_flight = s.in_flight) ∧
      (∃ s', GetBackend callback s = .ok s' ∧
        s'.log = s.log ++ [.backend_callback callback false] ∧
        s'.pending_ops_ = s.pending_ops_ ∧ s'.active_entries_map_ = s.active_entries_map_ ∧
        s'.in_flight = s.in_flight) ∧
      WriteEntry fuel url origin_lock response_time data s = .ok s ∧
      DeleteEntry fuel url origin_lock s = .ok s := by
  refine ⟨⟨observe (.read_callback callback 0 []) s, ?_, rfl, rfl, rfl, rfl⟩,
    ⟨observe (.backend_callback callback false) s, ?_, rfl, rfl, rfl, rfl⟩, ?_, ?_⟩
  · simp [FetchEntry, h]; rfl
  · simp [GetBackend, h]; rfl
  · simp [WriteEntry, h]; rfl
  · simp [DeleteEntry, h]; rfl

theorem failed_backend_rejects_witness :
    failedState.backend_state_ = .kFailed ∧
      ((∃ s', FetchEntry 1 ⟨true, "http://a/".toList⟩ ⟨false, []⟩ 7 failedState = .ok s' ∧
          s'.log = failedState.log ++ [.read_callback 7 0 []] ∧
          s'.pending_ops_ = failedState.pending_ops_ ∧
          s'.active_entries_map_ = failedState.active_entries_map_ ∧
          s'.in_flight = failedState.in_flight) ∧
        (∃ s', GetBackend 7 failedState = .ok s' ∧
          s'.log = failedState.log ++ [.backend_callback 7 false] ∧
          s'.pending_ops_ = failedState.pending_ops_ ∧
          s'.active_entries_map_ = failedState.active_entries_map_ ∧
          s'.in_flight = failedState.in_flight) ∧
        WriteEntry 1 ⟨true, "http://a/".toList⟩ ⟨false, []⟩ 5 [1, 2] failedState = .ok failedState ∧
        DeleteEntry 1 ⟨true, "http://a/".toList⟩ ⟨false, []⟩ failedState = .ok failedState) :=
  ⟨rfl, failed_backend_rejects failedState rfl 1 ⟨true, "http://a/".toList⟩ ⟨false, []⟩ 7 5 [1, 2]⟩

end GeneratedCodeCache
namespace GeneratedCodeCache

/-! ### Operations of one key take turns -/

theorem bind_eq_ok {α β : Type} (x : Except Fault α) (f : α → Except Fault β) (b : β) :
    (x >>= f) = .ok b ↔ ∃ a, x = .ok a ∧ f a = .ok b := by
  cases x with
  | error e => simp [bind, Except.bind]
  | ok a => simp [bind, Except.bind]

/-! #### The log -/

theorem enqueuedOn_append (l₁ l₂ : List Obs) (k : List Char) :
    enqueuedOn (l₁ ++ l₂) k = enqueuedOn l₁ k ++ enqueuedOn l₂ k := by
  simp [enqueuedOn, List.filterMap_append]

theorem issuedOn_append (l₁ l₂ : List Obs) (k : List Char) :
    issuedOn (l₁ ++ l₂) k = issuedOn l₁ k ++ issuedOn l₂ k := by
  simp [issuedOn, List.filterMap_append]

theorem closedOn_append (l₁ l₂ : List Obs) (k : List Char) :
    closedOn (l₁ ++ l₂) k = closedOn l₁ k ++ closedOn l₂ k := by
  simp [closedOn, List.filterMap_append]

theorem openOperation_append (l : List Obs) (o : Obs) (k : List Char) :
    openOperation (l ++ [o]) k = serialStep k (openOperation l k) o := by
  simp [openOperation, List.foldl_append]

theorem foldl_serialStep_none (k : List Char) : ∀ l : List Obs,
    l.foldl (serialStep k) none = none
  | [] => rfl
  | o :: l => by simp [List.foldl_cons, serialStep, foldl_serialStep_none k l]

/-- When the operations of a key took turns, those issued are those closed
followed by the one that is open. -/
theorem issuedOn_of_foldl (k : List Char) : ∀ (l : List Obs) (cur₀ cur : Option Nat),
    l.foldl (serialStep k) (some cur₀) = some cur →
      cur₀.toList ++ issuedOn l k = closedOn l k ++ cur.toList
  | [], cur₀, cur, h => by
    simp only [List.foldl_nil, Option.some.injEq] at h
    subst h
    simp [issuedOn, closedOn]
  | o :: l, cur₀, cur, h => by
    rw [List.foldl_cons] at h
    cases hstep : serialStep k (some cur₀) o with
    | none => rw [hstep, foldl_serialStep_none] at h; exact absurd h (by simp)
    | some c₁ =>
      rw [hstep] at h
      have ih := issuedOn_of_foldl k l c₁ cur h
      cases o with
      | read_callback cb t d =>
        simp only [serialStep, Option.some.injEq] at hstep
        subst hstep
        simpa [issuedOn, closedOn] using ih
      | backend_callback cb b =>
        simp only [serialStep, Option.some.injEq] at hstep
        subst hstep
        simpa [issuedOn, closedOn] using ih
      | enqueued op k' =>
        simp only [serialStep, Option.some.injEq] at hstep
        subst hstep
        simpa [issuedOn, closedOn] using ih
      | issued op k' =>
        simp only [serialStep] at hstep
        by_cases hk : k' = k
        · simp only [hk, if_true] at hstep
          by_cases hc : cur₀ = none
          · simp only [hc, if_true, Option.some.injEq] at hstep
            subst hstep hc
            simpa [issuedOn, closedOn, hk] using ih
          · simp [hc] at hstep
        · simp only [hk, if_false, Option.some.injEq] at hstep
          subst hstep
          simpa [issuedOn, closedOn, hk] using ih
      | closed op k' =>
        simp only [serialStep] at hstep
        by_cases hk : k' = k
        · simp only [hk, if_true] at hstep
          by_cases hc : cur₀ = some op
          · simp only [hc, if_true, Option.some.injEq] at hstep
            subst hstep hc
            simpa [issuedOn, closedOn, hk] using ih
          · simp [hc] at hstep
        · simp only [hk, if_false, Option.some.injEq] at hstep
          subst hstep
          simpa [issuedOn, closedOn, hk] using ih

theorem issuedOn_of_open (log : List Obs) (k : List Char) (cur : Option Nat)
    (h : openOperation log k = some cur) : issuedOn log k = closedOn log k ++ cur.toList := by
  have := issuedOn_of_foldl k log none cur h
  simpa using this

/-! #### The map -/

theorem lookup_append_new {β : Type} (k k' : List Char) (v : β) :
    ∀ m : List (List Char × β), (m ++ [(k, v)]).lookup k' =
      (m.lookup k').or (if k' = k then some v else none)
  | [] => by
    by_cases h : k' = k
    · simp [List.lookup, h]
    · have : (k' == k) = false := by simpa using h
      simp [List.lookup, h, this]
  | (a, b) :: m => by
    simp only [List.cons_append, List.lookup_cons]
    cases h : k' == a
    · simpa using lookup_append_new k k' v m
    · simp

theorem lookup_setQueue (k k' : List Char) (q : List PendingOperation) :
    ∀ m : List (List Char × List PendingOperation),
      (setQueue m k q).lookup k' = if k' = k then (m.lookup k').map (fun _ => q) else m.lookup k'
  | [] => by simp [setQueue]
  | (a, b) :: m => by
    have ih := lookup_setQueue k k' q m
    unfold setQueue at ih ⊢
    by_cases ha : a = k
    · subst ha
      simp only [List.map_cons, beq_self_eq_true, if_true, List.lookup_cons]
      cases hu : k' == a
      · simpa [hu] using ih
      · have : k' = a := by simpa using hu
        simp [this]
    · have ha' : (a == k) = false := by simpa using ha
      simp only [List.map_cons, ha', Bool.false_eq_true, if_false, List.lookup_cons]
      cases hu : k' == a
      · simpa using ih
      · have : k' = a := by simpa using hu
        subst this
        simp [ha]

theorem lookup_eraseQueue (k k' : List Char) :
    ∀ m : List (List Char × List PendingOperation),
      (eraseQueue m k).lookup k' = if k' = k then none else m.lookup k'
  | [] => by simp [eraseQueue]
  | (a, b) :: m => by
    have ih := lookup_eraseQueue k k' m
    unfold eraseQueue at ih ⊢
    by_cases ha : a = k
    · subst ha
      simp only [List.filter_cons, beq_self_eq_true, Bool.not_true, Bool.false_eq_true, if_false,
        List.lookup_cons]
      cases hu : k' == a
      · simpa [hu] using ih
      · have : k' = a := by simpa using hu
        simpa [this] using ih
    · have ha' : (a == k) = false := by simpa using ha
      simp only [List.filter_cons, ha', Bool.not_false, if_true, List.lookup_cons]
      cases hu : k' == a
      · simpa using ih
      · have : k' = a := by simpa using hu
        subst this
        simp [ha]

theorem lookup_updateOp (op : Nat) (f : PendingOperation → PendingOperation) (k : List Char) :
    ∀ m : List (List Char × List PendingOperation),
      (updateOp m op f).lookup k =
        (m.lookup k).map (fun q => q.map (fun o => if o.id == op then f o else o))
  | [] => by simp [updateOp]
  | (a, b) :: m => by
    have ih := lookup_updateOp op f k m
    unfold updateOp at ih ⊢
    simp only [List.map_cons, List.lookup_cons]
    cases hu : k == a
    · simpa using ih
    · simp

theorem lookup_eq_none_of_not_mem {β : Type} (k : List Char) :
    ∀ m : List (List Char × β), m.lookup k = none → k ∉ m.map (fun p => p.1)
  | [], _ => by simp
  | (a, b) :: m, h => by
    simp only [List.lookup_cons] at h
    cases hu : k == a
    · rw [hu] at h
      have hne : k ≠ a := by simpa using hu
      simp only [List.map_cons, List.mem_cons, not_or]
      exact ⟨hne, lookup_eq_none_of_not_mem k m h⟩
    · rw [hu] at h; exact absurd h (by simp)

theorem lookup_of_mem {β : Type} : ∀ (m : List (List Char × β)) (p : List Char × β),
    (m.map (fun p => p.1)).Nodup → p ∈ m → m.lookup p.1 = some p.2
  | [], _, _, h => by simp at h
  | (a, b) :: m, p, hnd, h => by
    simp only [List.map_cons, List.nodup_cons] at hnd
    simp only [List.lookup_cons]
    rcases List.mem_cons.1 h with rfl | h
    · simp
    · have hne : (p.1 == a) = false := by
        have : p.1 ≠ a := fun e => hnd.1 (e ▸ List.mem_map_of_mem (fun p => p.1) h)
        simpa using this
      rw [hne]
      exact lookup_of_mem m p hnd.2 h

theorem mem_of_lookup {β : Type} (k : List Char) (v : β) :
    ∀ m : List (List Char × β), m.lookup k = some v → (k, v) ∈ m
  | [], h => by simp at h
  | (a, b) :: m, h => by
    simp only [List.lookup_cons] at h
    cases hu : k == a
    · rw [hu] at h; exact List.mem_cons_of_mem _ (mem_of_lookup k v m h)
    · rw [hu] at h
      have : k = a := by simpa using hu
      simp only [Option.some.injEq] at h
      subst this h
      exact List.mem_cons_self _ _

theorem findOp_some (m : List (List Char × List PendingOperation)) (op : Nat)
    (o : PendingOperation) (h : findOp m op = some o) :
    o.id = op ∧ ∃ p ∈ m, o ∈ p.2 := by
  unfold findOp at h
  have h1 := List.find?_some h
  have h2 := List.mem_of_find?_eq_some h
  rw [List.mem_flatMap] at h2
  exact ⟨by simpa using h1, h2⟩

/-! #### The invariant under the elementary changes of state -/

theorem queueOf_modifyOp (op : Nat) (f : PendingOperation → PendingOperation) (s : State)
    (k : List Char) :
    queueOf (modifyOp op f s) k = (queueOf s k).map (fun o => if o.id == op then f o else o) := by
  unfold queueOf modifyOp
  simp only [lookup_updateOp]
  cases s.active_entries_map_.lookup k <;> simp

theorem ids_map_update (op : Nat) (f : PendingOperation → PendingOperation)
    (hf : ∀ o, (f o).id = o.id) (q : List PendingOperation) :
    (q.map (fun o => if o.id == op then f o else o)).map (fun o => o.id) =
      q.map (fun o => o.id) := by
  rw [List.map_map]
  apply List.map_congr_left
  intro o _
  simp only [Function.comp]
  split <;> simp [hf]

theorem frontOf_modifyOp (op : Nat) (f : PendingOperation → PendingOperation)
    (hf : ∀ o, (f o).id = o.id) (s : State) (k : List Char) :
    frontOf (modifyOp op f s) k = frontOf s k := by
  unfold frontOf
  rw [queueOf_modifyOp]
  cases queueOf s k with
  | nil => rfl
  | cons o q =>
    simp only [List.map_cons, List.head?_cons, Option.map_some']
    split <;> simp [hf]

theorem inv_modifyOp (hole : Option (List Char)) (op : Nat)
    (f : PendingOperation → PendingOperation)
    (hf : ∀ o, (f o).id = o.id ∧ (f o).key_ = o.key_) (s : State) (h : Inv hole s) :
    Inv hole (modifyOp op f s) := by
  obtain ⟨h1, h2, h3, h4, h5, h6, h7, h8, h9, h10⟩ := h
  refine ⟨?_, ?_, ?_, ?_, h5, h6, h7, h8, h9, h10⟩
  · have : (updateOp s.active_entries_map_ op f).map (fun p => p.1) =
        s.active_entries_map_.map (fun p => p.1) := by
      simp [updateOp, List.map_map, Function.comp]
    show ((updateOp s.active_entries_map_ op f).map (fun p => p.1)).Nodup
    rw [this]; exact h1
  · intro p hp
    have hp' : p ∈ updateOp s.active_entries_map_ op f := hp
    unfold updateOp at hp'
    rw [List.mem_map] at hp'
    obtain ⟨p₀, hp₀, rfl⟩ := hp'
    obtain ⟨hne, hkey⟩ := h2 p₀ hp₀
    refine ⟨by simpa using hne, ?_⟩
    intro o ho
    rw [List.mem_map] at ho
    obtain ⟨o₀, ho₀, rfl⟩ := ho
    split
    · rw [(hf o₀).2]; exact hkey o₀ ho₀
    · exact hkey o₀ ho₀
  · intro k
    rw [queueOf_modifyOp, ids_map_update op f (fun o => (hf o).1)]
    exact h3 k
  · intro k
    rw [frontOf_modifyOp op f (fun o => (hf o).1)]
    exact h4 k

theorem inv_defer (hole : Option (List Char)) (r : Request) (s : State) (h : Inv hole s)
    (hr : ∃ k, r.op ∈ issuedOn s.log k) : Inv hole (defer r s) := by
  obtain ⟨h1, h2, h3, h4, h5, h6, h7, h8, h9, h10⟩ := h
  refine ⟨h1, h2, h3, h4, h5, h6, h7, h8, h9, ?_⟩
  intro r' hr'
  have hr'' : r' ∈ s.in_flight ++ [r] := hr'
  rcases List.mem_append.1 hr'' with h | h
  · exact h10 r' h
  · simp only [List.mem_singleton] at h
    subst h
    exact hr

/-- The invariant reads a state through its map, its counters and lists of
operations, and the three projections of its log. -/
theorem inv_congr (hole : Option (List Char)) (s s' : State)
    (hmap : s'.active_entries_map_ = s.active_entries_map_) (hnext : s.next_id ≤ s'.next_id)
    (hpend : s'.pending_ops_ = s.pending_ops_) (hfl : ∀ r ∈ s'.in_flight, r ∈ s.in_flight)
    (henq : ∀ k, enqueuedOn s'.log k = enqueuedOn s.log k)
    (hiss : ∀ k, issuedOn s'.log k = issuedOn s.log k)
    (hcl : ∀ k, closedOn s'.log k = closedOn s.log k)
    (hopen : ∀ k, openOperation s'.log k = openOperation s.log k)
    (h : Inv hole s) : Inv hole s' := by
  obtain ⟨h1, h2, h3, h4, h5, h6, h7, h8, h9, h10⟩ := h
  refine ⟨by rw [hmap]; exact h1, by rw [hmap]; exact h2, ?_, ?_, ?_, ?_, ?_, ?_,
    by rw [hpend]; exact h9, ?_⟩
  · intro k; rw [henq, hcl]; unfold queueOf; rw [hmap]; exact h3 k
  · intro k; rw [hopen]; unfold frontOf queueOf; rw [hmap]; exact h4 k
  · intro k; rw [henq]; exact h5 k
  · intro k k' id; rw [henq, henq]; exact h6 k k' id
  · intro k id hid; rw [henq] at hid; exact Nat.lt_of_lt_of_le (h7 k id hid) hnext
  · intro o ho
    rw [hpend] at ho
    refine ⟨Nat.lt_of_lt_of_le (h8 o ho).1 hnext, ?_⟩
    intro k; rw [henq]; exact (h8 o ho).2 k
  · intro r hr
    obtain ⟨k, hk⟩ := h10 r (hfl r hr)
    exact ⟨k, by rw [hiss]; exact hk⟩

theorem inv_read_callback (hole : Option (List Char)) (cb : Nat) (t : Int) (d : List Nat)
    (s : State) (h : Inv hole s) : Inv hole (observe (.read_callback cb t d) s) := by
  refine inv_congr hole s _ rfl (Nat.le_refl _) rfl (fun _ hr => hr) ?_ ?_ ?_ ?_ h
  · intro k; simp [observe, enqueuedOn_append, enqueuedOn]
  · intro k; simp [observe, issuedOn_append, issuedOn]
  · intro k; simp [observe, closedOn_append, closedOn]
  · intro k
    simp only [observe, openOperation_append]
    cases openOperation s.log k <;> rfl

theorem inv_backend_callback (hole : Option (List Char)) (cb : Nat) (b : Bool)
    (s : State) (h : Inv hole s) : Inv hole (observe (.backend_callback cb b) s) := by
  refine inv_congr hole s _ rfl (Nat.le_refl _) rfl (fun _ hr => hr) ?_ ?_ ?_ ?_ h
  · intro k; simp [observe, enqueuedOn_append, enqueuedOn]
  · intro k; simp [observe, issuedOn_append, issuedOn]
  · intro k; simp [observe, closedOn_append, closedOn]
  · intro k
    simp only [observe, openOperation_append]
    cases openOperation s.log k <;> rfl

theorem enqueuedOn_observe (s : State) (o : Obs) (k : List Char) :
    enqueuedOn (observe o s).log k = enqueuedOn s.log k ++ enqueuedOn [o] k := by
  simp [observe, enqueuedOn_append]

theorem issuedOn_observe (s : State) (o : Obs) (k : List Char) :
    issuedOn (observe o s).log k = issuedOn s.log k ++ issuedOn [o] k := by
  simp [observe, issuedOn_append]

theorem closedOn_observe (s : State) (o : Obs) (k : List Char) :
    closedOn (observe o s).log k = closedOn s.log k ++ closedOn [o] k := by
  simp [observe, closedOn_append]

theorem openOperation_observe (s : State) (o : Obs) (k : List Char) :
    openOperation (observe o s).log k = serialStep k (openOperation s.log k) o := by
  simp [observe, openOperation_append]

/-- The map after `DequeueOperation` took the front off the queue of `key`. -/
theorem dequeue_map (m : List (List Char × List PendingOperation)) (key : List Char)
    (front : PendingOperation) (rest : List PendingOperation)
    (hnd : (m.map (fun p => p.1)).Nodup)
    (hq : ∀ p ∈ m, p.2 ≠ [] ∧ ∀ o ∈ p.2, o.key_ = p.1)
    (hl : m.lookup key = some (front :: rest)) :
    let m' := if rest.isEmpty then eraseQueue m key else setQueue m key rest
    (m'.map (fun p => p.1)).Nodup ∧
      (∀ p ∈ m', p.2 ≠ [] ∧ ∀ o ∈ p.2, o.key_ = p.1) ∧
      ∀ k, (m'.lookup k).getD [] = if k = key then rest else (m.lookup k).getD [] := by
  intro m'
  have hmem := mem_of_lookup key (front :: rest) m hl
  by_cases hr : rest = []
  · have hm' : m' = eraseQueue m key := by simp [m', hr]
    rw [hm']
    refine ⟨?_, ?_, ?_⟩
    · unfold eraseQueue
      exact hnd.sublist ((List.filter_sublist _).map _)
    · intro p hp
      unfold eraseQueue at hp
      exact hq p (List.mem_filter.1 hp).1
    · intro k
      rw [lookup_eraseQueue]
      by_cases hk : k = key <;> simp [hk, hr]
  · have hm' : m' = setQueue m key rest := by
      have : rest.isEmpty = false := by cases rest <;> simp at hr ⊢
      simp [m', this]
    rw [hm']
    refine ⟨?_, ?_, ?_⟩
    · have : (setQueue m key rest).map (fun p => p.1) = m.map (fun p => p.1) := by
        unfold setQueue
        rw [List.map_map]
        apply List.map_congr_left
        intro p _
        simp only [Function.comp]
        split <;> rfl
      rw [this]; exact hnd
    · intro p hp
      unfold setQueue at hp
      rw [List.mem_map] at hp
      obtain ⟨p₀, hp₀, rfl⟩ := hp
      split
      · next hk =>
        have hk' : p₀.1 = key := by simpa using hk
        refine ⟨hr, ?_⟩
        intro o ho
        rw [hk']
        exact (hq _ hmem).2 o (List.mem_cons_of_mem _ ho)
      · exact hq p₀ hp₀
    · intro k
      rw [lookup_setQueue]
      by_cases hk : k = key
      · subst hk; simp [hl]
      · simp [hk]

theorem inv_close (s : State) (key : List Char) (front : PendingOperation)
    (rest : List PendingOperation) (m' : List (List Char × List PendingOperation))
    (h : Inv none s) (hl : s.active_entries_map_.lookup key = some (front :: rest))
    (hm' : m' = if rest.isEmpty then eraseQueue s.active_entries_map_ key
      else setQueue s.active_entries_map_ key rest) :
    Inv (some key) (observe (.closed front.id key) { s with active_entries_map_ := m' }) := by
  obtain ⟨h1, h2, h3, h4, h5, h6, h7, h8, h9, h10⟩ := h
  obtain ⟨g1, g2, g3⟩ := dequeue_map s.active_entries_map_ key front rest h1 h2 hl
  rw [← hm'] at g1 g2 g3
  have hq : queueOf s key = front :: rest := by simp [queueOf, hl]
  have henq : ∀ k, enqueuedOn (observe (.closed front.id key)
      { s with active_entries_map_ := m' }).log k = enqueuedOn s.log k := by
    intro k; rw [enqueuedOn_observe]; simp [enqueuedOn]
  have hiss : ∀ k, issuedOn (observe (.closed front.id key)
      { s with active_entries_map_ := m' }).log k = issuedOn s.log k := by
    intro k; rw [issuedOn_observe]; simp [issuedOn]
  refine ⟨g1, g2, ?_, ?_, ?_, ?_, ?_, ?_, h9, ?_⟩
  · intro k
    rw [henq, closedOn_observe, h3 k]
    show _ = _ ++ ((m'.lookup k).getD []).map (fun o => o.id)
    rw [g3 k]
    by_cases hk : k = key
    · subst hk; simp [closedOn, hq]
    · have hk' : ¬ key = k := fun e => hk e.symm
      simp [closedOn, hk, hk', queueOf]
  · intro k
    rw [openOperation_observe]
    show serialStep k (openOperation s.log k) _ =
      some (if some key = some k then none else ((m'.lookup k).getD []).head?.map (fun o => o.id))
    rw [h4 k, g3 k]
    by_cases hk : k = key
    · subst hk; simp [serialStep, frontOf, hq]
    · have hk' : ¬ key = k := fun e => hk e.symm
      simp [serialStep, hk, hk', frontOf, queueOf]
  · intro k; rw [henq]; exact h5 k
  · intro k k' id; rw [henq, henq]; exact h6 k k' id
  · intro k id hid; rw [henq] at hid; exact h7 k id hid
  · intro o ho
    refine ⟨(h8 o ho).1, ?_⟩
    intro k; rw [henq]; exact (h8 o ho).2 k
  · intro r hr
    obtain ⟨k, hk⟩ := h10 r hr
    exact ⟨k, by rw [hiss]; exact hk⟩

theorem inv_issue (s : State) (key : List Char) (front : PendingOperation)
    (rest : List PendingOperation) (h : Inv (some key) s)
    (hl : s.active_entries_map_.lookup key = some (front :: rest)) :
    Inv none (observe (.issued front.id key) s) := by
  obtain ⟨h1, h2, h3, h4, h5, h6, h7, h8, h9, h10⟩ := h
  have hq : queueOf s key = front :: rest := by simp [queueOf, hl]
  have henq : ∀ k, enqueuedOn (observe (.issued front.id key) s).log k = enqueuedOn s.log k := by
    intro k; rw [enqueuedOn_observe]; simp [enqueuedOn]
  have hcl : ∀ k, closedOn (observe (.issued front.id key) s).log k = closedOn s.log k := by
    intro k; rw [closedOn_observe]; simp [closedOn]
  refine ⟨h1, h2, ?_, ?_, ?_, ?_, ?_, ?_, h9, ?_⟩
  · intro k; rw [henq, hcl]; exact h3 k
  · intro k
    rw [openOperation_observe, h4 k]
    show _ = some (if none = some k then none else frontOf s k)
    by_cases hk : k = key
    · subst hk; simp [serialStep, frontOf, hq]
    · have hk' : ¬ key = k := fun e => hk e.symm
      simp [serialStep, hk, hk']
  · intro k; rw [henq]; exact h5 k
  · intro k k' id; rw [henq, henq]; exact h6 k k' id
  · intro k id hid; rw [henq] at hid; exact h7 k id hid
  · intro o ho
    refine ⟨(h8 o ho).1, ?_⟩
    intro k; rw [henq]; exact (h8 o ho).2 k
  · intro r hr
    obtain ⟨k, hk⟩ := h10 r hr
    exact ⟨k, by rw [issuedOn_observe]; exact List.mem_append_left _ hk⟩

theorem inv_hole_empty (s : State) (key : List Char) (h : Inv (some key) s)
    (hl : s.active_entries_map_.lookup key = none) : Inv none s := by
  obtain ⟨h1, h2, h3, h4, h5, h6, h7, h8, h9, h10⟩ := h
  refine ⟨h1, h2, h3, ?_, h5, h6, h7, h8, h9, h10⟩
  intro k
  rw [h4 k]
  by_cases hk : k = key
  · subst hk; simp [frontOf, queueOf, hl]
  · have hk' : ¬ key = k := fun e => hk e.symm
    simp [hk']

theorem inv_enqueue_core (hole : Option (List Char)) (s : State) (op : PendingOperation)
    (m' : List (List Char × List PendingOperation)) (h : Inv none s)
    (g1 : (m'.map (fun p => p.1)).Nodup)
    (g2 : ∀ p ∈ m', p.2 ≠ [] ∧ ∀ o ∈ p.2, o.key_ = p.1)
    (g3 : ∀ k, (m'.lookup k).getD [] =
      if k = op.key_ then queueOf s k ++ [op] else queueOf s k)
    (g4 : ∀ k, (if hole = some k then none
      else ((m'.lookup k).getD []).head?.map (fun o => o.id)) = frontOf s k)
    (hfresh : ∀ k, op.id ∉ enqueuedOn s.log k) (hlt : op.id < s.next_id)
    (hpend : ∀ o ∈ s.pending_ops_, o.id ≠ op.id) :
    Inv hole (observe (.enqueued op.id op.key_) { s with active_entries_map_ := m' }) := by
  obtain ⟨h1, h2, h3, h4, h5, h6, h7, h8, h9, h10⟩ := h
  have henq : ∀ k, enqueuedOn (observe (.enqueued op.id op.key_)
      { s with active_entries_map_ := m' }).log k =
      enqueuedOn s.log k ++ (if k = op.key_ then [op.id] else []) := by
    intro k
    rw [enqueuedOn_observe]
    by_cases hk : k = op.key_
    · subst hk; simp [enqueuedOn]
    · have hk' : ¬ op.key_ = k := fun e => hk e.symm
      simp [enqueuedOn, hk, hk']
  have hmem : ∀ k id, id ∈ enqueuedOn (observe (.enqueued op.id op.key_)
      { s with active_entries_map_ := m' }).log k →
      id ∈ enqueuedOn s.log k ∨ (k = op.key_ ∧ id = op.id) := by
    intro k id hid
    rw [henq] at hid
    rcases List.mem_append.1 hid with hid | hid
    · exact Or.inl hid
    · by_cases hk : k = op.key_
      · simp only [hk, if_true, List.mem_singleton] at hid
        exact Or.inr ⟨hk, hid⟩
      · simp [hk] at hid
  have hcl : ∀ k, closedOn (observe (.enqueued op.id op.key_)
      { s with active_entries_map_ := m' }).log k = closedOn s.log k := by
    intro k; rw [closedOn_observe]; simp [closedOn]
  have hiss : ∀ k, issuedOn (observe (.enqueued op.id op.key_)
      { s with active_entries_map_ := m' }).log k = issuedOn s.log k := by
    intro k; rw [issuedOn_observe]; simp [issuedOn]
  refine ⟨g1, g2, ?_, ?_, ?_, ?_, ?_, ?_, h9, ?_⟩
  · intro k
    rw [henq, hcl, h3 k]
    show _ = _ ++ ((m'.lookup k).getD []).map (fun o => o.id)
    rw [g3 k]
    by_cases hk : k = op.key_ <;> simp [hk]
  · intro k
    rw [openOperation_observe, h4 k]
    show _ = some (if hole = some k then none
      else ((m'.lookup k).getD []).head?.map (fun o => o.id))
    rw [g4 k]
    simp [serialStep]
  · intro k
    rw [henq]
    by_cases hk : k = op.key_
    · simp only [hk, if_true]
      rw [List.nodup_append]
      refine ⟨h5 _, by simp, ?_⟩
      intro a ha hb
      simp only [List.mem_singleton] at hb
      subst hb
      exact hfresh _ ha
    · simp only [hk, if_false, List.append_nil]; exact h5 k
  · intro k k' id hid hid'
    rcases hmem k id hid with ha | ⟨ha, hb⟩ <;> rcases hmem k' id hid' with hc | ⟨hc, hd⟩
    · exact h6 k k' id ha hc
    · subst hd; exact absurd ha (hfresh k)
    · subst hb; exact absurd hc (hfresh k')
    · rw [ha, hc]
  · intro k id hid
    rcases hmem k id hid with ha | ⟨_, hb⟩
    · exact h7 k id ha
    · rw [hb]; exact hlt
  · intro o ho
    refine ⟨(h8 o ho).1, ?_⟩
    intro k hk
    rcases hmem k o.id hk with ha | ⟨_, hb⟩
    · exact (h8 o ho).2 k ha
    · exact hpend o ho hb
  · intro r hr
    obtain ⟨k, hk⟩ := h10 r hr
    exact ⟨k, by rw [hiss]; exact hk⟩

theorem inv_enqueue_existing (s : State) (op : PendingOperation) (q : List PendingOperation)
    (h : Inv none s) (hl : s.active_entries_map_.lookup op.key_ = some q)
    (hfresh : ∀ k, op.id ∉ enqueuedOn s.log k) (hlt : op.id < s.next_id)
    (hpend : ∀ o ∈ s.pending_ops_, o.id ≠ op.id) :
    Inv none (observe (.enqueued op.id op.key_)
      { s with active_entries_map_ := setQueue s.active_entries_map_ op.key_ (q ++ [op]) }) := by
  have hmemq := mem_of_lookup _ _ _ hl
  have hqne : q ≠ [] := (h.2.1 _ hmemq).1
  have hqk : ∀ o ∈ q, o.key_ = op.key_ := (h.2.1 _ hmemq).2
  refine inv_enqueue_core none s op _ h ?_ ?_ ?_ ?_ hfresh hlt hpend
  · have : (setQueue s.active_entries_map_ op.key_ (q ++ [op])).map (fun p => p.1) =
        s.active_entries_map_.map (fun p => p.1) := by
      unfold setQueue
      rw [List.map_map]
      apply List.map_congr_left
      intro p _
      simp only [Function.comp]
      split <;> rfl
    rw [this]; exact h.1
  · intro p hp
    unfold setQueue at hp
    rw [List.mem_map] at hp
    obtain ⟨p₀, hp₀, rfl⟩ := hp
    split
    · next hk =>
      have hk' : p₀.1 = op.key_ := by simpa using hk
      refine ⟨by simp, ?_⟩
      intro o ho
      rw [hk']
      rcases List.mem_append.1 ho with ho | ho
      · exact hqk o ho
      · simp only [List.mem_singleton] at ho; rw [ho]
    · exact h.2.1 p₀ hp₀
  · intro k
    rw [lookup_setQueue]
    by_cases hk : k = op.key_
    · subst hk; simp [queueOf, hl]
    · simp [hk, queueOf]
  · intro k
    rw [lookup_setQueue]
    by_cases hk : k = op.key_
    · subst hk
      cases q with
      | nil => exact absurd rfl hqne
      | cons a q' => simp [frontOf, queueOf, hl]
    · simp [hk, frontOf, queueOf]

theorem inv_enqueue_new (s : State) (op : PendingOperation)
    (h : Inv none s) (hl : s.active_entries_map_.lookup op.key_ = none)
    (hfresh : ∀ k, op.id ∉ enqueuedOn s.log k) (hlt : op.id < s.next_id)
    (hpend : ∀ o ∈ s.pending_ops_, o.id ≠ op.id) :
    Inv (some op.key_) (observe (.enqueued op.id op.key_)
      { s with active_entries_map_ := s.active_entries_map_ ++ [(op.key_, [op])] }) := by
  refine inv_enqueue_core (some op.key_) s op _ h ?_ ?_ ?_ ?_ hfresh hlt hpend
  · rw [List.map_append, List.nodup_append]
    refine ⟨h.1, by simp, ?_⟩
    intro a ha hb
    simp only [List.map_cons, List.map_nil, List.mem_singleton] at hb
    subst hb
    exact lookup_eq_none_of_not_mem _ _ hl ha
  · intro p hp
    rcases List.mem_append.1 hp with hp | hp
    · exact h.2.1 p hp
    · simp only [List.mem_singleton] at hp
      subst hp
      simp
  · intro k
    rw [lookup_append_new]
    by_cases hk : k = op.key_
    · subst hk; simp [queueOf, hl]
    · cases hk' : s.active_entries_map_.lookup k <;> simp [hk, queueOf, hk']
  · intro k
    by_cases hk : k = op.key_
    · subst hk; simp [frontOf, queueOf, hl]
    · have hk' : ¬ op.key_ = k := fun e => hk e.symm
      rw [lookup_append_new]
      cases hk'' : s.active_entries_map_.lookup k <;> simp [hk, hk', frontOf, queueOf, hk'']

/-! #### Operations that are issued are at the front -/

theorem keep_refl (s : State) : Keep s s := ⟨fun _ _ h => h, fun _ h => h⟩

theorem keep_trans {s₁ s₂ s₃ : State} (h₁ : Keep s₁ s₂) (h₂ : Keep s₂ s₃) : Keep s₁ s₃ :=
  ⟨fun op key h => h₂.1 op key (h₁.1 op key h), fun op h => h₂.2 op (h₁.2 op h)⟩

theorem keep_frame (s s' : State) (hmap : s'.active_entries_map_ = s.active_entries_map_)
    (hlog : s'.log = s.log) : Keep s s' := by
  refine ⟨?_, ?_⟩
  · intro op key h
    unfold Owned queueOf at *
    rw [hmap]; exact h
  · intro op h
    unfold Issued at *
    rw [hlog]; exact h

theorem keep_modifyOp (op : Nat) (f : PendingOperation → PendingOperation)
    (hf : ∀ o, (f o).id = o.id) (s : State) : Keep s (modifyOp op f s) := by
  refine ⟨?_, fun _ h => h⟩
  intro id key h
  obtain ⟨o, ho, hid⟩ := h
  unfold Owned
  rw [queueOf_modifyOp]
  refine ⟨_, List.mem_map_of_mem _ ho, ?_⟩
  split
  · rw [hf]; exact hid
  · exact hid

theorem keep_observe (o : Obs) (s : State) : Keep s (observe o s) := by
  refine ⟨fun _ _ h => h, ?_⟩
  intro op h
  obtain ⟨k, hk⟩ := h
  exact ⟨k, by rw [issuedOn_observe]; exact List.mem_append_left _ hk⟩

theorem owned_of_deref (s : State) (op : Nat) (o : PendingOperation) (h : Inv none s)
    (hd : deref s op = .ok o) : o.id = op ∧ Owned s op o.key_ := by
  unfold deref at hd
  split at hd
  · next o' hf =>
    simp only [Except.ok.injEq] at hd
    subst hd
    obtain ⟨hid, p, hp, hop⟩ := findOp_some _ _ _ hf
    refine ⟨hid, o', ?_, hid⟩
    have hl := lookup_of_mem _ p h.1 hp
    rw [(h.2.1 p hp).2 o' hop]
    simp [queueOf, hl, hop]
  · exact absurd hd (by simp)

/-- An operation that is in a queue and was issued is at the front of its
queue. -/
theorem front_of_issued (s : State) (op : Nat) (key : List Char) (h : Inv none s)
    (hown : Owned s op key) (hiss : Issued s op) :
    ∃ front rest, s.active_entries_map_.lookup key = some (front :: rest) ∧ front.id = op := by
  obtain ⟨h1, h2, h3, h4, h5, h6, h7, h8, h9, h10⟩ := h
  obtain ⟨o, ho, hid⟩ := hown
  obtain ⟨k, hk⟩ := hiss
  have henq : op ∈ enqueuedOn s.log key := by
    rw [h3 key]
    exact List.mem_append_right _ (by rw [← hid]; exact List.mem_map_of_mem _ ho)
  have hopen := issuedOn_of_open s.log k _ (h4 k)
  simp only [show (none : Option (List Char)) ≠ some k from by simp, if_false] at hopen
  have hsub : ∀ k', (frontOf s k').toList ⊆ (queueOf s k').map (fun o => o.id) := by
    intro k' x hx
    unfold frontOf at hx
    cases hq : queueOf s k' with
    | nil => simp [hq] at hx
    | cons a q => simp [hq] at hx; simp [hx]
  have henq' : op ∈ enqueuedOn s.log k := by
    rw [h3 k]
    rw [hopen] at hk
    rcases List.mem_append.1 hk with hk | hk
    · exact List.mem_append_left _ hk
    · exact List.mem_append_right _ (hsub k hk)
  have hkk : k = key := h6 k key op henq' henq
  subst hkk
  rw [hopen] at hk
  have hnd := h5 k
  rw [h3 k, List.nodup_append] at hnd
  have hin : op ∈ (queueOf s k).map (fun o => o.id) := by
    rw [← hid]; exact List.mem_map_of_mem _ ho
  rcases List.mem_append.1 hk with hk | hk
  · exact absurd hin (fun hin => hnd.2.2 hk hin)
  · unfold frontOf at hk
    unfold queueOf at hk ho
    cases hl : s.active_entries_map_.lookup k with
    | none => simp [hl] at ho
    | some q =>
      cases q with
      | nil => simp [hl] at ho
      | cons front rest =>
        simp [hl] at hk
        exact ⟨front, rest, rfl, hk.symm⟩

theorem close_inv (next : List Char → State → Except Fault State) (hnext : NextOK next)
    (o : PendingOperation) (s s' : State) (h : Inv none s) (hown : Owned s o.id o.key_)
    (hiss : Issued s o.id) (hr : CloseOperationAndIssueNext next o s = .ok s') : Inv none s' := by
  obtain ⟨front, rest, hl, hid⟩ := front_of_issued s o.id o.key_ h hown hiss
  unfold CloseOperationAndIssueNext at hr
  rw [bind_eq_ok] at hr
  obtain ⟨⟨r, s₁⟩, hdq, hr⟩ := hr
  simp only [DequeueOperation, hl] at hdq
  have hinv := inv_close s o.key_ front rest _ h hl rfl
  rw [hid] at hinv
  refine hnext o.key_ _ s' ?_ hr
  by_cases hre : rest.isEmpty = true
  · simp only [hre, if_true, Except.ok.injEq, Prod.mk.injEq] at hdq hinv
    rw [← hdq.2]; exact hinv
  · simp only [hre, Bool.false_eq_true, if_false, Except.ok.injEq, Prod.mk.injEq] at hdq hinv
    rw [← hdq.2]; exact hinv

/-! #### The handlers -/

theorem inv_frame (hole : Option (List Char)) (s s' : State)
    (hmap : s'.active_entries_map_ = s.active_entries_map_) (hnext : s'.next_id = s.next_id)
    (hpend : s'.pending_ops_ = s.pending_ops_) (hfl : s'.in_flight = s.in_flight)
    (hlog : s'.log = s.log) (h : Inv hole s) : Inv hole s' :=
  inv_congr hole s s' hmap (by rw [hnext]) hpend (fun r hr => by rw [hfl] at hr; exact hr)
    (fun k => by rw [hlog]) (fun k => by rw [hlog]) (fun k => by rw [hlog])
    (fun k => by rw [hlog]) h

theorem nextDecision_frame (op : Nat) (s : State) :
    (nextDecision op s).2.active_entries_map_ = s.active_entries_map_ ∧
      (nextDecision op s).2.next_id = s.next_id ∧
      (nextDecision op s).2.pending_ops_ = s.pending_ops_ ∧
      (nextDecision op s).2.in_flight = s.in_flight ∧
      (nextDecision op s).2.log = s.log ∧
      (nextDecision op s).2.backend_state_ = s.backend_state_ ∧
      (nextDecision op s).2.backend_ = s.backend_ ∧
      (nextDecision op s).2.store = s.store := by
  unfold nextDecision
  split <;> simp

theorem nextDecision_inv (hole : Option (List Char)) (op : Nat) (s : State) (h : Inv hole s) :
    Inv hole (nextDecision op s).2 ∧ Keep s (nextDecision op s).2 := by
  obtain ⟨h1, h2, h3, h4, h5, _⟩ := nextDecision_frame op s
  exact ⟨inv_frame hole s _ h1 h2 h3 h4 h5 h, keep_frame s _ h1 h5⟩

theorem defer_inv (r : Request) (s : State) (h : Inv none s) (hr : Issued s r.op) :
    Inv none (defer r s) := inv_defer none r s h hr

theorem DoomEntry_inv (o : PendingOperation) (s s' : State) (h : Inv none s)
    (hr : DoomEntry o s = .ok s') : Inv none s' ∧ Keep s s' := by
  unfold DoomEntry at hr
  split at hr
  · simp only [Except.ok.injEq] at hr
    subst hr
    exact ⟨inv_frame none s _ rfl rfl rfl rfl rfl h, keep_frame s _ rfl rfl⟩
  · exact absurd hr (by simp)

theorem runReadCallback_inv (op : Nat) (t : Int) (d : List Nat) (s s' : State) (h : Inv none s)
    (hr : runReadCallback op t d s = .ok s') : Inv none s' ∧ Keep s s' := by
  unfold runReadCallback at hr
  rw [bind_eq_ok] at hr
  obtain ⟨o, _, hr⟩ := hr
  split at hr
  · exact absurd hr (by simp)
  · next cb _ =>
    simp only [pure, Except.pure, Except.ok.injEq] at hr
    subst hr
    constructor
    · apply inv_read_callback
      apply inv_modifyOp
      · exact fun _ => ⟨rfl, rfl⟩
      · exact h
    · refine keep_trans ?_ (keep_observe _ _)
      apply keep_modifyOp
      exact fun _ => rfl

theorem WriteResponseTimeComplete_inv (op : Nat) (rv : Int) (s s' : State) (h : Inv none s)
    (hr : WriteResponseTimeComplete op rv s = .ok s') : Inv none s' ∧ Keep s s' := by
  unfold WriteResponseTimeComplete at hr
  split at hr
  · rw [bind_eq_ok] at hr
    obtain ⟨o, _, hr⟩ := hr
    simp only [pure, Except.pure, Except.ok.injEq] at hr
    subst hr
    constructor
    · apply inv_modifyOp
      · exact fun _ => ⟨rfl, rfl⟩
      · exact h
    · apply keep_modifyOp
      exact fun _ => rfl
  · simp only [pure, Except.pure, Except.ok.injEq] at hr
    subst hr
    exact ⟨h, keep_refl s⟩

theorem completeWriteResponseTime_inv (op : Nat) (key : List Char) (time : Int) (ok : Bool)
    (s s' : State) (h : Inv none s)
    (hr : completeWriteResponseTime op key time ok s = .ok s') : Inv none s' ∧ Keep s s' := by
  unfold completeWriteResponseTime at hr
  rcases hb : Backend.WriteResponseTime s.store key time ok with ⟨rv, store⟩
  rw [hb] at hr
  obtain ⟨hi, hk⟩ := WriteResponseTimeComplete_inv op rv { s with store := store } s'
    (inv_frame none s _ rfl rfl rfl rfl rfl h) hr
  exact ⟨hi, keep_trans (keep_frame s _ rfl rfl) hk⟩

theorem WriteDataComplete_inv (next : List Char → State → Except Fault State)
    (hnext : NextOK next) (op : Nat) (rv : Int) (s s' : State) (h : Inv none s)
    (hiss : Issued s op) (hr : WriteDataComplete next op rv s = .ok s') : Inv none s' := by
  unfold WriteDataComplete at hr
  rw [bind_eq_ok] at hr
  obtain ⟨o, hd, hr⟩ := hr
  obtain ⟨hid, hown⟩ := owned_of_deref s op o h hd
  split at hr
  · exact absurd hr (by simp)
  · rw [bind_eq_ok] at hr
    obtain ⟨s₁, hs₁, hr⟩ := hr
    have h₁ : Inv none s₁ ∧ Keep s s₁ := by
      split at hs₁
      · exact DoomEntry_inv o s s₁ h hs₁
      · simp only [pure, Except.pure, Except.ok.injEq] at hs₁
        subst hs₁
        exact ⟨h, keep_refl s⟩
    exact close_inv next hnext o s₁ s' h₁.1 (h₁.2.1 _ _ (hid ▸ hown)) (h₁.2.2 _ (hid ▸ hiss)) hr

theorem completeWriteData_inv (next : List Char → State → Except Fault State)
    (hnext : NextOK next) (op : Nat) (key : List Char) (data : List Nat) (ok : Bool)
    (s s' : State) (h : Inv none s) (hiss : Issued s op)
    (hr : completeWriteData next op key data ok s = .ok s') : Inv none s' := by
  unfold completeWriteData at hr
  rcases hb : Backend.WriteData s.store key data ok with ⟨rv, store⟩
  rw [hb] at hr
  exact WriteDataComplete_inv next hnext op rv { s with store := store } s'
    (inv_frame none s _ rfl rfl rfl rfl rfl h) hiss hr

theorem OpenCompleteForWrite_inv (next : List Char → State → Except Fault State)
    (hnext : NextOK next) (op : Nat) (entry_result : EntryResult) (s s' : State)
    (h : Inv none s) (hiss : Issued s op)
    (hr : OpenCompleteForWrite next op entry_result s = .ok s') : Inv none s' := by
  unfold OpenCompleteForWrite at hr
  rw [bind_eq_ok] at hr
  obtain ⟨o, hd, hr⟩ := hr
  obtain ⟨hid, hown⟩ := owned_of_deref s op o h hd
  split at hr
  · exact close_inv next hnext o s s' h (hid ▸ hown) (hid ▸ hiss) hr
  · split at hr
    · exact absurd hr (by simp)
    · next time _ =>
      rw [bind_eq_ok] at hr
      obtain ⟨s₁, hs₁, hr⟩ := hr
      have hdec := nextDecision_inv none op s h
      have h₁ : Inv none s₁ ∧ Keep s s₁ := by
        split at hs₁
        · next s₀ hnd =>
          simp only [pure, Except.pure, Except.ok.injEq] at hs₁
          subst hs₁
          rw [hnd] at hdec
          exact ⟨defer_inv _ _ hdec.1 (hdec.2.2 _ hiss),
            keep_trans hdec.2 (keep_frame s₀ _ rfl rfl)⟩
        · next ok s₀ hnd =>
          rw [hnd] at hdec
          obtain ⟨hi, hk⟩ := completeWriteResponseTime_inv op o.key_ time ok s₀ s₁ hdec.1 hs₁
          exact ⟨hi, keep_trans hdec.2 hk⟩
      rw [bind_eq_ok] at hr
      obtain ⟨o₁, _, hr⟩ := hr
      split at hr
      · exact absurd hr (by simp)
      · next data _ =>
        have hdec₁ := nextDecision_inv none op s₁ h₁.1
        split at hr
        · next s₂ hnd =>
          simp only [pure, Except.pure, Except.ok.injEq] at hr
          subst hr
          rw [hnd] at hdec₁
          exact defer_inv _ _ hdec₁.1 (hdec₁.2.2 _ (h₁.2.2 _ hiss))
        · next ok s₂ hnd =>
          rw [hnd] at hdec₁
          exact completeWriteData_inv next hnext op _ data ok s₂ s' hdec₁.1
            (hdec₁.2.2 _ (h₁.2.2 _ hiss)) hr

theorem completeOpenOrCreateEntry_inv (next : List Char → State → Except Fault State)
    (hnext : NextOK next) (op : Nat) (key : List Char) (ok : Bool) (s s' : State)
    (h : Inv none s) (hiss : Issued s op)
    (hr : completeOpenOrCreateEntry next op key ok s = .ok s') : Inv none s' := by
  unfold completeOpenOrCreateEntry at hr
  rcases hb : Backend.OpenOrCreateEntry s.store key ok with ⟨result, store⟩
  rw [hb] at hr
  exact OpenCompleteForWrite_inv next hnext op result { s with store := store } s'
    (inv_frame none s _ rfl rfl rfl rfl rfl h) hiss hr

theorem WriteEntryImpl_inv (next : List Char → State → Except Fault State)
    (hnext : NextOK next) (o : PendingOperation) (s s' : State) (h : Inv none s)
    (hown : Owned s o.id o.key_) (hiss : Issued s o.id)
    (hr : WriteEntryImpl next o s = .ok s') : Inv none s' := by
  unfold WriteEntryImpl at hr
  split at hr
  · exact close_inv next hnext o s s' h hown hiss hr
  · split at hr
    · exact absurd hr (by simp)
    · have hdec := nextDecision_inv none o.id s h
      split at hr
      · next s₀ hnd =>
        simp only [pure, Except.pure, Except.ok.injEq] at hr
        subst hr
        rw [hnd] at hdec
        exact defer_inv _ _ hdec.1 (hdec.2.2 _ hiss)
      · next ok s₀ hnd =>
        rw [hnd] at hdec
        exact completeOpenOrCreateEntry_inv next hnext o.id o.key_ ok s₀ s' hdec.1
          (hdec.2.2 _ hiss) hr

theorem ReadResponseTimeComplete_inv (op : Nat) (rv : Int) (s s' : State) (h : Inv none s)
    (hr : ReadResponseTimeComplete op rv s = .ok s') : Inv none s' ∧ Keep s s' := by
  unfold ReadResponseTimeComplete at hr
  split at hr
  · rw [bind_eq_ok] at hr
    obtain ⟨o, _, hr⟩ := hr
    simp only [pure, Except.pure, Except.ok.injEq] at hr
    subst hr
    constructor
    · apply inv_modifyOp
      · exact fun _ => ⟨rfl, rfl⟩
      · exact h
    · apply keep_modifyOp
      exact fun _ => rfl
  · simp only [pure, Except.pure, Except.ok.injEq] at hr
    subst hr
    exact ⟨h, keep_refl s⟩

theorem completeReadResponseTime_inv (op : Nat) (key : List Char) (ok : Bool)
    (s s' : State) (h : Inv none s)
    (hr : completeReadResponseTime op key ok s = .ok s') : Inv none s' ∧ Keep s s' := by
  unfold completeReadResponseTime at hr
  split at hr
  · next rv time _ =>
    have hm : Inv none (modifyOp op
        (fun o => { o with time_buffer_ := o.time_buffer_.map (fun _ => time) }) s) := by
      apply inv_modifyOp
      · exact fun _ => ⟨rfl, rfl⟩
      · exact h
    obtain ⟨hi, hk⟩ := ReadResponseTimeComplete_inv op rv _ s' hm hr
    refine ⟨hi, keep_trans ?_ hk⟩
    apply keep_modifyOp
    exact fun _ => rfl
  · exact ReadResponseTimeComplete_inv op _ s s' h hr

theorem ReadDataComplete_inv (next : List Char → State → Except Fault State)
    (hnext : NextOK next) (op : Nat) (rv : Int) (s s' : State) (h : Inv none s)
    (hiss : Issued s op) (hr : ReadDataComplete next op rv s = .ok s') : Inv none s' := by
  unfold ReadDataComplete at hr
  rw [bind_eq_ok] at hr
  obtain ⟨o, hd, hr⟩ := hr
  obtain ⟨hid, hown⟩ := owned_of_deref s op o h hd
  split at hr
  · exact absurd hr (by simp)
  · rw [bind_eq_ok] at hr
    obtain ⟨s₁, hs₁, hr⟩ := hr
    have hfail : ∀ s₁, (runReadCallback op 0 [] s >>= DoomEntry o) = .ok s₁ →
        Inv none s₁ ∧ Keep s s₁ := by
      intro s₁ hs₁
      rw [bind_eq_ok] at hs₁
      obtain ⟨s₀, hs₀, hs₁⟩ := hs₁
      obtain ⟨hi₀, hk₀⟩ := runReadCallback_inv op 0 [] s s₀ h hs₀
      obtain ⟨hi₁, hk₁⟩ := DoomEntry_inv o s₀ s₁ hi₀ hs₁
      exact ⟨hi₁, keep_trans hk₀ hk₁⟩
    have h₁ : Inv none s₁ ∧ Keep s s₁ := by
      split at hs₁
      · exact hfail s₁ hs₁
      · split at hs₁
        · exact hfail s₁ hs₁
        · exact runReadCallback_inv op _ _ s s₁ h hs₁
    exact close_inv next hnext o s₁ s' h₁.1 (h₁.2.1 _ _ (hid ▸ hown)) (h₁.2.2 _ (hid ▸ hiss)) hr

theorem completeReadData_inv (next : List Char → State → Except Fault State)
    (hnext : NextOK next) (op : Nat) (key : List Char) (len : Nat) (ok : Bool)
    (s s' : State) (h : Inv none s) (hiss : Issued s op)
    (hr : completeReadData next op key len ok s = .ok s') : Inv none s' := by
  unfold completeReadData at hr
  rcases hb : Backend.ReadData s.store key len ok with ⟨rv, bytes⟩
  rw [hb] at hr
  refine ReadDataComplete_inv next hnext op rv _ s' ?_ ?_ hr
  · apply inv_modifyOp
    · exact fun _ => ⟨rfl, rfl⟩
    · exact h
  · exact hiss

theorem OpenCompleteForRead_inv (next : List Char → State → Except Fault State)
    (hnext : NextOK next) (op : Nat) (entry_result : EntryResult) (s s' : State)
    (h : Inv none s) (hiss : Issued s op)
    (hr : OpenCompleteForRead next op entry_result s = .ok s') : Inv none s' := by
  unfold OpenCompleteForRead at hr
  rw [bind_eq_ok] at hr
  obtain ⟨o, hd, hr⟩ := hr
  obtain ⟨hid, hown⟩ := owned_of_deref s op o h hd
  split at hr
  · rw [bind_eq_ok] at hr
    obtain ⟨s₁, hs₁, hr⟩ := hr
    obtain ⟨hi, hk⟩ := runReadCallback_inv op 0 [] s s₁ h hs₁
    exact close_inv next hnext o s₁ s' hi (hk.1 _ _ (hid ▸ hown)) (hk.2 _ (hid ▸ hiss)) hr
  · simp only [] at hr
    rw [bind_eq_ok] at hr
    obtain ⟨s₁, hs₁, hr⟩ := hr
    have hm : Inv none (modifyOp op (fun x => { x with
        time_buffer_ := some 0,
        data_buffer_ := some (List.replicate (Backend.GetDataSize s.store o.key_) 0) }) s) := by
      apply inv_modifyOp
      · exact fun _ => ⟨rfl, rfl⟩
      · exact h
    have hdec := nextDecision_inv none op _ hm
    have h₁ : Inv none s₁ ∧ Issued s₁ op := by
      split at hs₁
      · next s₀ hnd =>
        simp only [pure, Except.pure, Except.ok.injEq] at hs₁
        subst hs₁
        rw [hnd] at hdec
        exact ⟨defer_inv _ _ hdec.1 (hdec.2.2 _ hiss), hdec.2.2 _ hiss⟩
      · next ok s₀ hnd =>
        rw [hnd] at hdec
        obtain ⟨hi, hk⟩ := completeReadResponseTime_inv op o.key_ ok s₀ s₁ hdec.1 hs₁
        exact ⟨hi, hk.2 _ (hdec.2.2 _ hiss)⟩
    have hdec₁ := nextDecision_inv none op s₁ h₁.1
    split at hr
    · next s₂ hnd =>
      simp only [pure, Except.pure, Except.ok.injEq] at hr
      subst hr
      rw [hnd] at hdec₁
      exact defer_inv _ _ hdec₁.1 (hdec₁.2.2 _ h₁.2)
    · next ok s₂ hnd =>
      rw [hnd] at hdec₁
      exact completeReadData_inv next hnext op _ _ ok s₂ s' hdec₁.1 (hdec₁.2.2 _ h₁.2) hr

theorem completeOpenEntry_inv (next : List Char → State → Except Fault State)
    (hnext : NextOK next) (op : Nat) (key : List Char) (ok : Bool) (s s' : State)
    (h : Inv none s) (hiss : Issued s op)
    (hr : completeOpenEntry next op key ok s = .ok s') : Inv none s' := by
  unfold completeOpenEntry at hr
  exact OpenCompleteForRead_inv next hnext op _ s s' h hiss hr

theorem FetchEntryImpl_inv (next : List Char → State → Except Fault State)
    (hnext : NextOK next) (o : PendingOperation) (s s' : State) (h : Inv none s)
    (hown : Owned s o.id o.key_) (hiss : Issued s o.id)
    (hr : FetchEntryImpl next o s = .ok s') : Inv none s' := by
  unfold FetchEntryImpl at hr
  split at hr
  · rw [bind_eq_ok] at hr
    obtain ⟨s₁, hs₁, hr⟩ := hr
    obtain ⟨hi, hk⟩ := runReadCallback_inv o.id 0 [] s s₁ h hs₁
    exact close_inv next hnext o s₁ s' hi (hk.1 _ _ hown) (hk.2 _ hiss) hr
  · split at hr
    · exact absurd hr (by simp)
    · have hdec := nextDecision_inv none o.id s h
      split at hr
      · next s₀ hnd =>
        simp only [pure, Except.pure, Except.ok.injEq] at hr
        subst hr
        rw [hnd] at hdec
        exact defer_inv _ _ hdec.1 (hdec.2.2 _ hiss)
      · next ok s₀ hnd =>
        rw [hnd] at hdec
        exact completeOpenEntry_inv next hnext o.id o.key_ ok s₀ s' hdec.1 (hdec.2.2 _ hiss) hr

theorem DeleteEntryImpl_inv (next : List Char → State → Except Fault State)
    (hnext : NextOK next) (o : PendingOperation) (s s' : State) (h : Inv none s)
    (hown : Owned s o.id o.key_) (hiss : Issued s o.id)
    (hr : DeleteEntryImpl next o s = .ok s') : Inv none s' := by
  unfold DeleteEntryImpl at hr
  rw [bind_eq_ok] at hr
  obtain ⟨s₁, hs₁, hr⟩ := hr
  obtain ⟨hi, hk⟩ := DoomEntry_inv o s s₁ h hs₁
  exact close_inv next hnext o s₁ s' hi (hk.1 _ _ hown) (hk.2 _ hiss) hr

theorem DoPendingGetBackend_inv (o : PendingOperation) (s s' : State) (h : Inv none s)
    (hr : DoPendingGetBackend o s = .ok s') : Inv none s' := by
  unfold DoPendingGetBackend at hr
  split at hr
  · exact absurd hr (by simp)
  · split at hr <;>
    · simp only [pure, Except.pure, Except.ok.injEq] at hr
      subst hr
      exact inv_backend_callback none _ _ s h

theorem IssueOperation_inv (next : List Char → State → Except Fault State)
    (hnext : NextOK next) (o : PendingOperation) (s s' : State) (h : Inv none s)
    (hown : o.op_ ≠ .kGetBackend → Owned s o.id o.key_)
    (hiss : o.op_ ≠ .kGetBackend → Issued s o.id)
    (hr : IssueOperation next o s = .ok s') : Inv none s' := by
  unfold IssueOperation at hr
  split at hr
  · next hop =>
    exact FetchEntryImpl_inv next hnext o s s' h (hown (by simp [hop])) (hiss (by simp [hop])) hr
  · next hop =>
    exact WriteEntryImpl_inv next hnext o s s' h (hown (by simp [hop])) (hiss (by simp [hop])) hr
  · next hop =>
    exact DeleteEntryImpl_inv next hnext o s s' h (hown (by simp [hop])) (hiss (by simp [hop])) hr
  · exact DoPendingGetBackend_inv o s s' h hr

theorem IssueNextOperation_inv : ∀ fuel : Nat, NextOK (IssueNextOperation fuel)
  | 0 => by
    intro k s s' _ hr
    simp [IssueNextOperation] at hr
  | fuel + 1 => by
    intro k s s' h hr
    unfold IssueNextOperation at hr
    split at hr
    · next hl =>
      simp only [Except.ok.injEq] at hr
      subst hr
      exact inv_hole_empty s k h hl
    · exact absurd hr (by simp)
    · next front rest hl =>
      have hkey : front.key_ = k :=
        (h.2.1 _ (mem_of_lookup _ _ _ hl)).2 front (List.mem_cons_self _ _)
      refine IssueOperation_inv _ (IssueNextOperation_inv fuel) front _ s'
        (inv_issue s k front rest h hl) ?_ ?_ hr
      · intro _
        refine ⟨front, ?_, rfl⟩
        show front ∈ queueOf s front.key_
        rw [hkey]
        simp [queueOf, hl]
      · intro _
        refine ⟨k, ?_⟩
        rw [issuedOn_observe]
        simp [issuedOn]

theorem Enqueue_inv (fuel : Nat) (op : PendingOperation) (s s' : State) (h : Inv none s)
    (hfresh : ∀ k, op.id ∉ enqueuedOn s.log k) (hlt : op.id < s.next_id)
    (hpend : ∀ o ∈ s.pending_ops_, o.id ≠ op.id)
    (hr : EnqueueOperationAndIssueIfNext fuel op s = .ok s') : Inv none s' := by
  unfold EnqueueOperationAndIssueIfNext at hr
  split at hr
  · next hl =>
    exact IssueNextOperation_inv fuel op.key_ _ s' (inv_enqueue_new s op h hl hfresh hlt hpend) hr
  · next q hl =>
    simp only [Except.ok.injEq] at hr
    subst hr
    exact inv_enqueue_existing s op q h hl hfresh hlt hpend

/-! #### Events -/

theorem inv_push_pending (s : State) (op : PendingOperation) (h : Inv none s)
    (hid : op.id = s.next_id) :
    Inv none { s with pending_ops_ := s.pending_ops_ ++ [op], next_id := s.next_id + 1 } := by
  obtain ⟨h1, h2, h3, h4, h5, h6, h7, h8, h9, h10⟩ := h
  refine ⟨h1, h2, h3, h4, h5, h6, ?_, ?_, ?_, h10⟩
  · intro k id hk
    exact Nat.lt_succ_of_lt (h7 k id hk)
  · intro o ho
    rcases List.mem_append.1 ho with ho | ho
    · exact ⟨Nat.lt_succ_of_lt (h8 o ho).1, (h8 o ho).2⟩
    · simp only [List.mem_singleton] at ho
      subst ho
      refine ⟨by show o.id < s.next_id + 1; omega, ?_⟩
      intro k hk
      have := h7 k _ hk
      omega
  · show ((s.pending_ops_ ++ [op]).map (fun o => o.id)).Nodup
    rw [List.map_append, List.nodup_append]
    refine ⟨h9, by simp, ?_⟩
    intro a ha hb
    simp only [List.map_cons, List.map_nil, List.mem_singleton] at hb
    rw [List.mem_map] at ha
    obtain ⟨o, ho, rfl⟩ := ha
    have := (h8 o ho).1
    omega

theorem api_inv (fuel : Nat) (op : PendingOperation) (s s' : State) (h : Inv none s)
    (hid : op.id = s.next_id)
    (hr : (if s.backend_state_ ≠ .kInitialized then
        pure { s with next_id := s.next_id + 1, pending_ops_ := s.pending_ops_ ++ [op] }
      else EnqueueOperationAndIssueIfNext fuel op { s with next_id := s.next_id + 1 }) =
        Except.ok s') : Inv none s' := by
  split at hr
  · simp only [pure, Except.pure, Except.ok.injEq] at hr
    subst hr
    exact inv_push_pending s op h hid
  · have h₁ : Inv none { s with next_id := s.next_id + 1 } :=
      inv_congr none s _ rfl (Nat.le_succ _) rfl (fun _ hr => hr) (fun _ => rfl) (fun _ => rfl)
        (fun _ => rfl) (fun _ => rfl) h
    refine Enqueue_inv fuel op _ s' h₁ ?_ ?_ ?_ hr
    · intro k hk
      have := h.2.2.2.2.2.2.1 k _ hk
      omega
    · show op.id < s.next_id + 1
      omega
    · intro o ho
      have := (h.2.2.2.2.2.2.2.1 o ho).1
      omega

theorem WriteEntry_inv (fuel : Nat) (url origin_lock : GURL) (response_time : Int)
    (data : List Nat) (s s' : State) (h : Inv none s)
    (hr : WriteEntry fuel url origin_lock response_time data s = .ok s') : Inv none s' := by
  unfold WriteEntry at hr
  split at hr
  · simp only [pure, Except.pure, Except.ok.injEq] at hr
    subst hr; exact h
  · exact api_inv fuel _ s s' h rfl hr

theorem FetchEntry_inv (fuel : Nat) (url origin_lock : GURL) (cb : Nat) (s s' : State)
    (h : Inv none s) (hr : FetchEntry fuel url origin_lock cb s = .ok s') : Inv none s' := by
  unfold FetchEntry at hr
  split at hr
  · simp only [pure, Except.pure, Except.ok.injEq] at hr
    subst hr; exact inv_read_callback none _ _ _ s h
  · exact api_inv fuel _ s s' h rfl hr

theorem DeleteEntry_inv (fuel : Nat) (url origin_lock : GURL) (s s' : State)
    (h : Inv none s) (hr : DeleteEntry fuel url origin_lock s = .ok s') : Inv none s' := by
  unfold DeleteEntry at hr
  split at hr
  · simp only [pure, Except.pure, Except.ok.injEq] at hr
    subst hr; exact h
  · exact api_inv fuel _ s s' h rfl hr

theorem GetBackend_inv (cb : Nat) (s s' : State) (h : Inv none s)
    (hr : GetBackend cb s = .ok s') : Inv none s' := by
  unfold GetBackend at hr
  split at hr
  · simp only [pure, Except.pure, Except.ok.injEq] at hr
    subst hr; exact inv_backend_callback none _ _ s h
  · simp only [pure, Except.pure, Except.ok.injEq] at hr
    subst hr; exact inv_backend_callback none _ _ s h
  · simp only [pure, Except.pure, Except.ok.injEq] at hr
    subst hr
    exact inv_push_pending s _ h rfl

theorem IssuePendingOperationsLoop_inv (fuel : Nat) : ∀ (bound : Nat) (s s' : State),
    Inv none s → IssuePendingOperationsLoop fuel bound s = .ok s' → Inv none s'
  | 0, s, s', h, hr => by
    unfold IssuePendingOperationsLoop at hr
    split at hr
    · simp only [Except.ok.injEq] at hr
      subst hr; exact h
    · exact absurd hr (by simp)
  | bound + 1, s, s', h, hr => by
    unfold IssuePendingOperationsLoop at hr
    split at hr
    · simp only [Except.ok.injEq] at hr
      subst hr; exact h
    · next op rest hp =>
      simp only [] at hr
      rw [bind_eq_ok] at hr
      obtain ⟨s₁, hs₁, hr⟩ := hr
      obtain ⟨h1, h2, h3, h4, h5, h6, h7, h8, h9, h10⟩ := h
      rw [hp] at h8 h9
      have h₀ : Inv none { s with pending_ops_ := rest } :=
        ⟨h1, h2, h3, h4, h5, h6, h7, fun o ho => h8 o (List.mem_cons_of_mem _ ho),
          (List.nodup_cons.1 h9).2, h10⟩
      refine IssuePendingOperationsLoop_inv fuel bound s₁ s' ?_ hr
      split at hs₁
      · refine Enqueue_inv fuel op _ s₁ h₀ (h8 op (List.mem_cons_self _ _)).2
          (h8 op (List.mem_cons_self _ _)).1 ?_ hs₁
        intro o ho heq
        have hnot := (List.nodup_cons.1 h9).1
        have ho' : o ∈ rest := ho
        have hmem : o.id ∈ rest.map (fun o => o.id) := List.mem_map_of_mem (fun o => o.id) ho'
        rw [heq] at hmem
        exact hnot hmem
      · next hop =>
        have hop' : op.op_ = .kGetBackend := by simpa using hop
        exact IssueOperation_inv _ (IssueNextOperation_inv fuel) op _ s₁ h₀
          (fun hne => absurd hop' hne) (fun hne => absurd hop' hne) hs₁

theorem DidCreateBackend_inv (fuel : Nat) (rv : Int) (s s' : State) (h : Inv none s)
    (hr : DidCreateBackend fuel rv s = .ok s') : Inv none s' := by
  unfold DidCreateBackend IssuePendingOperations at hr
  split at hr
  · refine IssuePendingOperationsLoop_inv fuel _ _ s' ?_ hr
    exact inv_frame none s _ rfl rfl rfl rfl rfl h
  · refine IssuePendingOperationsLoop_inv fuel _ _ s' ?_ hr
    exact inv_frame none s _ rfl rfl rfl rfl rfl h

theorem Complete_inv (next : List Char → State → Except Fault State) (hnext : NextOK next)
    (r : Request) (ok : Bool) (s s' : State) (h : Inv none s) (hiss : Issued s r.op)
    (hr : Complete next r ok s = .ok s') : Inv none s' := by
  unfold Complete at hr
  cases r with
  | OpenOrCreateEntry op key => exact completeOpenOrCreateEntry_inv next hnext op key ok s s' h hiss hr
  | WriteResponseTime op key time => exact (completeWriteResponseTime_inv op key time ok s s' h hr).1
  | WriteData op key data => exact completeWriteData_inv next hnext op key data ok s s' h hiss hr
  | OpenEntry op key => exact completeOpenEntry_inv next hnext op key ok s s' h hiss hr
  | ReadResponseTime op key => exact (completeReadResponseTime_inv op key ok s s' h hr).1
  | ReadData op key len => exact completeReadData_inv next hnext op key len ok s s' h hiss hr

theorem step_inv (fuel : Nat) (script : List Decision) (e : Event) (s s' : State)
    (h : Inv none s) (hr : step fuel script e s = .ok s') : Inv none s' := by
  have h₀ : Inv none { s with script := script } := inv_frame none s _ rfl rfl rfl rfl rfl h
  unfold step at hr
  cases e with
  | WriteEntry url origin_lock response_time data =>
    exact WriteEntry_inv fuel url origin_lock response_time data _ s' h₀ hr
  | FetchEntry url origin_lock cb => exact FetchEntry_inv fuel url origin_lock cb _ s' h₀ hr
  | DeleteEntry url origin_lock => exact DeleteEntry_inv fuel url origin_lock _ s' h₀ hr
  | GetBackend cb => exact GetBackend_inv cb _ s' h₀ hr
  | DidCreateBackend rv =>
    simp only [] at hr
    split at hr
    · exact DidCreateBackend_inv fuel rv _ s' h₀ hr
    · exact absurd hr (by simp)
  | Complete i ok =>
    simp only [] at hr
    split at hr
    · exact absurd hr (by simp)
    · next r hget =>
      split at hr
      · exact absurd hr (by simp)
      · have hmem : r ∈ s.in_flight := List.get?_mem hget
        refine Complete_inv _ (IssueNextOperation_inv fuel) r ok _ s' ?_ ?_ hr
        · exact inv_congr none s _ rfl (Nat.le_refl _) rfl
            (fun r' hr' => (List.eraseIdx_sublist _ _).subset hr')
            (fun _ => rfl) (fun _ => rfl) (fun _ => rfl) (fun _ => rfl) h
        · exact h.2.2.2.2.2.2.2.2.2 r hmem

theorem initial_inv (store : List (List Char × Entry)) : Inv none (initial store) := by
  refine ⟨by simp [initial], by simp [initial], ?_, ?_, ?_, ?_, ?_, by simp [initial],
    by simp [initial], by simp [initial]⟩
  · intro k; simp [initial, enqueuedOn, closedOn, queueOf]
  · intro k; simp [initial, openOperation, frontOf, queueOf]
  · intro k; simp [initial, enqueuedOn]
  · intro k k' id h; simp [initial, enqueuedOn] at h
  · intro k id h; simp [initial, enqueuedOn] at h

theorem reachable_inv (s : State) (h : Reachable s) : Inv none s := by
  induction h with
  | initial store => exact initial_inv store
  | step fuel script e _ hstep ih => exact step_inv fuel script e _ _ ih hstep

theorem reachable_of_run : ∀ (evs : List (Nat × List Decision × Event)) (s s' : State),
    Reachable s → runEvents evs s = .ok s' → Reachable s'
  | [], s, s', h, hr => by
    simp only [runEvents, Except.ok.injEq] at hr
    subst hr; exact h
  | (fuel, script, e) :: rest, s, s', h, hr => by
    simp only [runEvents] at hr
    split at hr
    · next s₁ hs₁ => exact reachable_of_run rest s₁ s' (Reachable.step fuel script e h hs₁) hr
    · exact absurd hr (by simp)

/-- C1: in every reachable state (whatever the state of the backend) and for
every key, the operations of the key took turns all along the history: none
was issued while another was issued and not closed, and none but the open one was
closed.  The one that is issued and not closed, if any, is the operation at the
front of the key's queue in `active_entries_map_`; the operations issued are
those closed followed by the open one, and they were issued in the order in
which they were enqueued. -/
theorem operations_serialised_per_key (s : State) (h : Reachable s) (key : List Char) :
    ∃ cur : Option Nat,
      openOperation s.log key = some cur ∧
        (∀ op, cur = some op → ∃ front rest,
          s.active_entries_map_.lookup key = some (front :: rest) ∧ front.id = op) ∧
        issuedOn s.log key = closedOn s.log key ++ cur.toList ∧
        issuedOn s.log key <+: enqueuedOn s.log key := by
  have hinv := reachable_inv s h
  obtain ⟨h1, h2, h3, h4, h5, h6, h7, h8, h9, h10⟩ := hinv
  have hopen : openOperation s.log key = some (frontOf s key) := by
    have := h4 key
    simpa using this
  have hiss := issuedOn_of_open s.log key _ hopen
  refine ⟨frontOf s key, hopen, ?_, hiss, ?_⟩
  · intro op hop
    unfold frontOf queueOf at hop
    cases hl : s.active_entries_map_.lookup key with
    | none => simp [hl] at hop
    | some q =>
      cases q with
      | nil => simp [hl] at hop
      | cons front rest =>
        simp [hl] at hop
        exact ⟨front, rest, rfl, hop⟩
  · rw [hiss, h3 key]
    apply List.prefix_append_right_inj _ |>.2
    unfold frontOf
    cases queueOf s key with
    | nil => simp
    | cons a q => simp

theorem operations_serialised_per_key_witness :
    Reachable exampleBusy ∧
      ∃ cur : Option Nat,
        openOperation exampleBusy.log (GetCacheKey exampleUrl exampleLock) = some cur ∧
          (∀ op, cur = some op → ∃ front rest,
            exampleBusy.active_entries_map_.lookup (GetCacheKey exampleUrl exampleLock) =
              some (front :: rest) ∧ front.id = op) ∧
          issuedOn exampleBusy.log (GetCacheKey exampleUrl exampleLock) =
            closedOn exampleBusy.log (GetCacheKey exampleUrl exampleLock) ++ cur.toList ∧
          issuedOn exampleBusy.log (GetCacheKey exampleUrl exampleLock) <+:
            enqueuedOn exampleBusy.log (GetCacheKey exampleUrl exampleLock) :=
  have hreach : Reachable exampleBusy :=
    reachable_of_run
      [(2, [], .DidCreateBackend 0), (2, [], .WriteEntry exampleUrl exampleLock 7 [1, 2]),
        (2, [], .FetchEntry exampleUrl exampleLock 9)]
      (initial []) exampleBusy (Reachable.initial []) (by decide)
  ⟨hreach, operations_serialised_per_key exampleBusy hreach (GetCacheKey exampleUrl exampleLock)⟩

end GeneratedCodeCache
namespace GeneratedCodeCache

/-! ### Operations deferred while the backend is opened -/

/-- C6 on the code: a `DeleteEntry` made while the backend is being opened is only
appended to `pending_ops_`; when the backend then fails to open,
`IssuePendingOperations` issues it, and `DeleteEntryImpl` reaches `DoomEntry`,
which calls through the null `backend_`, whatever the fuel.  The loop does not
handle the pending operation to its end. -/
theorem pending_delete_on_failed_backend :
    step 1 [] (.DeleteEntry exampleUrl exampleLock) (initial []) =
        .ok { initial [] with
          pending_ops_ := [⟨0, .kDelete, GetCacheKey exampleUrl exampleLock, none, none, none, none⟩],
          next_id := 1 } ∧
      ∀ fuel : Nat,
        runEvents [(fuel + 1, [], .DeleteEntry exampleUrl exampleLock),
          (fuel + 1, [], .DidCreateBackend net_ERR_FAILED)] (initial []) =
          .error .null_backend := by
  refine ⟨by decide, ?_⟩
  intro fuel
  rfl

end GeneratedCodeCache
namespace GeneratedCodeCache

/-! ### One write followed by one fetch -/

/-! ### Every request is completed: the invariant of an initialised cache -/

/-! #### Results -/

theorem res_bind {α β : Type} {E : Fault → Prop} {P : α → Prop} {Q : β → Prop}
    {x : Except Fault α} {f : α → Except Fault β}
    (hx : Res E P x) (hf : ∀ a, P a → Res E Q (f a)) : Res E Q (x >>= f) := by
  cases x with
  | error e => exact hx
  | ok a => exact hf a hx

theorem res_mono {α : Type} {E : Fault → Prop} {P Q : α → Prop} {x : Except Fault α}
    (hx : Res E P x) (h : ∀ a, P a → Q a) : Res E Q x := by
  cases x with
  | error e => exact hx
  | ok a => exact h a hx

/-! #### Identities are unique -/

theorem queue_ids_mem (hole : Option (List Char)) (s : State) (h : Inv hole s) (K : List Char)
    (q : List PendingOperation) (hl : s.active_entries_map_.lookup K = some q)
    (o : PendingOperation) (ho : o ∈ q) : o.id ∈ enqueuedOn s.log K := by
  rw [h.2.2.1 K]
  apply List.mem_append_right
  simp only [queueOf, hl, Option.getD_some]
  exact List.mem_map_of_mem _ ho

theorem queue_nodup (hole : Option (List Char)) (s : State) (h : Inv hole s) (K : List Char)
    (q : List PendingOperation) (hl : s.active_entries_map_.lookup K = some q) :
    (q.map (fun o => o.id)).Nodup := by
  have h5 := h.2.2.2.2.1 K
  rw [h.2.2.1 K] at h5
  have := (List.nodup_append.1 h5).2.1
  simpa [queueOf, hl] using this

theorem unique_key (hole : Option (List Char)) (s : State) (h : Inv hole s) (K K' : List Char)
    (q q' : List PendingOperation) (hl : s.active_entries_map_.lookup K = some q)
    (hl' : s.active_entries_map_.lookup K' = some q') (o o' : PendingOperation)
    (ho : o ∈ q) (ho' : o' ∈ q') (hid : o'.id = o.id) : K' = K := by
  have h1 := queue_ids_mem hole s h K q hl o ho
  have h2 := queue_ids_mem hole s h K' q' hl' o' ho'
  rw [hid] at h2
  exact h.2.2.2.2.2.1 K' K o.id h2 h1

theorem eq_of_id_eq (q : List PendingOperation) (hnd : (q.map (fun o => o.id)).Nodup)
    (o o' : PendingOperation) (ho : o ∈ q) (ho' : o' ∈ q) (hid : o'.id = o.id) : o' = o :=
  List.inj_on_of_nodup_map hnd ho' ho hid

/-- The operation at the front of a queue is the only one with its identity. -/
theorem front_unique (hole : Option (List Char)) (s : State) (h : Inv hole s) (K K' : List Char)
    (o : PendingOperation) (rest q' : List PendingOperation)
    (hl : s.active_entries_map_.lookup K = some (o :: rest))
    (hl' : s.active_entries_map_.lookup K' = some q') (o' : PendingOperation)
    (ho' : o' ∈ q') (hid : o'.id = o.id) : K' = K ∧ q' = o :: rest ∧ o' = o := by
  have hk := unique_key hole s h K K' _ _ hl hl' o o' (List.mem_cons_self _ _) ho' hid
  subst hk
  rw [hl] at hl'
  simp only [Option.some.injEq] at hl'
  subst hl'
  exact ⟨rfl, rfl, eq_of_id_eq _ (queue_nodup hole s h K' _ hl) o o' (List.mem_cons_self _ _) ho' hid⟩

theorem rest_id_ne (hole : Option (List Char)) (s : State) (h : Inv hole s) (K K' : List Char)
    (o front' : PendingOperation) (rest rest' : List PendingOperation)
    (hl : s.active_entries_map_.lookup K = some (o :: rest))
    (hl' : s.active_entries_map_.lookup K' = some (front' :: rest')) (o' : PendingOperation)
    (ho' : o' ∈ rest') : o'.id ≠ o.id := by
  intro hid
  obtain ⟨_, hq, ho⟩ := front_unique hole s h K K' o rest _ hl hl' o' (List.mem_cons_of_mem _ ho') hid
  simp only [List.cons.injEq] at hq
  obtain ⟨hf, hr⟩ := hq
  subst hr ho
  have hnd := queue_nodup hole s h K' _ hl'
  simp only [List.map_cons, List.nodup_cons] at hnd
  exact hnd.1 (by rw [hf]; exact List.mem_map_of_mem _ ho')

theorem key_of_front (hole : Option (List Char)) (s : State) (h : Inv hole s) (K : List Char)
    (q : List PendingOperation) (hl : s.active_entries_map_.lookup K = some q)
    (o : PendingOperation) (ho : o ∈ q) : o.key_ = K :=
  (h.2.1 _ (mem_of_lookup _ _ _ hl)).2 o ho

theorem deref_front (hole : Option (List Char)) (s : State) (h : Inv hole s) (K : List Char)
    (o : PendingOperation) (rest : List PendingOperation)
    (hl : s.active_entries_map_.lookup K = some (o :: rest)) : deref s o.id = .ok o := by
  unfold deref
  cases hf : findOp s.active_entries_map_ o.id with
  | none =>
    exfalso
    unfold findOp at hf
    rw [List.find?_eq_none] at hf
    have hmem := mem_of_lookup _ _ _ hl
    have : o ∈ s.active_entries_map_.flatMap (fun p => p.2) :=
      List.mem_flatMap.2 ⟨_, hmem, List.mem_cons_self _ _⟩
    have := hf o this
    simp at this
  | some o' =>
    obtain ⟨hid, p, hp, hop⟩ := findOp_some _ _ _ hf
    have hlp := lookup_of_mem _ p h.1 hp
    obtain ⟨_, _, ho⟩ := front_unique hole s h K p.1 o rest p.2 hl hlp o' hop hid
    rw [ho]

/-! #### Requests of an operation -/

theorem reqsOf_append (op : Nat) (l₁ l₂ : List Request) :
    reqsOf op (l₁ ++ l₂) = reqsOf op l₁ ++ reqsOf op l₂ := by
  simp [reqsOf, List.filter_append]

theorem reqsOf_defer_self (r : Request) (s : State) :
    reqsOf r.op (defer r s).in_flight = reqsOf r.op s.in_flight ++ [r] := by
  simp [defer, reqsOf, List.filter_append]

theorem reqsOf_defer_other (op : Nat) (r : Request) (s : State) (h : r.op ≠ op) :
    reqsOf op (defer r s).in_flight = reqsOf op s.in_flight := by
  simp [defer, reqsOf, List.filter_append, h]

theorem mem_reqsOf (op : Nat) (l : List Request) (r : Request) :
    r ∈ reqsOf op l ↔ r ∈ l ∧ r.op = op := by
  simp [reqsOf]

theorem any_eq_false_of_reqsOf (op : Nat) (l : List Request) (h : reqsOf op l = []) :
    l.any (fun r => r.op == op) = false := by
  rw [List.any_eq_false]
  intro r hr hop
  have : r ∈ reqsOf op l := (mem_reqsOf op l r).2 ⟨hr, by simpa using hop⟩
  rw [h] at this
  simp at this

theorem any_eq_true_of_reqsOf (op : Nat) (l : List Request) (r : Request)
    (h : r ∈ reqsOf op l) : l.any (fun r => r.op == op) = true := by
  rw [List.any_eq_true]
  obtain ⟨h1, h2⟩ := (mem_reqsOf op l r).1 h
  exact ⟨r, h1, by simpa using h2⟩

/-- Taking out the oldest request of an operation. -/
theorem reqsOf_eraseIdx : ∀ (l : List Request) (i : Nat) (r : Request),
    l.get? i = some r → (l.take i).any (fun r' => r'.op == r.op) = false →
      reqsOf r.op l = r :: reqsOf r.op (l.eraseIdx i) ∧
        ∀ op, op ≠ r.op → reqsOf op (l.eraseIdx i) = reqsOf op l
  | [], i, r, h, _ => by simp at h
  | a :: l, 0, r, h, _ => by
    simp only [List.get?_cons_zero, Option.some.injEq] at h
    subst h
    refine ⟨by simp [reqsOf], ?_⟩
    intro op hop
    have : (a.op == op) = false := by simpa using fun e => hop e.symm
    simp [reqsOf, List.filter_cons, this]
  | a :: l, i + 1, r, h, hany => by
    simp only [List.get?_cons_succ] at h
    simp only [List.take_succ_cons, List.any_cons, Bool.or_eq_false_iff] at hany
    obtain ⟨ih1, ih2⟩ := reqsOf_eraseIdx l i r h hany.2
    have ha : (a.op == r.op) = false := hany.1
    refine ⟨?_, ?_⟩
    · simp only [reqsOf, List.filter_cons, ha, List.eraseIdx_cons_succ] at ih1 ⊢
      simpa using ih1
    · intro op hop
      have := ih2 op hop
      simp only [reqsOf, List.eraseIdx_cons_succ, List.filter_cons] at this ⊢
      rw [this]

/-! #### The load -/

theorem load_frame (s s' : State) (hmap : s'.active_entries_map_ = s.active_entries_map_)
    (hfl : s'.in_flight = s.in_flight) : load s' = load s := by
  simp [load, queued, hmap, hfl]

theorem queued_modifyOp (op : Nat) (f : PendingOperation → PendingOperation) (s : State) :
    queued (modifyOp op f s) = queued s := by
  simp only [queued, modifyOp, updateOp, List.map_map]
  congr 1
  apply List.map_congr_left
  intro p _
  simp

theorem load_modifyOp (op : Nat) (f : PendingOperation → PendingOperation) (s : State) :
    load (modifyOp op f s) = load s := by
  unfold load
  rw [queued_modifyOp]
  rfl

theorem load_defer (r : Request) (s : State) : load (defer r s) = load s + weight r := by
  simp [load, queued, defer, List.map_append, List.sum_append]
  omega

theorem load_observe (o : Obs) (s : State) : load (observe o s) = load s := rfl

theorem weight_le (r : Request) : weight r ≤ 3 := by
  cases r <;> simp [weight]

theorem weight_pos (r : Request) : 1 ≤ weight r := by
  cases r <;> simp [weight]

theorem sum_lengths_setQueue (key : List Char) (q : List PendingOperation) :
    ∀ (m : List (List Char × List PendingOperation)) (q₀ : List PendingOperation),
      (m.map (fun p => p.1)).Nodup → m.lookup key = some q₀ →
        ((setQueue m key q).map (fun p => p.2.length)).sum + q₀.length =
          (m.map (fun p => p.2.length)).sum + q.length
  | [], _, _, h => by simp at h
  | (a, b) :: m, q₀, hnd, h => by
    simp only [List.map_cons, List.nodup_cons] at hnd
    by_cases ha : key = a
    · subst ha
      simp only [List.lookup_cons, beq_self_eq_true, Option.some.injEq] at h
      subst h
      have hrest : setQueue m key q = m := by
        unfold setQueue
        conv => rhs; rw [← List.map_id m]
        apply List.map_congr_left
        intro p hp
        have : p.1 ≠ key := fun e => hnd.1 (e ▸ List.mem_map_of_mem (fun p => p.1) hp)
        simp [this]
      have : setQueue ((key, b) :: m) key q = (key, q) :: setQueue m key q := by
        simp [setQueue]
      rw [this, hrest]
      simp only [List.map_cons, List.sum_cons]
      omega
    · have ha' : (key == a) = false := by simpa using ha
      simp only [List.lookup_cons, ha'] at h
      have ih := sum_lengths_setQueue key q m q₀ hnd.2 h
      have ha'' : ¬ a = key := fun e => ha e.symm
      have : setQueue ((a, b) :: m) key q = (a, b) :: setQueue m key q := by
        simp [setQueue, ha'']
      rw [this]
      simp only [List.map_cons, List.sum_cons]
      omega

theorem sum_lengths_eraseQueue (key : List Char) :
    ∀ (m : List (List Char × List PendingOperation)) (q₀ : List PendingOperation),
      (m.map (fun p => p.1)).Nodup → m.lookup key = some q₀ →
        ((eraseQueue m key).map (fun p => p.2.length)).sum + q₀.length =
          (m.map (fun p => p.2.length)).sum
  | [], _, _, h => by simp at h
  | (a, b) :: m, q₀, hnd, h => by
    simp only [List.map_cons, List.nodup_cons] at hnd
    by_cases ha : key = a
    · subst ha
      simp only [List.lookup_cons, beq_self_eq_true, Option.some.injEq] at h
      subst h
      have hrest : eraseQueue m key = m := by
        unfold eraseQueue
        rw [List.filter_eq_self]
        intro p hp
        have : p.1 ≠ key := fun e => hnd.1 (e ▸ List.mem_map_of_mem (fun p => p.1) hp)
        simp [this]
      have : eraseQueue ((key, b) :: m) key = eraseQueue m key := by
        simp [eraseQueue]
      rw [this, hrest]
      simp only [List.map_cons, List.sum_cons]
      omega
    · have ha' : (key == a) = false := by simpa using ha
      simp only [List.lookup_cons, ha'] at h
      have ih := sum_lengths_eraseQueue key m q₀ hnd.2 h
      have ha'' : ¬ a = key := fun e => ha e.symm
      have : eraseQueue ((a, b) :: m) key = (a, b) :: eraseQueue m key := by
        simp [eraseQueue, ha'']
      rw [this]
      simp only [List.map_cons, List.sum_cons]
      omega

/-- Taking the front off a queue takes one operation off the load. -/
theorem queued_dequeue (s : State) (key : List Char) (front : PendingOperation)
    (rest : List PendingOperation) (m' : List (List Char × List PendingOperation))
    (hnd : (s.active_entries_map_.map (fun p => p.1)).Nodup)
    (hl : s.active_entries_map_.lookup key = some (front :: rest))
    (hm' : m' = if rest.isEmpty then eraseQueue s.active_entries_map_ key
      else setQueue s.active_entries_map_ key rest) (s' : State)
    (hs' : s'.active_entries_map_ = m') : queued s' + 1 = queued s := by
  unfold queued
  rw [hs', hm']
  by_cases hr : rest = []
  · subst hr
    have := sum_lengths_eraseQueue key _ _ hnd hl
    simpa using this
  · have hre : rest.isEmpty = false := by cases rest <;> simp at hr ⊢
    have := sum_lengths_setQueue key rest _ _ hnd hl
    simp only [hre, Bool.false_eq_true, if_false]
    simp only [List.length_cons] at this
    omega

theorem queue_length_le (s : State) (K : List Char) : (queueOf s K).length ≤ queued s := by
  unfold queueOf queued
  cases hl : s.active_entries_map_.lookup K with
  | none => simp
  | some q =>
    have hmem := mem_of_lookup _ _ _ hl
    simp only [Option.getD_some]
    exact List.single_le_sum (by simp) _ (List.mem_map_of_mem (fun p => p.2.length) hmem)

theorem sum_weight_eraseIdx : ∀ (l : List Request) (i : Nat) (r : Request),
    l.get? i = some r → ((l.eraseIdx i).map weight).sum + weight r = (l.map weight).sum
  | [], i, r, h => by simp at h
  | a :: l, 0, r, h => by
    simp only [List.get?_cons_zero, Option.some.injEq] at h
    subst h
    simp
    omega
  | a :: l, i + 1, r, h => by
    simp only [List.get?_cons_succ] at h
    have := sum_weight_eraseIdx l i r h
    simp only [List.eraseIdx_cons_succ, List.map_cons, List.sum_cons]
    omega

/-! #### The invariant under the elementary changes of state -/

theorem frontOK_mem (o : PendingOperation) (rs : List Request) (h : FrontOK o rs)
    (r : Request) (hr : r ∈ rs) : r.key = o.key_ ∧ r.op = o.id := by
  unfold FrontOK at h
  split at h
  · obtain ⟨_, h | ⟨t, d, h⟩ | ⟨d, h⟩⟩ := h
    · rw [h.1] at hr; simp at hr; subst hr; exact ⟨rfl, rfl⟩
    · rw [h] at hr; simp at hr; rcases hr with rfl | rfl <;> exact ⟨rfl, rfl⟩
    · rw [h] at hr; simp at hr; subst hr; exact ⟨rfl, rfl⟩
  · obtain ⟨_, h | ⟨_, ⟨n, h⟩ | ⟨n, h⟩⟩⟩ := h
    · rw [h] at hr; simp at hr; subst hr; exact ⟨rfl, rfl⟩
    · rw [h] at hr; simp at hr; rcases hr with rfl | rfl <;> exact ⟨rfl, rfl⟩
    · rw [h] at hr; simp at hr; subst hr; exact ⟨rfl, rfl⟩
  · exact h.elim

theorem frontOK_ne_nil (o : PendingOperation) (rs : List Request) (h : FrontOK o rs) :
    rs ≠ [] := by
  unfold FrontOK at h
  split at h
  · obtain ⟨_, h | ⟨t, d, h⟩ | ⟨d, h⟩⟩ := h
    · rw [h.1]; simp
    · rw [h]; simp
    · rw [h]; simp
  · obtain ⟨_, h | ⟨_, ⟨n, h⟩ | ⟨n, h⟩⟩⟩ := h
    · rw [h]; simp
    · rw [h]; simp
    · rw [h]; simp
  · exact h.elim

theorem frontOK_open (o : PendingOperation) (x : Nat) (K : List Char) (tl : List Request)
    (h : FrontOK o (.OpenOrCreateEntry x K :: tl)) :
    o.op_ = .kWrite ∧ tl = [] ∧ o.id = x ∧ o.key_ = K ∧ o.time_buffer_ ≠ none ∧
      o.data_buffer_ ≠ none := by
  unfold FrontOK at h
  split at h
  · next hop =>
    obtain ⟨hd, h | ⟨t, d, h⟩ | ⟨d, h⟩⟩ := h
    · obtain ⟨h, ht⟩ := h
      simp only [List.cons.injEq, Request.OpenOrCreateEntry.injEq] at h
      exact ⟨hop, h.2, h.1.1.symm, h.1.2.symm, ht, hd⟩
    · simp at h
    · simp at h
  · obtain ⟨_, h | ⟨_, ⟨n, h⟩ | ⟨n, h⟩⟩⟩ := h <;> simp at h
  · exact h.elim

theorem frontOK_wrt (o : PendingOperation) (x : Nat) (K : List Char) (time : Int)
    (tl : List Request) (h : FrontOK o (.WriteResponseTime x K time :: tl)) :
    o.op_ = .kWrite ∧ o.id = x ∧ o.key_ = K ∧ o.data_buffer_ ≠ none ∧
      ∃ data, tl = [.WriteData x K data] := by
  unfold FrontOK at h
  split at h
  · next hop =>
    obtain ⟨hd, h | ⟨t, d, h⟩ | ⟨d, h⟩⟩ := h
    · simp at h
    · simp only [List.cons.injEq, Request.WriteResponseTime.injEq] at h
      obtain ⟨⟨h1, h2, _⟩, h3⟩ := h
      exact ⟨hop, h1.symm, h2.symm, hd, d, by rw [h3, ← h1, ← h2]⟩
    · simp at h
  · obtain ⟨_, h | ⟨_, ⟨n, h⟩ | ⟨n, h⟩⟩⟩ := h <;> simp at h
  · exact h.elim

theorem frontOK_wd (o : PendingOperation) (x : Nat) (K : List Char) (data : List Nat)
    (tl : List Request) (h : FrontOK o (.WriteData x K data :: tl)) :
    o.op_ = .kWrite ∧ tl = [] ∧ o.id = x ∧ o.key_ = K ∧ o.data_buffer_ ≠ none := by
  unfold FrontOK at h
  split at h
  · next hop =>
    obtain ⟨hd, h | ⟨t, d, h⟩ | ⟨d, h⟩⟩ := h
    · simp at h
    · simp at h
    · simp only [List.cons.injEq, Request.WriteData.injEq] at h
      exact ⟨hop, h.2, h.1.1.symm, h.1.2.1.symm, hd⟩
  · obtain ⟨_, h | ⟨_, ⟨n, h⟩ | ⟨n, h⟩⟩⟩ := h <;> simp at h
  · exact h.elim

theorem frontOK_openEntry (o : PendingOperation) (x : Nat) (K : List Char) (tl : List Request)
    (h : FrontOK o (.OpenEntry x K :: tl)) :
    o.op_ = .kFetch ∧ tl = [] ∧ o.id = x ∧ o.key_ = K ∧ o.read_callback_ ≠ none := by
  unfold FrontOK at h
  split at h
  · obtain ⟨hd, h | ⟨t, d, h⟩ | ⟨d, h⟩⟩ := h
    · simp at h
    · simp at h
    · simp at h
  · next hop =>
    obtain ⟨hc, h | ⟨_, ⟨n, h⟩ | ⟨n, h⟩⟩⟩ := h
    · simp only [List.cons.injEq, Request.OpenEntry.injEq] at h
      exact ⟨hop, h.2, h.1.1.symm, h.1.2.symm, hc⟩
    · simp at h
    · simp at h
  · exact h.elim

theorem frontOK_rrt (o : PendingOperation) (x : Nat) (K : List Char) (tl : List Request)
    (h : FrontOK o (.ReadResponseTime x K :: tl)) :
    o.op_ = .kFetch ∧ o.id = x ∧ o.key_ = K ∧ o.read_callback_ ≠ none ∧ o.data_buffer_ ≠ none ∧
      ∃ len, tl = [.ReadData x K len] := by
  unfold FrontOK at h
  split at h
  · obtain ⟨hd, h | ⟨t, d, h⟩ | ⟨d, h⟩⟩ := h
    · simp at h
    · simp at h
    · simp at h
  · next hop =>
    obtain ⟨hc, h | ⟨hd, ⟨n, h⟩ | ⟨n, h⟩⟩⟩ := h
    · simp at h
    · simp only [List.cons.injEq, Request.ReadResponseTime.injEq] at h
      obtain ⟨⟨h1, h2⟩, h3⟩ := h
      exact ⟨hop, h1.symm, h2.symm, hc, hd, n, by rw [h3, ← h1, ← h2]⟩
    · simp at h
  · exact h.elim

theorem frontOK_rd (o : PendingOperation) (x : Nat) (K : List Char) (len : Nat)
    (tl : List Request) (h : FrontOK o (.ReadData x K len :: tl)) :
    o.op_ = .kFetch ∧ tl = [] ∧ o.id = x ∧ o.key_ = K ∧ o.read_callback_ ≠ none ∧
      o.data_buffer_ ≠ none := by
  unfold FrontOK at h
  split at h
  · obtain ⟨hd, h | ⟨t, d, h⟩ | ⟨d, h⟩⟩ := h
    · simp at h
    · simp at h
    · simp at h
  · next hop =>
    obtain ⟨hc, h | ⟨hd, ⟨n, h⟩ | ⟨n, h⟩⟩⟩ := h
    · simp at h
    · simp at h
    · simp only [List.cons.injEq, Request.ReadData.injEq] at h
      exact ⟨hop, h.2, h.1.1.symm, h.1.2.1.symm, hc, hd⟩
  · exact h.elim

theorem gi_frame (ex : Option Nat) (s s' : State)
    (h1 : s'.backend_state_ = s.backend_state_) (h2 : s'.backend_ = s.backend_)
    (hmap : s'.active_entries_map_ = s.active_entries_map_)
    (hfl : s'.in_flight = s.in_flight) (hpend : s'.pending_ops_ = s.pending_ops_)
    (h : GI ex s) : GI ex s' := by
  unfold GI at h ⊢
  rw [h1, h2, hmap, hfl, hpend]
  exact h

/-- The queues after an assignment through the pointer to the front of a
queue. -/
theorem lookup_modifyOp_front (hole : Option (List Char)) (s : State) (h : Inv hole s)
    (K : List Char) (o : PendingOperation) (rest : List PendingOperation)
    (hl : s.active_entries_map_.lookup K = some (o :: rest))
    (f : PendingOperation → PendingOperation) (K' : List Char) :
    (modifyOp o.id f s).active_entries_map_.lookup K' =
      if K' = K then some (f o :: rest) else s.active_entries_map_.lookup K' := by
  show (updateOp s.active_entries_map_ o.id f).lookup K' = _
  rw [lookup_updateOp]
  cases hl' : s.active_entries_map_.lookup K' with
  | none =>
    have : K' ≠ K := fun e => by rw [e, hl] at hl'; exact absurd hl' (by simp)
    simp [this]
  | some q' =>
    have hrest : ∀ (front' : PendingOperation) (rest' : List PendingOperation),
        q' = front' :: rest' →
          rest'.map (fun o' => if o'.id == o.id then f o' else o') = rest' := by
      intro front' rest' hq
      conv => rhs; rw [← List.map_id rest']
      apply List.map_congr_left
      intro o' ho'
      have := rest_id_ne hole s h K K' o front' rest rest' hl (hq ▸ hl') o' ho'
      simp [this]
    by_cases hk : K' = K
    · subst hk
      rw [hl] at hl'
      simp only [Option.some.injEq] at hl'
      subst hl'
      simp only [Option.map_some', List.map_cons, beq_self_eq_true, if_true]
      rw [hrest o rest rfl]
    · simp only [Option.map_some', hk, if_false, Option.some.injEq]
      conv => rhs; rw [← List.map_id q']
      apply List.map_congr_left
      intro o' ho'
      have : o'.id ≠ o.id := fun e =>
        hk (front_unique hole s h K K' o rest q' hl hl' o' ho' e).1
      simp [this]

theorem busy_frame (s s' : State) (o : PendingOperation) (rest : List PendingOperation)
    (h1 : s'.backend_state_ = s.backend_state_) (h2 : s'.backend_ = s.backend_)
    (hmap : s'.active_entries_map_ = s.active_entries_map_) (hnext : s'.next_id = s.next_id)
    (hpend : s'.pending_ops_ = s.pending_ops_) (hfl : s'.in_flight = s.in_flight)
    (hlog : s'.log = s.log) (h : Busy s o rest) : Busy s' o rest := by
  obtain ⟨hi, hg, hiss, hl⟩ := h
  refine ⟨inv_frame none s s' hmap hnext hpend hfl hlog hi, gi_frame _ s s' h1 h2 hmap hfl hpend hg,
    ?_, by rw [hmap]; exact hl⟩
  unfold Issued at hiss ⊢
  rw [hlog]; exact hiss

theorem busy_modifyOp (s : State) (o : PendingOperation) (rest : List PendingOperation)
    (f : PendingOperation → PendingOperation)
    (hf : ∀ o, (f o).id = o.id ∧ (f o).key_ = o.key_) (h : Busy s o rest) :
    Busy (modifyOp o.id f s) (f o) rest := by
  obtain ⟨hi, hg, hiss, hl⟩ := h
  have hlk := lookup_modifyOp_front none s hi o.key_ o rest hl f
  refine ⟨inv_modifyOp none o.id f hf s hi, ?_, by rw [(hf o).1]; exact hiss, ?_⟩
  · obtain ⟨g1, g2, g3, g4, g5⟩ := hg
    refine ⟨g1, g2, ?_, ?_, g5⟩
    · intro K' q' hl'
      rw [hlk K'] at hl'
      by_cases hk : K' = o.key_
      · simp only [hk, if_true, Option.some.injEq] at hl'
        subst hl'
        obtain ⟨front, rest₀, hq, _, hw⟩ := g3 _ _ hl
        simp only [List.cons.injEq] at hq
        refine ⟨f o, rest, rfl, ?_, ?_⟩
        · intro hne
          rw [(hf o).1] at hne
          exact absurd rfl hne
        · rw [hq.2]; exact hw
      · simp only [hk, if_false] at hl'
        obtain ⟨front, rest₀, hq, hfr, hw⟩ := g3 _ _ hl'
        refine ⟨front, rest₀, hq, ?_, hw⟩
        rw [(hf o).1]
        exact hfr
    · intro r hr hne
      rw [(hf o).1] at hne
      obtain ⟨front, rest₀, hlr, hid⟩ := g4 r hr hne
      have hk : r.key ≠ o.key_ := by
        intro e
        rw [e, hl] at hlr
        simp only [Option.some.injEq, List.cons.injEq] at hlr
        rw [← hlr.1] at hid
        exact hne (by rw [hid])
      refine ⟨front, rest₀, ?_, hid⟩
      show (modifyOp o.id f s).active_entries_map_.lookup r.key = _
      rw [hlk r.key]
      simp only [hk, if_false]
      exact hlr
  · rw [(hf o).2]
    have := hlk o.key_
    simpa using this

theorem busy_defer (s : State) (o : PendingOperation) (rest : List PendingOperation)
    (r : Request) (hr : r.op = o.id) (h : Busy s o rest) : Busy (defer r s) o rest := by
  obtain ⟨hi, hg, hiss, hl⟩ := h
  refine ⟨inv_defer none r s hi (hr ▸ hiss), ?_, hiss, hl⟩
  obtain ⟨g1, g2, g3, g4, g5⟩ := hg
  refine ⟨g1, g2, ?_, ?_, g5⟩
  · intro K q hq
    obtain ⟨front, rest₀, hq', hfr, hw⟩ := g3 K q hq
    refine ⟨front, rest₀, hq', ?_, hw⟩
    intro hne
    have hne' : r.op ≠ front.id := by
      rw [hr]; intro e; exact hne (by rw [e])
    rw [reqsOf_defer_other _ _ _ hne']
    exact hfr hne
  · intro r' hr' hne
    have hr'' : r' ∈ s.in_flight ++ [r] := hr'
    rcases List.mem_append.1 hr'' with hm | hm
    · exact g4 r' hm hne
    · simp only [List.mem_singleton] at hm
      subst hm
      exact absurd (by rw [hr]) hne

theorem busy_observe (s : State) (o : PendingOperation) (rest : List PendingOperation)
    (cb : Nat) (t : Int) (d : List Nat) (h : Busy s o rest) :
    Busy (observe (.read_callback cb t d) s) o rest := by
  obtain ⟨hi, hg, hiss, hl⟩ := h
  refine ⟨inv_read_callback none cb t d s hi, gi_frame _ s _ rfl rfl rfl rfl rfl hg, ?_, hl⟩
  exact (keep_observe _ s).2 _ hiss

/-- The handling of an operation ends with requests in flight. -/
theorem busy_finish (s : State) (o : PendingOperation) (rest : List PendingOperation)
    (h : Busy s o rest) (hf : FrontOK o (reqsOf o.id s.in_flight)) : Inv none s ∧ GI none s := by
  obtain ⟨hi, hg, hiss, hl⟩ := h
  refine ⟨hi, ?_⟩
  obtain ⟨g1, g2, g3, g4, g5⟩ := hg
  refine ⟨g1, g2, ?_, ?_, g5⟩
  · intro K q hq
    obtain ⟨front, rest₀, hq', hfr, hw⟩ := g3 K q hq
    refine ⟨front, rest₀, hq', ?_, hw⟩
    intro _
    by_cases hid : front.id = o.id
    · obtain ⟨_, _, ho⟩ := front_unique none s hi o.key_ K o rest q hl hq front
        (by rw [hq']; exact List.mem_cons_self _ _) hid
      rw [ho]; exact hf
    · exact hfr (by simpa using hid)
  · intro r hr _
    by_cases hid : r.op = o.id
    · have hmem : r ∈ reqsOf o.id s.in_flight := (mem_reqsOf _ _ _).2 ⟨hr, hid⟩
      obtain ⟨hk, _⟩ := frontOK_mem o _ hf r hmem
      exact ⟨o, rest, by rw [hk]; exact hl, hid.symm⟩
    · exact g4 r hr (by simpa using hid)

theorem lookup_dequeue (m : List (List Char × List PendingOperation)) (key : List Char)
    (rest : List PendingOperation) (q₀ : List PendingOperation) (hl : m.lookup key = some q₀)
    (K : List Char) :
    (if rest.isEmpty then eraseQueue m key else setQueue m key rest).lookup K =
      if K = key then (if rest = [] then none else some rest) else m.lookup K := by
  by_cases hr : rest = []
  · subst hr
    simp only [List.isEmpty_nil, if_true]
    rw [lookup_eraseQueue]
  · have hre : rest.isEmpty = false := by cases rest <;> simp at hr ⊢
    simp only [hre, Bool.false_eq_true, if_false, hr]
    rw [lookup_setQueue]
    by_cases hk : K = key
    · subst hk; simp [hl]
    · simp [hk]

/-! #### Closing an operation -/

theorem ok_bind {α β : Type} (a : α) (f : α → Except Fault β) :
    ((Except.ok a : Except Fault α) >>= f) = f a := rfl

theorem DequeueOperation_eq (s : State) (o front : PendingOperation)
    (rest : List PendingOperation)
    (hl : s.active_entries_map_.lookup o.key_ = some (front :: rest)) :
    DequeueOperation o s = .ok (front, dequeue o.key_ rest s) := by
  simp only [DequeueOperation, hl, dequeue]
  split <;> simp [*]

theorem ghole_close (s : State) (o : PendingOperation) (rest : List PendingOperation)
    (h : Busy s o rest) (hreq : reqsOf o.id s.in_flight = []) :
    GHole o.key_ (observe (.closed o.id o.key_) (dequeue o.key_ rest s)) := by
  obtain ⟨hi, hg, hiss, hl⟩ := h
  obtain ⟨g1, g2, g3, g4, g5⟩ := hg
  have hlk : ∀ K, (observe (.closed o.id o.key_) (dequeue o.key_ rest s)).active_entries_map_.lookup K
      = if K = o.key_ then (if rest = [] then none else some rest)
        else s.active_entries_map_.lookup K :=
    fun K => lookup_dequeue _ _ _ _ hl K
  have hfl : (observe (.closed o.id o.key_) (dequeue o.key_ rest s)).in_flight = s.in_flight := rfl
  have hnone : ∀ r ∈ s.in_flight, r.op ≠ o.id := by
    intro r hr e
    have : r ∈ reqsOf o.id s.in_flight := (mem_reqsOf _ _ _).2 ⟨hr, e⟩
    rw [hreq] at this
    simp at this
  obtain ⟨front₀, rest₀, hq₀, _, hw₀⟩ := g3 _ _ hl
  simp only [List.cons.injEq] at hq₀
  have hwrest : ∀ o' ∈ rest, WaitOK o' := by rw [hq₀.2]; exact hw₀
  -- the invariant for any exemption that covers the new front
  have hgi : ∀ ex : Option Nat, (∀ y rest', rest = y :: rest' → ex = some y.id) →
      GI ex (observe (.closed o.id o.key_) (dequeue o.key_ rest s)) := by
    intro ex hex
    refine ⟨g1, g2, ?_, ?_, g5⟩
    · intro K q hq
      rw [hlk K] at hq
      by_cases hk : K = o.key_
      · simp only [hk, if_true] at hq
        cases hr : rest with
        | nil => simp [hr] at hq
        | cons y rest' =>
          simp only [hr, reduceCtorEq, if_false, Option.some.injEq] at hq
          subst hq
          refine ⟨y, rest', rfl, ?_, ?_⟩
          · intro hne
            exact absurd (hex y rest' hr).symm hne
          · intro o' ho'
            exact hwrest o' (by rw [hr]; exact List.mem_cons_of_mem _ ho')
      · simp only [hk, if_false] at hq
        obtain ⟨front, rest₁, hq', hfr, hw⟩ := g3 K q hq
        refine ⟨front, rest₁, hq', ?_, hw⟩
        intro _
        rw [hfl]
        apply hfr
        intro e
        simp only [Option.some.injEq] at e
        exact hk (front_unique none s hi o.key_ K o rest q hl hq front
          (by rw [hq']; exact List.mem_cons_self _ _) e).1
    · intro r hr _
      obtain ⟨front, rest₁, hlr, hid⟩ := g4 r hr (by
        intro e
        simp only [Option.some.injEq] at e
        exact hnone r hr e)
      have hk : r.key ≠ o.key_ := by
        intro e
        rw [e, hl] at hlr
        simp only [Option.some.injEq, List.cons.injEq] at hlr
        rw [← hlr.1] at hid
        exact hnone r hr hid.symm
      refine ⟨front, rest₁, ?_, hid⟩
      rw [hlk r.key]
      simp only [hk, if_false]
      exact hlr
  unfold GHole
  rw [hlk o.key_]
  simp only [if_true]
  by_cases hr : rest = []
  · rw [if_pos hr]
    exact hgi none (by intro y rest' e; rw [hr] at e; exact absurd e (by simp))
  · rw [if_neg hr]
    obtain ⟨y, rest', hr'⟩ := List.exists_cons_of_ne_nil hr
    subst hr'
    refine ⟨hgi (some y.id) ?_, hwrest y (List.mem_cons_self _ _), ?_⟩
    · intro y' rest'' e
      simp only [List.cons.injEq] at e
      rw [e.1]
    · rw [hfl]
      by_contra hne
      obtain ⟨r, hr'⟩ := List.exists_mem_of_ne_nil _ hne
      obtain ⟨hrm, hrop⟩ := (mem_reqsOf _ _ _).1 hr'
      have hyo : y.id ≠ o.id :=
        rest_id_ne none s hi o.key_ o.key_ o o _ _ hl hl y (List.mem_cons_self _ _)
      obtain ⟨front, rest₁, hlr, hid⟩ := g4 r hrm (by
        intro e
        simp only [Option.some.injEq] at e
        exact hyo (by rw [← hrop, e]))
      exact rest_id_ne none s hi r.key o.key_ front o rest₁ _ hlr hl y
        (List.mem_cons_self _ _) (by rw [hid, hrop])

theorem load_dequeue (s : State) (o : PendingOperation) (rest : List PendingOperation)
    (hnd : (s.active_entries_map_.map (fun p => p.1)).Nodup)
    (hl : s.active_entries_map_.lookup o.key_ = some (o :: rest)) (ob : Obs) :
    load (observe ob (dequeue o.key_ rest s)) + 10 = load s := by
  have := queued_dequeue s o.key_ o rest _ hnd hl rfl (observe ob (dequeue o.key_ rest s)) rfl
  unfold load
  have hfl : (observe ob (dequeue o.key_ rest s)).in_flight = s.in_flight := rfl
  rw [hfl]
  omega

/-- Closing the operation that is being handled, once none of its requests is in
flight. -/
theorem busy_close (E : Fault → Prop) (n : Nat) (next : List Char → State → Except Fault State)
    (hnext : NextR E n next) (s : State) (o : PendingOperation) (rest : List PendingOperation)
    (h : Busy s o rest) (hreq : reqsOf o.id s.in_flight = [])
    (hn : rest.length < n ∨ E .out_of_fuel) :
    Res E (fun s' => Inv none s' ∧ GI none s' ∧ load s' + 7 ≤ load s)
      (CloseOperationAndIssueNext next o s) := by
  have hl := h.2.2.2
  have hi := h.1
  unfold CloseOperationAndIssueNext
  rw [DequeueOperation_eq s o o rest hl, ok_bind]
  simp only []
  have hinv : Inv (some o.key_) (observe (.closed o.id o.key_) (dequeue o.key_ rest s)) :=
    inv_close s o.key_ o rest _ hi hl rfl
  have hgh := ghole_close s o rest h hreq
  have hload := load_dequeue s o rest hi.1 hl (.closed o.id o.key_)
  have hq : queueOf (observe (.closed o.id o.key_) (dequeue o.key_ rest s)) o.key_ = rest := by
    unfold queueOf
    have := lookup_dequeue s.active_entries_map_ o.key_ rest _ hl o.key_
    show (List.lookup o.key_ (dequeue o.key_ rest s).active_entries_map_).getD [] = rest
    unfold dequeue
    simp only []
    rw [this]
    by_cases hr : rest = [] <;> simp [hr]
  refine res_mono (hnext o.key_ _ hinv hgh (by rw [hq]; exact hn)) ?_
  intro s' ⟨h1, h2, h3⟩
  exact ⟨h1, h2, by omega⟩

/-! #### The disk cache's answers -/

theorem nextDecision_forced (op : Nat) (s : State) (r : Request)
    (h : r ∈ reqsOf op s.in_flight) : (nextDecision op s).1 = .pending := by
  unfold nextDecision
  split
  · rfl
  · simp [any_eq_true_of_reqsOf op _ r h]

theorem busy_nextDecision (s : State) (o : PendingOperation) (rest : List PendingOperation)
    (op : Nat) (h : Busy s o rest) :
    Busy (nextDecision op s).2 o rest ∧ (nextDecision op s).2.in_flight = s.in_flight ∧
      load (nextDecision op s).2 = load s := by
  obtain ⟨h1, h2, h3, h4, h5, h6, h7, _⟩ := nextDecision_frame op s
  exact ⟨busy_frame s _ o rest h6 h7 h1 h2 h3 h4 h5 h, h4, load_frame _ _ h1 h4⟩

theorem busy_store (s : State) (o : PendingOperation) (rest : List PendingOperation)
    (store : List (List Char × Entry)) (h : Busy s o rest) :
    Busy { s with store := store } o rest :=
  busy_frame s _ o rest rfl rfl rfl rfl rfl rfl rfl h

theorem DoomEntry_eq (o : PendingOperation) (s : State) (h : s.backend_ = true) :
    DoomEntry o s = .ok { s with store := Backend.DoomEntry s.store o.key_ } := by
  simp [DoomEntry, h]

theorem runReadCallback_eq (s : State) (o : PendingOperation) (rest : List PendingOperation)
    (h : Busy s o rest) (cb : Nat) (hcb : o.read_callback_ = some cb) (t : Int) (d : List Nat) :
    runReadCallback o.id t d s =
      .ok (observe (.read_callback cb t d)
        (modifyOp o.id (fun o => { o with read_callback_ := none }) s)) := by
  unfold runReadCallback
  rw [deref_front none s h.1 o.key_ o rest h.2.2.2, ok_bind]
  simp only [hcb]
  rfl

theorem busy_runReadCallback (s : State) (o : PendingOperation) (rest : List PendingOperation)
    (h : Busy s o rest) (cb : Nat) (t : Int) (d : List Nat) :
    Busy (observe (.read_callback cb t d)
      (modifyOp o.id (fun o => { o with read_callback_ := none }) s))
      { o with read_callback_ := none } rest :=
  busy_observe _ _ rest cb t d
    (busy_modifyOp s o rest (fun o => { o with read_callback_ := none })
      (fun _ => ⟨rfl, rfl⟩) h)

/-! #### The handlers of a write -/

theorem sameBut_refl (o : PendingOperation) : SameBut o o := ⟨rfl, rfl, rfl, rfl, rfl⟩

theorem deref_busy (s : State) (o o' : PendingOperation) (rest : List PendingOperation)
    (h : Busy s o' rest) (hid : o'.id = o.id) : deref s o.id = .ok o' := by
  rw [← hid]
  exact deref_front none s h.1 o'.key_ o' rest h.2.2.2

theorem WriteResponseTimeComplete_r (s : State) (o : PendingOperation)
    (rest : List PendingOperation) (h : Busy s o rest) (rv : Int) :
    ∃ s' o', WriteResponseTimeComplete o.id rv s = .ok s' ∧ Busy s' o' rest ∧ SameBut o o' ∧
      s'.in_flight = s.in_flight ∧ load s' = load s := by
  unfold WriteResponseTimeComplete
  split
  · rw [deref_front none s h.1 o.key_ o rest h.2.2.2, ok_bind]
    exact ⟨_, _, rfl, busy_modifyOp s o rest _ (fun _ => ⟨rfl, rfl⟩) h, ⟨rfl, rfl, rfl, rfl, rfl⟩,
      rfl, load_modifyOp _ _ _⟩
  · exact ⟨s, o, rfl, h, sameBut_refl o, rfl, rfl⟩

theorem completeWriteResponseTime_r (s : State) (o : PendingOperation)
    (rest : List PendingOperation) (h : Busy s o rest) (key : List Char) (time : Int)
    (ok : Bool) :
    ∃ s' o', completeWriteResponseTime o.id key time ok s = .ok s' ∧ Busy s' o' rest ∧
      SameBut o o' ∧ s'.in_flight = s.in_flight ∧ load s' = load s := by
  unfold completeWriteResponseTime
  rcases hb : Backend.WriteResponseTime s.store key time ok with ⟨rv, store⟩
  simp only []
  obtain ⟨s', o', heq, hb', hsame, hfl, hld⟩ :=
    WriteResponseTimeComplete_r { s with store := store } o rest (busy_store s o rest store h) rv
  exact ⟨s', o', heq, hb', hsame, hfl, hld⟩

theorem WriteDataComplete_r (E : Fault → Prop) (n : Nat)
    (next : List Char → State → Except Fault State) (hnext : NextR E n next) (s : State)
    (o : PendingOperation) (rest : List PendingOperation) (h : Busy s o rest)
    (hd : o.data_buffer_ ≠ none) (hreq : reqsOf o.id s.in_flight = [])
    (hn : rest.length < n ∨ E .out_of_fuel) (rv : Int) :
    Res E (fun s' => Inv none s' ∧ GI none s' ∧ load s' + 7 ≤ load s)
      (WriteDataComplete next o.id rv s) := by
  unfold WriteDataComplete
  rw [deref_front none s h.1 o.key_ o rest h.2.2.2, ok_bind]
  split
  · next hnone => exact absurd hnone hd
  · next data _ =>
    apply res_bind (P := fun s₁ => Busy s₁ o rest ∧ reqsOf o.id s₁.in_flight = [] ∧
      load s₁ = load s)
    · split
      · rw [DoomEntry_eq o s h.2.1.2.1]
        exact ⟨busy_store s o rest _ h, hreq, rfl⟩
      · exact ⟨h, hreq, rfl⟩
    · intro s₁ ⟨hb₁, hreq₁, hld₁⟩
      refine res_mono (busy_close E n next hnext s₁ o rest hb₁ hreq₁ hn) ?_
      intro s' ⟨a, b, c⟩
      exact ⟨a, b, by omega⟩

theorem completeWriteData_r (E : Fault → Prop) (n : Nat)
    (next : List Char → State → Except Fault State) (hnext : NextR E n next) (s : State)
    (o : PendingOperation) (rest : List PendingOperation) (h : Busy s o rest)
    (hd : o.data_buffer_ ≠ none) (hreq : reqsOf o.id s.in_flight = [])
    (hn : rest.length < n ∨ E .out_of_fuel) (key : List Char) (data : List Nat) (ok : Bool) :
    Res E (fun s' => Inv none s' ∧ GI none s' ∧ load s' + 7 ≤ load s)
      (completeWriteData next o.id key data ok s) := by
  unfold completeWriteData
  rcases hb : Backend.WriteData s.store key data ok with ⟨rv, store⟩
  simp only []
  exact WriteDataComplete_r E n next hnext { s with store := store } o rest
    (busy_store s o rest store h) hd hreq hn rv

theorem frontOK_write_both (o : PendingOperation) (hop : o.op_ = .kWrite)
    (hd : o.data_buffer_ ≠ none) (time : Int) (data : List Nat) :
    FrontOK o [.WriteResponseTime o.id o.key_ time, .WriteData o.id o.key_ data] := by
  unfold FrontOK
  rw [hop]
  exact ⟨hd, Or.inr (Or.inl ⟨time, data, rfl⟩)⟩

theorem frontOK_write_data (o : PendingOperation) (hop : o.op_ = .kWrite)
    (hd : o.data_buffer_ ≠ none) (data : List Nat) :
    FrontOK o [.WriteData o.id o.key_ data] := by
  unfold FrontOK
  rw [hop]
  exact ⟨hd, Or.inr (Or.inr ⟨data, rfl⟩)⟩

theorem frontOK_write_open (o : PendingOperation) (hop : o.op_ = .kWrite)
    (hd : o.data_buffer_ ≠ none) (ht : o.time_buffer_ ≠ none) :
    FrontOK o [.OpenOrCreateEntry o.id o.key_] := by
  unfold FrontOK
  rw [hop]
  exact ⟨hd, Or.inl ⟨rfl, ht⟩⟩

theorem OpenCompleteForWrite_r (E : Fault → Prop) (n : Nat)
    (next : List Char → State → Except Fault State) (hnext : NextR E n next) (s : State)
    (o : PendingOperation) (rest : List PendingOperation) (h : Busy s o rest)
    (hop : o.op_ = .kWrite) (ht : o.time_buffer_ ≠ none) (hd : o.data_buffer_ ≠ none)
    (hreq : reqsOf o.id s.in_flight = []) (hn : rest.length < n ∨ E .out_of_fuel)
    (entry_result : EntryResult) :
    Res E (fun s' => Inv none s' ∧ GI none s' ∧ load s' ≤ load s + 2)
      (OpenCompleteForWrite next o.id entry_result s) := by
  unfold OpenCompleteForWrite
  rw [deref_front none s h.1 o.key_ o rest h.2.2.2, ok_bind]
  split
  · refine res_mono (busy_close E n next hnext s o rest h hreq hn) ?_
    intro s' ⟨a, b, c⟩
    exact ⟨a, b, by omega⟩
  · split
    · next hnone => exact absurd hnone ht
    · next time _ =>
      apply res_bind (P := fun s₁ => ∃ o₁, Busy s₁ o₁ rest ∧ SameBut o o₁ ∧
        ((reqsOf o.id s₁.in_flight = [] ∧ load s₁ = load s) ∨
          (reqsOf o.id s₁.in_flight = [.WriteResponseTime o.id o.key_ time] ∧
            load s₁ = load s + 1)))
      · obtain ⟨hb, hfl, hld⟩ := busy_nextDecision s o rest o.id h
        rcases hnd : nextDecision o.id s with ⟨dec, s₀⟩
        rw [hnd] at hb hfl hld
        simp only [] at hb hfl hld
        cases dec with
        | pending =>
          refine ⟨o, busy_defer s₀ o rest _ rfl hb, sameBut_refl o, Or.inr ⟨?_, ?_⟩⟩
          · have := reqsOf_defer_self (.WriteResponseTime o.id o.key_ time) s₀
            simp only [Request.op] at this
            rw [this, hfl, hreq]
            rfl
          · rw [load_defer, hld]
            rfl
        | done ok =>
          obtain ⟨s', o', heq, hb', hsame, hfl', hld'⟩ :=
            completeWriteResponseTime_r s₀ o rest hb o.key_ time ok
          simp only []
          rw [heq]
          exact ⟨o', hb', hsame, Or.inl ⟨by rw [hfl', hfl]; exact hreq, by rw [hld', hld]⟩⟩
      · intro s₁ ⟨o₁, hb₁, hsame, hcase⟩
        obtain ⟨e1, e2, e3, e4, e5⟩ := hsame
        rw [deref_busy s₁ o o₁ rest hb₁ e1, ok_bind]
        have hd₁ : o₁.data_buffer_ ≠ none := by rw [e4]; exact hd
        have hop₁ : o₁.op_ = .kWrite := by rw [e3]; exact hop
        split
        · next hnone => exact absurd hnone hd₁
        · next data _ =>
          obtain ⟨hb, hfl, hld⟩ := busy_nextDecision s₁ o₁ rest o.id hb₁
          rcases hcase with ⟨hr₁, hl₁⟩ | ⟨hr₁, hl₁⟩
          · rcases hnd : nextDecision o.id s₁ with ⟨dec, s₂⟩
            rw [hnd] at hb hfl hld
            simp only [] at hb hfl hld
            cases dec with
            | pending =>
              have hb₂ := busy_defer s₂ o₁ rest (.WriteData o.id o₁.key_ data) e1.symm hb
              have hreq₂ : reqsOf o₁.id (defer (.WriteData o.id o₁.key_ data) s₂).in_flight =
                  [.WriteData o₁.id o₁.key_ data] := by
                have := reqsOf_defer_self (.WriteData o.id o₁.key_ data) s₂
                simp only [Request.op] at this
                rw [e1, this, hfl, hr₁]
                rfl
              obtain ⟨hi', hg'⟩ := busy_finish _ o₁ rest hb₂
                (by rw [hreq₂]; exact frontOK_write_data o₁ hop₁ hd₁ data)
              refine ⟨hi', hg', ?_⟩
              rw [load_defer, hld, hl₁]
              simp [weight]
            | done ok =>
              simp only []
              have := completeWriteData_r E n next hnext s₂ o₁ rest hb hd₁
                (by rw [e1, hfl]; exact hr₁) hn o₁.key_ data ok
              rw [e1] at this
              refine res_mono this ?_
              intro s' ⟨a, b, c⟩
              exact ⟨a, b, by omega⟩
          · have hforced := nextDecision_forced o.id s₁ (.WriteResponseTime o.id o.key_ time)
              (by rw [hr₁]; exact List.mem_cons_self _ _)
            rcases hnd : nextDecision o.id s₁ with ⟨dec, s₂⟩
            rw [hnd] at hb hfl hld hforced
            simp only [] at hb hfl hld hforced
            subst hforced
            have hb₂ := busy_defer s₂ o₁ rest (.WriteData o.id o₁.key_ data) e1.symm hb
            have hreq₂ : reqsOf o₁.id (defer (.WriteData o.id o₁.key_ data) s₂).in_flight =
                [.WriteResponseTime o₁.id o₁.key_ time, .WriteData o₁.id o₁.key_ data] := by
              have := reqsOf_defer_self (.WriteData o.id o₁.key_ data) s₂
              simp only [Request.op] at this
              rw [e1, this, hfl, hr₁, e2]
              rfl
            obtain ⟨hi', hg'⟩ := busy_finish _ o₁ rest hb₂
              (by rw [hreq₂]; exact frontOK_write_both o₁ hop₁ hd₁ time data)
            refine ⟨hi', hg', ?_⟩
            rw [load_defer, hld, hl₁]
            simp [weight]

theorem completeOpenOrCreateEntry_r (E : Fault → Prop) (n : Nat)
    (next : List Char → State → Except Fault State) (hnext : NextR E n next) (s : State)
    (o : PendingOperation) (rest : List PendingOperation) (h : Busy s o rest)
    (hop : o.op_ = .kWrite) (ht : o.time_buffer_ ≠ none) (hd : o.data_buffer_ ≠ none)
    (hreq : reqsOf o.id s.in_flight = []) (hn : rest.length < n ∨ E .out_of_fuel)
    (key : List Char) (ok : Bool) :
    Res E (fun s' => Inv none s' ∧ GI none s' ∧ load s' ≤ load s + 2)
      (completeOpenOrCreateEntry next o.id key ok s) := by
  unfold completeOpenOrCreateEntry
  rcases hb : Backend.OpenOrCreateEntry s.store key ok with ⟨result, store⟩
  simp only []
  exact OpenCompleteForWrite_r E n next hnext { s with store := store } o rest
    (busy_store s o rest store h) hop ht hd hreq hn result

theorem WriteEntryImpl_r (E : Fault → Prop) (n : Nat)
    (next : List Char → State → Except Fault State) (hnext : NextR E n next) (s : State)
    (o : PendingOperation) (rest : List PendingOperation) (h : Busy s o rest)
    (hop : o.op_ = .kWrite) (ht : o.time_buffer_ ≠ none) (hd : o.data_buffer_ ≠ none)
    (hreq : reqsOf o.id s.in_flight = []) (hn : rest.length < n ∨ E .out_of_fuel) :
    Res E (fun s' => Inv none s' ∧ GI none s' ∧ load s' ≤ load s + 3)
      (WriteEntryImpl next o s) := by
  unfold WriteEntryImpl
  have hinit := h.2.1.1
  have hback := h.2.1.2.1
  simp only [hinit, ne_eq, not_true_eq_false, if_false, hback, Bool.not_true, Bool.false_eq_true]
  obtain ⟨hb, hfl, hld⟩ := busy_nextDecision s o rest o.id h
  rcases hnd : nextDecision o.id s with ⟨dec, s₀⟩
  rw [hnd] at hb hfl hld
  simp only [] at hb hfl hld
  cases dec with
  | pending =>
    have hb₂ := busy_defer s₀ o rest (.OpenOrCreateEntry o.id o.key_) rfl hb
    have hreq₂ : reqsOf o.id (defer (.OpenOrCreateEntry o.id o.key_) s₀).in_flight =
        [.OpenOrCreateEntry o.id o.key_] := by
      have := reqsOf_defer_self (.OpenOrCreateEntry o.id o.key_) s₀
      simp only [Request.op] at this
      rw [this, hfl, hreq]
      rfl
    obtain ⟨hi', hg'⟩ := busy_finish _ o rest hb₂
      (by rw [hreq₂]; exact frontOK_write_open o hop hd ht)
    refine ⟨hi', hg', ?_⟩
    rw [load_defer, hld]
    simp [weight]
  | done ok =>
    simp only []
    refine res_mono (completeOpenOrCreateEntry_r E n next hnext s₀ o rest hb hop ht hd
      (by rw [hfl]; exact hreq) hn o.key_ ok) ?_
    intro s' ⟨a, b, c⟩
    exact ⟨a, b, by omega⟩

/-! #### The handlers of a fetch -/

theorem close_congr (next : List Char → State → Except Fault State) (o o' : PendingOperation)
    (hid : o'.id = o.id) (hkey : o'.key_ = o.key_) (s : State) :
    CloseOperationAndIssueNext next o s = CloseOperationAndIssueNext next o' s := by
  simp only [CloseOperationAndIssueNext, DequeueOperation, hid, hkey]

theorem ReadResponseTimeComplete_r (s : State) (o : PendingOperation)
    (rest : List PendingOperation) (h : Busy s o rest) (rv : Int) :
    ∃ s' o', ReadResponseTimeComplete o.id rv s = .ok s' ∧ Busy s' o' rest ∧ SameBut o o' ∧
      s'.in_flight = s.in_flight ∧ load s' = load s := by
  unfold ReadResponseTimeComplete
  split
  · rw [deref_front none s h.1 o.key_ o rest h.2.2.2, ok_bind]
    exact ⟨_, _, rfl, busy_modifyOp s o rest _ (fun _ => ⟨rfl, rfl⟩) h, ⟨rfl, rfl, rfl, rfl, rfl⟩,
      rfl, load_modifyOp _ _ _⟩
  · exact ⟨s, o, rfl, h, sameBut_refl o, rfl, rfl⟩

theorem completeReadResponseTime_r (s : State) (o : PendingOperation)
    (rest : List PendingOperation) (h : Busy s o rest) (key : List Char) (ok : Bool) :
    ∃ s' o', completeReadResponseTime o.id key ok s = .ok s' ∧ Busy s' o' rest ∧
      SameBut o o' ∧ s'.in_flight = s.in_flight ∧ load s' = load s := by
  unfold completeReadResponseTime
  split
  · next rv time _ =>
    have hb := busy_modifyOp s o rest
      (fun o => { o with time_buffer_ := o.time_buffer_.map (fun _ => time) })
      (fun _ => ⟨rfl, rfl⟩) h
    obtain ⟨s', o', heq, hb', hsame, hfl, hld⟩ := ReadResponseTimeComplete_r _ _ rest hb rv
    refine ⟨s', o', heq, hb', ?_, hfl, ?_⟩
    · obtain ⟨e1, e2, e3, e4, e5⟩ := hsame
      exact ⟨e1, e2, e3, e4, e5⟩
    · rw [hld, load_modifyOp]
  · exact ReadResponseTimeComplete_r s o rest h _

theorem ReadDataComplete_r (E : Fault → Prop) (n : Nat)
    (next : List Char → State → Except Fault State) (hnext : NextR E n next) (s : State)
    (o : PendingOperation) (rest : List PendingOperation) (h : Busy s o rest)
    (hcb : o.read_callback_ ≠ none) (hd : o.data_buffer_ ≠ none)
    (hreq : reqsOf o.id s.in_flight = []) (hn : rest.length < n ∨ E .out_of_fuel) (rv : Int) :
    Res E (fun s' => Inv none s' ∧ GI none s' ∧ load s' + 7 ≤ load s)
      (ReadDataComplete next o.id rv s) := by
  obtain ⟨cb, hcb⟩ := Option.ne_none_iff_exists'.1 hcb
  unfold ReadDataComplete
  rw [deref_front none s h.1 o.key_ o rest h.2.2.2, ok_bind]
  have hrun : ∀ (t : Int) (d : List Nat),
      Res E (fun s₁ => ∃ o₁, Busy s₁ o₁ rest ∧ o₁.id = o.id ∧ o₁.key_ = o.key_ ∧
        reqsOf o.id s₁.in_flight = [] ∧ load s₁ = load s) (runReadCallback o.id t d s) := by
    intro t d
    rw [runReadCallback_eq s o rest h cb hcb t d]
    exact ⟨_, busy_runReadCallback s o rest h cb t d, rfl, rfl, hreq, load_modifyOp _ _ _⟩
  have hfail : Res E (fun s₁ => ∃ o₁, Busy s₁ o₁ rest ∧ o₁.id = o.id ∧ o₁.key_ = o.key_ ∧
      reqsOf o.id s₁.in_flight = [] ∧ load s₁ = load s)
      (runReadCallback o.id 0 [] s >>= DoomEntry o) := by
    refine res_bind (hrun 0 []) ?_
    intro s₁ ⟨o₁, hb₁, e1, e2, hr₁, hl₁⟩
    rw [DoomEntry_eq o s₁ hb₁.2.1.2.1]
    exact ⟨o₁, busy_store s₁ o₁ rest _ hb₁, e1, e2, hr₁, hl₁⟩
  split
  · next hnone => exact absurd hnone hd
  · next data _ =>
    apply res_bind (P := fun s₁ => ∃ o₁, Busy s₁ o₁ rest ∧ o₁.id = o.id ∧ o₁.key_ = o.key_ ∧
      reqsOf o.id s₁.in_flight = [] ∧ load s₁ = load s)
    · split
      · exact hfail
      · split
        · exact hfail
        · exact hrun _ _
    · intro s₁ ⟨o₁, hb₁, e1, e2, hr₁, hl₁⟩
      rw [close_congr next o o₁ e1 e2]
      refine res_mono (busy_close E n next hnext s₁ o₁ rest hb₁ (by rw [e1]; exact hr₁) hn) ?_
      intro s' ⟨a, b, c⟩
      exact ⟨a, b, by omega⟩

theorem completeReadData_r (E : Fault → Prop) (n : Nat)
    (next : List Char → State → Except Fault State) (hnext : NextR E n next) (s : State)
    (o : PendingOperation) (rest : List PendingOperation) (h : Busy s o rest)
    (hcb : o.read_callback_ ≠ none) (hd : o.data_buffer_ ≠ none)
    (hreq : reqsOf o.id s.in_flight = []) (hn : rest.length < n ∨ E .out_of_fuel)
    (key : List Char) (len : Nat) (ok : Bool) :
    Res E (fun s' => Inv none s' ∧ GI none s' ∧ load s' + 7 ≤ load s)
      (completeReadData next o.id key len ok s) := by
  unfold completeReadData
  rcases hb : Backend.ReadData s.store key len ok with ⟨rv, bytes⟩
  simp only []
  have hb' := busy_modifyOp s o rest
    (fun o => { o with
      data_buffer_ := o.data_buffer_.map (fun buffer => bytes ++ buffer.drop bytes.length) })
    (fun _ => ⟨rfl, rfl⟩) h
  have := ReadDataComplete_r E n next hnext _ _ rest hb' hcb
    (by
      obtain ⟨d, hd'⟩ := Option.ne_none_iff_exists'.1 hd
      simp [hd'])
    hreq hn rv
  rw [load_modifyOp] at this
  exact this

theorem frontOK_fetch_open (o : PendingOperation) (hop : o.op_ = .kFetch)
    (hcb : o.read_callback_ ≠ none) : FrontOK o [.OpenEntry o.id o.key_] := by
  unfold FrontOK
  rw [hop]
  exact ⟨hcb, Or.inl rfl⟩

theorem frontOK_fetch_both (o : PendingOperation) (hop : o.op_ = .kFetch)
    (hcb : o.read_callback_ ≠ none) (hd : o.data_buffer_ ≠ none) (len : Nat) :
    FrontOK o [.ReadResponseTime o.id o.key_, .ReadData o.id o.key_ len] := by
  unfold FrontOK
  rw [hop]
  exact ⟨hcb, Or.inr ⟨hd, Or.inl ⟨len, rfl⟩⟩⟩

theorem frontOK_fetch_data (o : PendingOperation) (hop : o.op_ = .kFetch)
    (hcb : o.read_callback_ ≠ none) (hd : o.data_buffer_ ≠ none) (len : Nat) :
    FrontOK o [.ReadData o.id o.key_ len] := by
  unfold FrontOK
  rw [hop]
  exact ⟨hcb, Or.inr ⟨hd, Or.inr ⟨len, rfl⟩⟩⟩

theorem OpenCompleteForRead_r (E : Fault → Prop) (n : Nat)
    (next : List Char → State → Except Fault State) (hnext : NextR E n next) (s : State)
    (o : PendingOperation) (rest : List PendingOperation) (h : Busy s o rest)
    (hop : o.op_ = .kFetch) (hcb : o.read_callback_ ≠ none)
    (hreq : reqsOf o.id s.in_flight = []) (hn : rest.length < n ∨ E .out_of_fuel)
    (entry_result : EntryResult) :
    Res E (fun s' => Inv none s' ∧ GI none s' ∧ load s' ≤ load s + 2)
      (OpenCompleteForRead next o.id entry_result s) := by
  obtain ⟨cb, hcb'⟩ := Option.ne_none_iff_exists'.1 hcb
  unfold OpenCompleteForRead
  rw [deref_front none s h.1 o.key_ o rest h.2.2.2, ok_bind]
  split
  · rw [runReadCallback_eq s o rest h cb hcb' 0 [], ok_bind]
    have hb₁ := busy_runReadCallback s o rest h cb 0 []
    rw [close_congr next o { o with read_callback_ := none } rfl rfl]
    refine res_mono (busy_close E n next hnext _ _ rest hb₁ hreq hn) ?_
    intro s' ⟨a, b, c⟩
    refine ⟨a, b, ?_⟩
    have : load (observe (.read_callback cb 0 [])
        (modifyOp o.id (fun o => { o with read_callback_ := none }) s)) = load s :=
      load_modifyOp _ _ _
    omega
  · simp only []
    have hbm : Busy (modifyOp o.id
        (fun x => { x with
          time_buffer_ := some 0,
          data_buffer_ := some (List.replicate (Backend.GetDataSize s.store o.key_) 0) }) s)
        ({ o with
          time_buffer_ := some 0,
          data_buffer_ := some (List.replicate (Backend.GetDataSize s.store o.key_) 0) } :
          PendingOperation) rest :=
      busy_modifyOp s o rest _ (fun _ => ⟨rfl, rfl⟩) h
    have hldm := load_modifyOp o.id
      (fun x => { x with
        time_buffer_ := some 0,
        data_buffer_ := some (List.replicate (Backend.GetDataSize s.store o.key_) 0) }) s
    generalize hsm : modifyOp o.id
      (fun x => { x with
        time_buffer_ := some 0,
        data_buffer_ := some (List.replicate (Backend.GetDataSize s.store o.key_) 0) }) s = sm
        at hbm hldm
    generalize hom : ({ o with
        time_buffer_ := some 0,
        data_buffer_ := some (List.replicate (Backend.GetDataSize s.store o.key_) 0) } :
        PendingOperation) = om at hbm
    have hreqm : reqsOf o.id sm.in_flight = [] := by rw [← hsm]; exact hreq
    have hsame₀ : om.id = o.id ∧ om.key_ = o.key_ ∧ om.op_ = .kFetch ∧
        om.data_buffer_ ≠ none ∧ om.read_callback_ ≠ none := by
      rw [← hom]
      exact ⟨rfl, rfl, hop, by simp, hcb⟩
    obtain ⟨m1, m2, m3, m4, m5⟩ := hsame₀
    apply res_bind (P := fun s₁ => ∃ o₁, Busy s₁ o₁ rest ∧ SameBut om o₁ ∧
      ((reqsOf o.id s₁.in_flight = [] ∧ load s₁ = load s) ∨
        (reqsOf o.id s₁.in_flight = [.ReadResponseTime o.id o.key_] ∧
          load s₁ = load s + 1)))
    · obtain ⟨hb, hfl, hld⟩ := busy_nextDecision sm om rest o.id hbm
      rcases hnd : nextDecision o.id sm with ⟨dec, s₀⟩
      rw [hnd] at hb hfl hld
      simp only [] at hb hfl hld
      cases dec with
      | pending =>
        refine ⟨om, busy_defer s₀ om rest _ m1.symm hb, sameBut_refl om, Or.inr ⟨?_, ?_⟩⟩
        · have := reqsOf_defer_self (.ReadResponseTime o.id o.key_) s₀
          simp only [Request.op] at this
          rw [this, hfl, hreqm]
          rfl
        · rw [load_defer, hld, hldm]
          rfl
      | done ok =>
        have := completeReadResponseTime_r s₀ om rest hb o.key_ ok
        rw [m1] at this
        obtain ⟨s', o', heq, hb', hsame, hfl', hld'⟩ := this
        simp only []
        rw [heq]
        exact ⟨o', hb', hsame, Or.inl ⟨by rw [hfl', hfl]; exact hreqm, by rw [hld', hld, hldm]⟩⟩
    · intro s₁ ⟨o₁, hb₁, hsame, hcase⟩
      obtain ⟨e1, e2, e3, e4, e5⟩ := hsame
      have f1 : o₁.id = o.id := by rw [e1, m1]
      have f2 : o₁.key_ = o.key_ := by rw [e2, m2]
      have hd₁ : o₁.data_buffer_ ≠ none := by rw [e4]; exact m4
      have hcb₁ : o₁.read_callback_ ≠ none := by rw [e5]; exact m5
      have hop₁ : o₁.op_ = .kFetch := by rw [e3]; exact m3
      obtain ⟨hb, hfl, hld⟩ := busy_nextDecision s₁ o₁ rest o.id hb₁
      rcases hcase with ⟨hr₁, hl₁⟩ | ⟨hr₁, hl₁⟩
      · rcases hnd : nextDecision o.id s₁ with ⟨dec, s₂⟩
        rw [hnd] at hb hfl hld
        simp only [] at hb hfl hld
        cases dec with
        | pending =>
          have hb₂ := busy_defer s₂ o₁ rest
            (.ReadData o.id o.key_ (Backend.GetDataSize s.store o.key_)) f1.symm hb
          have hreq₂ : reqsOf o₁.id (defer
              (.ReadData o.id o.key_ (Backend.GetDataSize s.store o.key_)) s₂).in_flight =
              [.ReadData o₁.id o₁.key_ (Backend.GetDataSize s.store o.key_)] := by
            have := reqsOf_defer_self
              (.ReadData o.id o.key_ (Backend.GetDataSize s.store o.key_)) s₂
            simp only [Request.op] at this
            rw [f1, this, hfl, hr₁, f2]
            rfl
          obtain ⟨hi', hg'⟩ := busy_finish _ o₁ rest hb₂
            (by rw [hreq₂]; exact frontOK_fetch_data o₁ hop₁ hcb₁ hd₁ _)
          refine ⟨hi', hg', ?_⟩
          rw [load_defer, hld, hl₁]
          simp [weight]
        | done ok =>
          simp only []
          have := completeReadData_r E n next hnext s₂ o₁ rest hb hcb₁ hd₁
            (by rw [f1, hfl]; exact hr₁) hn o.key_ (Backend.GetDataSize s.store o.key_) ok
          rw [f1] at this
          refine res_mono this ?_
          intro s' ⟨a, b, c⟩
          exact ⟨a, b, by omega⟩
      · have hforced := nextDecision_forced o.id s₁ (.ReadResponseTime o.id o.key_)
          (by rw [hr₁]; exact List.mem_cons_self _ _)
        rcases hnd : nextDecision o.id s₁ with ⟨dec, s₂⟩
        rw [hnd] at hb hfl hld hforced
        simp only [] at hb hfl hld hforced
        subst hforced
        have hb₂ := busy_defer s₂ o₁ rest
          (.ReadData o.id o.key_ (Backend.GetDataSize s.store o.key_)) f1.symm hb
        have hreq₂ : reqsOf o₁.id (defer
            (.ReadData o.id o.key_ (Backend.GetDataSize s.store o.key_)) s₂).in_flight =
            [.ReadResponseTime o₁.id o₁.key_,
              .ReadData o₁.id o₁.key_ (Backend.GetDataSize s.store o.key_)] := by
          have := reqsOf_defer_self
            (.ReadData o.id o.key_ (Backend.GetDataSize s.store o.key_)) s₂
          simp only [Request.op] at this
          rw [f1, this, hfl, hr₁, f2]
          rfl
        obtain ⟨hi', hg'⟩ := busy_finish _ o₁ rest hb₂
          (by rw [hreq₂]; exact frontOK_fetch_both o₁ hop₁ hcb₁ hd₁ _)
        refine ⟨hi', hg', ?_⟩
        rw [load_defer, hld, hl₁]
        simp [weight]

theorem completeOpenEntry_r (E : Fault → Prop) (n : Nat)
    (next : List Char → State → Except Fault State) (hnext : NextR E n next) (s : State)
    (o : PendingOperation) (rest : List PendingOperation) (h : Busy s o rest)
    (hop : o.op_ = .kFetch) (hcb : o.read_callback_ ≠ none)
    (hreq : reqsOf o.id s.in_flight = []) (hn : rest.length < n ∨ E .out_of_fuel)
    (key : List Char) (ok : Bool) :
    Res E (fun s' => Inv none s' ∧ GI none s' ∧ load s' ≤ load s + 2)
      (completeOpenEntry next o.id key ok s) := by
  unfold completeOpenEntry
  exact OpenCompleteForRead_r E n next hnext s o rest h hop hcb hreq hn _

theorem FetchEntryImpl_r (E : Fault → Prop) (n : Nat)
    (next : List Char → State → Except Fault State) (hnext : NextR E n next) (s : State)
    (o : PendingOperation) (rest : List PendingOperation) (h : Busy s o rest)
    (hop : o.op_ = .kFetch) (hcb : o.read_callback_ ≠ none)
    (hreq : reqsOf o.id s.in_flight = []) (hn : rest.length < n ∨ E .out_of_fuel) :
    Res E (fun s' => Inv none s' ∧ GI none s' ∧ load s' ≤ load s + 3)
      (FetchEntryImpl next o s) := by
  unfold FetchEntryImpl
  have hinit := h.2.1.1
  have hback := h.2.1.2.1
  simp only [hinit, ne_eq, not_true_eq_false, if_false, hback, Bool.not_true, Bool.false_eq_true]
  obtain ⟨hb, hfl, hld⟩ := busy_nextDecision s o rest o.id h
  rcases hnd : nextDecision o.id s with ⟨dec, s₀⟩
  rw [hnd] at hb hfl hld
  simp only [] at hb hfl hld
  cases dec with
  | pending =>
    have hb₂ := busy_defer s₀ o rest (.OpenEntry o.id o.key_) rfl hb
    have hreq₂ : reqsOf o.id (defer (.OpenEntry o.id o.key_) s₀).in_flight =
        [.OpenEntry o.id o.key_] := by
      have := reqsOf_defer_self (.OpenEntry o.id o.key_) s₀
      simp only [Request.op] at this
      rw [this, hfl, hreq]
      rfl
    obtain ⟨hi', hg'⟩ := busy_finish _ o rest hb₂
      (by rw [hreq₂]; exact frontOK_fetch_open o hop hcb)
    refine ⟨hi', hg', ?_⟩
    rw [load_defer, hld]
    simp [weight]
  | done ok =>
    simp only []
    refine res_mono (completeOpenEntry_r E n next hnext s₀ o rest hb hop hcb
      (by rw [hfl]; exact hreq) hn o.key_ ok) ?_
    intro s' ⟨a, b, c⟩
    exact ⟨a, b, by omega⟩

/-! #### Issuing operations -/

theorem DeleteEntryImpl_r (E : Fault → Prop) (n : Nat)
    (next : List Char → State → Except Fault State) (hnext : NextR E n next) (s : State)
    (o : PendingOperation) (rest : List PendingOperation) (h : Busy s o rest)
    (hreq : reqsOf o.id s.in_flight = []) (hn : rest.length < n ∨ E .out_of_fuel) :
    Res E (fun s' => Inv none s' ∧ GI none s' ∧ load s' ≤ load s + 3)
      (DeleteEntryImpl next o s) := by
  unfold DeleteEntryImpl
  rw [DoomEntry_eq o s h.2.1.2.1, ok_bind]
  refine res_mono (busy_close E n next hnext _ o rest (busy_store s o rest _ h) hreq hn) ?_
  intro s' ⟨a, b, c⟩
  refine ⟨a, b, ?_⟩
  have : load { s with store := Backend.DoomEntry s.store o.key_ } = load s := rfl
  omega

theorem IssueOperation_r (E : Fault → Prop) (n : Nat)
    (next : List Char → State → Except Fault State) (hnext : NextR E n next) (s : State)
    (o : PendingOperation) (rest : List PendingOperation) (h : Busy s o rest)
    (hw : WaitOK o) (hreq : reqsOf o.id s.in_flight = [])
    (hn : rest.length < n ∨ E .out_of_fuel) :
    Res E (fun s' => Inv none s' ∧ GI none s' ∧ load s' ≤ load s + 3)
      (IssueOperation next o s) := by
  unfold IssueOperation
  unfold WaitOK at hw
  split
  · next hop =>
    rw [hop] at hw
    exact FetchEntryImpl_r E n next hnext s o rest h hop hw hreq hn
  · next hop =>
    rw [hop] at hw
    exact WriteEntryImpl_r E n next hnext s o rest h hop hw.1 hw.2 hreq hn
  · exact DeleteEntryImpl_r E n next hnext s o rest h hreq hn
  · next hop =>
    rw [hop] at hw
    exact hw.elim

theorem IssueNextOperation_r (E : Fault → Prop) : ∀ fuel : Nat,
    NextR E fuel (IssueNextOperation fuel)
  | 0 => by
    intro K s _ _ hn
    rcases hn with hn | hn
    · exact absurd hn (Nat.not_lt_zero _)
    · exact hn
  | fuel + 1 => by
    intro K s hinv hgh hn
    unfold IssueNextOperation
    unfold GHole at hgh
    split
    · next hl =>
      rw [hl] at hgh
      exact ⟨inv_hole_empty s K hinv hl, hgh, by omega⟩
    · next hl =>
      rw [hl] at hgh
      exact hgh.elim
    · next front rest hl =>
      rw [hl] at hgh
      obtain ⟨hg, hw, hreq⟩ := hgh
      have hkey : front.key_ = K := key_of_front _ s hinv K _ hl front (List.mem_cons_self _ _)
      have hbusy : Busy (observe (.issued front.id K) s) front rest := by
        refine ⟨inv_issue s K front rest hinv hl, gi_frame _ s _ rfl rfl rfl rfl rfl hg, ?_, ?_⟩
        · refine ⟨K, ?_⟩
          rw [issuedOn_observe]
          simp [issuedOn]
        · rw [hkey]; exact hl
      refine IssueOperation_r E fuel _ (IssueNextOperation_r E fuel) _ front rest hbusy hw hreq ?_
      rcases hn with hn | hn
      · left
        simp only [queueOf, hl, Option.getD_some, List.length_cons] at hn
        omega
      · exact Or.inr hn

/-! #### Completions -/

/-- Taking a request off the requests in flight, to run its completion handler:
the operation it belongs to is at the front of the queue of its key. -/
theorem busy_erase (s : State) (hinv : Inv none s) (hg : GI none s) (i : Nat) (r : Request)
    (hget : s.in_flight.get? i = some r)
    (hord : (s.in_flight.take i).any (fun r' => r'.op == r.op) = false) :
    ∃ front rest, Busy { s with in_flight := s.in_flight.eraseIdx i } front rest ∧
      front.id = r.op ∧ front.key_ = r.key ∧
      FrontOK front (r :: reqsOf r.op (s.in_flight.eraseIdx i)) ∧
      load { s with in_flight := s.in_flight.eraseIdx i } + weight r = load s ∧
      rest.length < queued s := by
  have hmem : r ∈ s.in_flight := List.get?_mem hget
  obtain ⟨g1, g2, g3, g4, g5⟩ := hg
  obtain ⟨front, rest, hl, hid⟩ := g4 r hmem (by simp)
  obtain ⟨front', rest', hq, hfr, hw⟩ := g3 _ _ hl
  simp only [List.cons.injEq] at hq
  obtain ⟨hq1, hq2⟩ := hq
  subst hq1 hq2
  have hfront := hfr (by simp)
  obtain ⟨he1, he2⟩ := reqsOf_eraseIdx s.in_flight i r hget hord
  have hkey : front.key_ = r.key := key_of_front _ s hinv _ _ hl front (List.mem_cons_self _ _)
  refine ⟨front, rest, ⟨?_, ?_, ?_, ?_⟩, hid, hkey, ?_, ?_, ?_⟩
  · exact inv_congr none s _ rfl (Nat.le_refl _) rfl
      (fun r' hr' => (List.eraseIdx_sublist _ _).subset hr')
      (fun _ => rfl) (fun _ => rfl) (fun _ => rfl) (fun _ => rfl) hinv
  · refine ⟨g1, g2, ?_, ?_, g5⟩
    · intro K q hq
      obtain ⟨f₁, r₁, hq', hfr₁, hw₁⟩ := g3 K q hq
      refine ⟨f₁, r₁, hq', ?_, hw₁⟩
      intro hne
      have hne' : f₁.id ≠ r.op := by
        intro e; exact hne (by rw [e, hid])
      show FrontOK f₁ (reqsOf f₁.id (s.in_flight.eraseIdx i))
      rw [he2 f₁.id hne']
      exact hfr₁ (by simp)
    · intro r' hr' _
      exact g4 r' ((List.eraseIdx_sublist _ _).subset hr') (by simp)
  · rw [hid]
    exact hinv.2.2.2.2.2.2.2.2.2 r hmem
  · show s.active_entries_map_.lookup front.key_ = _
    rw [hkey]; exact hl
  · rw [hid, he1] at hfront
    exact hfront
  · have := sum_weight_eraseIdx s.in_flight i r hget
    unfold load queued
    simp only []
    unfold queued at *
    omega
  · have := queue_length_le s r.key
    simp only [queueOf, hl, Option.getD_some, List.length_cons] at this
    omega

theorem Complete_r (E : Fault → Prop) (fuel : Nat) (s : State) (hinv : Inv none s)
    (hg : GI none s) (i : Nat) (r : Request) (hget : s.in_flight.get? i = some r)
    (hord : (s.in_flight.take i).any (fun r' => r'.op == r.op) = false) (ok : Bool)
    (hn : queued s ≤ fuel ∨ E .out_of_fuel) :
    Res E (fun s' => Inv none s' ∧ GI none s' ∧ load s' < load s)
      (Complete (IssueNextOperation fuel) r ok
        { s with in_flight := s.in_flight.eraseIdx i }) := by
  obtain ⟨front, rest, hb, hid, hkey, hfront, hload, hlen⟩ := busy_erase s hinv hg i r hget hord
  have hn' : rest.length < fuel ∨ E .out_of_fuel := by
    rcases hn with hn | hn
    · left; omega
    · exact Or.inr hn
  have hnext := IssueNextOperation_r E fuel
  generalize hs₀ : ({ s with in_flight := s.in_flight.eraseIdx i } : State) = s₀ at hb hload
  have hfl₀ : s₀.in_flight = s.in_flight.eraseIdx i := by rw [← hs₀]
  rw [← hfl₀] at hfront
  unfold Complete
  cases r with
  | OpenOrCreateEntry op key =>
    obtain ⟨hop, htl, hio, _, ht, hd⟩ := frontOK_open front op key _ hfront
    simp only [Request.op] at hid htl
    simp only [weight] at hload
    have := completeOpenOrCreateEntry_r E fuel _ hnext s₀ front rest hb hop ht hd
      (by rw [hid]; exact htl) hn' key ok
    rw [hid] at this
    refine res_mono this ?_
    intro s' ⟨a, b, c⟩
    exact ⟨a, b, by omega⟩
  | WriteResponseTime op key time =>
    obtain ⟨hop, hio, hk, hd, data, htl⟩ := frontOK_wrt front op key time _ hfront
    simp only [Request.op] at hid htl
    simp only [weight] at hload
    have := completeWriteResponseTime_r s₀ front rest hb key time ok
    rw [hid] at this
    obtain ⟨s', o', heq, hb', ⟨e1, e2, e3, e4, e5⟩, hfl', hld'⟩ := this
    simp only []
    rw [heq]
    obtain ⟨hi', hg'⟩ := busy_finish s' o' rest hb' (by
      rw [hfl', e1, hid, htl, ← hid, ← hk, ← e1, ← e2]
      exact frontOK_write_data o' (by rw [e3]; exact hop) (by rw [e4]; exact hd) data)
    exact ⟨hi', hg', by omega⟩
  | WriteData op key data =>
    obtain ⟨hop, htl, hio, _, hd⟩ := frontOK_wd front op key data _ hfront
    simp only [Request.op] at hid htl
    simp only [weight] at hload
    have := completeWriteData_r E fuel _ hnext s₀ front rest hb hd
      (by rw [hid]; exact htl) hn' key data ok
    rw [hid] at this
    refine res_mono this ?_
    intro s' ⟨a, b, c⟩
    exact ⟨a, b, by omega⟩
  | OpenEntry op key =>
    obtain ⟨hop, htl, hio, _, hcb⟩ := frontOK_openEntry front op key _ hfront
    simp only [Request.op] at hid htl
    simp only [weight] at hload
    have := completeOpenEntry_r E fuel _ hnext s₀ front rest hb hop hcb
      (by rw [hid]; exact htl) hn' key ok
    rw [hid] at this
    refine res_mono this ?_
    intro s' ⟨a, b, c⟩
    exact ⟨a, b, by omega⟩
  | ReadResponseTime op key =>
    obtain ⟨hop, hio, hk, hcb, hd, len, htl⟩ := frontOK_rrt front op key _ hfront
    simp only [Request.op] at hid htl
    simp only [weight] at hload
    have := completeReadResponseTime_r s₀ front rest hb key ok
    rw [hid] at this
    obtain ⟨s', o', heq, hb', ⟨e1, e2, e3, e4, e5⟩, hfl', hld'⟩ := this
    simp only []
    rw [heq]
    obtain ⟨hi', hg'⟩ := busy_finish s' o' rest hb' (by
      rw [hfl', e1, hid, htl, ← hid, ← hk, ← e1, ← e2]
      exact frontOK_fetch_data o' (by rw [e3]; exact hop) (by rw [e5]; exact hcb)
        (by rw [e4]; exact hd) len)
    exact ⟨hi', hg', by omega⟩
  | ReadData op key len =>
    obtain ⟨hop, htl, hio, _, hcb, hd⟩ := frontOK_rd front op key len _ hfront
    simp only [Request.op] at hid htl
    simp only [weight] at hload
    have := completeReadData_r E fuel _ hnext s₀ front rest hb hcb hd
      (by rw [hid]; exact htl) hn' key len ok
    rw [hid] at this
    refine res_mono this ?_
    intro s' ⟨a, b, c⟩
    exact ⟨a, b, by omega⟩

/-! #### Calls of the interface -/

theorem load_enqueue_new (s : State) (op : PendingOperation) (ob : Obs) :
    load (observe ob
      { s with active_entries_map_ := s.active_entries_map_ ++ [(op.key_, [op])] }) =
      load s + 10 := by
  simp only [load, queued, observe, List.map_append, List.sum_append, List.map_cons,
    List.map_nil, List.sum_cons, List.sum_nil, List.length_cons, List.length_nil]
  omega

theorem load_enqueue_existing (s : State) (op : PendingOperation) (q : List PendingOperation)
    (hnd : (s.active_entries_map_.map (fun p => p.1)).Nodup)
    (hl : s.active_entries_map_.lookup op.key_ = some q) (ob : Obs) :
    load (observe ob
      { s with active_entries_map_ := setQueue s.active_entries_map_ op.key_ (q ++ [op]) }) =
      load s + 10 := by
  have := sum_lengths_setQueue op.key_ (q ++ [op]) _ _ hnd hl
  simp only [List.length_append, List.length_cons, List.length_nil] at this
  simp only [load, queued, observe]
  omega

theorem no_request_of_fresh (s : State) (hinv : Inv none s) (hg : GI none s) (id : Nat)
    (hfresh : ∀ k, id ∉ enqueuedOn s.log k) : reqsOf id s.in_flight = [] := by
  by_contra hne
  obtain ⟨r, hr⟩ := List.exists_mem_of_ne_nil _ hne
  obtain ⟨hrm, hrop⟩ := (mem_reqsOf _ _ _).1 hr
  obtain ⟨front, rest, hl, hid⟩ := hg.2.2.2.1 r hrm (by simp)
  have := queue_ids_mem none s hinv _ _ hl front (List.mem_cons_self _ _)
  rw [hid, hrop] at this
  exact hfresh _ this

theorem Enqueue_r (E : Fault → Prop) (fuel : Nat) (op : PendingOperation) (s : State)
    (hinv : Inv none s) (hg : GI none s) (hw : WaitOK op)
    (hfresh : ∀ k, op.id ∉ enqueuedOn s.log k) (hlt : op.id < s.next_id)
    (hpend : ∀ o ∈ s.pending_ops_, o.id ≠ op.id) (hn : 1 < fuel ∨ E .out_of_fuel) :
    Res E (fun s' => Inv none s' ∧ GI none s' ∧ load s' ≤ load s + 13)
      (EnqueueOperationAndIssueIfNext fuel op s) := by
  obtain ⟨g1, g2, g3, g4, g5⟩ := hg
  unfold EnqueueOperationAndIssueIfNext
  split
  · next hl =>
    have hinv₁ := inv_enqueue_new s op hinv hl hfresh hlt hpend
    have hld := load_enqueue_new s op (.enqueued op.id op.key_)
    generalize hs₁ : observe (.enqueued op.id op.key_)
      { s with active_entries_map_ := s.active_entries_map_ ++ [(op.key_, [op])] } = s₁
      at hinv₁ hld
    have hmap : s₁.active_entries_map_ = s.active_entries_map_ ++ [(op.key_, [op])] := by
      rw [← hs₁]; rfl
    have hfl : s₁.in_flight = s.in_flight := by rw [← hs₁]; rfl
    have hlk : s₁.active_entries_map_.lookup op.key_ = some [op] := by
      rw [hmap, lookup_append_new, hl]; simp
    have hgh : GHole op.key_ s₁ := by
      unfold GHole
      rw [hlk]
      refine ⟨⟨by rw [← hs₁]; exact g1, by rw [← hs₁]; exact g2, ?_, ?_, by rw [← hs₁]; exact g5⟩,
        hw, ?_⟩
      · intro K q hq
        rw [hmap, lookup_append_new] at hq
        by_cases hk : K = op.key_
        · subst hk
          rw [hl] at hq
          simp only [Option.none_or, if_true, Option.some.injEq] at hq
          subst hq
          exact ⟨op, [], rfl, fun hne => absurd rfl hne, by simp⟩
        · simp only [hk, if_false, Option.or_none] at hq
          obtain ⟨front, rest, hq', hfr, hwr⟩ := g3 K q hq
          refine ⟨front, rest, hq', ?_, hwr⟩
          intro _
          rw [hfl]
          exact hfr (by simp)
      · intro r hr _
        rw [hfl] at hr
        obtain ⟨front, rest, hlr, hid⟩ := g4 r hr (by simp)
        refine ⟨front, rest, ?_, hid⟩
        rw [hmap, lookup_append_new, hlr]
        simp
      · rw [hfl]
        exact no_request_of_fresh s hinv ⟨g1, g2, g3, g4, g5⟩ op.id hfresh
    refine res_mono (IssueNextOperation_r E fuel op.key_ s₁ hinv₁ hgh ?_) ?_
    · rcases hn with hn | hn
      · left
        simp only [queueOf, hlk, Option.getD_some, List.length_cons, List.length_nil]
        omega
      · exact Or.inr hn
    · intro s' ⟨a, b, c⟩
      exact ⟨a, b, by omega⟩
  · next q hl =>
    refine ⟨inv_enqueue_existing s op q hinv hl hfresh hlt hpend, ?_, ?_⟩
    · refine ⟨g1, g2, ?_, ?_, g5⟩
      · intro K q' hq'
        have hq'' : (setQueue s.active_entries_map_ op.key_ (q ++ [op])).lookup K = some q' := hq'
        rw [lookup_setQueue] at hq''
        by_cases hk : K = op.key_
        · subst hk
          rw [hl] at hq''
          simp only [if_true, Option.map_some', Option.some.injEq] at hq''
          subst hq''
          obtain ⟨front, rest, hq₀, hfr, hwr⟩ := g3 _ _ hl
          subst hq₀
          refine ⟨front, rest ++ [op], rfl, fun _ => hfr (by simp), ?_⟩
          intro o ho
          rcases List.mem_append.1 ho with ho | ho
          · exact hwr o ho
          · simp only [List.mem_singleton] at ho
            rw [ho]; exact hw
        · simp only [hk, if_false] at hq''
          obtain ⟨front, rest, hq₀, hfr, hwr⟩ := g3 K q' hq''
          exact ⟨front, rest, hq₀, fun _ => hfr (by simp), hwr⟩
      · intro r hr _
        obtain ⟨front, rest, hlr, hid⟩ := g4 r hr (by simp)
        show ∃ front rest, (setQueue s.active_entries_map_ op.key_ (q ++ [op])).lookup r.key =
          some (front :: rest) ∧ front.id = r.op
        rw [lookup_setQueue]
        by_cases hk : r.key = op.key_
        · rw [hk] at hlr
          rw [hl] at hlr
          simp only [Option.some.injEq] at hlr
          subst hlr
          exact ⟨front, rest ++ [op], by simp [hk, hl], hid⟩
        · exact ⟨front, rest, by simp [hk, hlr], hid⟩
    · rw [load_enqueue_existing s op q hinv.1 hl]
      omega

theorem inv_next_id (s : State) (h : Inv none s) :
    Inv none { s with next_id := s.next_id + 1 } :=
  inv_congr none s _ rfl (Nat.le_succ _) rfl (fun _ hr => hr) (fun _ => rfl) (fun _ => rfl)
    (fun _ => rfl) (fun _ => rfl) h

/-- The common part of `WriteEntry`, `FetchEntry` and `DeleteEntry` on an
initialised cache. -/
theorem api_r (E : Fault → Prop) (fuel : Nat) (op : PendingOperation) (s : State)
    (hinv : Inv none s) (hg : GI none s) (hw : WaitOK op) (hid : op.id = s.next_id)
    (hn : 1 < fuel ∨ E .out_of_fuel) :
    Res E (fun s' => Inv none s' ∧ GI none s' ∧ load s' ≤ load s + 13)
      (EnqueueOperationAndIssueIfNext fuel op { s with next_id := s.next_id + 1 }) := by
  refine Enqueue_r E fuel op _ (inv_next_id s hinv) (gi_frame _ s _ rfl rfl rfl rfl rfl hg) hw
    ?_ ?_ ?_ hn
  · intro k hk
    have := hinv.2.2.2.2.2.2.1 k _ hk
    omega
  · show op.id < s.next_id + 1
    omega
  · intro o ho
    have := (hinv.2.2.2.2.2.2.2.1 o ho).1
    omega

theorem WriteEntry_r (E : Fault → Prop) (fuel : Nat) (url origin_lock : GURL)
    (response_time : Int) (data : List Nat) (s : State) (hinv : Inv none s) (hg : GI none s)
    (hn : 1 < fuel ∨ E .out_of_fuel) :
    Res E (fun s' => Inv none s' ∧ GI none s' ∧ load s' ≤ load s + 13)
      (WriteEntry fuel url origin_lock response_time data s) := by
  unfold WriteEntry
  split
  · next hf => rw [hg.1] at hf; exact absurd hf (by simp)
  · simp only []
    split
    · next hf => exact absurd hg.1 hf
    · refine api_r E fuel _ s hinv hg ?_ ?_ hn
      · simp [WaitOK]
      · rfl

theorem FetchEntry_r (E : Fault → Prop) (fuel : Nat) (url origin_lock : GURL) (cb : Nat)
    (s : State) (hinv : Inv none s) (hg : GI none s) (hn : 1 < fuel ∨ E .out_of_fuel) :
    Res E (fun s' => Inv none s' ∧ GI none s' ∧ load s' ≤ load s + 13)
      (FetchEntry fuel url origin_lock cb s) := by
  unfold FetchEntry
  split
  · next hf => rw [hg.1] at hf; exact absurd hf (by simp)
  · simp only []
    split
    · next hf => exact absurd hg.1 hf
    · refine api_r E fuel _ s hinv hg ?_ ?_ hn
      · simp [WaitOK]
      · rfl

theorem DeleteEntry_r (E : Fault → Prop) (fuel : Nat) (url origin_lock : GURL)
    (s : State) (hinv : Inv none s) (hg : GI none s) (hn : 1 < fuel ∨ E .out_of_fuel) :
    Res E (fun s' => Inv none s' ∧ GI none s' ∧ load s' ≤ load s + 13)
      (DeleteEntry fuel url origin_lock s) := by
  unfold DeleteEntry
  split
  · next hf => rw [hg.1] at hf; exact absurd hf (by simp)
  · simp only []
    split
    · next hf => exact absurd hg.1 hf
    · refine api_r E fuel _ s hinv hg ?_ ?_ hn
      · simp [WaitOK]
      · rfl

/-! #### Before the backend is there, and after it failed -/

theorem Enqueue_failed (fuel : Nat) (op : PendingOperation) (s s' : State)
    (hop : op.op_ ≠ .kGetBackend)
    (hst : s.backend_state_ ≠ .kInitialized) (hmap : s.active_entries_map_ = [])
    (hr : EnqueueOperationAndIssueIfNext fuel op s = .ok s') :
    s'.active_entries_map_ = [] ∧ s'.in_flight = s.in_flight ∧
      s'.pending_ops_ = s.pending_ops_ ∧ s'.backend_state_ = s.backend_state_ ∧
      s'.backend_ = s.backend_ := by
  obtain ⟨bs, b, P, m, nid, st, fl, sc, lg⟩ := s
  obtain ⟨id, kind, key, tb, db, rc, bc⟩ := op
  simp only [] at hst hmap hop
  subst hmap
  rcases fuel with _ | _ | fuel
  · simp [EnqueueOperationAndIssueIfNext, IssueNextOperation] at hr
  · cases kind <;> cases rc <;> cases b <;>
      simp [EnqueueOperationAndIssueIfNext, IssueNextOperation, IssueOperation, FetchEntryImpl,
        WriteEntryImpl, DeleteEntryImpl, DoPendingGetBackend, runReadCallback, deref, findOp,
        CloseOperationAndIssueNext, DequeueOperation, DoomEntry, observe, modifyOp, updateOp,
        eraseQueue, hst, bind, Except.bind, pure, Except.pure] at hr hop
  · cases kind <;> cases rc <;> cases b <;>
      simp [EnqueueOperationAndIssueIfNext, IssueNextOperation, IssueOperation, FetchEntryImpl,
        WriteEntryImpl, DeleteEntryImpl, DoPendingGetBackend, runReadCallback, deref, findOp,
        CloseOperationAndIssueNext, DequeueOperation, DoomEntry, observe, modifyOp, updateOp,
        eraseQueue, hst, bind, Except.bind, pure, Except.pure] at hr hop <;>
      (subst hr; exact ⟨rfl, rfl, rfl, rfl, rfl⟩)

theorem DoPendingGetBackend_frame (op : PendingOperation) (s s' : State)
    (hr : DoPendingGetBackend op s = .ok s') :
    s'.active_entries_map_ = s.active_entries_map_ ∧ s'.in_flight = s.in_flight ∧
      s'.pending_ops_ = s.pending_ops_ ∧ s'.backend_state_ = s.backend_state_ ∧
      s'.backend_ = s.backend_ := by
  unfold DoPendingGetBackend at hr
  split at hr
  · exact absurd hr (by simp)
  · split at hr <;>
    · simp only [pure, Except.pure, Except.ok.injEq] at hr
      subst hr
      exact ⟨rfl, rfl, rfl, rfl, rfl⟩

theorem IssuePendingOperationsLoop_failed (fuel : Nat) : ∀ (bound : Nat) (s s' : State),
    GN s → IssuePendingOperationsLoop fuel bound s = .ok s' → GN s'
  | 0, s, s', h, hr => by
    unfold IssuePendingOperationsLoop at hr
    split at hr
    · simp only [Except.ok.injEq] at hr
      subst hr; exact h
    · exact absurd hr (by simp)
  | bound + 1, s, s', h, hr => by
    unfold IssuePendingOperationsLoop at hr
    split at hr
    · simp only [Except.ok.injEq] at hr
      subst hr; exact h
    · next op rest hp =>
      simp only [] at hr
      rw [bind_eq_ok] at hr
      obtain ⟨s₁, hs₁, hr⟩ := hr
      obtain ⟨h1, h2, h3, h4⟩ := h
      refine IssuePendingOperationsLoop_failed fuel bound s₁ s' ?_ hr
      have hrest : ∀ o ∈ rest, PendOK o := fun o ho => h4 o (by rw [hp]; exact List.mem_cons_of_mem _ ho)
      split at hs₁
      · next hop =>
        obtain ⟨a, b, c, d, _⟩ :=
          Enqueue_failed fuel op { s with pending_ops_ := rest } s₁ hop h1 h2 hs₁
        exact ⟨by rw [d]; exact h1, a, by rw [b]; exact h3, by rw [c]; exact hrest⟩
      · unfold IssueOperation at hs₁
        next hop =>
        have hop' : op.op_ = .kGetBackend := by simpa using hop
        rw [hop'] at hs₁
        simp only [] at hs₁
        obtain ⟨a, b, c, d, _⟩ :=
          DoPendingGetBackend_frame op { s with pending_ops_ := rest } s₁ hs₁
        exact ⟨by rw [d]; exact h1, by rw [a]; exact h2, by rw [b]; exact h3,
          by rw [c]; exact hrest⟩

/-! #### Creating the backend -/

theorem IssuePendingOperationsLoop_g (fuel : Nat) : ∀ (bound : Nat) (s s' : State),
    Inv none s → GI none s → IssuePendingOperationsLoop fuel bound s = .ok s' → GI none s'
  | 0, s, s', _, h, hr => by
    unfold IssuePendingOperationsLoop at hr
    split at hr
    · simp only [Except.ok.injEq] at hr
      subst hr; exact h
    · exact absurd hr (by simp)
  | bound + 1, s, s', hinv, h, hr => by
    unfold IssuePendingOperationsLoop at hr
    split at hr
    · simp only [Except.ok.injEq] at hr
      subst hr; exact h
    · next op rest hp =>
      simp only [] at hr
      rw [bind_eq_ok] at hr
      obtain ⟨s₁, hs₁, hr⟩ := hr
      obtain ⟨h1, h2, h3, h4, h5, h6, h7, h8, h9, h10⟩ := hinv
      rw [hp] at h8 h9
      have hinv₀ : Inv none { s with pending_ops_ := rest } :=
        ⟨h1, h2, h3, h4, h5, h6, h7, fun o ho => h8 o (List.mem_cons_of_mem _ ho),
          (List.nodup_cons.1 h9).2, h10⟩
      obtain ⟨g1, g2, g3, g4, g5⟩ := h
      have hg₀ : GI none { s with pending_ops_ := rest } :=
        ⟨g1, g2, g3, g4, fun o ho => g5 o (by rw [hp]; exact List.mem_cons_of_mem _ ho)⟩
      have hpo : PendOK op := g5 op (by rw [hp]; exact List.mem_cons_self _ _)
      split at hs₁
      · next hop =>
        have hw : WaitOK op := by
          rcases hpo with hpo | hpo
          · exact absurd hpo hop
          · exact hpo
        have := Enqueue_r (fun _ => True) fuel op _ hinv₀ hg₀ hw
          (h8 op (List.mem_cons_self _ _)).2 (h8 op (List.mem_cons_self _ _)).1
          (by
            intro o ho heq
            have hnot := (List.nodup_cons.1 h9).1
            have ho' : o ∈ rest := ho
            have hmem : o.id ∈ rest.map (fun o => o.id) :=
              List.mem_map_of_mem (fun o => o.id) ho'
            rw [heq] at hmem
            exact hnot hmem)
          (Or.inr trivial)
        rw [hs₁] at this
        exact IssuePendingOperationsLoop_g fuel bound s₁ s' this.1 this.2.1 hr
      · next hop =>
        have hop' : op.op_ = .kGetBackend := by simpa using hop
        have hinv₁ := IssueOperation_inv _ (IssueNextOperation_inv fuel) op _ s₁ hinv₀
          (fun hne => absurd hop' hne) (fun hne => absurd hop' hne) hs₁
        unfold IssueOperation at hs₁
        rw [hop'] at hs₁
        simp only [] at hs₁
        obtain ⟨a, b, c, d, e⟩ := DoPendingGetBackend_frame op _ s₁ hs₁
        exact IssuePendingOperationsLoop_g fuel bound s₁ s' hinv₁
          (gi_frame none _ s₁ d e a b c hg₀) hr

/-- Every state the cache can be in is covered: either the backend is not there and
nothing is queued or in flight, or the invariant of an initialised cache
holds. -/
theorem step_g (fuel : Nat) (script : List Decision) (e : Event) (s s' : State)
    (hinv : Inv none s) (h : GI none s ∨ GN s) (hr : step fuel script e s = .ok s') :
    GI none s' ∨ GN s' := by
  have hinv₀ : Inv none { s with script := script } :=
    inv_frame none s _ rfl rfl rfl rfl rfl hinv
  rcases h with h | h
  · have hg₀ : GI none { s with script := script } := gi_frame none s _ rfl rfl rfl rfl rfl h
    left
    unfold step at hr
    cases e with
    | WriteEntry url origin_lock response_time data =>
      have := WriteEntry_r (fun _ => True) fuel url origin_lock response_time data _ hinv₀ hg₀
        (Or.inr trivial)
      simp only [] at hr
      rw [hr] at this
      exact this.2.1
    | FetchEntry url origin_lock cb =>
      have := FetchEntry_r (fun _ => True) fuel url origin_lock cb _ hinv₀ hg₀ (Or.inr trivial)
      simp only [] at hr
      rw [hr] at this
      exact this.2.1
    | DeleteEntry url origin_lock =>
      have := DeleteEntry_r (fun _ => True) fuel url origin_lock _ hinv₀ hg₀ (Or.inr trivial)
      simp only [] at hr
      rw [hr] at this
      exact this.2.1
    | GetBackend cb =>
      simp only [GetBackend, h.1, pure, Except.pure, Except.ok.injEq] at hr
      subst hr
      exact gi_frame none s _ h.1.symm rfl rfl rfl rfl h
    | DidCreateBackend rv =>
      simp only [h.1, reduceCtorEq, if_false] at hr
    | Complete i ok =>
      simp only [] at hr
      split at hr
      · exact absurd hr (by simp)
      · next r hget =>
        split at hr
        · exact absurd hr (by simp)
        · next hord =>
          have := Complete_r (fun _ => True) fuel _ hinv₀ hg₀ i r hget
            (by simpa using hord) ok (Or.inr trivial)
          rw [hr] at this
          exact this.2.1
  · obtain ⟨h1, h2, h3, h4⟩ := h
    unfold step at hr
    cases e with
    | WriteEntry url origin_lock response_time data =>
      simp only [WriteEntry] at hr
      split at hr
      · simp only [pure, Except.pure, Except.ok.injEq] at hr
        subst hr
        exact Or.inr ⟨h1, h2, h3, h4⟩
      · simp only [h1, ne_eq, not_false_eq_true, if_true, pure, Except.pure,
          Except.ok.injEq] at hr
        subst hr
        refine Or.inr ⟨h1, h2, h3, ?_⟩
        intro o ho
        rcases List.mem_append.1 ho with ho | ho
        · exact h4 o ho
        · simp only [List.mem_singleton] at ho
          subst ho
          right; simp [WaitOK]
    | FetchEntry url origin_lock cb =>
      simp only [FetchEntry] at hr
      split at hr
      · simp only [pure, Except.pure, Except.ok.injEq] at hr
        subst hr
        exact Or.inr ⟨h1, h2, h3, h4⟩
      · simp only [h1, ne_eq, not_false_eq_true, if_true, pure, Except.pure,
          Except.ok.injEq] at hr
        subst hr
        refine Or.inr ⟨h1, h2, h3, ?_⟩
        intro o ho
        rcases List.mem_append.1 ho with ho | ho
        · exact h4 o ho
        · simp only [List.mem_singleton] at ho
          subst ho
          right; simp [WaitOK]
    | DeleteEntry url origin_lock =>
      simp only [DeleteEntry] at hr
      split at hr
      · simp only [pure, Except.pure, Except.ok.injEq] at hr
        subst hr
        exact Or.inr ⟨h1, h2, h3, h4⟩
      · simp only [h1, ne_eq, not_false_eq_true, if_true, pure, Except.pure,
          Except.ok.injEq] at hr
        subst hr
        refine Or.inr ⟨h1, h2, h3, ?_⟩
        intro o ho
        rcases List.mem_append.1 ho with ho | ho
        · exact h4 o ho
        · simp only [List.mem_singleton] at ho
          subst ho
          right; simp [WaitOK]
    | GetBackend cb =>
      simp only [GetBackend] at hr
      split at hr
      · simp only [pure, Except.pure, Except.ok.injEq] at hr
        subst hr
        exact Or.inr ⟨h1, h2, h3, h4⟩
      · next hi => exact absurd hi h1
      · simp only [pure, Except.pure, Except.ok.injEq] at hr
        subst hr
        refine Or.inr ⟨h1, h2, h3, ?_⟩
        intro o ho
        rcases List.mem_append.1 ho with ho | ho
        · exact h4 o ho
        · simp only [List.mem_singleton] at ho
          subst ho
          left; rfl
    | DidCreateBackend rv =>
      simp only [] at hr
      split at hr
      · unfold DidCreateBackend IssuePendingOperations at hr
        split at hr
        · refine Or.inr (IssuePendingOperationsLoop_failed fuel _ _ s' ?_ hr)
          exact ⟨fun e =>
            absurd e (by decide : ¬ (BackendState.kFailed = BackendState.kInitialized)),
            h2, h3, h4⟩
        · refine Or.inl (IssuePendingOperationsLoop_g fuel _ _ s' ?_ ?_ hr)
          · exact inv_frame none s _ rfl rfl rfl rfl rfl hinv
          · refine ⟨rfl, rfl, ?_, ?_, h4⟩
            · intro K q hq
              have hq' : s.active_entries_map_.lookup K = some q := hq
              rw [h2] at hq'
              simp at hq'
            · intro r hr'
              have hr'' : r ∈ s.in_flight := hr'
              rw [h3] at hr''
              simp at hr''
      · exact absurd hr (by simp)
    | Complete i ok =>
      simp only [h3, List.get?_nil] at hr
      exact absurd hr (by simp)

theorem initial_g (store : List (List Char × Entry)) : GN (initial store) :=
  ⟨by simp [initial], rfl, rfl, by simp [initial]⟩

theorem reachable_g (s : State) (h : Reachable s) : GI none s ∨ GN s := by
  induction h with
  | initial store => exact Or.inr (initial_g store)
  | step fuel script e hreach hstep ih =>
    exact step_g fuel script e _ _ (reachable_inv _ hreach) ih hstep

theorem reachable_gi (s : State) (h : Reachable s) (hinit : s.backend_state_ = .kInitialized) :
    GI none s := by
  rcases reachable_g s h with hg | hg
  · exact hg
  · exact absurd hinit hg.1

/-! ### A write followed by a fetch: the stages of the two operations -/

/-! #### The queue of the key -/

theorem queue_none (c : Trip) (st : Stage) (h : st.queue c none) :
    st = .written ∨ st = .done := by
  cases st <;> simp [Stage.queue] at h ⊢

/-- An operation in the queue of the key is the write or the fetch, unless the
write waits behind others. -/
theorem queue_own (c : Trip) (st : Stage) (q : List PendingOperation)
    (h : st.queue c (some q)) (o : PendingOperation) (ho : o ∈ q) :
    (∃ b, st = .wait b) ∨ o.id = c.write_id ∨ o.id = c.write_id + 1 := by
  have hbehind : ∀ b, o ∈ c.behind b → o.id = c.write_id + 1 := by
    intro b hb
    cases b
    · simp [Trip.behind] at hb
    · simp only [Trip.behind, if_true, List.mem_singleton] at hb
      subst hb
      rfl
  cases st with
  | wait b => exact Or.inl ⟨b, rfl⟩
  | wfront b | wopen b | wrt b | wboth b | wtimed b | wdata0 b | wdata b | wstored b =>
    simp only [Stage.queue, Option.some.injEq] at h
    subst h
    rcases List.mem_cons.1 ho with ho | ho
    · subst ho
      exact Or.inr (Or.inl rfl)
    · exact Or.inr (Or.inr (hbehind b ho))
  | written | done => simp [Stage.queue] at h
  | ffront | fopen | fopened | frrt | fboth | ftimed | fdata0 | fdata | fread | fcalled =>
    simp only [Stage.queue, Option.some.injEq] at h
    subst h
    simp only [List.mem_singleton] at ho
    subst ho
    exact Or.inr (Or.inr rfl)

theorem wait_of_foreign (c : Trip) (st : Stage) (q : List PendingOperation)
    (h : st.queue c (some q)) (o : PendingOperation) (ho : o ∈ q) (hid : o.id < c.write_id) :
    ∃ b, st = .wait b := by
  rcases queue_own c st q h o ho with hw | hw | hw
  · exact hw
  · omega
  · omega

/-- An assignment through the pointer to an older operation leaves the queue of
the key as the stage says. -/
theorem queue_map_foreign (c : Trip) (st : Stage) (x : Nat) (hx : x < c.write_id)
    (f : PendingOperation → PendingOperation) (hf : ∀ o, (f o).id = o.id)
    (q : Option (List PendingOperation)) (h : st.queue c q) :
    st.queue c (q.map (fun l => l.map (fun o => if o.id == x then f o else o))) := by
  have hw : ¬ c.write_id = x := by omega
  have hf' : ¬ c.write_id + 1 = x := by omega
  have hbehind : ∀ b, (c.behind b).map (fun o => if o.id = x then f o else o) = c.behind b := by
    intro b
    cases b <;> simp [Trip.behind, Trip.fetchOp, hf']
  cases st with
  | wait b =>
    obtain ⟨ahead, hne, hlt, hq⟩ := h
    subst hq
    refine ⟨ahead.map (fun o => if o.id == x then f o else o), by simpa using hne, ?_, ?_⟩
    · intro o ho
      rw [List.mem_map] at ho
      obtain ⟨o₀, ho₀, rfl⟩ := ho
      split
      · rw [hf]; exact hlt o₀ ho₀
      · exact hlt o₀ ho₀
    · simp [hbehind, Trip.writeOp, hw]
  | wfront b | wopen b | wrt b | wboth b | wtimed b | wdata0 b | wdata b | wstored b =>
    simp only [Stage.queue] at h ⊢
    subst h
    simp [hbehind, Trip.writeOp, hw]
  | written | done =>
    simp only [Stage.queue] at h ⊢
    subst h
    rfl
  | ffront | fopen | fopened | frrt | fboth | ftimed | fdata0 | fdata | fread | fcalled =>
    simp only [Stage.queue] at h ⊢
    subst h
    simp [Trip.fetchOp, hf']

/-! #### The map -/

theorem mapOK_of_inv (hole : Option (List Char)) (s : State) (h : Inv hole s) : MapOK s :=
  ⟨h.1, h.2.1⟩

theorem mapOK_modifyOp (op : Nat) (f : PendingOperation → PendingOperation)
    (hf : ∀ o, (f o).id = o.id ∧ (f o).key_ = o.key_) (s : State) (h : MapOK s) :
    MapOK (modifyOp op f s) := by
  obtain ⟨h1, h2⟩ := h
  refine ⟨?_, ?_⟩
  · have : (updateOp s.active_entries_map_ op f).map (fun p => p.1) =
        s.active_entries_map_.map (fun p => p.1) := by
      simp [updateOp, List.map_map, Function.comp]
    show ((updateOp s.active_entries_map_ op f).map (fun p => p.1)).Nodup
    rw [this]; exact h1
  · intro p hp
    have hp' : p ∈ updateOp s.active_entries_map_ op f := hp
    unfold updateOp at hp'
    rw [List.mem_map] at hp'
    obtain ⟨p₀, hp₀, rfl⟩ := hp'
    obtain ⟨hne, hkey⟩ := h2 p₀ hp₀
    refine ⟨by simpa using hne, ?_⟩
    intro o ho
    rw [List.mem_map] at ho
    obtain ⟨o₀, ho₀, rfl⟩ := ho
    split
    · rw [(hf o₀).2]; exact hkey o₀ ho₀
    · exact hkey o₀ ho₀

theorem mapOK_dequeue (s : State) (key : List Char) (front : PendingOperation)
    (rest : List PendingOperation) (h : MapOK s)
    (hl : s.active_entries_map_.lookup key = some (front :: rest)) :
    MapOK (dequeue key rest s) := by
  obtain ⟨g1, g2, _⟩ := dequeue_map s.active_entries_map_ key front rest h.1 h.2 hl
  exact ⟨g1, g2⟩

theorem lookup_of_deref (s : State) (h : MapOK s) (x : Nat) (o : PendingOperation)
    (hd : deref s x = .ok o) :
    o.id = x ∧ ∃ q, s.active_entries_map_.lookup o.key_ = some q ∧ o ∈ q := by
  unfold deref at hd
  split at hd
  · next o' hf =>
    simp only [Except.ok.injEq] at hd
    subst hd
    obtain ⟨hid, p, hp, hop⟩ := findOp_some _ _ _ hf
    refine ⟨hid, p.2, ?_, hop⟩
    rw [(h.2 p hp).2 o' hop]
    exact lookup_of_mem _ p h.1 hp
  · exact absurd hd (by simp)

/-! #### The log and the store -/

theorem readCallbacks_append (cb : Nat) (l₁ l₂ : List Obs) :
    readCallbacks cb (l₁ ++ l₂) = readCallbacks cb l₁ ++ readCallbacks cb l₂ := by
  simp [readCallbacks, List.filterMap_append]

theorem logIs_observe (c : Trip) (kind : Nat) (log : List Obs) (ob : Obs)
    (h : LogIs c kind log) (hk : kind ≠ 1) (hob : ob ≠ .closed (c.write_id + 1) c.key) :
    LogIs c kind (log ++ [ob]) := by
  obtain ⟨h1, h2, h3⟩ := h
  refine ⟨?_, fun e => absurd e hk, ?_⟩
  · intro hle hmem
    rcases List.mem_append.1 hmem with hm | hm
    · exact h1 hle hm
    · simp only [List.mem_singleton] at hm
      exact hob hm.symm
  · intro e
    obtain ⟨pre, post, hlog⟩ := h3 e
    exact ⟨pre, post ++ [ob], by rw [hlog]; simp⟩

theorem storeIs_of_lookup (c : Trip) (level : Nat) (store store' : List (List Char × Entry))
    (h : StoreIs c level store)
    (hl : store'.lookup c.key = store.lookup c.key ∨ level = 0) : StoreIs c level store' := by
  rcases hl with hl | hl
  · unfold StoreIs Backend.get at *
    rw [hl]; exact h
  · subst hl
    exact ⟨fun h => absurd h (by omega), fun h => absurd h (by omega)⟩

theorem lookup_map_put (k : List Char) (e : Entry) : ∀ (m : List (List Char × Entry)) (v : Entry),
    m.lookup k = some v → (m.map (fun p => if p.1 == k then (k, e) else p)).lookup k = some e
  | [], _, h => by simp at h
  | (a, b) :: m, v, h => by
    by_cases ha : a = k
    · subst ha; simp [List.lookup_cons]
    · have ha' : (a == k) = false := by simpa using ha
      have ha'' : (k == a) = false := by simpa using fun e => ha e.symm
      simp only [List.lookup_cons, ha''] at h
      simp only [List.map_cons, ha', Bool.false_eq_true, if_false, List.lookup_cons, ha'']
      exact lookup_map_put k e m v h

theorem lookup_put (store : List (List Char × Entry)) (k : List Char) (e : Entry) :
    (Backend.put store k e).lookup k = some e := by
  unfold Backend.put
  split
  · next h => rw [lookup_append_new, h]; simp
  · next v h => exact lookup_map_put k e store v h

theorem get_put (store : List (List Char × Entry)) (k : List Char) (e : Entry) :
    Backend.get (Backend.put store k e) k = e := by
  unfold Backend.get
  rw [lookup_put]; rfl

theorem lookup_map_put_other (key k : List Char) (e : Entry) (hk : key ≠ k) :
    ∀ store : List (List Char × Entry),
      (store.map (fun p => if p.1 == key then (key, e) else p)).lookup k = store.lookup k
  | [] => rfl
  | (a, b) :: store => by
    have ih := lookup_map_put_other key k e hk store
    by_cases ha : a = key
    · subst ha
      have hka : (k == a) = false := by simpa using fun e => hk e.symm
      simp only [List.map_cons, beq_self_eq_true, if_true, List.lookup_cons, hka]
      exact ih
    · have ha' : (a == key) = false := by simpa using ha
      simp only [List.map_cons, ha', Bool.false_eq_true, if_false, List.lookup_cons]
      cases k == a
      · exact ih
      · rfl

theorem lookup_put_other (store : List (List Char × Entry)) (key k : List Char) (e : Entry)
    (hk : key ≠ k) : (Backend.put store key e).lookup k = store.lookup k := by
  unfold Backend.put
  split
  · rw [lookup_append_new]
    have : ¬ k = key := fun e => hk e.symm
    simp [this]
  · exact lookup_map_put_other key k e hk store

theorem lookup_doom_other (key k : List Char) (hk : key ≠ k) :
    ∀ store : List (List Char × Entry),
      (Backend.DoomEntry store key).lookup k = store.lookup k
  | [] => rfl
  | (a, b) :: store => by
    have ih := lookup_doom_other key k hk store
    unfold Backend.DoomEntry at ih ⊢
    by_cases ha : a = key
    · subst ha
      have hka : (k == a) = false := by simpa using fun e => hk e.symm
      simp only [List.filter_cons, beq_self_eq_true, Bool.not_true, Bool.false_eq_true,
        if_false, List.lookup_cons, hka]
      exact ih
    · have ha' : (a == key) = false := by simpa using ha
      simp only [List.filter_cons, ha', Bool.not_false, if_true, List.lookup_cons]
      cases k == a
      · exact ih
      · rfl

/-! #### The stage under the elementary changes of state -/

/-- A change of state that leaves `active_entries_map_` alone. -/
theorem trk_of (c : Trip) (st st' : Stage) (s s' : State) (h : Trk c st s)
    (h1 : s'.backend_state_ = s.backend_state_) (h2 : s'.backend_ = s.backend_)
    (hsc : scriptOK s'.script) (hmap : s'.active_entries_map_ = s.active_entries_map_)
    (hq : ∀ q, st.queue c q → st'.queue c q)
    (hw : reqsOf c.write_id s'.in_flight = st'.wreqs c)
    (hfr : reqsOf (c.write_id + 1) s'.in_flight = st'.freqs c)
    (hst : StoreIs c st'.level s'.store) (hnid : s'.next_id = s.next_id)
    (hf : st'.fetch = st.fetch) (hlog : LogIs c st'.logKind s'.log)
    (hfresh : c.fresh → readCallbacks c.callback s'.log =
      c.seen ++ (if st'.logKind = 0 then [] else [(c.response_time, c.data)])) :
    Trk c st' s' := by
  obtain ⟨t1, t2, t3, t4, t5, t6, t7, t8, t9, t10, t11, t12⟩ := h
  refine ⟨by rw [h1]; exact t1, by rw [h2]; exact t2, hsc, ?_, ?_, ?_, hw, hfr, hst, ?_, hlog, ?_⟩
  · unfold MapOK; rw [hmap]; exact t4
  · rw [hmap]; exact t5
  · rw [hmap]; exact hq _ t6
  · rw [hnid, hf]; exact t10
  · intro hfr'
    refine ⟨?_, hfresh hfr'⟩
    rw [hmap]; exact (t12 hfr').1

theorem scriptOK_tail (d : Decision) (rest : List Decision) (h : scriptOK (d :: rest)) :
    scriptOK rest := fun x hx => h x (List.mem_cons_of_mem _ hx)

theorem trk_script (c : Trip) (st : Stage) (s : State) (script : List Decision)
    (h : Trk c st s) (hsc : scriptOK script) : Trk c st { s with script := script } :=
  trk_of c st st s _ h rfl rfl hsc rfl (fun _ hq => hq) h.2.2.2.2.2.2.1 h.2.2.2.2.2.2.2.1
    h.2.2.2.2.2.2.2.2.1 rfl rfl h.2.2.2.2.2.2.2.2.2.2.1 (fun hf => (h.2.2.2.2.2.2.2.2.2.2.2 hf).2)

theorem trk_nextDecision (c : Trip) (st : Stage) (s : State) (op : Nat) (h : Trk c st s) :
    Trk c st (nextDecision op s).2 ∧ (nextDecision op s).2.in_flight = s.in_flight ∧
      ((nextDecision op s).1 = .pending ∨ (nextDecision op s).1 = .done true) := by
  have hsc := h.2.2.1
  unfold nextDecision
  split
  · exact ⟨h, rfl, Or.inl rfl⟩
  · next d rest hs =>
    refine ⟨trk_script c st s rest h ?_, rfl, ?_⟩
    · rw [hs] at hsc; exact scriptOK_tail d rest hsc
    · simp only []
      split
      · exact Or.inl rfl
      · have := hsc d (by rw [hs]; exact List.mem_cons_self _ _)
        cases d with
        | pending => exact Or.inl rfl
        | done ok =>
          cases ok
          · exact absurd rfl this
          · exact Or.inr rfl

/-- A request is put in flight. -/
theorem trk_defer (c : Trip) (st st' : Stage) (s : State) (r : Request) (h : Trk c st s)
    (hq : ∀ q, st.queue c q → st'.queue c q) (hl : st'.level = st.level)
    (hf : st'.fetch = st.fetch) (hk : st'.logKind = st.logKind)
    (hw : st'.wreqs c = st.wreqs c ++ reqsOf c.write_id [r])
    (hfr : st'.freqs c = st.freqs c ++ reqsOf (c.write_id + 1) [r]) :
    Trk c st' (defer r s) := by
  refine trk_of c st st' s _ h rfl rfl h.2.2.1 rfl hq ?_ ?_ ?_ rfl hf ?_ ?_
  · show reqsOf c.write_id (s.in_flight ++ [r]) = _
    rw [reqsOf_append, h.2.2.2.2.2.2.1, hw]
  · show reqsOf (c.write_id + 1) (s.in_flight ++ [r]) = _
    rw [reqsOf_append, h.2.2.2.2.2.2.2.1, hfr]
  · rw [hl]; exact h.2.2.2.2.2.2.2.2.1
  · rw [hk]; exact h.2.2.2.2.2.2.2.2.2.2.1
  · rw [hk]; exact fun hf => (h.2.2.2.2.2.2.2.2.2.2.2 hf).2

theorem trk_defer_foreign (c : Trip) (st : Stage) (s : State) (r : Request) (h : Trk c st s)
    (h1 : r.op ≠ c.write_id) (h2 : r.op ≠ c.write_id + 1) : Trk c st (defer r s) := by
  refine trk_defer c st st s r h (fun _ hq => hq) rfl rfl rfl ?_ ?_
  · simp [reqsOf, h1]
  · simp [reqsOf, h2]

/-- The disk cache changes an entry. -/
theorem trk_store (c : Trip) (st st' : Stage) (s : State) (store : List (List Char × Entry))
    (h : Trk c st s) (hq : ∀ q, st.queue c q → st'.queue c q)
    (hf : st'.fetch = st.fetch) (hk : st'.logKind = st.logKind)
    (hw : st'.wreqs c = st.wreqs c) (hfr : st'.freqs c = st.freqs c)
    (hst : StoreIs c st'.level store) : Trk c st' { s with store := store } := by
  refine trk_of c st st' s _ h rfl rfl h.2.2.1 rfl hq ?_ ?_ hst rfl hf ?_ ?_
  · rw [hw]; exact h.2.2.2.2.2.2.1
  · rw [hfr]; exact h.2.2.2.2.2.2.2.1
  · rw [hk]; exact h.2.2.2.2.2.2.2.2.2.2.1
  · rw [hk]; exact fun hf => (h.2.2.2.2.2.2.2.2.2.2.2 hf).2

theorem trk_store_foreign (c : Trip) (st : Stage) (s : State)
    (store : List (List Char × Entry)) (h : Trk c st s)
    (hl : store.lookup c.key = s.store.lookup c.key ∨ st.level = 0) :
    Trk c st { s with store := store } :=
  trk_store c st st s store h (fun _ hq => hq) rfl rfl rfl rfl
    (storeIs_of_lookup c st.level s.store store h.2.2.2.2.2.2.2.2.1 hl)

/-- Something is observed that is neither the end of the fetch nor a run of its
callback. -/
theorem trk_observe (c : Trip) (st : Stage) (s : State) (ob : Obs) (h : Trk c st s)
    (hk : st.logKind ≠ 1) (hob : ob ≠ .closed (c.write_id + 1) c.key)
    (hcb : c.fresh → readCallbacks c.callback [ob] = []) : Trk c st (observe ob s) := by
  refine trk_of c st st s _ h rfl rfl h.2.2.1 rfl (fun _ hq => hq) h.2.2.2.2.2.2.1
    h.2.2.2.2.2.2.2.1 h.2.2.2.2.2.2.2.2.1 rfl rfl ?_ ?_
  · exact logIs_observe c st.logKind s.log ob h.2.2.2.2.2.2.2.2.2.2.1 hk hob
  · intro hf
    show readCallbacks c.callback (s.log ++ [ob]) = _
    rw [readCallbacks_append, hcb hf, List.append_nil]
    exact (h.2.2.2.2.2.2.2.2.2.2.2 hf).2

/-- An assignment through the pointer to an older operation. -/
theorem trk_modifyOp_foreign (c : Trip) (st : Stage) (s : State) (x : Nat)
    (f : PendingOperation → PendingOperation) (h : Trk c st s) (hx : x < c.write_id)
    (hf : ∀ o, (f o).id = o.id ∧ (f o).key_ = o.key_)
    (hcb : ∀ o, (f o).read_callback_ = o.read_callback_ ∨ (f o).read_callback_ = none) :
    Trk c st (modifyOp x f s) := by
  obtain ⟨t1, t2, t3, t4, t5, t6, t7, t8, t9, t10, t11, t12⟩ := h
  have hlk : ∀ K, (modifyOp x f s).active_entries_map_.lookup K =
      (s.active_entries_map_.lookup K).map
        (fun q => q.map (fun o => if o.id == x then f o else o)) :=
    fun K => lookup_updateOp x f K s.active_entries_map_
  refine ⟨t1, t2, t3, mapOK_modifyOp x f hf s t4, ?_, ?_, t7, t8, t9, t10, t11, ?_⟩
  · intro K q hK hq
    rw [hlk K] at hq
    cases hl : s.active_entries_map_.lookup K with
    | none => rw [hl] at hq; simp at hq
    | some q₀ =>
      rw [hl] at hq
      simp only [Option.map_some', Option.some.injEq] at hq
      subst hq
      intro o ho
      rw [List.mem_map] at ho
      obtain ⟨o₀, ho₀, rfl⟩ := ho
      split
      · rw [(hf o₀).1]; exact t5 K q₀ hK hl o₀ ho₀
      · exact t5 K q₀ hK hl o₀ ho₀
  · rw [hlk c.key]
    exact queue_map_foreign c st x hx f (fun o => (hf o).1) _ t6
  · intro hfr
    refine ⟨?_, (t12 hfr).2⟩
    intro K q hq
    rw [hlk K] at hq
    cases hl : s.active_entries_map_.lookup K with
    | none => rw [hl] at hq; simp at hq
    | some q₀ =>
      rw [hl] at hq
      simp only [Option.map_some', Option.some.injEq] at hq
      subst hq
      intro o ho hne
      rw [List.mem_map] at ho
      obtain ⟨o₀, ho₀, rfl⟩ := ho
      split
      · next hx' =>
        have hne₀ : o₀.id ≠ c.write_id + 1 := by
          have : o₀.id = x := by simpa using hx'
          omega
        rcases hcb o₀ with e | e
        · rw [e]; exact (t12 hfr).1 K q₀ hl o₀ ho₀ hne₀
        · rw [e]; simp
      · next hx' =>
        simp only [hx', Bool.false_eq_true, if_false] at hne
        exact (t12 hfr).1 K q₀ hl o₀ ho₀ hne

theorem storeIs_mono (c : Trip) (l l' : Nat) (store : List (List Char × Entry)) (hl : l' ≤ l)
    (h : StoreIs c l store) : StoreIs c l' store :=
  ⟨fun h1 => h.1 (by omega), fun h2 => h.2 (by omega)⟩

/-- An assignment through the pointer to the fetch operation, alone in its
queue. -/
theorem trk_modifyOp_fetch_log (c : Trip) (st st' : Stage) (s : State) (o : PendingOperation)
    (f : PendingOperation → PendingOperation) (log' : List Obs) (h : Trk c st s)
    (hl : s.active_entries_map_.lookup c.key = some [o]) (hid : o.id = c.write_id + 1)
    (hf : ∀ o, (f o).id = o.id ∧ (f o).key_ = o.key_)
    (hq : st'.queue c (some [f o])) (hlv : st'.level ≤ st.level)
    (hfe : st'.fetch = st.fetch) (hlog : LogIs c st'.logKind log')
    (hcnt : c.fresh → readCallbacks c.callback log' =
      c.seen ++ (if st'.logKind = 0 then [] else [(c.response_time, c.data)]))
    (hw : st'.wreqs c = st.wreqs c) (hfr : st'.freqs c = st.freqs c) :
    Trk c st' { modifyOp (c.write_id + 1) f s with log := log' } := by
  obtain ⟨t1, t2, t3, t4, t5, t6, t7, t8, t9, t10, t11, t12⟩ := h
  have hlk : ∀ K, (modifyOp (c.write_id + 1) f s).active_entries_map_.lookup K =
      if K = c.key then some [f o] else s.active_entries_map_.lookup K := by
    intro K
    show (updateOp s.active_entries_map_ (c.write_id + 1) f).lookup K = _
    rw [lookup_updateOp]
    by_cases hK : K = c.key
    · subst hK
      rw [hl]
      simp [hid]
    · simp only [hK, if_false]
      cases hlK : s.active_entries_map_.lookup K with
      | none => rfl
      | some q =>
        simp only [Option.map_some', Option.some.injEq]
        conv => rhs; rw [← List.map_id q]
        apply List.map_congr_left
        intro o' ho'
        have := t5 K q hK hlK o' ho'
        have hne : ¬ o'.id = c.write_id + 1 := by omega
        simp [hne]
  refine ⟨t1, t2, t3, mapOK_modifyOp _ f hf s t4, ?_, ?_, by rw [hw]; exact t7,
    by rw [hfr]; exact t8, storeIs_mono c _ _ _ hlv t9, by rw [hfe]; exact t10,
    hlog, ?_⟩
  · intro K q hK hq
    have hq' : (modifyOp (c.write_id + 1) f s).active_entries_map_.lookup K = some q := hq
    rw [hlk K] at hq'
    simp only [hK, if_false] at hq'
    exact t5 K q hK hq'
  · show st'.queue c ((modifyOp (c.write_id + 1) f s).active_entries_map_.lookup c.key)
    rw [hlk c.key]
    simp only [if_true]
    exact hq
  · intro hfr'
    refine ⟨?_, hcnt hfr'⟩
    intro K q hq
    have hq' : (modifyOp (c.write_id + 1) f s).active_entries_map_.lookup K = some q := hq
    rw [hlk K] at hq'
    rename' hq => hq₀, hq' => hq
    by_cases hK : K = c.key
    · simp only [hK, if_true, Option.some.injEq] at hq
      subst hq
      intro o' ho' hne
      simp only [List.mem_singleton] at ho'
      subst ho'
      rw [(hf o).1, hid] at hne
      exact absurd rfl hne
    · simp only [hK, if_false] at hq
      exact (t12 hfr').1 K q hq

theorem trk_modifyOp_fetch (c : Trip) (st st' : Stage) (s : State) (o : PendingOperation)
    (f : PendingOperation → PendingOperation) (h : Trk c st s)
    (hl : s.active_entries_map_.lookup c.key = some [o]) (hid : o.id = c.write_id + 1)
    (hf : ∀ o, (f o).id = o.id ∧ (f o).key_ = o.key_)
    (hq : st'.queue c (some [f o])) (hlv : st'.level = st.level)
    (hfe : st'.fetch = st.fetch) (hk : st'.logKind = st.logKind)
    (hw : st'.wreqs c = st.wreqs c) (hfr : st'.freqs c = st.freqs c) :
    Trk c st' (modifyOp (c.write_id + 1) f s) :=
  trk_modifyOp_fetch_log c st st' s o f s.log h hl hid hf hq (le_of_eq hlv) hfe
    (by rw [hk]; exact h.2.2.2.2.2.2.2.2.2.2.1)
    (by rw [hk]; exact fun hf => (h.2.2.2.2.2.2.2.2.2.2.2 hf).2) hw hfr

/-- The front of a queue is taken off. -/
theorem trk_dequeue_log (c : Trip) (st st' : Stage) (s : State) (K : List Char)
    (front : PendingOperation) (rest : List PendingOperation) (log' : List Obs)
    (h : Trk c st s)
    (hl : s.active_entries_map_.lookup K = some (front :: rest))
    (hq : st'.queue c (if c.key = K then (if rest = [] then none else some rest)
      else s.active_entries_map_.lookup c.key))
    (hlv : st'.level ≤ st.level) (hfe : st'.fetch = st.fetch)
    (hlog : LogIs c st'.logKind log')
    (hcnt : c.fresh → readCallbacks c.callback log' =
      c.seen ++ (if st'.logKind = 0 then [] else [(c.response_time, c.data)]))
    (hw : st'.wreqs c = st.wreqs c) (hfr : st'.freqs c = st.freqs c) :
    Trk c st' { dequeue K rest s with log := log' } := by
  obtain ⟨t1, t2, t3, t4, t5, t6, t7, t8, t9, t10, t11, t12⟩ := h
  have hlk : ∀ K', (dequeue K rest s).active_entries_map_.lookup K' =
      if K' = K then (if rest = [] then none else some rest)
      else s.active_entries_map_.lookup K' :=
    fun K' => lookup_dequeue _ _ _ _ hl K'
  have hsub : ∀ K' q', (dequeue K rest s).active_entries_map_.lookup K' = some q' →
      ∃ q, s.active_entries_map_.lookup K' = some q ∧ ∀ o ∈ q', o ∈ q := by
    intro K' q' hq'
    rw [hlk K'] at hq'
    by_cases hK : K' = K
    · subst hK
      simp only [if_true] at hq'
      by_cases hr : rest = []
      · simp [hr] at hq'
      · simp only [hr, if_false, Option.some.injEq] at hq'
        subst hq'
        exact ⟨_, hl, fun o ho => List.mem_cons_of_mem _ ho⟩
    · simp only [hK, if_false] at hq'
      exact ⟨q', hq', fun o ho => ho⟩
  refine ⟨t1, t2, t3, mapOK_dequeue s K front rest t4 hl, ?_, ?_, by rw [hw]; exact t7,
    by rw [hfr]; exact t8, storeIs_mono c _ _ _ hlv t9, by rw [hfe]; exact t10,
    hlog, ?_⟩
  · intro K' q' hK' hq'
    obtain ⟨q, hq₀, hsubq⟩ := hsub K' q' hq'
    intro o ho
    exact t5 K' q hK' hq₀ o (hsubq o ho)
  · show st'.queue c ((dequeue K rest s).active_entries_map_.lookup c.key)
    rw [hlk c.key]
    exact hq
  · intro hfr'
    refine ⟨?_, hcnt hfr'⟩
    intro K' q' hq' o ho hne
    obtain ⟨q, hq₀, hsubq⟩ := hsub K' q' hq'
    exact (t12 hfr').1 K' q hq₀ o (hsubq o ho) hne

theorem trk_dequeue (c : Trip) (st st' : Stage) (s : State) (K : List Char)
    (front : PendingOperation) (rest : List PendingOperation) (h : Trk c st s)
    (hl : s.active_entries_map_.lookup K = some (front :: rest))
    (hq : st'.queue c (if c.key = K then (if rest = [] then none else some rest)
      else s.active_entries_map_.lookup c.key))
    (hlv : st'.level = st.level) (hfe : st'.fetch = st.fetch) (hk : st'.logKind = st.logKind)
    (hw : st'.wreqs c = st.wreqs c) (hfr : st'.freqs c = st.freqs c) :
    Trk c st' (dequeue K rest s) :=
  trk_dequeue_log c st st' s K front rest s.log h hl hq (le_of_eq hlv) hfe
    (by rw [hk]; exact h.2.2.2.2.2.2.2.2.2.2.1)
    (by rw [hk]; exact fun hf => (h.2.2.2.2.2.2.2.2.2.2.2 hf).2) hw hfr

theorem trk_dequeue_foreign (c : Trip) (st : Stage) (s : State) (K : List Char)
    (front : PendingOperation) (rest : List PendingOperation) (h : Trk c st s)
    (hl : s.active_entries_map_.lookup K = some (front :: rest)) (hK : K ≠ c.key) :
    Trk c st (dequeue K rest s) := by
  refine trk_dequeue c st st s K front rest h hl ?_ rfl rfl rfl rfl rfl
  have : ¬ c.key = K := fun e => hK e.symm
  simp only [this, if_false]
  exact h.2.2.2.2.2.1

theorem trk_dequeue_wait (c : Trip) (b : Bool) (s : State) (front : PendingOperation)
    (rest : List PendingOperation) (h : Trk c (.wait b) s)
    (hl : s.active_entries_map_.lookup c.key = some (front :: rest)) :
    Trk c (.wait b) (dequeue c.key rest s) ∨ Trk c (.wfront b) (dequeue c.key rest s) := by
  obtain ⟨ahead, hne, hlt, hq⟩ := h.2.2.2.2.2.1
  rw [hl] at hq
  simp only [Option.some.injEq] at hq
  obtain ⟨a, ahead', rfl⟩ := List.exists_cons_of_ne_nil hne
  simp only [List.cons_append, List.cons.injEq] at hq
  obtain ⟨_, hrest⟩ := hq
  have hrne : rest ≠ [] := by rw [hrest]; simp
  by_cases ha : ahead' = []
  · right
    refine trk_dequeue c _ _ s c.key front rest h hl ?_ rfl rfl rfl rfl rfl
    simp only [if_true, hrne, if_false]
    show some rest = some _
    rw [hrest, ha]
    rfl
  · left
    refine trk_dequeue c _ _ s c.key front rest h hl ?_ rfl rfl rfl rfl rfl
    simp only [if_true, hrne, if_false]
    exact ⟨ahead', ha, fun o ho => hlt o (List.mem_cons_of_mem _ ho), by rw [hrest]⟩

/-! #### The handlers of older operations -/

theorem stable_logKind (st : Stage) (h : st.stable = true) : st.logKind ≠ 1 := by
  cases st <;> simp [Stage.stable, Stage.logKind] at h ⊢

/-- What holds of an older operation that a pointer points to: if it is in the
queue of the key, the write waits behind it. -/
theorem foreign_deref (c : Trip) (st : Stage) (s : State) (h : Trk c st s) (x : Nat)
    (hx : x < c.write_id) (o : PendingOperation) (hd : deref s x = .ok o) :
    o.id = x ∧ (o.key_ = c.key → ∃ b, st = .wait b) ∧
      (c.fresh → o.read_callback_ ≠ some c.callback) := by
  obtain ⟨hid, q, hl, ho⟩ := lookup_of_deref s h.2.2.2.1 x o hd
  refine ⟨hid, ?_, ?_⟩
  · intro hk
    rw [hk] at hl
    have hq := h.2.2.2.2.2.1
    rw [hl] at hq
    exact wait_of_foreign c st q hq o ho (by rw [hid]; exact hx)
  · intro hf
    exact (h.2.2.2.2.2.2.2.2.2.2.2 hf).1 _ q hl o ho (by rw [hid]; omega)

theorem runReadCallback_t (c : Trip) (st : Stage) (s s' : State) (x : Nat)
    (hx : x < c.write_id) (t : Int) (d : List Nat) (h : Trk c st s)
    (hst : st.stable = true) (hr : runReadCallback x t d s = .ok s') : Trk c st s' := by
  unfold runReadCallback at hr
  rw [bind_eq_ok] at hr
  obtain ⟨o, hd, hr⟩ := hr
  obtain ⟨hid, _, hfresh⟩ := foreign_deref c st s h x hx o hd
  split at hr
  · exact absurd hr (by simp)
  · next cb hcb =>
    simp only [pure, Except.pure, Except.ok.injEq] at hr
    subst hr
    refine trk_observe c st _ _ ?_ (stable_logKind st hst) (by simp) ?_
    · exact trk_modifyOp_foreign c st s x _ h hx (fun _ => ⟨rfl, rfl⟩) (fun _ => Or.inr rfl)
    · intro hf
      have := hfresh hf
      rw [hcb] at this
      have hne : cb ≠ c.callback := fun e => this (by rw [e])
      simp [readCallbacks, hne]

theorem DoomEntry_t (c : Trip) (st : Stage) (s s' : State) (o : PendingOperation)
    (h : Trk c st s) (hk : o.key_ = c.key → st.level = 0) (hr : DoomEntry o s = .ok s') :
    Trk c st s' := by
  unfold DoomEntry at hr
  split at hr
  · simp only [Except.ok.injEq] at hr
    subst hr
    refine trk_store_foreign c st s _ h ?_
    by_cases hkey : o.key_ = c.key
    · exact Or.inr (hk hkey)
    · exact Or.inl (lookup_doom_other o.key_ c.key hkey s.store)
  · exact absurd hr (by simp)

theorem close_t (c : Trip) (next : List Char → State → Except Fault State)
    (hnext : NextT c next) (st : Stage) (s s' : State) (o : PendingOperation)
    (hid : o.id < c.write_id) (h : Trk c st s) (hst : st.stable = true)
    (hk : o.key_ = c.key → ∃ b, st = .wait b)
    (hr : CloseOperationAndIssueNext next o s = .ok s') :
    ∃ st', Trk c st' s' ∧ st'.stable = true ∧ st'.fetch = st.fetch := by
  unfold CloseOperationAndIssueNext at hr
  rw [bind_eq_ok] at hr
  obtain ⟨⟨r, s₁⟩, hdq, hr⟩ := hr
  simp only [] at hr
  have hob : Obs.closed o.id o.key_ ≠ .closed (c.write_id + 1) c.key := by
    intro e
    simp only [Obs.closed.injEq] at e
    omega
  have hcb : c.fresh → readCallbacks c.callback [Obs.closed o.id o.key_] = [] :=
    fun _ => by simp [readCallbacks]
  cases hl : s.active_entries_map_.lookup o.key_ with
  | none => simp [DequeueOperation, hl] at hdq
  | some q =>
    cases q with
    | nil => simp [DequeueOperation, hl] at hdq
    | cons front rest =>
      rw [DequeueOperation_eq s o front rest hl] at hdq
      simp only [Except.ok.injEq, Prod.mk.injEq] at hdq
      obtain ⟨_, hs₁⟩ := hdq
      subst hs₁
      by_cases hkey : o.key_ = c.key
      · obtain ⟨b, hb⟩ := hk hkey
        subst hb
        rw [hkey] at hl
        rcases trk_dequeue_wait c b s front rest h hl with h₁ | h₁
        · have h₂ := trk_observe c _ _ (.closed o.id o.key_) h₁ (by simp [Stage.logKind]) hob hcb
          rw [hkey] at h₂ hr
          exact hnext c.key _ s' _ h₂ (fun _ => rfl) (fun _ => rfl) hr
        · have h₂ := trk_observe c _ _ (.closed o.id o.key_) h₁ (by simp [Stage.logKind]) hob hcb
          rw [hkey] at h₂ hr
          obtain ⟨st', a, b', d⟩ := hnext c.key _ s' _ h₂ (fun _ => rfl)
            (fun e => absurd rfl e) hr
          exact ⟨st', a, b', d⟩
      · have h₁ := trk_dequeue_foreign c st s o.key_ front rest h hl hkey
        have h₂ := trk_observe c _ _ (.closed o.id o.key_) h₁ (stable_logKind st hst) hob hcb
        exact hnext o.key_ _ s' _ h₂ (fun e => absurd e hkey) (fun _ => hst) hr

theorem WriteResponseTimeComplete_t (c : Trip) (st : Stage) (s s' : State) (x : Nat)
    (hx : x < c.write_id) (rv : Int) (h : Trk c st s)
    (hr : WriteResponseTimeComplete x rv s = .ok s') : Trk c st s' := by
  unfold WriteResponseTimeComplete at hr
  split at hr
  · rw [bind_eq_ok] at hr
    obtain ⟨o, _, hr⟩ := hr
    simp only [pure, Except.pure, Except.ok.injEq] at hr
    subst hr
    exact trk_modifyOp_foreign c st s x _ h hx (fun _ => ⟨rfl, rfl⟩) (fun _ => Or.inl rfl)
  · simp only [pure, Except.pure, Except.ok.injEq] at hr
    subst hr
    exact h

theorem completeWriteResponseTime_t (c : Trip) (st : Stage) (s s' : State) (x : Nat)
    (hx : x < c.write_id) (key : List Char) (time : Int) (ok : Bool) (h : Trk c st s)
    (hk : key = c.key → st.level = 0)
    (hr : completeWriteResponseTime x key time ok s = .ok s') : Trk c st s' := by
  unfold completeWriteResponseTime at hr
  rcases hb : Backend.WriteResponseTime s.store key time ok with ⟨rv, store⟩
  rw [hb] at hr
  refine WriteResponseTimeComplete_t c st { s with store := store } s' x hx rv ?_ hr
  refine trk_store_foreign c st s store h ?_
  by_cases hkey : key = c.key
  · exact Or.inr (hk hkey)
  · left
    unfold Backend.WriteResponseTime at hb
    split at hb
    · simp only [Prod.mk.injEq] at hb
      rw [← hb.2]
      exact lookup_put_other s.store key c.key _ hkey
    · simp only [Prod.mk.injEq] at hb
      rw [← hb.2]

theorem WriteDataComplete_t (c : Trip) (next : List Char → State → Except Fault State)
    (hnext : NextT c next) (st : Stage) (s s' : State) (x : Nat) (hx : x < c.write_id)
    (rv : Int) (h : Trk c st s) (hst : st.stable = true)
    (hr : WriteDataComplete next x rv s = .ok s') :
    ∃ st', Trk c st' s' ∧ st'.stable = true ∧ st'.fetch = st.fetch := by
  unfold WriteDataComplete at hr
  rw [bind_eq_ok] at hr
  obtain ⟨o, hd, hr⟩ := hr
  obtain ⟨hid, hwait, _⟩ := foreign_deref c st s h x hx o hd
  have hlev : o.key_ = c.key → st.level = 0 := by
    intro e
    obtain ⟨b, hb⟩ := hwait e
    rw [hb]; rfl
  split at hr
  · exact absurd hr (by simp)
  · rw [bind_eq_ok] at hr
    obtain ⟨s₁, hs₁, hr⟩ := hr
    have h₁ : Trk c st s₁ := by
      split at hs₁
      · exact DoomEntry_t c st s s₁ o h hlev hs₁
      · simp only [pure, Except.pure, Except.ok.injEq] at hs₁
        subst hs₁
        exact h
    exact close_t c next hnext st s₁ s' o (by rw [hid]; exact hx) h₁ hst hwait hr

theorem storeWrite_lookup (store : List (List Char × Entry)) (key : List Char)
    (data : List Nat) (ok : Bool) (k : List Char) (hk : key ≠ k) :
    (Backend.WriteData store key data ok).2.lookup k = store.lookup k := by
  unfold Backend.WriteData
  split
  · exact lookup_put_other store key k _ hk
  · rfl

theorem completeWriteData_t (c : Trip) (next : List Char → State → Except Fault State)
    (hnext : NextT c next) (st : Stage) (s s' : State) (x : Nat) (hx : x < c.write_id)
    (key : List Char) (data : List Nat) (ok : Bool) (h : Trk c st s) (hst : st.stable = true)
    (hk : key = c.key → st.level = 0)
    (hr : completeWriteData next x key data ok s = .ok s') :
    ∃ st', Trk c st' s' ∧ st'.stable = true ∧ st'.fetch = st.fetch := by
  unfold completeWriteData at hr
  rcases hb : Backend.WriteData s.store key data ok with ⟨rv, store⟩
  rw [hb] at hr
  refine WriteDataComplete_t c next hnext st { s with store := store } s' x hx rv ?_ hst hr
  refine trk_store_foreign c st s store h ?_
  by_cases hkey : key = c.key
  · exact Or.inr (hk hkey)
  · left
    have := storeWrite_lookup s.store key data ok c.key hkey
    rw [hb] at this
    exact this

theorem OpenCompleteForWrite_t (c : Trip) (next : List Char → State → Except Fault State)
    (hnext : NextT c next) (st : Stage) (s s' : State) (x : Nat) (hx : x < c.write_id)
    (entry_result : EntryResult) (h : Trk c st s) (hst : st.stable = true)
    (hr : OpenCompleteForWrite next x entry_result s = .ok s') :
    ∃ st', Trk c st' s' ∧ st'.stable = true ∧ st'.fetch = st.fetch := by
  have hne1 : x ≠ c.write_id := by omega
  have hne2 : x ≠ c.write_id + 1 := by omega
  unfold OpenCompleteForWrite at hr
  rw [bind_eq_ok] at hr
  obtain ⟨o, hd, hr⟩ := hr
  obtain ⟨hid, hwait, _⟩ := foreign_deref c st s h x hx o hd
  have hlev : o.key_ = c.key → st.level = 0 := by
    intro e
    obtain ⟨b, hb⟩ := hwait e
    rw [hb]; rfl
  split at hr
  · exact close_t c next hnext st s s' o (by rw [hid]; exact hx) h hst hwait hr
  · split at hr
    · exact absurd hr (by simp)
    · next time _ =>
      rw [bind_eq_ok] at hr
      obtain ⟨s₁, hs₁, hr⟩ := hr
      have hdec := trk_nextDecision c st s x h
      have h₁ : Trk c st s₁ := by
        split at hs₁
        · next s₀ hnd =>
          simp only [pure, Except.pure, Except.ok.injEq] at hs₁
          subst hs₁
          rw [hnd] at hdec
          exact trk_defer_foreign c st s₀ _ hdec.1 hne1 hne2
        · next ok s₀ hnd =>
          rw [hnd] at hdec
          exact completeWriteResponseTime_t c st s₀ s₁ x hx o.key_ time ok hdec.1 hlev hs₁
      rw [bind_eq_ok] at hr
      obtain ⟨o₁, hd₁, hr⟩ := hr
      obtain ⟨_, hwait₁, _⟩ := foreign_deref c st s₁ h₁ x hx o₁ hd₁
      have hlev₁ : o₁.key_ = c.key → st.level = 0 := by
        intro e
        obtain ⟨b, hb⟩ := hwait₁ e
        rw [hb]; rfl
      split at hr
      · exact absurd hr (by simp)
      · next data _ =>
        have hdec₁ := trk_nextDecision c st s₁ x h₁
        split at hr
        · next s₂ hnd =>
          simp only [pure, Except.pure, Except.ok.injEq] at hr
          subst hr
          rw [hnd] at hdec₁
          exact ⟨st, trk_defer_foreign c st s₂ _ hdec₁.1 hne1 hne2, hst, rfl⟩
        · next ok s₂ hnd =>
          rw [hnd] at hdec₁
          exact completeWriteData_t c next hnext st s₂ s' x hx o₁.key_ data ok hdec₁.1 hst
            hlev₁ hr

theorem completeOpenOrCreateEntry_t (c : Trip)
    (next : List Char → State → Except Fault State) (hnext : NextT c next) (st : Stage)
    (s s' : State) (x : Nat) (hx : x < c.write_id) (key : List Char) (ok : Bool)
    (h : Trk c st s) (hst : st.stable = true) (hk : key = c.key → st.level = 0)
    (hr : completeOpenOrCreateEntry next x key ok s = .ok s') :
    ∃ st', Trk c st' s' ∧ st'.stable = true ∧ st'.fetch = st.fetch := by
  unfold completeOpenOrCreateEntry at hr
  rcases hb : Backend.OpenOrCreateEntry s.store key ok with ⟨result, store⟩
  rw [hb] at hr
  refine OpenCompleteForWrite_t c next hnext st { s with store := store } s' x hx result ?_ hst hr
  refine trk_store_foreign c st s store h ?_
  by_cases hkey : key = c.key
  · exact Or.inr (hk hkey)
  · left
    unfold Backend.OpenOrCreateEntry at hb
    split at hb
    · split at hb
      · simp only [Prod.mk.injEq] at hb
        rw [← hb.2, lookup_append_new]
        have : ¬ c.key = key := fun e => hkey e.symm
        simp [this]
      · simp only [Prod.mk.injEq] at hb
        rw [← hb.2]
    · simp only [Prod.mk.injEq] at hb
      rw [← hb.2]

theorem WriteEntryImpl_t (c : Trip) (next : List Char → State → Except Fault State)
    (hnext : NextT c next) (st : Stage) (s s' : State) (o : PendingOperation)
    (hid : o.id < c.write_id) (h : Trk c st s) (hst : st.stable = true)
    (hk : o.key_ = c.key → ∃ b, st = .wait b)
    (hr : WriteEntryImpl next o s = .ok s') :
    ∃ st', Trk c st' s' ∧ st'.stable = true ∧ st'.fetch = st.fetch := by
  have hne1 : o.id ≠ c.write_id := by omega
  have hne2 : o.id ≠ c.write_id + 1 := by omega
  have hlev : o.key_ = c.key → st.level = 0 := by
    intro e
    obtain ⟨b, hb⟩ := hk e
    rw [hb]; rfl
  unfold WriteEntryImpl at hr
  split at hr
  · exact close_t c next hnext st s s' o hid h hst hk hr
  · split at hr
    · exact absurd hr (by simp)
    · have hdec := trk_nextDecision c st s o.id h
      split at hr
      · next s₀ hnd =>
        simp only [pure, Except.pure, Except.ok.injEq] at hr
        subst hr
        rw [hnd] at hdec
        exact ⟨st, trk_defer_foreign c st s₀ _ hdec.1 hne1 hne2, hst, rfl⟩
      · next ok s₀ hnd =>
        rw [hnd] at hdec
        exact completeOpenOrCreateEntry_t c next hnext st s₀ s' o.id hid o.key_ ok hdec.1 hst
          hlev hr

theorem ReadResponseTimeComplete_t (c : Trip) (st : Stage) (s s' : State) (x : Nat)
    (hx : x < c.write_id) (rv : Int) (h : Trk c st s)
    (hr : ReadResponseTimeComplete x rv s = .ok s') : Trk c st s' := by
  unfold ReadResponseTimeComplete at hr
  split at hr
  · rw [bind_eq_ok] at hr
    obtain ⟨o, _, hr⟩ := hr
    simp only [pure, Except.pure, Except.ok.injEq] at hr
    subst hr
    exact trk_modifyOp_foreign c st s x _ h hx (fun _ => ⟨rfl, rfl⟩) (fun _ => Or.inl rfl)
  · simp only [pure, Except.pure, Except.ok.injEq] at hr
    subst hr
    exact h

theorem completeReadResponseTime_t (c : Trip) (st : Stage) (s s' : State) (x : Nat)
    (hx : x < c.write_id) (key : List Char) (ok : Bool) (h : Trk c st s)
    (hr : completeReadResponseTime x key ok s = .ok s') : Trk c st s' := by
  unfold completeReadResponseTime at hr
  split at hr
  · next rv time _ =>
    refine ReadResponseTimeComplete_t c st _ s' x hx rv ?_ hr
    exact trk_modifyOp_foreign c st s x _ h hx (fun _ => ⟨rfl, rfl⟩) (fun _ => Or.inl rfl)
  · exact ReadResponseTimeComplete_t c st s s' x hx _ h hr

theorem ReadDataComplete_t (c : Trip) (next : List Char → State → Except Fault State)
    (hnext : NextT c next) (st : Stage) (s s' : State) (x : Nat) (hx : x < c.write_id)
    (rv : Int) (h : Trk c st s) (hst : st.stable = true)
    (hr : ReadDataComplete next x rv s = .ok s') :
    ∃ st', Trk c st' s' ∧ st'.stable = true ∧ st'.fetch = st.fetch := by
  unfold ReadDataComplete at hr
  rw [bind_eq_ok] at hr
  obtain ⟨o, hd, hr⟩ := hr
  obtain ⟨hid, hwait, _⟩ := foreign_deref c st s h x hx o hd
  have hlev : o.key_ = c.key → st.level = 0 := by
    intro e
    obtain ⟨b, hb⟩ := hwait e
    rw [hb]; rfl
  split at hr
  · exact absurd hr (by simp)
  · rw [bind_eq_ok] at hr
    obtain ⟨s₁, hs₁, hr⟩ := hr
    have hfail : ∀ s₁, (runReadCallback x 0 [] s >>= DoomEntry o) = .ok s₁ → Trk c st s₁ := by
      intro s₁ hs₁
      rw [bind_eq_ok] at hs₁
      obtain ⟨s₀, hs₀, hs₁⟩ := hs₁
      exact DoomEntry_t c st s₀ s₁ o (runReadCallback_t c st s s₀ x hx 0 [] h hst hs₀) hlev hs₁
    have h₁ : Trk c st s₁ := by
      split at hs₁
      · exact hfail s₁ hs₁
      · split at hs₁
        · exact hfail s₁ hs₁
        · exact runReadCallback_t c st s s₁ x hx _ _ h hst hs₁
    exact close_t c next hnext st s₁ s' o (by rw [hid]; exact hx) h₁ hst hwait hr

theorem completeReadData_t (c : Trip) (next : List Char → State → Except Fault State)
    (hnext : NextT c next) (st : Stage) (s s' : State) (x : Nat) (hx : x < c.write_id)
    (key : List Char) (len : Nat) (ok : Bool) (h : Trk c st s) (hst : st.stable = true)
    (hr : completeReadData next x key len ok s = .ok s') :
    ∃ st', Trk c st' s' ∧ st'.stable = true ∧ st'.fetch = st.fetch := by
  unfold completeReadData at hr
  rcases hb : Backend.ReadData s.store key len ok with ⟨rv, bytes⟩
  rw [hb] at hr
  refine ReadDataComplete_t c next hnext st _ s' x hx rv ?_ hst hr
  exact trk_modifyOp_foreign c st s x _ h hx (fun _ => ⟨rfl, rfl⟩) (fun _ => Or.inl rfl)

theorem OpenCompleteForRead_t (c : Trip) (next : List Char → State → Except Fault State)
    (hnext : NextT c next) (st : Stage) (s s' : State) (x : Nat) (hx : x < c.write_id)
    (entry_result : EntryResult) (h : Trk c st s) (hst : st.stable = true)
    (hr : OpenCompleteForRead next x entry_result s = .ok s') :
    ∃ st', Trk c st' s' ∧ st'.stable = true ∧ st'.fetch = st.fetch := by
  have hne1 : x ≠ c.write_id := by omega
  have hne2 : x ≠ c.write_id + 1 := by omega
  unfold OpenCompleteForRead at hr
  rw [bind_eq_ok] at hr
  obtain ⟨o, hd, hr⟩ := hr
  obtain ⟨hid, hwait, _⟩ := foreign_deref c st s h x hx o hd
  split at hr
  · rw [bind_eq_ok] at hr
    obtain ⟨s₁, hs₁, hr⟩ := hr
    have h₁ := runReadCallback_t c st s s₁ x hx 0 [] h hst hs₁
    exact close_t c next hnext st s₁ s' o (by rw [hid]; exact hx) h₁ hst hwait hr
  · simp only [] at hr
    rw [bind_eq_ok] at hr
    obtain ⟨s₁, hs₁, hr⟩ := hr
    have hm : Trk c st (modifyOp x (fun y => { y with
        time_buffer_ := some 0,
        data_buffer_ := some (List.replicate (Backend.GetDataSize s.store o.key_) 0) }) s) :=
      trk_modifyOp_foreign c st s x _ h hx (fun _ => ⟨rfl, rfl⟩) (fun _ => Or.inl rfl)
    have hdec := trk_nextDecision c st _ x hm
    have h₁ : Trk c st s₁ := by
      split at hs₁
      · next s₀ hnd =>
        simp only [pure, Except.pure, Except.ok.injEq] at hs₁
        subst hs₁
        rw [hnd] at hdec
        exact trk_defer_foreign c st s₀ _ hdec.1 hne1 hne2
      · next ok s₀ hnd =>
        rw [hnd] at hdec
        exact completeReadResponseTime_t c st s₀ s₁ x hx o.key_ ok hdec.1 hs₁
    have hdec₁ := trk_nextDecision c st s₁ x h₁
    split at hr
    · next s₂ hnd =>
      simp only [pure, Except.pure, Except.ok.injEq] at hr
      subst hr
      rw [hnd] at hdec₁
      exact ⟨st, trk_defer_foreign c st s₂ _ hdec₁.1 hne1 hne2, hst, rfl⟩
    · next ok s₂ hnd =>
      rw [hnd] at hdec₁
      exact completeReadData_t c next hnext st s₂ s' x hx _ _ ok hdec₁.1 hst hr

theorem completeOpenEntry_t (c : Trip) (next : List Char → State → Except Fault State)
    (hnext : NextT c next) (st : Stage) (s s' : State) (x : Nat) (hx : x < c.write_id)
    (key : List Char) (ok : Bool) (h : Trk c st s) (hst : st.stable = true)
    (hr : completeOpenEntry next x key ok s = .ok s') :
    ∃ st', Trk c st' s' ∧ st'.stable = true ∧ st'.fetch = st.fetch := by
  unfold completeOpenEntry at hr
  exact OpenCompleteForRead_t c next hnext st s s' x hx _ h hst hr

theorem FetchEntryImpl_t (c : Trip) (next : List Char → State → Except Fault State)
    (hnext : NextT c next) (st : Stage) (s s' : State) (o : PendingOperation)
    (hid : o.id < c.write_id) (h : Trk c st s) (hst : st.stable = true)
    (hk : o.key_ = c.key → ∃ b, st = .wait b)
    (hr : FetchEntryImpl next o s = .ok s') :
    ∃ st', Trk c st' s' ∧ st'.stable = true ∧ st'.fetch = st.fetch := by
  have hne1 : o.id ≠ c.write_id := by omega
  have hne2 : o.id ≠ c.write_id + 1 := by omega
  unfold FetchEntryImpl at hr
  split at hr
  · rw [bind_eq_ok] at hr
    obtain ⟨s₁, hs₁, hr⟩ := hr
    have h₁ := runReadCallback_t c st s s₁ o.id hid 0 [] h hst hs₁
    exact close_t c next hnext st s₁ s' o hid h₁ hst hk hr
  · split at hr
    · exact absurd hr (by simp)
    · have hdec := trk_nextDecision c st s o.id h
      split at hr
      · next s₀ hnd =>
        simp only [pure, Except.pure, Except.ok.injEq] at hr
        subst hr
        rw [hnd] at hdec
        exact ⟨st, trk_defer_foreign c st s₀ _ hdec.1 hne1 hne2, hst, rfl⟩
      · next ok s₀ hnd =>
        rw [hnd] at hdec
        exact completeOpenEntry_t c next hnext st s₀ s' o.id hid o.key_ ok hdec.1 hst hr

theorem DeleteEntryImpl_t (c : Trip) (next : List Char → State → Except Fault State)
    (hnext : NextT c next) (st : Stage) (s s' : State) (o : PendingOperation)
    (hid : o.id < c.write_id) (h : Trk c st s) (hst : st.stable = true)
    (hk : o.key_ = c.key → ∃ b, st = .wait b)
    (hr : DeleteEntryImpl next o s = .ok s') :
    ∃ st', Trk c st' s' ∧ st'.stable = true ∧ st'.fetch = st.fetch := by
  have hlev : o.key_ = c.key → st.level = 0 := by
    intro e
    obtain ⟨b, hb⟩ := hk e
    rw [hb]; rfl
  unfold DeleteEntryImpl at hr
  rw [bind_eq_ok] at hr
  obtain ⟨s₁, hs₁, hr⟩ := hr
  exact close_t c next hnext st s₁ s' o hid (DoomEntry_t c st s s₁ o h hlev hs₁) hst hk hr

theorem DoPendingGetBackend_t (c : Trip) (st : Stage) (s s' : State) (o : PendingOperation)
    (h : Trk c st s) (hst : st.stable = true) (hr : DoPendingGetBackend o s = .ok s') :
    Trk c st s' := by
  unfold DoPendingGetBackend at hr
  split at hr
  · exact absurd hr (by simp)
  · split at hr <;>
    · simp only [pure, Except.pure, Except.ok.injEq] at hr
      subst hr
      exact trk_observe c st s _ h (stable_logKind st hst) (by simp)
        (fun _ => by simp [readCallbacks])

theorem IssueOperation_t (c : Trip) (next : List Char → State → Except Fault State)
    (hnext : NextT c next) (st : Stage) (s s' : State) (o : PendingOperation)
    (hid : o.id < c.write_id) (h : Trk c st s) (hst : st.stable = true)
    (hk : o.key_ = c.key → ∃ b, st = .wait b)
    (hr : IssueOperation next o s = .ok s') :
    ∃ st', Trk c st' s' ∧ st'.stable = true ∧ st'.fetch = st.fetch := by
  unfold IssueOperation at hr
  split at hr
  · exact FetchEntryImpl_t c next hnext st s s' o hid h hst hk hr
  · exact WriteEntryImpl_t c next hnext st s s' o hid h hst hk hr
  · exact DeleteEntryImpl_t c next hnext st s s' o hid h hst hk hr
  · exact ⟨st, DoPendingGetBackend_t c st s s' o h hst hr, hst, rfl⟩

/-! #### The handlers of the write -/

theorem mem_behind (c : Trip) (b : Bool) (o : PendingOperation) (h : o ∈ c.behind b) :
    o.id = c.write_id + 1 := by
  cases b
  · simp [Trip.behind] at h
  · simp only [Trip.behind, if_true, List.mem_singleton] at h
    subst h
    rfl

theorem deref_w (c : Trip) (st : Stage) (s : State) (h : Trk c st s) (b : Bool)
    (hq : s.active_entries_map_.lookup c.key = some (c.writeOp :: c.behind b))
    (o : PendingOperation) (hd : deref s c.write_id = .ok o) : o = c.writeOp := by
  obtain ⟨hid, q, hl, ho⟩ := lookup_of_deref s h.2.2.2.1 _ o hd
  by_cases hk : o.key_ = c.key
  · rw [hk, hq] at hl
    simp only [Option.some.injEq] at hl
    subst hl
    rcases List.mem_cons.1 ho with ho | ho
    · exact ho
    · have := mem_behind c b o ho
      omega
  · have := h.2.2.2.2.1 _ q hk hl o ho
    omega

theorem deref_f (c : Trip) (st : Stage) (s : State) (h : Trk c st s) (o' : PendingOperation)
    (hq : s.active_entries_map_.lookup c.key = some [o'])
    (o : PendingOperation) (hd : deref s (c.write_id + 1) = .ok o) : o = o' := by
  obtain ⟨hid, q, hl, ho⟩ := lookup_of_deref s h.2.2.2.1 _ o hd
  by_cases hk : o.key_ = c.key
  · rw [hk, hq] at hl
    simp only [Option.some.injEq] at hl
    subst hl
    simpa using ho
  · have := h.2.2.2.2.1 _ q hk hl o ho
    omega

theorem WriteDataComplete_w (c : Trip) (next : List Char → State → Except Fault State)
    (hnext : NextT c next) (b : Bool) (s s' : State) (h : Trk c (.wstored b) s)
    (hr : WriteDataComplete next c.write_id (c.data.length : Int) s = .ok s') :
    ∃ st', Trk c st' s' ∧ st'.stable = true ∧ st'.fetch = b := by
  have hq : s.active_entries_map_.lookup c.key = some (c.writeOp :: c.behind b) :=
    h.2.2.2.2.2.1
  unfold WriteDataComplete at hr
  rw [bind_eq_ok] at hr
  obtain ⟨o, hd, hr⟩ := hr
  have ho := deref_w c _ s h b hq o hd
  subst ho
  simp only [Trip.writeOp, ne_eq, not_true_eq_false, reduceCtorEq, or_self, if_false, pure,
    Except.pure] at hr
  rw [ok_bind] at hr
  unfold CloseOperationAndIssueNext at hr
  rw [DequeueOperation_eq s _ c.writeOp (c.behind b) hq, ok_bind] at hr
  simp only [] at hr
  have h₁ : Trk c (if b then .ffront else .written) (dequeue c.key (c.behind b) s) := by
    cases b
    · refine trk_dequeue c _ _ s c.key _ _ h hq ?_ rfl rfl rfl rfl rfl
      simp [Trip.behind, Stage.queue]
    · refine trk_dequeue c _ _ s c.key _ _ h hq ?_ rfl rfl rfl rfl rfl
      simp [Trip.behind, Stage.queue]
  have h₂ := trk_observe c _ _ (.closed c.write_id c.key) h₁
    (by cases b <;> simp [Stage.logKind]) (by simp) (fun _ => by simp [readCallbacks])
  obtain ⟨st', a, b', d⟩ := hnext c.key _ s' _ h₂ (fun _ => by cases b <;> rfl)
    (fun e => absurd rfl e) hr
  exact ⟨st', a, b', by rw [d]; cases b <;> rfl⟩

theorem completeWriteData_w (c : Trip) (next : List Char → State → Except Fault State)
    (hnext : NextT c next) (b : Bool) (s s' : State) (h : Trk c (.wtimed b) s)
    (hr : completeWriteData next c.write_id c.key c.data true s = .ok s') :
    ∃ st', Trk c st' s' ∧ st'.stable = true ∧ st'.fetch = b := by
  unfold completeWriteData at hr
  simp only [Backend.WriteData, if_true] at hr
  refine WriteDataComplete_w c next hnext b _ s' ?_ hr
  refine trk_store c (.wtimed b) (.wstored b) s _ h (fun _ hq => hq) rfl rfl rfl rfl ?_
  have hrt := h.2.2.2.2.2.2.2.2.1.1 (by simp [Stage.level])
  refine ⟨fun _ => ?_, fun _ => ⟨?_, ?_⟩⟩
  · rw [get_put]; exact hrt
  · rw [get_put, hrt]
  · rw [lookup_put]; rfl

/-- The write of the response time completes, at once (`wfront`) or later
(`wdata0`). -/
theorem completeWriteResponseTime_w (c : Trip) (st st' : Stage) (s s' : State)
    (h : Trk c st s) (hq : ∀ q, st.queue c q → st'.queue c q) (hf : st'.fetch = st.fetch)
    (hk : st'.logKind = st.logKind) (hw : st'.wreqs c = st.wreqs c)
    (hfr : st'.freqs c = st.freqs c) (hl : st'.level = 1)
    (hr : completeWriteResponseTime c.write_id c.key c.response_time true s = .ok s') :
    Trk c st' s' := by
  unfold completeWriteResponseTime at hr
  simp only [Backend.WriteResponseTime, if_true, WriteResponseTimeComplete, ne_eq,
    not_true_eq_false, if_false, pure, Except.pure, Except.ok.injEq] at hr
  subst hr
  refine trk_store c st st' s _ h hq hf hk hw hfr ?_
  rw [hl]
  exact ⟨fun _ => by rw [get_put], fun h2 => absurd h2 (by omega)⟩

theorem OpenCompleteForWrite_w (c : Trip) (next : List Char → State → Except Fault State)
    (hnext : NextT c next) (b : Bool) (s s' : State) (h : Trk c (.wfront b) s)
    (entry_result : EntryResult) (hok : entry_result.net_error = net_OK)
    (hr : OpenCompleteForWrite next c.write_id entry_result s = .ok s') :
    ∃ st', Trk c st' s' ∧ st'.stable = true ∧ st'.fetch = b := by
  have hq : s.active_entries_map_.lookup c.key = some (c.writeOp :: c.behind b) :=
    h.2.2.2.2.2.1
  unfold OpenCompleteForWrite at hr
  rw [bind_eq_ok] at hr
  obtain ⟨o, hd, hr⟩ := hr
  have ho := deref_w c _ s h b hq o hd
  subst ho
  simp only [hok, ne_eq, not_true_eq_false, if_false, Trip.writeOp] at hr
  rw [bind_eq_ok] at hr
  obtain ⟨s₁, hs₁, hr⟩ := hr
  obtain ⟨hdec, hfl, hdc⟩ := trk_nextDecision c _ s c.write_id h
  have h₁ : Trk c (.wrt b) s₁ ∨ Trk c (.wtimed b) s₁ := by
    split at hs₁
    · next s₀ hnd =>
      simp only [pure, Except.pure, Except.ok.injEq] at hs₁
      subst hs₁
      rw [hnd] at hdec
      left
      exact trk_defer c (.wfront b) (.wrt b) s₀ _ hdec (fun _ hq => hq) rfl rfl rfl
        (by simp [Stage.wreqs, reqsOf, Request.op]) (by simp [Stage.freqs, reqsOf, Request.op])
    · next ok s₀ hnd =>
      rw [hnd] at hdec hdc
      simp only [reduceCtorEq, Decision.done.injEq, false_or] at hdc
      subst hdc
      right
      exact completeWriteResponseTime_w c (.wfront b) (.wtimed b) s₀ s₁ hdec (fun _ hq => hq)
        rfl rfl rfl rfl rfl hs₁
  rw [bind_eq_ok] at hr
  obtain ⟨o₁, hd₁, hr⟩ := hr
  rcases h₁ with h₁ | h₁
  · have ho₁ := deref_w c _ s₁ h₁ b h₁.2.2.2.2.2.1 o₁ hd₁
    subst ho₁
    simp only [Trip.writeOp] at hr
    have hforced := nextDecision_forced c.write_id s₁
      (.WriteResponseTime c.write_id c.key c.response_time)
      (by rw [h₁.2.2.2.2.2.2.1]; simp [Stage.wreqs])
    obtain ⟨hdec₁, _, _⟩ := trk_nextDecision c _ s₁ c.write_id h₁
    split at hr
    · next s₂ hnd =>
      simp only [pure, Except.pure, Except.ok.injEq] at hr
      subst hr
      rw [hnd] at hdec₁
      refine ⟨.wboth b, ?_, rfl, rfl⟩
      exact trk_defer c (.wrt b) (.wboth b) s₂ _ hdec₁ (fun _ hq => hq) rfl rfl rfl
        (by simp [Stage.wreqs, reqsOf, Request.op]) (by simp [Stage.freqs, reqsOf, Request.op])
    · next ok s₂ hnd =>
      rw [hnd] at hforced
      exact absurd hforced (by simp)
  · have ho₁ := deref_w c _ s₁ h₁ b h₁.2.2.2.2.2.1 o₁ hd₁
    subst ho₁
    simp only [Trip.writeOp] at hr
    obtain ⟨hdec₁, _, hdc₁⟩ := trk_nextDecision c _ s₁ c.write_id h₁
    split at hr
    · next s₂ hnd =>
      simp only [pure, Except.pure, Except.ok.injEq] at hr
      subst hr
      rw [hnd] at hdec₁
      refine ⟨.wdata b, ?_, rfl, rfl⟩
      exact trk_defer c (.wtimed b) (.wdata b) s₂ _ hdec₁ (fun _ hq => hq) rfl rfl rfl
        (by simp [Stage.wreqs, reqsOf, Request.op]) (by simp [Stage.freqs, reqsOf, Request.op])
    · next ok s₂ hnd =>
      rw [hnd] at hdec₁ hdc₁
      simp only [reduceCtorEq, Decision.done.injEq, false_or] at hdc₁
      subst hdc₁
      exact completeWriteData_w c next hnext b s₂ s' hdec₁ hr

theorem completeOpenOrCreateEntry_w (c : Trip)
    (next : List Char → State → Except Fault State) (hnext : NextT c next) (b : Bool)
    (s s' : State) (h : Trk c (.wfront b) s)
    (hr : completeOpenOrCreateEntry next c.write_id c.key true s = .ok s') :
    ∃ st', Trk c st' s' ∧ st'.stable = true ∧ st'.fetch = b := by
  unfold completeOpenOrCreateEntry at hr
  rcases hb : Backend.OpenOrCreateEntry s.store c.key true with ⟨result, store⟩
  rw [hb] at hr
  have hres : result.net_error = net_OK := by
    unfold Backend.OpenOrCreateEntry at hb
    simp only [if_true] at hb
    split at hb <;>
    · simp only [Prod.mk.injEq] at hb
      rw [← hb.1]
  exact OpenCompleteForWrite_w c next hnext b _ s'
    (trk_store_foreign c _ s store h (Or.inr rfl)) result hres hr

theorem WriteEntryImpl_w (c : Trip) (next : List Char → State → Except Fault State)
    (hnext : NextT c next) (b : Bool) (s s' : State) (h : Trk c (.wfront b) s)
    (hr : WriteEntryImpl next c.writeOp s = .ok s') :
    ∃ st', Trk c st' s' ∧ st'.stable = true ∧ st'.fetch = b := by
  unfold WriteEntryImpl at hr
  simp only [h.1, ne_eq, not_true_eq_false, if_false, h.2.1, Bool.not_true,
    Bool.false_eq_true, Trip.writeOp] at hr
  obtain ⟨hdec, _, hdc⟩ := trk_nextDecision c _ s c.write_id h
  split at hr
  · next s₀ hnd =>
    simp only [pure, Except.pure, Except.ok.injEq] at hr
    subst hr
    rw [hnd] at hdec
    refine ⟨.wopen b, ?_, rfl, rfl⟩
    exact trk_defer c (.wfront b) (.wopen b) s₀ _ hdec (fun _ hq => hq) rfl rfl rfl
      (by simp [Stage.wreqs, reqsOf, Request.op]) (by simp [Stage.freqs, reqsOf, Request.op])
  · next ok s₀ hnd =>
    rw [hnd] at hdec hdc
    simp only [reduceCtorEq, Decision.done.injEq, false_or] at hdc
    subst hdc
    exact completeOpenOrCreateEntry_w c next hnext b s₀ s' hdec hr

/-! #### The handlers of the fetch -/

theorem readCallbacks_own (c : Trip) :
    readCallbacks c.callback [.read_callback c.callback c.response_time c.data] =
      [(c.response_time, c.data)] := by
  simp [readCallbacks]

theorem ReadDataComplete_f (c : Trip) (next : List Char → State → Except Fault State)
    (hnext : NextT c next) (s s' : State) (h : Trk c .fread s)
    (hr : ReadDataComplete next (c.write_id + 1) (c.data.length : Int) s = .ok s') :
    ∃ st', Trk c st' s' ∧ st'.stable = true ∧ st'.fetch = true := by
  have hq : s.active_entries_map_.lookup c.key =
      some [c.fetchOp (some c.response_time) (some c.data) (some c.callback)] := h.2.2.2.2.2.1
  unfold ReadDataComplete at hr
  rw [bind_eq_ok] at hr
  obtain ⟨o, hd, hr⟩ := hr
  have ho := deref_f c _ s h _ hq o hd
  subst ho
  simp only [Trip.fetchOp, ne_eq, not_true_eq_false, if_false] at hr
  rw [bind_eq_ok] at hr
  obtain ⟨s₁, hs₁, hr⟩ := hr
  unfold runReadCallback at hs₁
  rw [bind_eq_ok] at hs₁
  obtain ⟨o', hd', hs₁⟩ := hs₁
  have ho' := deref_f c _ s h _ hq o' hd'
  subst ho'
  simp only [Trip.fetchOp, pure, Except.pure, Except.ok.injEq] at hs₁
  have hlog := h.2.2.2.2.2.2.2.2.2.2.1
  have hfresh := h.2.2.2.2.2.2.2.2.2.2.2
  have h₁ : Trk c .fcalled s₁ := by
    rw [← hs₁]
    refine trk_modifyOp_fetch_log c .fread .fcalled s _
      (fun o => { o with read_callback_ := none })
      (s.log ++ [.read_callback c.callback c.response_time c.data]) h hq rfl
      (fun _ => ⟨rfl, rfl⟩) (by simp [Stage.queue, Trip.fetchOp]) (by simp [Stage.level])
      rfl ?_ ?_ rfl rfl
    · refine ⟨fun _ => ?_, fun _ => ⟨s.log, rfl⟩, fun h2 => absurd h2 (by simp [Stage.logKind])⟩
      intro hm
      rcases List.mem_append.1 hm with hm | hm
      · exact hlog.1 (by simp [Stage.logKind]) hm
      · simp at hm
    · intro hf
      rw [readCallbacks_append, (hfresh hf).2, readCallbacks_own]
      simp [Stage.logKind]
  have hq₁ : s₁.active_entries_map_.lookup c.key =
      some [c.fetchOp (some c.response_time) (some c.data) none] := h₁.2.2.2.2.2.1
  unfold CloseOperationAndIssueNext at hr
  rw [DequeueOperation_eq s₁ _ _ [] hq₁, ok_bind] at hr
  simp only [] at hr
  have hlog₁ := h₁.2.2.2.2.2.2.2.2.2.2.1
  have hfresh₁ := h₁.2.2.2.2.2.2.2.2.2.2.2
  have h₂ : Trk c .done (observe (.closed (c.write_id + 1) c.key) (dequeue c.key [] s₁)) := by
    refine trk_dequeue_log c .fcalled .done s₁ c.key _ [] (s₁.log ++ [.closed (c.write_id + 1) c.key])
      h₁ hq₁ (by simp [Stage.queue]) (by simp [Stage.level]) rfl ?_ ?_ rfl rfl
    · refine ⟨fun h1 => absurd h1 (by simp [Stage.logKind]),
        fun h1 => absurd h1 (by simp [Stage.logKind]), fun _ => ?_⟩
      obtain ⟨pre, hpre⟩ := hlog₁.2.1 rfl
      exact ⟨pre, [], by rw [hpre]; simp⟩
    · intro hf
      rw [readCallbacks_append, (hfresh₁ hf).2]
      simp [Stage.logKind, readCallbacks]
  obtain ⟨st', a, b, d⟩ := hnext c.key _ s' _ h₂ (fun _ => rfl) (fun e => absurd rfl e) hr
  exact ⟨st', a, b, by rw [d]; rfl⟩

theorem completeReadData_f (c : Trip) (next : List Char → State → Except Fault State)
    (hnext : NextT c next) (s s' : State) (h : Trk c .ftimed s)
    (hr : completeReadData next (c.write_id + 1) c.key c.data.length true s = .ok s') :
    ∃ st', Trk c st' s' ∧ st'.stable = true ∧ st'.fetch = true := by
  have hq : s.active_entries_map_.lookup c.key =
      some [c.fetchOp (some c.response_time) (some (List.replicate c.data.length 0))
        (some c.callback)] := h.2.2.2.2.2.1
  have hst := (h.2.2.2.2.2.2.2.2.1.2 (by simp [Stage.level])).1
  unfold completeReadData at hr
  simp only [Backend.ReadData, if_true, hst, List.take_length] at hr
  refine ReadDataComplete_f c next hnext _ s' ?_ hr
  refine trk_modifyOp_fetch c .ftimed .fread s _ _ h hq rfl (fun _ => ⟨rfl, rfl⟩) ?_ rfl rfl rfl
    rfl rfl
  simp [Stage.queue, Trip.fetchOp]

/-- The read of the response time completes, at once (`fopened`) or later
(`fdata0`). -/
theorem completeReadResponseTime_f (c : Trip) (st st' : Stage) (s s' : State)
    (h : Trk c st s)
    (hq : s.active_entries_map_.lookup c.key =
      some [c.fetchOp (some 0) (some (List.replicate c.data.length 0)) (some c.callback)])
    (hq' : st'.queue c (some [c.fetchOp (some c.response_time)
      (some (List.replicate c.data.length 0)) (some c.callback)]))
    (hl : st.level = 2) (hl' : st'.level = 2) (hf : st'.fetch = st.fetch)
    (hk : st'.logKind = st.logKind) (hw : st'.wreqs c = st.wreqs c)
    (hfr : st'.freqs c = st.freqs c)
    (hr : completeReadResponseTime (c.write_id + 1) c.key true s = .ok s') :
    Trk c st' s' := by
  have hst := (h.2.2.2.2.2.2.2.2.1.2 (by omega)).1
  unfold completeReadResponseTime at hr
  simp only [Backend.ReadResponseTime, if_true, hst, ReadResponseTimeComplete, ne_eq,
    not_true_eq_false, if_false, pure, Except.pure, Except.ok.injEq] at hr
  subst hr
  exact trk_modifyOp_fetch c st st' s _ _ h hq rfl (fun _ => ⟨rfl, rfl⟩)
    (by simpa [Trip.fetchOp] using hq') (by omega) hf hk hw hfr

theorem OpenCompleteForRead_f (c : Trip) (next : List Char → State → Except Fault State)
    (hnext : NextT c next) (s s' : State) (h : Trk c .ffront s)
    (entry_result : EntryResult) (hok : entry_result.net_error = net_OK)
    (hr : OpenCompleteForRead next (c.write_id + 1) entry_result s = .ok s') :
    ∃ st', Trk c st' s' ∧ st'.stable = true ∧ st'.fetch = true := by
  have hq : s.active_entries_map_.lookup c.key =
      some [c.fetchOp none none (some c.callback)] := h.2.2.2.2.2.1
  have hst := (h.2.2.2.2.2.2.2.2.1.2 (by simp [Stage.level])).1
  unfold OpenCompleteForRead at hr
  rw [bind_eq_ok] at hr
  obtain ⟨o, hd, hr⟩ := hr
  have ho := deref_f c _ s h _ hq o hd
  subst ho
  simp only [hok, ne_eq, not_true_eq_false, if_false, Trip.fetchOp, Backend.GetDataSize,
    hst] at hr
  have h₀ : Trk c .fopened (modifyOp (c.write_id + 1) (fun o => { o with
      time_buffer_ := some 0, data_buffer_ := some (List.replicate c.data.length 0) }) s) :=
    trk_modifyOp_fetch c .ffront .fopened s _ _ h hq rfl (fun _ => ⟨rfl, rfl⟩)
      (by simp [Stage.queue, Trip.fetchOp]) rfl rfl rfl rfl rfl
  rw [bind_eq_ok] at hr
  obtain ⟨s₁, hs₁, hr⟩ := hr
  obtain ⟨hdec, hfl, hdc⟩ := trk_nextDecision c _ _ (c.write_id + 1) h₀
  have h₁ : Trk c .frrt s₁ ∨ Trk c .ftimed s₁ := by
    split at hs₁
    · next s₀ hnd =>
      simp only [pure, Except.pure, Except.ok.injEq] at hs₁
      subst hs₁
      rw [hnd] at hdec
      left
      exact trk_defer c .fopened .frrt s₀ _ hdec (fun _ hq => hq) rfl rfl rfl
        (by simp [Stage.wreqs, reqsOf, Request.op]) (by simp [Stage.freqs, reqsOf, Request.op])
    · next ok s₀ hnd =>
      rw [hnd] at hdec hdc
      simp only [reduceCtorEq, Decision.done.injEq, false_or] at hdc
      subst hdc
      right
      exact completeReadResponseTime_f c .fopened .ftimed s₀ s₁ hdec hdec.2.2.2.2.2.1
        (by simp [Stage.queue]) rfl rfl rfl rfl rfl rfl hs₁
  rcases h₁ with h₁ | h₁
  · have hforced := nextDecision_forced (c.write_id + 1) s₁
      (.ReadResponseTime (c.write_id + 1) c.key)
      (by rw [h₁.2.2.2.2.2.2.2.1]; simp [Stage.freqs])
    obtain ⟨hdec₁, _, _⟩ := trk_nextDecision c _ s₁ (c.write_id + 1) h₁
    split at hr
    · next s₂ hnd =>
      simp only [pure, Except.pure, Except.ok.injEq] at hr
      subst hr
      rw [hnd] at hdec₁
      refine ⟨.fboth, ?_, rfl, rfl⟩
      exact trk_defer c .frrt .fboth s₂ _ hdec₁ (fun _ hq => hq) rfl rfl rfl
        (by simp [Stage.wreqs, reqsOf, Request.op]) (by simp [Stage.freqs, reqsOf, Request.op])
    · next ok s₂ hnd =>
      rw [hnd] at hforced
      exact absurd hforced (by simp)
  · obtain ⟨hdec₁, _, hdc₁⟩ := trk_nextDecision c _ s₁ (c.write_id + 1) h₁
    split at hr
    · next s₂ hnd =>
      simp only [pure, Except.pure, Except.ok.injEq] at hr
      subst hr
      rw [hnd] at hdec₁
      refine ⟨.fdata, ?_, rfl, rfl⟩
      exact trk_defer c .ftimed .fdata s₂ _ hdec₁ (fun _ hq => hq) rfl rfl rfl
        (by simp [Stage.wreqs, reqsOf, Request.op]) (by simp [Stage.freqs, reqsOf, Request.op])
    · next ok s₂ hnd =>
      rw [hnd] at hdec₁ hdc₁
      simp only [reduceCtorEq, Decision.done.injEq, false_or] at hdc₁
      subst hdc₁
      exact completeReadData_f c next hnext s₂ s' hdec₁ hr

theorem completeOpenEntry_f (c : Trip) (next : List Char → State → Except Fault State)
    (hnext : NextT c next) (s s' : State) (h : Trk c .ffront s)
    (hr : completeOpenEntry next (c.write_id + 1) c.key true s = .ok s') :
    ∃ st', Trk c st' s' ∧ st'.stable = true ∧ st'.fetch = true := by
  have hst := (h.2.2.2.2.2.2.2.2.1.2 (by simp [Stage.level])).2
  unfold completeOpenEntry at hr
  refine OpenCompleteForRead_f c next hnext s s' h _ ?_ hr
  simp [Backend.OpenEntry, hst]

theorem FetchEntryImpl_f (c : Trip) (next : List Char → State → Except Fault State)
    (hnext : NextT c next) (s s' : State) (h : Trk c .ffront s)
    (hr : FetchEntryImpl next (c.fetchOp none none (some c.callback)) s = .ok s') :
    ∃ st', Trk c st' s' ∧ st'.stable = true ∧ st'.fetch = true := by
  unfold FetchEntryImpl at hr
  simp only [h.1, ne_eq, not_true_eq_false, if_false, h.2.1, Bool.not_true,
    Bool.false_eq_true, Trip.fetchOp] at hr
  obtain ⟨hdec, _, hdc⟩ := trk_nextDecision c _ s (c.write_id + 1) h
  split at hr
  · next s₀ hnd =>
    simp only [pure, Except.pure, Except.ok.injEq] at hr
    subst hr
    rw [hnd] at hdec
    refine ⟨.fopen, ?_, rfl, rfl⟩
    exact trk_defer c .ffront .fopen s₀ _ hdec (fun _ hq => hq) rfl rfl rfl
      (by simp [Stage.wreqs, reqsOf, Request.op]) (by simp [Stage.freqs, reqsOf, Request.op])
  · next ok s₀ hnd =>
    rw [hnd] at hdec hdc
    simp only [reduceCtorEq, Decision.done.injEq, false_or] at hdc
    subst hdc
    exact completeOpenEntry_f c next hnext s₀ s' hdec hr

/-! #### Issuing the next operation -/

theorem IssueNextOperation_t (c : Trip) : ∀ fuel, NextT c (IssueNextOperation fuel) := by
  intro fuel
  induction fuel with
  | zero =>
    intro K s s' st _ _ _ hr
    exact absurd hr (by simp [IssueNextOperation])
  | succ fuel ih =>
    intro K s s' st h hhole hstab hr
    unfold IssueNextOperation at hr
    split at hr
    · next hl =>
      simp only [Except.ok.injEq] at hr
      subst hr
      refine ⟨st, h, ?_, rfl⟩
      by_cases hK : K = c.key
      · subst hK
        have hq := h.2.2.2.2.2.1
        rw [hl] at hq
        cases st <;> simp [Stage.queue] at hq <;> rfl
      · exact hstab hK
    · exact absurd hr (by simp)
    · next front rest hl =>
      have hobs : ∀ st₀ : Stage, st₀.holeOK = true ∨ st₀.stable = true → Trk c st₀ s →
          Trk c st₀ (observe (.issued front.id K) s) := by
        intro st₀ hs₀ h₀
        refine trk_observe c st₀ s _ h₀ ?_ (by simp) (fun _ => by simp [readCallbacks])
        rcases hs₀ with hs₀ | hs₀
        · cases st₀ <;> simp [Stage.holeOK, Stage.logKind] at hs₀ ⊢
        · exact stable_logKind st₀ hs₀
      have hkey : front.key_ = K := by
        have hm := mem_of_lookup K _ s.active_entries_map_ hl
        exact (h.2.2.2.1.2 _ hm).2 front (List.mem_cons_self _ _)
      by_cases hK : K = c.key
      · subst hK
        have hq := h.2.2.2.2.2.1
        rw [hl] at hq
        have hho := hhole rfl
        cases st with
        | wait b =>
          obtain ⟨ahead, hne, hold, hq⟩ := hq
          obtain ⟨a, ahead', ha⟩ := List.exists_cons_of_ne_nil hne
          subst ha
          simp only [List.cons_append, Option.some.injEq, List.cons.injEq] at hq
          have hid : front.id < c.write_id := by
            rw [hq.1]; exact hold a (List.mem_cons_self _ _)
          exact IssueOperation_t c _ ih (.wait b) _ s' front hid
            (hobs _ (Or.inl rfl) h) rfl (fun _ => ⟨b, rfl⟩) hr
        | wfront b =>
          simp only [Stage.queue, Option.some.injEq, List.cons.injEq] at hq
          obtain ⟨hq1, hq2⟩ := hq
          subst hq1
          have h₁ := hobs (.wfront b) (Or.inl rfl) h
          simp only [IssueOperation, Trip.writeOp] at hr
          exact WriteEntryImpl_w c _ ih b _ s' h₁ hr
        | ffront =>
          simp only [Stage.queue, Option.some.injEq, List.cons.injEq] at hq
          obtain ⟨hq1, hq2⟩ := hq
          subst hq1
          have h₁ := hobs .ffront (Or.inl rfl) h
          simp only [IssueOperation, Trip.fetchOp] at hr
          exact FetchEntryImpl_f c _ ih _ s' h₁ hr
        | written => simp [Stage.queue] at hq
        | done => simp [Stage.queue] at hq
        | _ => simp [Stage.holeOK] at hho
      · have hid : front.id < c.write_id :=
          h.2.2.2.2.1 K _ hK hl front (List.mem_cons_self _ _)
        exact IssueOperation_t c _ ih st _ s' front hid
          (hobs _ (Or.inr (hstab hK)) h) (hstab hK)
          (fun e => absurd (hkey.symm.trans e) hK) hr

/-! #### The completion of a request -/

theorem reqsOf_single (x : Nat) (r : Request) :
    reqsOf x [r] = if r.op = x then [r] else [] := by
  by_cases h : r.op = x
  · simp [reqsOf, h]
  · simp [reqsOf, h]

/-- The disk cache takes a request out of those in flight, to complete it. -/
theorem trk_erase (c : Trip) (st st' : Stage) (s : State) (i : Nat) (r : Request)
    (h : Trk c st s) (hget : s.in_flight.get? i = some r)
    (hord : (s.in_flight.take i).any (fun r' => r'.op == r.op) = false)
    (hq : ∀ q, st.queue c q → st'.queue c q) (hl : st'.level = st.level)
    (hf : st'.fetch = st.fetch) (hk : st'.logKind = st.logKind)
    (hw : st.wreqs c = reqsOf c.write_id [r] ++ st'.wreqs c)
    (hfr : st.freqs c = reqsOf (c.write_id + 1) [r] ++ st'.freqs c) :
    Trk c st' { s with in_flight := s.in_flight.eraseIdx i } := by
  obtain ⟨he1, he2⟩ := reqsOf_eraseIdx s.in_flight i r hget hord
  have t7 := h.2.2.2.2.2.2.1
  have t8 := h.2.2.2.2.2.2.2.1
  refine trk_of c st st' s _ h rfl rfl h.2.2.1 rfl hq ?_ ?_ (by rw [hl]; exact h.2.2.2.2.2.2.2.2.1)
    rfl hf (by rw [hk]; exact h.2.2.2.2.2.2.2.2.2.2.1)
    (by rw [hk]; exact fun hfr => (h.2.2.2.2.2.2.2.2.2.2.2 hfr).2)
  · show reqsOf c.write_id (s.in_flight.eraseIdx i) = st'.wreqs c
    rw [reqsOf_single] at hw
    by_cases hop : r.op = c.write_id
    · rw [if_pos hop] at hw
      rw [hop, t7, hw] at he1
      simp only [List.singleton_append, List.cons.injEq, true_and] at he1
      exact he1.symm
    · rw [if_neg hop] at hw
      rw [he2 _ (fun e => hop e.symm), t7, hw]
      rfl
  · show reqsOf (c.write_id + 1) (s.in_flight.eraseIdx i) = st'.freqs c
    rw [reqsOf_single] at hfr
    by_cases hop : r.op = c.write_id + 1
    · rw [if_pos hop] at hfr
      rw [hop, t8, hfr] at he1
      simp only [List.singleton_append, List.cons.injEq, true_and] at he1
      exact he1.symm
    · rw [if_neg hop] at hfr
      rw [he2 _ (fun e => hop e.symm), t8, hfr]
      rfl

/-- A request in flight that belongs to neither operation of the trip belongs to
an older operation; if it is a request for the key, the write waits. -/
theorem foreign_request (c : Trip) (st : Stage) (s : State) (h : Trk c st s)
    (hg : GI none s) (r : Request) (hr : r ∈ s.in_flight) (h1 : r.op ≠ c.write_id)
    (h2 : r.op ≠ c.write_id + 1) : r.op < c.write_id ∧ (r.key = c.key → ∃ b, st = .wait b) := by
  obtain ⟨front, rest, hl, hid⟩ := hg.2.2.2.1 r hr (by simp)
  by_cases hk : r.key = c.key
  · have hq := h.2.2.2.2.2.1
    rw [hk] at hl
    rw [hl] at hq
    rcases queue_own c st _ hq front (List.mem_cons_self _ _) with ⟨b, hb⟩ | hb | hb
    · subst hb
      obtain ⟨ahead, hne, hold, hq⟩ := hq
      obtain ⟨a, ahead', ha⟩ := List.exists_cons_of_ne_nil hne
      subst ha
      simp only [List.cons_append, Option.some.injEq, List.cons.injEq] at hq
      refine ⟨?_, fun _ => ⟨b, rfl⟩⟩
      rw [← hid, hq.1]
      exact hold a (List.mem_cons_self _ _)
    · exact absurd (hid.symm.trans hb) h1
    · exact absurd (hid.symm.trans hb) h2
  · refine ⟨?_, fun e => absurd e hk⟩
    rw [← hid]
    exact h.2.2.2.2.1 _ _ hk hl front (List.mem_cons_self _ _)

theorem Complete_t (c : Trip) (fuel : Nat) (st : Stage) (s s' : State) (h : Trk c st s)
    (hst : st.stable = true) (hg : GI none s) (i : Nat) (r : Request)
    (hget : s.in_flight.get? i = some r)
    (hord : (s.in_flight.take i).any (fun r' => r'.op == r.op) = false)
    (hr : Complete (IssueNextOperation fuel) r true
      { s with in_flight := s.in_flight.eraseIdx i } = .ok s') :
    ∃ st', Trk c st' s' ∧ st'.stable = true ∧ st'.fetch = st.fetch := by
  have hnext := IssueNextOperation_t c fuel
  obtain ⟨he1, he2⟩ := reqsOf_eraseIdx s.in_flight i r hget hord
  have t7 := h.2.2.2.2.2.2.1
  have t8 := h.2.2.2.2.2.2.2.1
  by_cases h1 : r.op = c.write_id
  · rw [h1, t7] at he1
    cases st <;> simp only [Stage.stable, Bool.false_eq_true] at hst <;>
      simp only [Stage.wreqs, List.cons.injEq, reduceCtorEq] at he1
    · next b =>
      obtain ⟨hrr, -⟩ := he1
      subst hrr
      exact completeOpenOrCreateEntry_w c _ hnext b _ s'
        (trk_erase c (.wopen b) (.wfront b) s i _ h hget hord (fun _ hq => hq) rfl rfl rfl
          (by simp [Stage.wreqs, reqsOf, Request.op]) (by simp [Stage.freqs, reqsOf, Request.op]))
        hr
    · next b =>
      obtain ⟨hrr, -⟩ := he1
      subst hrr
      refine ⟨.wdata b, ?_, rfl, rfl⟩
      exact completeWriteResponseTime_w c (.wdata0 b) (.wdata b) _ s'
        (trk_erase c (.wboth b) (.wdata0 b) s i _ h hget hord (fun _ hq => hq) rfl rfl rfl
          (by simp [Stage.wreqs, reqsOf, Request.op]) (by simp [Stage.freqs, reqsOf, Request.op]))
        (fun _ hq => hq) rfl rfl rfl rfl rfl hr
    · next b =>
      obtain ⟨hrr, -⟩ := he1
      subst hrr
      exact completeWriteData_w c _ hnext b _ s'
        (trk_erase c (.wdata b) (.wtimed b) s i _ h hget hord (fun _ hq => hq) rfl rfl rfl
          (by simp [Stage.wreqs, reqsOf, Request.op]) (by simp [Stage.freqs, reqsOf, Request.op]))
        hr
  · by_cases h2 : r.op = c.write_id + 1
    · rw [h2, t8] at he1
      cases st <;> simp only [Stage.stable, Bool.false_eq_true] at hst <;>
        simp only [Stage.freqs, List.cons.injEq, reduceCtorEq] at he1
      · obtain ⟨hrr, -⟩ := he1
        subst hrr
        exact completeOpenEntry_f c _ hnext _ s'
          (trk_erase c .fopen .ffront s i _ h hget hord (fun _ hq => hq) rfl rfl rfl
            (by simp [Stage.wreqs, reqsOf, Request.op])
            (by simp [Stage.freqs, reqsOf, Request.op]))
          hr
      · obtain ⟨hrr, -⟩ := he1
        subst hrr
        have h₀ := trk_erase c .fboth .fdata0 s i _ h hget hord (fun _ hq => hq) rfl rfl rfl
          (by simp [Stage.wreqs, reqsOf, Request.op])
          (by simp [Stage.freqs, reqsOf, Request.op])
        refine ⟨.fdata, ?_, rfl, rfl⟩
        exact completeReadResponseTime_f c .fdata0 .fdata _ s' h₀ h₀.2.2.2.2.2.1
          (by simp [Stage.queue]) rfl rfl rfl rfl rfl rfl hr
      · obtain ⟨hrr, -⟩ := he1
        subst hrr
        exact completeReadData_f c _ hnext _ s'
          (trk_erase c .fdata .ftimed s i _ h hget hord (fun _ hq => hq) rfl rfl rfl
            (by simp [Stage.wreqs, reqsOf, Request.op])
            (by simp [Stage.freqs, reqsOf, Request.op]))
          hr
    · have hmem : r ∈ s.in_flight := List.get?_mem hget
      obtain ⟨hx, hkw⟩ := foreign_request c st s h hg r hmem h1 h2
      have hk0 : r.key = c.key → st.level = 0 := by
        intro e
        obtain ⟨b, hb⟩ := hkw e
        rw [hb]; rfl
      have h₀ : Trk c st { s with in_flight := s.in_flight.eraseIdx i } :=
        trk_erase c st st s i r h hget hord (fun _ hq => hq) rfl rfl rfl
          (by rw [reqsOf_single, if_neg h1]; rfl) (by rw [reqsOf_single, if_neg h2]; rfl)
      cases r with
      | OpenOrCreateEntry op key =>
        exact completeOpenOrCreateEntry_t c _ hnext st _ s' op hx key true h₀ hst hk0 hr
      | WriteResponseTime op key time =>
        exact ⟨st, completeWriteResponseTime_t c st _ s' op hx key time true h₀ hk0 hr, hst, rfl⟩
      | WriteData op key data =>
        exact completeWriteData_t c _ hnext st _ s' op hx key data true h₀ hst hk0 hr
      | OpenEntry op key =>
        exact completeOpenEntry_t c _ hnext st _ s' op hx key true h₀ hst hr
      | ReadResponseTime op key =>
        exact ⟨st, completeReadResponseTime_t c st _ s' op hx key true h₀ hr, hst, rfl⟩
      | ReadData op key len =>
        exact completeReadData_t c _ hnext st _ s' op hx key len true h₀ hst hr

/-! #### The two calls -/

theorem mem_closedOn (x : Nat) (k : List Char) (log : List Obs)
    (h : Obs.closed x k ∈ log) : x ∈ closedOn log k := by
  unfold closedOn
  rw [List.mem_filterMap]
  exact ⟨_, h, by simp⟩

/-- What is closed was made before. -/
theorem closed_lt (hole : Option (List Char)) (s : State) (h : Inv hole s) (x : Nat)
    (k : List Char) (hc : Obs.closed x k ∈ s.log) : x < s.next_id := by
  refine h.2.2.2.2.2.2.1 k x ?_
  rw [h.2.2.1 k]
  exact List.mem_append_left _ (mem_closedOn x k s.log hc)

/-- What is queued was made before. -/
theorem queued_lt (hole : Option (List Char)) (s : State) (h : Inv hole s) (K : List Char)
    (q : List PendingOperation) (hl : s.active_entries_map_.lookup K = some q)
    (o : PendingOperation) (ho : o ∈ q) : o.id < s.next_id :=
  h.2.2.2.2.2.2.1 K o.id (queue_ids_mem hole s h K q hl o ho)

/-- The write operation of a trip is put into the queue of its key. -/
theorem trk_begin (c : Trip) (st' : Stage) (s s₁ : State) (q : List PendingOperation)
    (hinv : Inv none s) (hg : GI none s) (hsc : scriptOK s.script)
    (hw : c.write_id = s.next_id) (hseen : c.seen = readCallbacks c.callback s.log)
    (hfresh : c.fresh → ∀ K q, s.active_entries_map_.lookup K = some q →
      ∀ o ∈ q, o.read_callback_ ≠ some c.callback)
    (h1 : s₁.backend_state_ = s.backend_state_) (h2 : s₁.backend_ = s.backend_)
    (h3 : s₁.script = s.script) (hmok : MapOK s₁)
    (hlk : ∀ K, s₁.active_entries_map_.lookup K =
      if K = c.key then some (q ++ [c.writeOp]) else s.active_entries_map_.lookup K)
    (hq : s.active_entries_map_.lookup c.key = some q ∨
      (s.active_entries_map_.lookup c.key = none ∧ q = []))
    (hq' : st' = (if q = [] then .wfront false else .wait false))
    (hfl : s₁.in_flight = s.in_flight) (hnid : s₁.next_id = s.next_id + 1)
    (hlog : s₁.log = s.log ++ [.enqueued c.write_id c.key]) :
    Trk c st' s₁ := by
  have hold : ∀ o ∈ q, o.id < c.write_id := by
    intro o ho
    rcases hq with hq | hq
    · rw [hw]; exact queued_lt none s hinv _ _ hq o ho
    · rw [hq.2] at ho; simp at ho
  have hlev : st'.level = 0 := by rw [hq']; split <;> rfl
  have hkind : st'.logKind = 0 := by rw [hq']; split <;> rfl
  have hfe : st'.fetch = false := by rw [hq']; split <;> rfl
  have hwr : st'.wreqs c = [] := by rw [hq']; split <;> rfl
  have hfr : st'.freqs c = [] := by rw [hq']; split <;> rfl
  have hnew : ∀ x, s.next_id ≤ x → ∀ k, x ∉ enqueuedOn s.log k := by
    intro x hx k hm
    have := hinv.2.2.2.2.2.2.1 k x hm
    omega
  refine ⟨by rw [h1]; exact hg.1, by rw [h2]; exact hg.2.1, by rw [h3]; exact hsc, hmok, ?_, ?_,
    ?_, ?_, ?_, ?_, ?_, ?_⟩
  · intro K q₀ hK hl o ho
    rw [hlk K, if_neg hK] at hl
    rw [hw]
    exact queued_lt none s hinv _ _ hl o ho
  · rw [hlk c.key, if_pos rfl, hq']
    by_cases hqe : q = []
    · rw [if_pos hqe, hqe]
      simp [Stage.queue, Trip.behind]
    · rw [if_neg hqe]
      exact ⟨q, hqe, hold, by simp [Trip.behind]⟩
  · rw [hfl, hwr, hw]
    exact no_request_of_fresh s hinv hg _ (hnew _ (Nat.le_refl _))
  · rw [hfl, hfr, hw]
    exact no_request_of_fresh s hinv hg _ (hnew _ (Nat.le_succ _))
  · rw [hlev]
    exact ⟨fun h => absurd h (by omega), fun h => absurd h (by omega)⟩
  · rw [hnid, hfe, hw]; rfl
  · rw [hkind, hlog]
    refine ⟨fun _ hm => ?_, fun h => absurd h (by omega), fun h => absurd h (by omega)⟩
    rcases List.mem_append.1 hm with hm | hm
    · have := closed_lt none s hinv _ _ hm
      omega
    · simp at hm
  · intro hf
    refine ⟨?_, ?_⟩
    · intro K q₀ hl o ho _
      rw [hlk K] at hl
      by_cases hK : K = c.key
      · rw [if_pos hK] at hl
        simp only [Option.some.injEq] at hl
        subst hl
        rcases List.mem_append.1 ho with ho | ho
        · rcases hq with hq | hq
          · exact hfresh hf _ _ hq o ho
          · rw [hq.2] at ho; simp at ho
        · simp only [List.mem_singleton] at ho
          subst ho
          simp [Trip.writeOp]
      · rw [if_neg hK] at hl
        exact hfresh hf _ _ hl o ho
    · rw [hlog, readCallbacks_append, hkind, hseen]
      simp [readCallbacks]

/-- The fetch operation of a trip is put into the queue of its key. -/
theorem trk_enqueue (c : Trip) (st st' : Stage) (s s₁ : State) (q : List PendingOperation)
    (h : Trk c st s)
    (h1 : s₁.backend_state_ = s.backend_state_) (h2 : s₁.backend_ = s.backend_)
    (h3 : s₁.script = s.script) (hmok : MapOK s₁)
    (hlk : ∀ K, s₁.active_entries_map_.lookup K =
      if K = c.key then some (q ++ [c.fetchOp none none (some c.callback)])
      else s.active_entries_map_.lookup K)
    (hq : s.active_entries_map_.lookup c.key = some q ∨
      (s.active_entries_map_.lookup c.key = none ∧ q = []))
    (hq' : st'.queue c (some (q ++ [c.fetchOp none none (some c.callback)])))
    (hfl : s₁.in_flight = s.in_flight) (hstore : s₁.store = s.store)
    (hnid : s₁.next_id = s.next_id + 1)
    (hlog : s₁.log = s.log ++ [.enqueued (c.write_id + 1) c.key])
    (hf : st.fetch = false) (hf' : st'.fetch = true) (hlv : st'.level = st.level)
    (hk : st'.logKind = st.logKind) (hk1 : st.logKind ≠ 1)
    (hw : st'.wreqs c = st.wreqs c) (hfr : st'.freqs c = st.freqs c) : Trk c st' s₁ := by
  obtain ⟨t1, t2, t3, t4, t5, t6, t7, t8, t9, t10, t11, t12⟩ := h
  refine ⟨by rw [h1]; exact t1, by rw [h2]; exact t2, by rw [h3]; exact t3, hmok, ?_, ?_,
    by rw [hfl, hw]; exact t7, by rw [hfl, hfr]; exact t8, by rw [hstore, hlv]; exact t9, ?_, ?_,
    ?_⟩
  · intro K q₀ hK hl
    rw [hlk K, if_neg hK] at hl
    exact t5 K q₀ hK hl
  · rw [hlk c.key, if_pos rfl]
    exact hq'
  · rw [hnid, t10, hf, hf']; simp
  · rw [hk, hlog]
    exact logIs_observe c _ _ _ t11 hk1 (by simp)
  · intro hfresh
    refine ⟨?_, ?_⟩
    · intro K q₀ hl o ho hne
      rw [hlk K] at hl
      by_cases hK : K = c.key
      · rw [if_pos hK] at hl
        simp only [Option.some.injEq] at hl
        subst hl
        rcases List.mem_append.1 ho with ho | ho
        · rcases hq with hq | hq
          · exact (t12 hfresh).1 _ _ hq o ho hne
          · rw [hq.2] at ho; simp at ho
        · simp only [List.mem_singleton] at ho
          subst ho
          exact absurd rfl hne
      · rw [if_neg hK] at hl
        exact (t12 hfresh).1 _ _ hl o ho hne
    · rw [hlog, readCallbacks_append, (t12 hfresh).2, hk]
      simp [readCallbacks]

theorem lookup_enqueue_new (m : List (List Char × List PendingOperation)) (k K : List Char)
    (op : PendingOperation) (hl : m.lookup k = none) :
    (m ++ [(k, [op])]).lookup K = if K = k then some ([] ++ [op]) else m.lookup K := by
  rw [lookup_append_new]
  by_cases hK : K = k
  · subst hK; simp [hl]
  · simp [hK]

theorem lookup_enqueue_existing (m : List (List Char × List PendingOperation)) (k K : List Char)
    (op : PendingOperation) (q : List PendingOperation) (hl : m.lookup k = some q) :
    (setQueue m k (q ++ [op])).lookup K = if K = k then some (q ++ [op]) else m.lookup K := by
  rw [lookup_setQueue]
  by_cases hK : K = k
  · subst hK; simp [hl]
  · simp [hK]

theorem WriteEntry_t (fuel : Nat) (url origin_lock : GURL) (response_time : Int)
    (data : List Nat) (cb : Nat) (s s' : State) (hinv : Inv none s) (hg : GI none s)
    (hsc : scriptOK s.script)
    (hr : WriteEntry fuel url origin_lock response_time data s = .ok s') :
    ∃ st', Trk (tripAt s (GetCacheKey url origin_lock) response_time data cb) st' s' ∧
      st'.stable = true ∧ st'.fetch = false := by
  unfold WriteEntry at hr
  split at hr
  · next hf => rw [hg.1] at hf; exact absurd hf (by simp)
  simp only [] at hr
  split at hr
  · next hf => exact absurd hg.1 hf
  have hinv₀ := inv_next_id s hinv
  have hfr : ∀ k, s.next_id ∉ enqueuedOn s.log k := by
    intro k hk
    have := hinv.2.2.2.2.2.2.1 k _ hk
    omega
  have hpend : ∀ o ∈ s.pending_ops_, o.id ≠ s.next_id := by
    intro o ho
    have := (hinv.2.2.2.2.2.2.2.1 o ho).1
    omega
  unfold EnqueueOperationAndIssueIfNext at hr
  split at hr
  · next hl =>
    have hi := inv_enqueue_new { s with next_id := s.next_id + 1 }
      ⟨s.next_id, .kWrite, GetCacheKey url origin_lock, some response_time, some data, none,
        none⟩ hinv₀ hl hfr (Nat.lt_succ_self _) hpend
    have hn := fun h₁ => IssueNextOperation_t
      (tripAt s (GetCacheKey url origin_lock) response_time data cb) fuel _ _ s' (.wfront false)
      h₁ (fun _ => rfl) (fun e => absurd rfl e) hr
    obtain ⟨st', a, b, d⟩ := hn (by
      exact trk_begin (tripAt s (GetCacheKey url origin_lock) response_time data cb) _ s _ []
        hinv hg hsc rfl rfl (fun hf => hf) rfl rfl rfl (mapOK_of_inv _ _ hi)
        (fun K => lookup_enqueue_new _ _ K _ hl) (Or.inr ⟨hl, rfl⟩) rfl rfl rfl rfl)
    exact ⟨st', a, b, by rw [d]; rfl⟩
  · next queue hl =>
    simp only [Except.ok.injEq] at hr
    have hi := inv_enqueue_existing { s with next_id := s.next_id + 1 }
      ⟨s.next_id, .kWrite, GetCacheKey url origin_lock, some response_time, some data, none,
        none⟩ queue hinv₀ hl hfr (Nat.lt_succ_self _) hpend
    have hne : queue ≠ [] := (hinv.2.1 _ (mem_of_lookup _ _ _ hl)).1
    refine ⟨.wait false, ?_, rfl, rfl⟩
    rw [← hr]
    exact trk_begin (tripAt s (GetCacheKey url origin_lock) response_time data cb) _ s _ queue
      hinv hg hsc rfl rfl (fun hf => hf) rfl rfl rfl (mapOK_of_inv _ _ hi)
      (fun K => lookup_enqueue_existing _ _ K _ _ hl) (Or.inl hl) (by rw [if_neg hne]) rfl rfl
      rfl

theorem FetchEntry_t (c : Trip) (fuel : Nat) (url origin_lock : GURL) (st : Stage)
    (s s' : State) (hkey : GetCacheKey url origin_lock = c.key) (hinv : Inv none s)
    (h : Trk c st s) (hst : st.stable = true) (hfe : st.fetch = false)
    (hr : FetchEntry fuel url origin_lock c.callback s = .ok s') :
    ∃ st', Trk c st' s' ∧ st'.stable = true ∧ st'.fetch = true := by
  have hnid : s.next_id = c.write_id + 1 := by
    rw [h.2.2.2.2.2.2.2.2.2.1, hfe]; rfl
  unfold FetchEntry at hr
  split at hr
  · next hf => rw [h.1] at hf; exact absurd hf (by simp)
  simp only [] at hr
  split at hr
  · next hf => exact absurd h.1 hf
  rw [hkey, hnid] at hr
  have hinv₀ : Inv none { s with next_id := c.write_id + 1 + 1 } := by
    rw [← hnid]; exact inv_next_id s hinv
  have hfr : ∀ k, c.write_id + 1 ∉ enqueuedOn s.log k := by
    intro k hk
    have := hinv.2.2.2.2.2.2.1 k _ hk
    omega
  have hpend : ∀ o ∈ s.pending_ops_, o.id ≠ c.write_id + 1 := by
    intro o ho
    have := (hinv.2.2.2.2.2.2.2.1 o ho).1
    omega
  have hq := h.2.2.2.2.2.1
  unfold EnqueueOperationAndIssueIfNext at hr
  split at hr
  · next hl =>
    have hl' : s.active_entries_map_.lookup c.key = none := hl
    have hi := inv_enqueue_new { s with next_id := c.write_id + 1 + 1 }
      (c.fetchOp none none (some c.callback)) hinv₀ hl hfr
      (Nat.lt_succ_self _) hpend
    rw [hl'] at hq
    have hw : st = .written := by
      rcases queue_none c st hq with e | e
      · exact e
      · rw [e] at hfe; exact absurd hfe (by simp [Stage.fetch])
    subst hw
    have hn := fun h₁ => IssueNextOperation_t c fuel _ _ s' .ffront
      h₁ (fun _ => rfl) (fun e => absurd rfl e) hr
    exact hn (by
      exact trk_enqueue c .written .ffront s _ [] h rfl rfl rfl (mapOK_of_inv _ _ hi)
        (fun K => lookup_enqueue_new _ _ K _ hl') (Or.inr ⟨hl', rfl⟩)
        (by simp [Stage.queue]) rfl rfl (congrArg (· + 1) hnid.symm) rfl rfl rfl rfl rfl
        (by simp [Stage.logKind]) rfl rfl)
  · next queue hl =>
    have hl' : s.active_entries_map_.lookup c.key = some queue := hl
    simp only [Except.ok.injEq] at hr
    have hi := inv_enqueue_existing { s with next_id := c.write_id + 1 + 1 }
      (c.fetchOp none none (some c.callback)) queue hinv₀ hl hfr
      (Nat.lt_succ_self _) hpend
    rw [hl'] at hq
    have key : ∀ st' : Stage, st'.queue c (some (queue ++ [c.fetchOp none none (some c.callback)])) →
        st'.fetch = true → st'.level = st.level → st'.logKind = st.logKind →
        st'.wreqs c = st.wreqs c → st'.freqs c = st.freqs c → Trk c st' s' := by
      intro st' a1 a2 a3 a4 a5 a6
      rw [← hr]
      exact trk_enqueue c st st' s _ queue h rfl rfl rfl (mapOK_of_inv _ _ hi)
        (fun K => lookup_enqueue_existing _ _ K _ _ hl') (Or.inl hl') a1 rfl rfl (congrArg (· + 1) hnid.symm) rfl hfe a2 a3
        a4 (stable_logKind st hst) a5 a6
    cases st <;> simp only [Stage.stable, Bool.false_eq_true] at hst <;>
      simp only [Stage.fetch, Bool.true_eq_false] at hfe
    · subst hfe
      obtain ⟨ahead, hne, hold, hq⟩ := hq
      simp only [Option.some.injEq] at hq
      refine ⟨.wait true, key _ ⟨ahead, hne, hold, ?_⟩ rfl rfl rfl rfl rfl, rfl, rfl⟩
      rw [hq]
      simp [Trip.behind]
    · subst hfe
      simp only [Stage.queue, Option.some.injEq] at hq
      refine ⟨.wopen true, key _ ?_ rfl rfl rfl rfl rfl, rfl, rfl⟩
      rw [hq]
      simp [Stage.queue, Trip.behind]
    · subst hfe
      simp only [Stage.queue, Option.some.injEq] at hq
      refine ⟨.wboth true, key _ ?_ rfl rfl rfl rfl rfl, rfl, rfl⟩
      rw [hq]
      simp [Stage.queue, Trip.behind]
    · subst hfe
      simp only [Stage.queue, Option.some.injEq] at hq
      refine ⟨.wdata true, key _ ?_ rfl rfl rfl rfl rfl, rfl, rfl⟩
      rw [hq]
      simp [Stage.queue, Trip.behind]
    · simp [Stage.queue] at hq

/-! #### Runs of events: the stages of the trip -/

theorem step_complete_t (c : Trip) (b : Bool) (s s' : State) (fuel : Nat)
    (script : List Decision) (i : Nat) (h : OnTrip c b s) (hsc : scriptOK script)
    (hr : step fuel script (.Complete i true) s = .ok s') : OnTrip c b s' := by
  obtain ⟨hreach, st, htrk, hst, hfe⟩ := h
  refine ⟨Reachable.step fuel script _ hreach hr, ?_⟩
  have hg := reachable_gi s hreach htrk.1
  simp only [step] at hr
  split at hr
  · exact absurd hr (by simp)
  · next r hget =>
    split at hr
    · exact absurd hr (by simp)
    · next hord =>
      obtain ⟨st', a, b', d⟩ := Complete_t c fuel st { s with script := script } s'
        (trk_script c st s script htrk hsc) hst (gi_frame none s _ rfl rfl rfl rfl rfl hg) i r
        hget (by simpa using hord) hr
      exact ⟨st', a, b', by rw [d, hfe]⟩

theorem run_completions_t (c : Trip) (b : Bool) :
    ∀ (evs : List (Nat × List Decision × Event)) (s s' : State),
      (∀ e ∈ evs, scriptOK e.2.1 ∧ ∃ i, e.2.2 = .Complete i true) → OnTrip c b s →
        runEvents evs s = .ok s' → OnTrip c b s'
  | [], s, s', _, h, hr => by
    simp only [runEvents, Except.ok.injEq] at hr
    subst hr; exact h
  | (fuel, script, e) :: rest, s, s', hev, h, hr => by
    simp only [runEvents] at hr
    split at hr
    · next s₁ hs₁ =>
      obtain ⟨hsc, i, hi⟩ := hev _ (List.mem_cons_self _ _)
      simp only [] at hsc hi
      subst hi
      exact run_completions_t c b rest s₁ s'
        (fun e he => hev e (List.mem_cons_of_mem _ he))
        (step_complete_t c b s s₁ fuel script i h hsc hs₁) hr
    · exact absurd hr (by simp)

theorem step_write_t (s s' : State) (fuel : Nat) (script : List Decision)
    (url origin_lock : GURL) (response_time : Int) (data : List Nat) (cb : Nat)
    (hreach : Reachable s) (hinit : s.backend_state_ = .kInitialized) (hsc : scriptOK script)
    (hr : step fuel script (.WriteEntry url origin_lock response_time data) s = .ok s') :
    OnTrip (tripAt s (GetCacheKey url origin_lock) response_time data cb) false s' := by
  refine ⟨Reachable.step fuel script _ hreach hr, ?_⟩
  have hg := reachable_gi s hreach hinit
  have hinv := reachable_inv s hreach
  exact WriteEntry_t fuel url origin_lock response_time data cb { s with script := script } s'
    (inv_frame none s _ rfl rfl rfl rfl rfl hinv) (gi_frame none s _ rfl rfl rfl rfl rfl hg) hsc
    hr

theorem step_fetch_t (c : Trip) (s s' : State) (fuel : Nat) (script : List Decision)
    (url origin_lock : GURL) (hkey : GetCacheKey url origin_lock = c.key)
    (h : OnTrip c false s) (hsc : scriptOK script)
    (hr : step fuel script (.FetchEntry url origin_lock c.callback) s = .ok s') :
    OnTrip c true s' := by
  obtain ⟨hreach, st, htrk, hst, hfe⟩ := h
  refine ⟨Reachable.step fuel script _ hreach hr, ?_⟩
  have hinv := reachable_inv s hreach
  exact FetchEntry_t c fuel url origin_lock st { s with script := script } s' hkey
    (inv_frame none s _ rfl rfl rfl rfl rfl hinv) (trk_script c st s script htrk hsc) hst hfe hr

theorem runEvents_append (xs ys : List (Nat × List Decision × Event)) (s : State) :
    runEvents (xs ++ ys) s = (runEvents xs s >>= runEvents ys) := by
  induction xs generalizing s with
  | nil => rfl
  | cons x xs ih =>
    obtain ⟨fuel, script, e⟩ := x
    simp only [List.cons_append, runEvents]
    cases step fuel script e s with
    | ok s₁ => exact ih s₁
    | error f => rfl

theorem completions_events (xs : List (Nat × List Decision × Nat))
    (h : ∀ x ∈ xs, scriptOK x.2.1) :
    ∀ e ∈ completions xs, scriptOK e.2.1 ∧ ∃ i, e.2.2 = .Complete i true := by
  intro e he
  unfold completions at he
  rw [List.mem_map] at he
  obtain ⟨x, hx, rfl⟩ := he
  exact ⟨h x hx, x.2.2, rfl⟩

theorem drain_events (fuel n : Nat) :
    ∀ e ∈ drain fuel n, scriptOK e.2.1 ∧ ∃ i, e.2.2 = .Complete i true := by
  intro e he
  unfold drain at he
  rw [List.eq_of_mem_replicate he]
  exact ⟨by simp [scriptOK], 0, rfl⟩

/-- The trip of a run of `roundTrip`: the cache ends in a stage of it. -/
theorem roundTrip_t (s s' : State) (url origin_lock : GURL) (response_time : Int)
    (data : List Nat) (cb : Nat) (w f : Nat × List Decision)
    (before after : List (Nat × List Decision × Nat))
    (hreach : Reachable s) (hinit : s.backend_state_ = .kInitialized)
    (hw : scriptOK w.2) (hf : scriptOK f.2)
    (hb : ∀ x ∈ before, scriptOK x.2.1) (ha : ∀ x ∈ after, scriptOK x.2.1)
    (hr : runEvents (roundTrip url origin_lock response_time data cb w f before after) s =
      .ok s') :
    OnTrip (tripAt s (GetCacheKey url origin_lock) response_time data cb) true s' := by
  unfold roundTrip at hr
  simp only [runEvents] at hr
  split at hr
  · next s₁ hs₁ =>
    have h₁ := step_write_t s s₁ _ _ url origin_lock response_time data cb hreach hinit hw hs₁
    rw [runEvents_append, bind_eq_ok] at hr
    obtain ⟨s₂, hs₂, hr⟩ := hr
    have h₂ := run_completions_t _ false _ s₁ s₂ (completions_events before hb) h₁ hs₂
    simp only [runEvents] at hr
    split at hr
    · next s₃ hs₃ =>
      have h₃ := step_fetch_t (tripAt s (GetCacheKey url origin_lock) response_time data cb)
        s₂ s₃ _ _ url origin_lock rfl h₂ hf hs₃
      exact run_completions_t _ true _ s₃ s' (completions_events after ha) h₃ hr
    · exact absurd hr (by simp)
  · exact absurd hr (by simp)

/-- What a stage between two events, after `FetchEntry`, says of the log. -/
theorem onTrip_final (c : Trip) (s : State) (h : OnTrip c true s) :
    (c.fresh → readCallbacks c.callback s.log =
      c.seen ++ (if Obs.closed (c.write_id + 1) c.key ∈ s.log then [(c.response_time, c.data)]
        else [])) ∧
    (Obs.closed (c.write_id + 1) c.key ∈ s.log → ∃ pre post, s.log =
      pre ++ [.read_callback c.callback c.response_time c.data,
        .closed (c.write_id + 1) c.key] ++ post) ∧
    (s.in_flight = [] → Obs.closed (c.write_id + 1) c.key ∈ s.log) := by
  obtain ⟨hreach, st, htrk, hst, hfe⟩ := h
  have hlog := htrk.2.2.2.2.2.2.2.2.2.2.1
  have hcnt := htrk.2.2.2.2.2.2.2.2.2.2.2
  have hkind : st.logKind = 0 ∨ st.logKind = 2 := by
    cases st <;> simp [Stage.stable, Stage.logKind] at hst ⊢
  have hmem2 : st.logKind = 2 → Obs.closed (c.write_id + 1) c.key ∈ s.log := by
    intro h2
    obtain ⟨pre, post, hp⟩ := hlog.2.2 h2
    rw [hp]
    simp
  refine ⟨?_, ?_, ?_⟩
  · intro hf
    rw [(hcnt hf).2]
    rcases hkind with h0 | h2
    · rw [if_pos h0, if_neg (hlog.1 (by omega))]
    · rw [if_neg (by omega), if_pos (hmem2 h2)]
  · intro hm
    rcases hkind with h0 | h2
    · exact absurd hm (hlog.1 (by omega))
    · exact hlog.2.2 h2
  · intro hfl
    apply hmem2
    have hg := reachable_gi s hreach htrk.1
    have hq := htrk.2.2.2.2.2.1
    cases hl : s.active_entries_map_.lookup c.key with
    | none =>
      rw [hl] at hq
      rcases queue_none c st hq with e | e
      · rw [e] at hfe; exact absurd hfe (by simp [Stage.fetch])
      · rw [e]; rfl
    | some q =>
      obtain ⟨front, rest, _, hfront, _⟩ := hg.2.2.1 _ _ hl
      have := frontOK_ne_nil _ _ (hfront (by simp))
      rw [hfl] at this
      exact absurd rfl this

/-! #### Runs of events: faults and fuel -/

theorem queued_le_load (s : State) : queued s ≤ load s := by
  unfold load
  omega

theorem res_run_append (E : Fault → Prop) (P Q : State → Prop)
    (xs ys : List (Nat × List Decision × Event)) (s : State)
    (hx : Res E P (runEvents xs s)) (hy : ∀ s₁, P s₁ → Res E Q (runEvents ys s₁)) :
    Res E Q (runEvents (xs ++ ys) s) := by
  rw [runEvents_append]
  exact res_bind hx hy

theorem res_run_cons (E : Fault → Prop) (P Q : State → Prop)
    (x : Nat × List Decision × Event) (ys : List (Nat × List Decision × Event)) (s : State)
    (hx : Res E P (step x.1 x.2.1 x.2.2 s)) (hy : ∀ s₁, P s₁ → Res E Q (runEvents ys s₁)) :
    Res E Q (runEvents (x :: ys) s) := by
  obtain ⟨fuel, script, e⟩ := x
  simp only [runEvents]
  simp only [] at hx
  cases hs : step fuel script e s with
  | ok s₁ =>
    rw [hs] at hx
    exact hy s₁ hx
  | error f =>
    rw [hs] at hx
    exact hx

/-- One completion: it ends with the invariants and less to do, or stops at a
completion the disk cache cannot make, or, with less fuel than operations
queued, out of fuel. -/
theorem step_complete_r (E : Fault → Prop) (hnif : E .not_in_flight)
    (hcoo : E .completion_out_of_order) (s : State) (hinv : Inv none s) (hg : GI none s)
    (fuel : Nat) (script : List Decision) (i : Nat) (ok : Bool)
    (hn : queued s ≤ fuel ∨ E .out_of_fuel) :
    Res E (fun s' => Inv none s' ∧ GI none s' ∧ load s' < load s)
      (step fuel script (.Complete i ok) s) := by
  simp only [step]
  split
  · exact hnif
  · next r hget =>
    split
    · exact hcoo
    · next hord =>
      exact Complete_r E fuel { s with script := script }
        (inv_frame none s _ rfl rfl rfl rfl rfl hinv) (gi_frame none s _ rfl rfl rfl rfl rfl hg)
        i r hget (by simpa using hord) ok hn

theorem run_completions_r (P : Prop) (B : Nat) :
    ∀ (xs : List (Nat × List Decision × Nat)) (s : State),
      (∀ x ∈ xs, x.1 + 2 < B → P) → Inv none s → GI none s → load s ≤ B →
        Res (RunFault P) (fun s' => Inv none s' ∧ GI none s' ∧ load s' ≤ B)
          (runEvents (completions xs) s)
  | [], s, _, hinv, hg, hl => ⟨hinv, hg, hl⟩
  | x :: xs, s, hx, hinv, hg, hl => by
    have hstep := step_complete_r (RunFault P) (Or.inl rfl) (Or.inr (Or.inl rfl)) s hinv hg
      (x.1 + 2) x.2.1 x.2.2 true (by
        by_cases hb : x.1 + 2 < B
        · exact Or.inr (Or.inr (Or.inr ⟨rfl, hx x (List.mem_cons_self _ _) hb⟩))
        · have := queued_le_load s
          left; omega)
    show Res (RunFault P) _ (runEvents ((x.1 + 2, x.2.1, Event.Complete x.2.2 true) ::
      completions xs) s)
    refine res_run_cons _ _ _ (x.1 + 2, x.2.1, Event.Complete x.2.2 true) _ s hstep ?_
    intro s₁ h₁
    exact run_completions_r P B xs s₁ (fun y hy => hx y (List.mem_cons_of_mem _ hy)) h₁.1 h₁.2.1
      (by omega)

theorem step_write_r (E : Fault → Prop) (s : State) (hinv : Inv none s) (hg : GI none s)
    (fuel : Nat) (script : List Decision) (url origin_lock : GURL) (response_time : Int)
    (data : List Nat) :
    Res E (fun s' => Inv none s' ∧ GI none s' ∧ load s' ≤ load s + 13)
      (step (fuel + 2) script (.WriteEntry url origin_lock response_time data) s) :=
  WriteEntry_r E (fuel + 2) url origin_lock response_time data { s with script := script }
    (inv_frame none s _ rfl rfl rfl rfl rfl hinv) (gi_frame none s _ rfl rfl rfl rfl rfl hg)
    (Or.inl (by omega))

theorem step_fetch_r (E : Fault → Prop) (s : State) (hinv : Inv none s) (hg : GI none s)
    (fuel : Nat) (script : List Decision) (url origin_lock : GURL) (cb : Nat) :
    Res E (fun s' => Inv none s' ∧ GI none s' ∧ load s' ≤ load s + 13)
      (step (fuel + 2) script (.FetchEntry url origin_lock cb) s) :=
  FetchEntry_r E (fuel + 2) url origin_lock cb { s with script := script }
    (inv_frame none s _ rfl rfl rfl rfl rfl hinv) (gi_frame none s _ rfl rfl rfl rfl rfl hg)
    (Or.inl (by omega))

/-- A run of `roundTrip` ends, or stops at a completion the disk cache cannot
make, or at a completion that was given too little fuel. -/
theorem roundTrip_r (s : State) (url origin_lock : GURL) (response_time : Int)
    (data : List Nat) (cb : Nat) (w f : Nat × List Decision)
    (before after : List (Nat × List Decision × Nat))
    (hinv : Inv none s) (hg : GI none s) :
    Res (RunFault (∃ x ∈ before ++ after, x.1 + 2 < load s + 26))
      (fun s' => Inv none s' ∧ GI none s' ∧ load s' ≤ load s + 26)
      (runEvents (roundTrip url origin_lock response_time data cb w f before after) s) := by
  unfold roundTrip
  refine res_run_cons _ _ _ (w.1 + 2, w.2, Event.WriteEntry url origin_lock response_time data)
    _ s (step_write_r _ s hinv hg w.1 w.2 url origin_lock response_time data) ?_
  intro s₁ h₁
  refine res_run_append _ _ _ _ _ s₁
    (run_completions_r _ (load s + 13) before s₁ ?_ h₁.1 h₁.2.1 h₁.2.2) ?_
  · intro x hx hlt
    exact ⟨x, List.mem_append_left _ hx, by omega⟩
  · intro s₂ h₂
    refine res_run_cons _ _ _ (f.1 + 2, f.2, Event.FetchEntry url origin_lock cb) _ s₂
      (step_fetch_r _ s₂ h₂.1 h₂.2.1 f.1 f.2 url origin_lock cb) ?_
    intro s₃ h₃
    refine run_completions_r _ (load s + 26) after s₃ ?_ h₃.1 h₃.2.1 (by omega)
    intro x hx hlt
    exact ⟨x, List.mem_append_right _ hx, hlt⟩

/-- The two calls by themselves end. -/
theorem calls_r (s : State) (url origin_lock : GURL) (response_time : Int)
    (data : List Nat) (cb : Nat) (w f : Nat × List Decision)
    (hinv : Inv none s) (hg : GI none s) :
    ∃ s', runEvents (roundTrip url origin_lock response_time data cb w f [] []) s = .ok s' := by
  have h : Res (fun _ => False) (fun _ => True)
      (runEvents (roundTrip url origin_lock response_time data cb w f [] []) s) := by
    unfold roundTrip
    refine res_run_cons _ _ _ (w.1 + 2, w.2, Event.WriteEntry url origin_lock response_time data)
      _ s (step_write_r _ s hinv hg w.1 w.2 url origin_lock response_time data) ?_
    intro s₁ h₁
    refine res_run_cons _ _ _ (f.1 + 2, f.2, Event.FetchEntry url origin_lock cb) _ s₁
      (step_fetch_r _ s₁ h₁.1 h₁.2.1 f.1 f.2 url origin_lock cb) ?_
    intro s₂ _
    trivial
  cases hr : runEvents (roundTrip url origin_lock response_time data cb w f [] []) s with
  | ok s' => exact ⟨s', rfl⟩
  | error e => rw [hr] at h; exact absurd h (fun x => x)

/-- Completing the oldest request in flight again and again, with enough fuel,
leaves no request in flight. -/
theorem drain_r (fuel : Nat) : ∀ (n : Nat) (s : State), Inv none s → GI none s → load s ≤ n →
    load s ≤ fuel → ∃ m s', runEvents (drain fuel m) s = .ok s' ∧ s'.in_flight = [] := by
  intro n
  induction n with
  | zero =>
    intro s hinv hg hn hfuel
    cases hfl : s.in_flight with
    | nil => exact ⟨0, s, rfl, hfl⟩
    | cons r rest =>
      have hw := weight_pos r
      simp only [load, hfl, List.map_cons, List.sum_cons] at hn
      omega
  | succ n ih =>
    intro s hinv hg hn hfuel
    cases hfl : s.in_flight with
    | nil => exact ⟨0, s, rfl, hfl⟩
    | cons r rest =>
      have hc := Complete_r (fun _ => False) fuel { s with script := [] }
        (inv_frame none s _ rfl rfl rfl rfl rfl hinv) (gi_frame none s _ rfl rfl rfl rfl rfl hg)
        0 r (by show s.in_flight.get? 0 = some r; rw [hfl]; rfl) (by simp) true
        (Or.inl (Nat.le_trans (queued_le_load s) hfuel))
      have hstep : step fuel [] (.Complete 0 true) s =
          Complete (IssueNextOperation fuel) r true
            { ({ s with script := [] } : State) with
              in_flight := ({ s with script := [] } : State).in_flight.eraseIdx 0 } := by
        simp only [step, hfl, List.get?_cons_zero, List.take_zero, List.any_nil,
          Bool.false_eq_true, if_false]
      rw [← hstep] at hc
      cases hs : step fuel [] (.Complete 0 true) s with
      | error e => rw [hs] at hc; exact absurd hc (fun x => x)
      | ok s₁ =>
        rw [hs] at hc
        obtain ⟨h1, h2, h3⟩ := hc
        have h3' : load s₁ < load s := h3
        obtain ⟨m, s', hr, hdone⟩ := ih s₁ h1 h2 (by omega) (by omega)
        refine ⟨m + 1, s', ?_, hdone⟩
        show runEvents ((fuel, [], Event.Complete 0 true) :: drain fuel m) s = .ok s'
        simp only [runEvents, hs]
        exact hr

/-- C2: write then fetch round trip.  In every reachable state of an initialised
cache, whatever is queued or in flight, over a disk cache that stores what is
written and completes every request with success (at once or later),
`WriteEntry(url, origin_lock, response_time, data)` followed by
`FetchEntry(url, origin_lock, cb)` runs `cb` with exactly
`(response_time, data)`.  The two calls by themselves end without a fault.  With
any completions between the two calls and after them, the run stops only at a
completion the disk cache cannot make, or at one that was given less fuel than
the work at hand asks for.  Otherwise: the fetch operation, which is the one made
after the write operation, is closed only right after `cb` was run with
`(response_time, data)`; it is closed once no request is in flight; completing
the oldest request in flight again and again gets there; and if no operation
queued at the time of the write holds a callback of the name `cb`, then `cb` has
been run exactly once more than before when the fetch is closed, with
`(response_time, data)`, and not at all before that. -/
theorem write_then_fetch_round_trip (s : State) (url origin_lock : GURL) (response_time : Int)
    (data : List Nat) (cb : Nat) (w f : Nat × List Decision)
    (before after : List (Nat × List Decision × Nat))
    (hreach : Reachable s) (hinit : s.backend_state_ = .kInitialized)
    (hw : scriptOK w.2) (hf : scriptOK f.2)
    (hb : ∀ x ∈ before, scriptOK x.2.1) (ha : ∀ x ∈ after, scriptOK x.2.1) :
    (∃ s', runEvents (roundTrip url origin_lock response_time data cb w f [] []) s = .ok s') ∧
    (∀ fault,
      runEvents (roundTrip url origin_lock response_time data cb w f before after) s =
          .error fault →
        fault = .not_in_flight ∨ fault = .completion_out_of_order ∨
          (fault = .out_of_fuel ∧ ∃ x ∈ before ++ after, x.1 + 2 < load s + 26)) ∧
    (∀ s', runEvents (roundTrip url origin_lock response_time data cb w f before after) s =
        .ok s' →
      (Obs.closed (s.next_id + 1) (GetCacheKey url origin_lock) ∈ s'.log →
        ∃ pre post, s'.log = pre ++ [.read_callback cb response_time data,
          .closed (s.next_id + 1) (GetCacheKey url origin_lock)] ++ post) ∧
      (s'.in_flight = [] →
        Obs.closed (s.next_id + 1) (GetCacheKey url origin_lock) ∈ s'.log) ∧
      ((∀ K q, s.active_entries_map_.lookup K = some q →
          ∀ o ∈ q, o.read_callback_ ≠ some cb) →
        readCallbacks cb s'.log = readCallbacks cb s.log ++
          (if Obs.closed (s.next_id + 1) (GetCacheKey url origin_lock) ∈ s'.log then
            [(response_time, data)] else [])) ∧
      ∃ n s'', runEvents (drain (load s' + 1) n) s' = .ok s'' ∧ s''.in_flight = [] ∧
        (∃ pre post, s''.log = pre ++ [.read_callback cb response_time data,
          .closed (s.next_id + 1) (GetCacheKey url origin_lock)] ++ post) ∧
        ((∀ K q, s.active_entries_map_.lookup K = some q →
            ∀ o ∈ q, o.read_callback_ ≠ some cb) →
          readCallbacks cb s''.log = readCallbacks cb s.log ++ [(response_time, data)])) := by
  have hinv := reachable_inv s hreach
  have hg := reachable_gi s hreach hinit
  refine ⟨calls_r s url origin_lock response_time data cb w f hinv hg, ?_, ?_⟩
  · intro fault hfault
    have h := roundTrip_r s url origin_lock response_time data cb w f before after hinv hg
    rw [hfault] at h
    exact h
  · intro s' hs'
    have ht := roundTrip_t s s' url origin_lock response_time data cb w f before after hreach
      hinit hw hf hb ha hs'
    obtain ⟨a1, a2, a3⟩ := onTrip_final _ s' ht
    refine ⟨a2, a3, a1, ?_⟩
    have hinv' := reachable_inv s' ht.1
    have hg' := reachable_gi s' ht.1 ht.2.choose_spec.1.1
    obtain ⟨n, s'', hrun, hdone⟩ := drain_r (load s' + 1) (load s') s' hinv' hg' (Nat.le_refl _)
      (Nat.le_succ _)
    have ht'' := run_completions_t _ true _ s' s'' (drain_events (load s' + 1) n) ht hrun
    obtain ⟨b1, b2, b3⟩ := onTrip_final _ s'' ht''
    refine ⟨n, s'', hrun, hdone, b2 (b3 hdone), ?_⟩
    intro hfresh
    have := b1 hfresh
    rw [if_pos (b3 hdone)] at this
    exact this

theorem write_then_fetch_round_trip_witness :
    Reachable exampleBusy ∧ exampleBusy.backend_state_ = .kInitialized ∧
    (∃ s', runEvents (roundTrip exampleUrl exampleLock 8 [3] 5 (0, []) (0, [.done true])
      [] []) exampleBusy = .ok s') ∧
    (∀ fault,
      runEvents (roundTrip exampleUrl exampleLock 8 [3] 5 (0, []) (0, [.done true])
          [(0, [.done true, .pending], 0)] [(0, [], 0)]) exampleBusy = .error fault →
        fault = .not_in_flight ∨ fault = .completion_out_of_order ∨
          (fault = .out_of_fuel ∧
            ∃ x ∈ [(0, [Decision.done true, Decision.pending], 0)] ++ [(0, [], 0)],
              x.1 + 2 < load exampleBusy + 26)) ∧
    (∀ s', runEvents (roundTrip exampleUrl exampleLock 8 [3] 5 (0, []) (0, [.done true])
        [(0, [.done true, .pending], 0)] [(0, [], 0)]) exampleBusy = .ok s' →
      (Obs.closed (exampleBusy.next_id + 1) (GetCacheKey exampleUrl exampleLock) ∈ s'.log →
        ∃ pre post, s'.log = pre ++ [.read_callback 5 8 [3],
          .closed (exampleBusy.next_id + 1) (GetCacheKey exampleUrl exampleLock)] ++ post) ∧
      (s'.in_flight = [] →
        Obs.closed (exampleBusy.next_id + 1) (GetCacheKey exampleUrl exampleLock) ∈ s'.log) ∧
      ((∀ K q, exampleBusy.active_entries_map_.lookup K = some q →
          ∀ o ∈ q, o.read_callback_ ≠ some 5) →
        readCallbacks 5 s'.log = readCallbacks 5 exampleBusy.log ++
          (if Obs.closed (exampleBusy.next_id + 1) (GetCacheKey exampleUrl exampleLock) ∈ s'.log
            then [(8, [3])] else [])) ∧
      ∃ n s'', runEvents (drain (load s' + 1) n) s' = .ok s'' ∧ s''.in_flight = [] ∧
        (∃ pre post, s''.log = pre ++ [.read_callback 5 8 [3],
          .closed (exampleBusy.next_id + 1) (GetCacheKey exampleUrl exampleLock)] ++ post) ∧
        ((∀ K q, exampleBusy.active_entries_map_.lookup K = some q →
            ∀ o ∈ q, o.read_callback_ ≠ some 5) →
          readCallbacks 5 s''.log = readCallbacks 5 exampleBusy.log ++ [(8, [3])])) :=
  have hreach : Reachable exampleBusy :=
    reachable_of_run
      [(2, [], .DidCreateBackend 0), (2, [], .WriteEntry exampleUrl exampleLock 7 [1, 2]),
        (2, [], .FetchEntry exampleUrl exampleLock 9)]
      (initial []) exampleBusy (Reachable.initial []) (by decide)
  ⟨hreach, rfl,
    write_then_fetch_round_trip exampleBusy exampleUrl exampleLock 8 [3] 5 (0, [])
      (0, [.done true]) [(0, [.done true, .pending], 0)] [(0, [], 0)] hreach rfl
      (by simp [scriptOK]) (by simp [scriptOK]) (by simp [scriptOK]) (by simp [scriptOK])⟩

end GeneratedCodeCache
namespace DomStorage

/-! ### An invalidated database -/

/-- C7: on a database whose `db_` is null, each of `Get`, `Put`, `Delete`,
`GetPrefixed`, `DeletePrefixed`, `CopyPrefixed`, `Commit` and `RewriteDB` returns
the IOError status with message "DomStorageDatabase no longer valid." and
leaves its output argument and the database as they were. -/
theorem invalidated_database_fails (self : DomStorageDatabase) (h : self.db_ = none)
    (key value pre new_pre out_value : List Nat) (entries : List KeyValuePair)
    (batch : List BatchOp) (rewritten : DB → Status × Option DB) :
    self.Get key out_value =
        (.IOError "DomStorageDatabase no longer valid.".toList, out_value) ∧
      self.Put key value = (.IOError "DomStorageDatabase no longer valid.".toList, self) ∧
      self.Delete key = (.IOError "DomStorageDatabase no longer valid.".toList, self) ∧
      self.GetPrefixed pre entries =
        (.IOError "DomStorageDatabase no longer valid.".toList, entries, self) ∧
      self.DeletePrefixed pre batch =
        (.IOError "DomStorageDatabase no longer valid.".toList, batch, self) ∧
      self.CopyPrefixed pre new_pre batch =
        (.IOError "DomStorageDatabase no longer valid.".toList, batch, self) ∧
      self.Commit batch = (.IOError "DomStorageDatabase no longer valid.".toList, batch, self) ∧
      self.RewriteDB rewritten = (.IOError "DomStorageDatabase no longer valid.".toList, self) := by
  cases self with
  | mk db_ =>
    cases h
    exact ⟨rfl, rfl, rfl, rfl, rfl, rfl, rfl, rfl⟩

theorem invalidated_database_fails_witness :
    (DomStorageDatabase.mk none).db_ = none ∧
      ((DomStorageDatabase.mk none).Get [1] [9] =
          (.IOError "DomStorageDatabase no longer valid.".toList, [9]) ∧
        (DomStorageDatabase.mk none).Put [1] [2] =
          (.IOError "DomStorageDatabase no longer valid.".toList, ⟨none⟩) ∧
        (DomStorageDatabase.mk none).Delete [1] =
          (.IOError "DomStorageDatabase no longer valid.".toList, ⟨none⟩) ∧
        (DomStorageDatabase.mk none).GetPrefixed [3] [⟨[4], [5]⟩] =
          (.IOError "DomStorageDatabase no longer valid.".toList, [⟨[4], [5]⟩], ⟨none⟩) ∧
        (DomStorageDatabase.mk none).DeletePrefixed [3] [.Delete [6]] =
          (.IOError "DomStorageDatabase no longer valid.".toList, [.Delete [6]], ⟨none⟩) ∧
        (DomStorageDatabase.mk none).CopyPrefixed [3] [7] [.Delete [6]] =
          (.IOError "DomStorageDatabase no longer valid.".toList, [.Delete [6]], ⟨none⟩) ∧
        (DomStorageDatabase.mk none).Commit [.Delete [6]] =
          (.IOError "DomStorageDatabase no longer valid.".toList, [.Delete [6]], ⟨none⟩) ∧
        (DomStorageDatabase.mk none).RewriteDB (fun db => (.OK, some db)) =
          (.IOError "DomStorageDatabase no longer valid.".toList, ⟨none⟩)) :=
  ⟨rfl, invalidated_database_fails ⟨none⟩ rfl [1] [2] [3] [7] [9] [⟨[4], [5]⟩] [.Delete [6]]
    (fun db => (.OK, some db))⟩

end DomStorage
namespace DomStorage

/-! ### Prefix scans -/

theorem bytewiseLt_irrefl : ∀ a : List Nat, bytewiseLt a a = false
  | [] => rfl
  | x :: a => by simp [bytewiseLt, bytewiseLt_irrefl a]

theorem bytewiseLt_trans : ∀ a b c : List Nat,
    bytewiseLt a b = true → bytewiseLt b c = true → bytewiseLt a c = true
  | [], [], _, h, _ => by simp [bytewiseLt] at h
  | [], _ :: _, [], _, h => by simp [bytewiseLt] at h
  | [], _ :: _, _ :: _, _, _ => by simp [bytewiseLt]
  | _ :: _, [], _, h, _ => by simp [bytewiseLt] at h
  | _ :: _, _ :: _, [], _, h => by simp [bytewiseLt] at h
  | x :: a, y :: b, z :: c, h1, h2 => by
    simp only [bytewiseLt] at h1 h2 ⊢
    have ih := bytewiseLt_trans a b c
    split_ifs at h1 h2 ⊢ <;> first | rfl | omega | (exact ih h1 h2)

/-- A key below the prefix does not start with it. -/
theorem not_starts_with_of_lt : ∀ key pre : List Nat,
    bytewiseLt key pre = true → starts_with key pre = false
  | [], [], h => by simp [bytewiseLt] at h
  | [], _ :: _, _ => by simp [starts_with, List.isPrefixOf]
  | _ :: _, [], h => by simp [bytewiseLt] at h
  | x :: key, y :: pre, h => by
    simp only [bytewiseLt] at h
    have ih := not_starts_with_of_lt key pre
    simp only [starts_with, List.isPrefixOf] at ih ⊢
    split_ifs at h with h1 h2
    · simp; intro h3; omega
    · have : y = x := by omega
      subst this
      simp [ih h]

/-- The keys that start with a prefix form an interval: a key that is not below
the prefix and lies below a key starting with the prefix starts with it too. -/
theorem starts_with_of_between : ∀ pre key key' : List Nat,
    bytewiseLt key pre = false → bytewiseLt key key' = true →
    starts_with key' pre = true → starts_with key pre = true
  | [], _, _, _, _, _ => by simp [starts_with, List.isPrefixOf]
  | _ :: _, _, [], _, _, h => by simp [starts_with, List.isPrefixOf] at h
  | _ :: _, [], _ :: _, h, _, _ => by simp [bytewiseLt] at h
  | y :: pre, x :: key, z :: key', h1, h2, h3 => by
    have ih := starts_with_of_between pre key key'
    simp only [starts_with, List.isPrefixOf, Bool.and_eq_true, beq_iff_eq] at ih h3 ⊢
    obtain ⟨hyz, h3⟩ := h3
    subst hyz
    simp only [bytewiseLt] at h1 h2
    split_ifs at h1 h2 with a1 a2
    have : y = x := by omega
    subst this
    exact ⟨rfl, ih h1 h2 h3⟩


theorem ordered_pairwise : ∀ db : DB, db.ordered = true →
    db.Pairwise (fun a b => bytewiseLt a.1 b.1 = true)
  | [], _ => List.Pairwise.nil
  | [_], _ => by simp
  | a :: b :: rest, h => by
    simp only [DB.ordered, Bool.and_eq_true] at h
    have ih := ordered_pairwise (b :: rest) h.2
    rw [List.pairwise_cons]
    refine ⟨?_, ih⟩
    intro c hc
    rcases List.mem_cons.1 hc with rfl | hc
    · exact h.1
    · exact bytewiseLt_trans _ _ _ h.1 ((List.pairwise_cons.1 ih).1 c hc)

/-- The loop of `ForEachWithPrefix`, started where `Seek` puts the iterator,
visits the entries whose key starts with the prefix, in order. -/
theorem forEachLoop_seek {σ : Type} (pre : List Nat) (f : σ → List Nat → List Nat → σ) :
    ∀ (db : DB) (acc : σ), db.Pairwise (fun a b => bytewiseLt a.1 b.1 = true) →
      ForEachLoop pre f (Seek db pre) acc =
        (db.filter (fun e => starts_with e.1 pre)).foldl (fun acc e => f acc e.1 e.2) acc := by
  intro db
  induction db with
  | nil => intro acc _; rfl
  | cons e rest ih =>
    intro acc hdb
    rw [List.pairwise_cons] at hdb
    by_cases hlt : bytewiseLt e.1 pre = true
    · have hsw := not_starts_with_of_lt _ _ hlt
      have hseek : Seek (e :: rest) pre = Seek rest pre := by
        simp [Seek, List.dropWhile, hlt]
      rw [hseek, ih acc hdb.2]
      simp [List.filter, hsw]
    · have hlt' : bytewiseLt e.1 pre = false := by simpa using hlt
      have hseek : Seek (e :: rest) pre = e :: rest := by
        simp [Seek, List.dropWhile, hlt']
      have hrest : Seek rest pre = rest := by
        cases rest with
        | nil => rfl
        | cons e' rest' =>
          have h1 : bytewiseLt e.1 e'.1 = true := hdb.1 e' (List.mem_cons_self _ _)
          have h2 : bytewiseLt e'.1 pre = false := by
            cases h : bytewiseLt e'.1 pre with
            | false => rfl
            | true => rw [bytewiseLt_trans _ _ _ h1 h] at hlt'; exact absurd hlt' (by simp)
          simp [Seek, List.dropWhile, h2]
      rw [hseek]
      by_cases hsw : starts_with e.1 pre = true
      · rw [ForEachLoop, if_neg (by simp [hsw])]
        have := ih (f acc e.1 e.2) hdb.2
        rw [hrest] at this
        rw [this]
        simp [List.filter, hsw]
      · have hsw' : starts_with e.1 pre = false := by simpa using hsw
        rw [ForEachLoop, if_pos (by simp [hsw'])]
        have hnone : rest.filter (fun e => starts_with e.1 pre) = [] := by
          rw [List.filter_eq_nil_iff]
          intro e' he' hs
          have := starts_with_of_between pre e.1 e'.1 hlt' (hdb.1 e' he') hs
          rw [this] at hsw'
          exact absurd hsw' (by simp)
        simp [List.filter, hsw', hnone]

theorem forEachWithPrefix_eq {σ : Type} (db : DB) (hdb : db.ordered = true) (pre : List Nat)
    (f : σ → List Nat → List Nat → σ) (acc : σ) :
    ForEachWithPrefix db pre f acc =
      (.OK, (db.filter (fun e => starts_with e.1 pre)).foldl (fun acc e => f acc e.1 e.2) acc) := by
  unfold ForEachWithPrefix
  rw [forEachLoop_seek pre f db acc (ordered_pairwise db hdb)]

theorem foldl_push {α β : Type} (g : α → β) : ∀ (l : List α) (acc : List β),
    l.foldl (fun acc e => acc ++ [g e]) acc = acc ++ l.map g
  | [], acc => by simp
  | e :: l, acc => by simp [foldl_push g l]

/-- C8: on a database whose entries are in ascending bytewise key order,
`GetPrefixed` appends to `entries` exactly the pairs whose key starts with the
prefix: each of them once, in ascending key order, and no other pair. -/
theorem GetPrefixed_exact (db : DB) (hdb : db.ordered = true) (pre : List Nat)
    (entries : List KeyValuePair) :
    ∃ added : List KeyValuePair,
      (DomStorageDatabase.mk (some db)).GetPrefixed pre entries =
          (.OK, entries ++ added, ⟨some db⟩) ∧
        added = (db.filter (fun e => starts_with e.1 pre)).map (fun e => ⟨e.1, e.2⟩) ∧
        (∀ key value, (key, value) ∈ db → starts_with key pre = true →
          added.count ⟨key, value⟩ = 1) ∧
        (∀ p ∈ added, starts_with p.key pre = true ∧ (p.key, p.value) ∈ db) ∧
        added.Pairwise (fun p q => bytewiseLt p.key q.key = true) := by
  have hpw := ordered_pairwise db hdb
  have hsorted : ((db.filter (fun e => starts_with e.1 pre)).map
      (fun e => (⟨e.1, e.2⟩ : KeyValuePair))).Pairwise
      (fun p q => bytewiseLt p.key q.key = true) := by
    rw [List.pairwise_map]
    exact List.Pairwise.filter _ hpw
  refine ⟨_, ?_, rfl, ?_, ?_, hsorted⟩
  · simp only [DomStorageDatabase.GetPrefixed]
    rw [forEachWithPrefix_eq db hdb]
    simp only [foldl_push (fun e : List Nat × List Nat => (⟨e.1, e.2⟩ : KeyValuePair))]
  · intro key value hmem hsw
    apply List.count_eq_one_of_mem
    · refine hsorted.imp ?_
      intro p q hlt heq
      subst heq
      rw [bytewiseLt_irrefl] at hlt
      exact absurd hlt (by simp)
    · rw [List.mem_map]
      exact ⟨(key, value), List.mem_filter.2 ⟨hmem, by simpa using hsw⟩, rfl⟩
  · intro p hp
    rw [List.mem_map] at hp
    obtain ⟨e, he, rfl⟩ := hp
    rw [List.mem_filter] at he
    exact ⟨by simpa using he.2, he.1⟩


theorem GetPrefixed_exact_witness :
    DB.ordered [([1], [10]), ([1, 2], [20]), ([2], [30])] = true ∧
      ∃ added : List KeyValuePair,
        (DomStorageDatabase.mk (some [([1], [10]), ([1, 2], [20]), ([2], [30])])).GetPrefixed [1]
            [⟨[0], [0]⟩] =
            (.OK, [⟨[0], [0]⟩] ++ added, ⟨some [([1], [10]), ([1, 2], [20]), ([2], [30])]⟩) ∧
          added = (List.filter (fun e => starts_with e.1 [1])
            [([1], [10]), ([1, 2], [20]), ([2], [30])]).map (fun e => ⟨e.1, e.2⟩) ∧
          (∀ key value, (key, value) ∈ [([1], [10]), ([1, 2], [20]), ([2], [30])] →
            starts_with key [1] = true → added.count ⟨key, value⟩ = 1) ∧
          (∀ p ∈ added, starts_with p.key [1] = true ∧
            (p.key, p.value) ∈ [([1], [10]), ([1, 2], [20]), ([2], [30])]) ∧
          added.Pairwise (fun p q => bytewiseLt p.key q.key = true) :=
  ⟨by decide, GetPrefixed_exact [([1], [10]), ([1, 2], [20]), ([2], [30])] (by decide) [1]
    [⟨[0], [0]⟩]⟩

theorem starts_with_iff (key pre : List Nat) :
    starts_with key pre = true ↔ key = pre ++ key.drop pre.length := by
  unfold starts_with
  rw [List.isPrefixOf_iff_prefix]
  constructor
  · rintro ⟨t, rfl⟩; simp
  · intro h; exact ⟨_, h.symm⟩

theorem resize_length (v : List Nat) (n : Nat) : (resize v n).length = n := by
  simp [resize]; omega

theorem resize_prefix (np t : List Nat) (n : Nat) :
    ∃ t', t'.length = n ∧ resize (np ++ t) (np.length + n) = np ++ t' := by
  refine ⟨(resize (np ++ t) (np.length + n)).drop np.length, by simp [resize_length], ?_⟩
  have h1 : (resize (np ++ t) (np.length + n)).take np.length = np := by
    unfold resize
    rw [List.take_append_of_le_length (by simp), List.take_take]
    simp
  conv_lhs => rw [← List.take_append_drop np.length (resize (np ++ t) (np.length + n))]
  rw [h1]

/-- One run of the lambda of `CopyPrefixed` on a key that starts with the prefix:
`new_key` becomes the new prefix followed by the key's suffix. -/
theorem CopyPrefixedBody_eq (pre np t : List Nat) (batch : List BatchOp) (key value : List Nat)
    (hsw : starts_with key pre = true) (hlen : key.length < 2 ^ 64) :
    CopyPrefixedBody pre np (np ++ t, batch) key value =
      (np ++ key.drop pre.length, batch ++ [.Put (np ++ key.drop pre.length) value]) := by
  have hkey := (starts_with_iff key pre).1 hsw
  have hle : pre.length ≤ key.length := by
    have := congrArg List.length hkey
    simp at this; omega
  have hsuffix : (key.length + 2 ^ 64 - pre.length) % 2 ^ 64 = (key.drop pre.length).length := by
    simp; omega
  obtain ⟨t', ht', hres⟩ := resize_prefix np t (key.drop pre.length).length
  have hnew : copyInto (key.drop pre.length)
      (resize (np ++ t) (np.length + (key.drop pre.length).length)) np.length =
      np ++ key.drop pre.length := by
    rw [hres]
    unfold copyInto
    have hdrop : (np ++ t').drop (np.length + (key.drop pre.length).length) = [] :=
      List.drop_eq_nil_of_le (by rw [List.length_append, ht'])
    rw [List.take_left, hdrop]
    simp
  simp only [CopyPrefixedBody, hsuffix, hnew]

theorem CopyPrefixed_foldl (pre np : List Nat) : ∀ (l : List (List Nat × List Nat))
    (t : List Nat) (batch : List BatchOp),
    (∀ e ∈ l, starts_with e.1 pre = true ∧ e.1.length < 2 ^ 64) →
    (l.foldl (fun acc e => CopyPrefixedBody pre np acc e.1 e.2) (np ++ t, batch)).2 =
      batch ++ l.map (fun e => BatchOp.Put (np ++ e.1.drop pre.length) e.2)
  | [], t, batch, _ => by simp
  | e :: l, t, batch, h => by
    have he := h e (List.mem_cons_self _ _)
    rw [List.foldl_cons, CopyPrefixedBody_eq pre np t batch e.1 e.2 he.1 he.2]
    rw [CopyPrefixed_foldl pre np l _ _ (fun e' he' => h e' (List.mem_cons_of_mem _ he'))]
    simp

/-- C9: on a database whose entries are in ascending bytewise key order (with
keys short enough to be vectors), `CopyPrefixed` appends to the batch one
`Put(new_pre ++ suffix, v)` for every entry with key `prefix ++ suffix` and
value `v`, in key order, and nothing else; the database itself stays as it
was. -/
theorem CopyPrefixed_rewrites (db : DB) (hdb : db.ordered = true)
    (hsize : ∀ e ∈ db, e.1.length < 2 ^ 64) (pre new_pre : List Nat) (batch : List BatchOp) :
    ∃ added : List BatchOp,
      (DomStorageDatabase.mk (some db)).CopyPrefixed pre new_pre batch =
          (.OK, batch ++ added, ⟨some db⟩) ∧
        added = (db.filter (fun e => starts_with e.1 pre)).map
          (fun e => BatchOp.Put (new_pre ++ e.1.drop pre.length) e.2) ∧
        (∀ suffix value, (pre ++ suffix, value) ∈ db →
          added.count (.Put (new_pre ++ suffix) value) = 1) ∧
        (∀ op ∈ added, ∃ suffix value,
          op = .Put (new_pre ++ suffix) value ∧ (pre ++ suffix, value) ∈ db) := by
  have hpw := ordered_pairwise db hdb
  have hnodup : (db.filter (fun e => starts_with e.1 pre)).Nodup := by
    refine (List.Pairwise.filter _ hpw).imp ?_
    intro p q hlt heq
    subst heq
    rw [bytewiseLt_irrefl] at hlt
    exact absurd hlt (by simp)
  refine ⟨_, ?_, rfl, ?_, ?_⟩
  · simp only [DomStorageDatabase.CopyPrefixed]
    rw [forEachWithPrefix_eq db hdb]
    have := CopyPrefixed_foldl pre new_pre (db.filter (fun e => starts_with e.1 pre)) [] batch
      (fun e he => ⟨by simpa using (List.mem_filter.1 he).2, hsize e (List.mem_filter.1 he).1⟩)
    rw [List.append_nil] at this
    simp only [this]
  · intro suffix value hmem
    apply List.count_eq_one_of_mem
    · refine List.Nodup.map_on ?_ hnodup
      intro e he e' he' heq
      have h1 := (starts_with_iff e.1 pre).1 (by simpa using (List.mem_filter.1 he).2)
      have h2 := (starts_with_iff e'.1 pre).1 (by simpa using (List.mem_filter.1 he').2)
      simp only [BatchOp.Put.injEq, List.append_cancel_left_eq] at heq
      exact Prod.ext (by rw [h1, h2, heq.1]) heq.2
    · rw [List.mem_map]
      refine ⟨(pre ++ suffix, value), List.mem_filter.2 ⟨hmem, ?_⟩, by simp⟩
      simp [starts_with_iff]
  · intro op hop
    rw [List.mem_map] at hop
    obtain ⟨e, he, rfl⟩ := hop
    rw [List.mem_filter] at he
    have h1 := (starts_with_iff e.1 pre).1 (by simpa using he.2)
    refine ⟨e.1.drop pre.length, e.2, rfl, ?_⟩
    rw [← h1]
    exact he.1

theorem CopyPrefixed_rewrites_witness :
    (DB.ordered [([1], [10]), ([1, 2], [20]), ([2], [30])] = true ∧
      ∀ e ∈ ([([1], [10]), ([1, 2], [20]), ([2], [30])] : DB), e.1.length < 2 ^ 64) ∧
      ∃ added : List BatchOp,
        (DomStorageDatabase.mk (some [([1], [10]), ([1, 2], [20]), ([2], [30])])).CopyPrefixed [1]
            [7, 8] [.Delete [5]] =
            (.OK, [.Delete [5]] ++ added, ⟨some [([1], [10]), ([1, 2], [20]), ([2], [30])]⟩) ∧
          added = (List.filter (fun e => starts_with e.1 [1])
            [([1], [10]), ([1, 2], [20]), ([2], [30])]).map
              (fun e => BatchOp.Put ([7, 8] ++ e.1.drop [1].length) e.2) ∧
          (∀ suffix value, ([1] ++ suffix, value) ∈ [([1], [10]), ([1, 2], [20]), ([2], [30])] →
            added.count (.Put ([7, 8] ++ suffix) value) = 1) ∧
          (∀ op ∈ added, ∃ suffix value,
            op = .Put ([7, 8] ++ suffix) value ∧
              ([1] ++ suffix, value) ∈ [([1], [10]), ([1, 2], [20]), ([2], [30])]) :=
  ⟨⟨by decide, by decide⟩,
    CopyPrefixed_rewrites [([1], [10]), ([1, 2], [20]), ([2], [30])] (by decide) (by decide) [1]
      [7, 8] [.Delete [5]]⟩

end DomStorage
namespace TestURLLoaderFactory

/-! ### Registered responses -/

theorem lookup_append_single (url url' : GURL) (r : Response) :
    ∀ m : List (GURL × Response), (m ++ [(url, r)]).lookup url' =
      (m.lookup url').or (if url' == url then some r else none)
  | [] => by cases h : url' == url <;> simp [List.lookup, h]
  | (k, v) :: m => by
    simp only [List.cons_append, List.lookup_cons]
    cases h : url' == k
    · simpa using lookup_append_single url url' r m
    · simp

theorem lookup_map_assign (url url' : GURL) (r : Response) :
    ∀ m : List (GURL × Response),
      (m.map (fun p => if p.1 == url then (url, r) else p)).lookup url' =
        if url' == url then (m.lookup url').map (fun _ => r) else m.lookup url'
  | [] => by simp
  | (k, v) :: m => by
    have ih := lookup_map_assign url url' r m
    by_cases hk : k = url
    · subst hk
      simp only [List.map_cons, beq_self_eq_true, if_true, List.lookup_cons]
      cases hu : url' == k
      · simpa [hu] using ih
      · simp
    · have hk' : (k == url) = false := by simpa using hk
      simp only [List.map_cons, hk', Bool.false_eq_true, if_false, List.lookup_cons]
      cases hu : url' == k
      · simpa using ih
      · have : url' = k := by simpa using hu
        subst this
        simp [hk']

theorem lookup_assign_self (m : List (GURL × Response)) (url : GURL) (r : Response) :
    (assign m url r).lookup url = some r := by
  unfold assign
  split
  · next h => rw [lookup_append_single, h]; simp
  · next v h => rw [lookup_map_assign, h]; simp

theorem lookup_assign_other (m : List (GURL × Response)) (url url' : GURL) (r : Response)
    (hne : url' ≠ url) : (assign m url r).lookup url' = m.lookup url' := by
  have hbeq : (url' == url) = false := by simpa using hne
  unfold assign
  split
  · rw [lookup_append_single, hbeq]; simp
  · rw [lookup_map_assign, hbeq]; simp

theorem CreateLoaderAndStartInternal_frame (url : GURL) (client : Nat) (s : State) :
    (CreateLoaderAndStartInternal url client s).2.responses_ = s.responses_ ∧
      (CreateLoaderAndStartInternal url client s).2.interceptor_ = s.interceptor_ := by
  unfold CreateLoaderAndStartInternal
  split <;> exact ⟨rfl, rfl⟩

theorem AddResponseLoop_frame : ∀ (l : List PendingRequest) (s : State),
    (AddResponseLoop l s).2.responses_ = s.responses_ ∧
      (AddResponseLoop l s).2.interceptor_ = s.interceptor_
  | [], _ => ⟨rfl, rfl⟩
  | it :: rest, s => by
    have h := CreateLoaderAndStartInternal_frame it.request_url it.client s
    unfold AddResponseLoop
    rcases hc : CreateLoaderAndStartInternal it.request_url it.client s with ⟨b, s1⟩
    rw [hc] at h
    have ih := AddResponseLoop_frame rest s1
    cases b
    · exact ⟨ih.1.trans h.1, ih.2.trans h.2⟩
    · exact ⟨ih.1.trans h.1, ih.2.trans h.2⟩

theorem AddResponse_responses (a : AddResponseArgs) (s : State) :
    (AddResponse a.url a.head a.content a.status a.redirects a.flags s).responses_ =
      assign s.responses_ a.url
        { url := a.url, redirects := a.redirects, head := a.head, content := a.content,
          status := { a.status with decoded_body_length := a.content.length },
          flags := a.flags } := by
  simp only [AddResponse]
  exact (AddResponseLoop_frame _ _).1

theorem AddResponse_interceptor (a : AddResponseArgs) (s : State) :
    (AddResponse a.url a.head a.content a.status a.redirects a.flags s).interceptor_ =
      s.interceptor_ := by
  simp only [AddResponse]
  exact (AddResponseLoop_frame _ _).2

theorem AddResponses_interceptor : ∀ (calls : List AddResponseArgs) (s : State),
    (AddResponses calls s).interceptor_ = s.interceptor_
  | [], _ => rfl
  | a :: calls, s => by
    simp only [AddResponses, List.foldl_cons]
    exact (AddResponses_interceptor calls _).trans (AddResponse_interceptor a s)

theorem AddResponses_lookup_other (url : GURL) : ∀ (calls : List AddResponseArgs) (s : State),
    (∀ b ∈ calls, b.url ≠ url) →
      (AddResponses calls s).responses_.lookup url = s.responses_.lookup url
  | [], _, _ => rfl
  | a :: calls, s, h => by
    simp only [AddResponses, List.foldl_cons]
    refine (AddResponses_lookup_other url calls _
      (fun b hb => h b (List.mem_cons_of_mem _ hb))).trans ?_
    rw [AddResponse_responses]
    exact lookup_assign_other _ _ _ _ (fun e => h a (List.mem_cons_self _ _) e.symm)


/-- C10 as stated fails: the status a request is answered with is not the status
given to `AddResponse` but that status with `decoded_body_length` overwritten
by the length of the content. -/
theorem last_response_status_counterexample :
    (CreateLoaderAndStart 0 ⟨"http://a/".toList⟩ 1
        (AddResponses [⟨⟨"http://a/".toList⟩, ⟨200, []⟩, "abc".toList, ⟨0, 0⟩, [], 0⟩]
          ⟨[], [], none, []⟩)).calls ≠
        SimulateResponse 1 [] ⟨200, []⟩ "abc".toList ⟨0, 0⟩ 0 ∧
      (CreateLoaderAndStart 0 ⟨"http://a/".toList⟩ 1
        (AddResponses [⟨⟨"http://a/".toList⟩, ⟨200, []⟩, "abc".toList, ⟨0, 0⟩, [], 0⟩]
          ⟨[], [], none, []⟩)).calls =
        SimulateResponse 1 [] ⟨200, []⟩ "abc".toList ⟨0, 3⟩ 0 := by
  decide

/-- C10, amended: after any sequence of `AddResponse` calls of which `a` is the
last one for its URL, `CreateLoaderAndStart` for that URL runs the interceptor
if one is set, answers the client with the redirects, head, content and flags
of `a` and with the status of `a` in which `decoded_body_length` is the length
of the content, and leaves `pending_requests_` and `responses_` as they are;
and one `AddResponse` leaves the responses registered for other URLs
unchanged. -/
theorem last_response_wins (s : State) (before after : List AddResponseArgs)
    (a : AddResponseArgs) (hlast : ∀ b ∈ after, b.url ≠ a.url) (options client : Nat) :
    CreateLoaderAndStart options a.url client (AddResponses (before ++ a :: after) s) =
        { AddResponses (before ++ a :: after) s with
          calls := (AddResponses (before ++ a :: after) s).calls ++
            (match s.interceptor_ with
              | some interceptor => [.Interceptor interceptor a.url]
              | none => []) ++
            SimulateResponse client a.redirects a.head a.content
              { a.status with decoded_body_length := a.content.length } a.flags } ∧
      ∀ (t : State) (b : AddResponseArgs) (url : GURL), url ≠ b.url →
        (AddResponse b.url b.head b.content b.status b.redirects b.flags t).responses_.lookup url =
          t.responses_.lookup url := by
  constructor
  · have hlookup : (AddResponses (before ++ a :: after) s).responses_.lookup a.url =
        some { url := a.url, redirects := a.redirects, head := a.head, content := a.content,
               status := { a.status with decoded_body_length := a.content.length },
               flags := a.flags } := by
      have happ : AddResponses (before ++ a :: after) s =
          AddResponses after (AddResponse a.url a.head a.content a.status a.redirects a.flags
            (AddResponses before s)) := by
        simp [AddResponses, List.foldl_append]
      rw [happ, AddResponses_lookup_other a.url after _ hlast, AddResponse_responses]
      exact lookup_assign_self _ _ _
    have hint := AddResponses_interceptor (before ++ a :: after) s
    generalize AddResponses (before ++ a :: after) s = s' at hlookup hint
    unfold CreateLoaderAndStart
    cases hi : s.interceptor_ with
    | none =>
      rw [hi] at hint
      simp [hint, CreateLoaderAndStartInternal, hlookup]
    | some interceptor =>
      rw [hi] at hint
      simp [hint, CreateLoaderAndStartInternal, hlookup]
  · intro t b url hne
    rw [AddResponse_responses]
    exact lookup_assign_other _ _ _ _ hne

theorem last_response_wins_witness :
    (∀ b ∈ [(⟨⟨"http://b/".toList⟩, ⟨404, []⟩, "no".toList, ⟨0, 0⟩, [], 0⟩ : AddResponseArgs)],
        b.url ≠ (AddResponseArgs.mk ⟨"http://a/".toList⟩ ⟨200, []⟩ "abc".toList ⟨0, 0⟩ [] 0).url) ∧
      (CreateLoaderAndStart 0
          (AddResponseArgs.mk ⟨"http://a/".toList⟩ ⟨200, []⟩ "abc".toList ⟨0, 0⟩ [] 0).url 1
          (AddResponses
            ([⟨⟨"http://a/".toList⟩, ⟨500, []⟩, "old".toList, ⟨0, 0⟩, [], 0⟩] ++
              ⟨⟨"http://a/".toList⟩, ⟨200, []⟩, "abc".toList, ⟨0, 0⟩, [], 0⟩ ::
              [⟨⟨"http://b/".toList⟩, ⟨404, []⟩, "no".toList, ⟨0, 0⟩, [], 0⟩])
            ⟨[], [], none, []⟩) =
          { AddResponses
              ([⟨⟨"http://a/".toList⟩, ⟨500, []⟩, "old".toList, ⟨0, 0⟩, [], 0⟩] ++
                ⟨⟨"http://a/".toList⟩, ⟨200, []⟩, "abc".toList, ⟨0, 0⟩, [], 0⟩ ::
                [⟨⟨"http://b/".toList⟩, ⟨404, []⟩, "no".toList, ⟨0, 0⟩, [], 0⟩])
              ⟨[], [], none, []⟩ with
            calls := (AddResponses
                ([⟨⟨"http://a/".toList⟩, ⟨500, []⟩, "old".toList, ⟨0, 0⟩, [], 0⟩] ++
                  ⟨⟨"http://a/".toList⟩, ⟨200, []⟩, "abc".toList, ⟨0, 0⟩, [], 0⟩ ::
                  [⟨⟨"http://b/".toList⟩, ⟨404, []⟩, "no".toList, ⟨0, 0⟩, [], 0⟩])
                ⟨[], [], none, []⟩).calls ++
              (match (State.mk [] [] none []).interceptor_ with
                | some interceptor => [.Interceptor interceptor
                    (AddResponseArgs.mk ⟨"http://a/".toList⟩ ⟨200, []⟩ "abc".toList ⟨0, 0⟩ []
                      0).url]
                | none => []) ++
              SimulateResponse 1
                (AddResponseArgs.mk ⟨"http://a/".toList⟩ ⟨200, []⟩ "abc".toList ⟨0, 0⟩ [] 0).redirects
                (AddResponseArgs.mk ⟨"http://a/".toList⟩ ⟨200, []⟩ "abc".toList ⟨0, 0⟩ [] 0).head
                (AddResponseArgs.mk ⟨"http://a/".toList⟩ ⟨200, []⟩ "abc".toList ⟨0, 0⟩ [] 0).content
                { (AddResponseArgs.mk ⟨"http://a/".toList⟩ ⟨200, []⟩ "abc".toList ⟨0, 0⟩ []
                    0).status with
                  decoded_body_length :=
                    (AddResponseArgs.mk ⟨"http://a/".toList⟩ ⟨200, []⟩ "abc".toList ⟨0, 0⟩ []
                      0).content.length }
                (AddResponseArgs.mk ⟨"http://a/".toList⟩ ⟨200, []⟩ "abc".toList ⟨0, 0⟩ [] 0).flags } ∧
        ∀ (t : State) (b : AddResponseArgs) (url : GURL), url ≠ b.url →
          (AddResponse b.url b.head b.content b.status b.redirects b.flags t).responses_.lookup url =
            t.responses_.lookup url) :=
  ⟨by decide,
    last_response_wins ⟨[], [], none, []⟩
      [⟨⟨"http://a/".toList⟩, ⟨500, []⟩, "old".toList, ⟨0, 0⟩, [], 0⟩]
      [⟨⟨"http://b/".toList⟩, ⟨404, []⟩, "no".toList, ⟨0, 0⟩, [], 0⟩]
      ⟨⟨"http://a/".toList⟩, ⟨200, []⟩, "abc".toList, ⟨0, 0⟩, [], 0⟩ (by decide) 0 1⟩

end TestURLLoaderFactory
namespace TestURLLoaderFactory

/-! ### Requests that wait for a response -/

theorem AddResponseLoop_eq : ∀ (l : List PendingRequest) (s : State),
    AddResponseLoop l s =
      (l.filter (fun r => (s.responses_.lookup r.request_url).isNone),
        { s with calls := s.calls ++ l.flatMap (wakeUp s.responses_) })
  | [], s => by simp [AddResponseLoop]
  | it :: rest, s => by
    unfold AddResponseLoop
    cases hl : s.responses_.lookup it.request_url with
    | none =>
      simp only [CreateLoaderAndStartInternal, hl]
      rw [AddResponseLoop_eq rest s]
      simp [wakeUp, hl]
    | some r =>
      simp only [CreateLoaderAndStartInternal, hl]
      rw [AddResponseLoop_eq rest _]
      simp [wakeUp, hl, List.append_assoc]

theorem SimulateResponse_eq (client : Nat) (redirects : Redirects) (head : URLResponseHead)
    (content : List Char) (status : URLLoaderCompletionStatus) (flags : Nat) :
    SimulateResponse client redirects head content status flags =
      redirects.map (fun rd => Call.OnReceiveRedirect client rd.1 rd.2) ++
        (if flags &&& 1 ≠ 0 then []
        else
          (if flags &&& 2 ≠ 0 ∨ status.error_code = 0 then [Call.OnReceiveResponse client head]
            else []) ++
          (if status.error_code = 0 then [Call.OnStartLoadingResponseBody client content]
            else []) ++
          [Call.OnComplete client status]) := by
  simp only [SimulateResponse, kResponseOnlyRedirectsNoDestination, kSendHeadersOnNetworkError,
    net_OK]
  split_ifs <;> simp only [List.append_assoc, List.append_nil, List.nil_append]

/-- C11: `AddResponse` wakes the pending requests up.  When `AddResponse(url, head,
content, status, redirects, flags)` returns, the response registered for `url` is
the one given (with `decoded_body_length` set to the size of `content`) and the
responses of other URLs are as before; `pending_requests_` holds exactly the
requests it held before whose URL has no registered response, in their order, so
no request whose URL has a registered response is left; and the calls made are,
for each request that has left, oldest first, those that answer it with the
response registered for its URL: its redirects, then, unless the response is of
redirects only, the head (when the status is OK or headers are sent on errors),
the body (when the status is OK) and `OnComplete` with the status. -/
theorem AddResponse_wakes_pending (url : GURL) (head : URLResponseHead) (content : List Char)
    (status : URLLoaderCompletionStatus) (redirects : Redirects) (flags : Nat) (s : State) :
    (AddResponse url head content status redirects flags s).responses_.lookup url =
        some ⟨url, redirects, head, content, ⟨status.error_code, content.length⟩, flags⟩ ∧
      (∀ other, other ≠ url →
        (AddResponse url head content status redirects flags s).responses_.lookup other =
          s.responses_.lookup other) ∧
      (AddResponse url head content status redirects flags s).pending_requests_ =
        s.pending_requests_.filter (fun r =>
          ((AddResponse url head content status redirects flags s).responses_.lookup
            r.request_url).isNone) ∧
      (∀ r ∈ (AddResponse url head content status redirects flags s).pending_requests_,
        (AddResponse url head content status redirects flags s).responses_.lookup
          r.request_url = none) ∧
      (∀ r ∈ s.pending_requests_, r.request_url = url →
        r ∉ (AddResponse url head content status redirects flags s).pending_requests_) ∧
      (AddResponse url head content status redirects flags s).calls =
        s.calls ++ s.pending_requests_.flatMap (fun r =>
          match (AddResponse url head content status redirects flags s).responses_.lookup
            r.request_url with
          | none => []
          | some it =>
            it.redirects.map (fun rd => Call.OnReceiveRedirect r.client rd.1 rd.2) ++
              (if it.flags &&& 1 ≠ 0 then []
              else
                (if it.flags &&& 2 ≠ 0 ∨ it.status.error_code = 0 then
                    [Call.OnReceiveResponse r.client it.head]
                  else []) ++
                (if it.status.error_code = 0 then
                    [Call.OnStartLoadingResponseBody r.client it.content]
                  else []) ++
                [Call.OnComplete r.client it.status])) := by
  have hr := AddResponse_responses ⟨url, head, content, status, redirects, flags⟩ s
  simp only [] at hr
  have hself : (AddResponse url head content status redirects flags s).responses_.lookup url =
      some ⟨url, redirects, head, content, ⟨status.error_code, content.length⟩, flags⟩ := by
    rw [hr, lookup_assign_self]
  have hp : (AddResponse url head content status redirects flags s).pending_requests_ =
      s.pending_requests_.filter (fun r =>
        ((AddResponse url head content status redirects flags s).responses_.lookup
          r.request_url).isNone) := by
    rw [hr]
    simp only [AddResponse, AddResponseLoop_eq]
  have hnone : ∀ r ∈ (AddResponse url head content status redirects flags s).pending_requests_,
      (AddResponse url head content status redirects flags s).responses_.lookup
        r.request_url = none := by
    intro r hmem
    rw [hp] at hmem
    simpa using (List.mem_filter.1 hmem).2
  refine ⟨hself, ?_, hp, hnone, ?_, ?_⟩
  · intro other hne
    rw [hr, lookup_assign_other _ _ _ _ hne]
  · intro r _ hurl hmem
    have := hnone r hmem
    rw [hurl, hself] at this
    exact absurd this (by simp)
  · have hw : (fun r : PendingRequest =>
        match (AddResponse url head content status redirects flags s).responses_.lookup
          r.request_url with
        | none => []
        | some it =>
          it.redirects.map (fun rd => Call.OnReceiveRedirect r.client rd.1 rd.2) ++
            (if it.flags &&& 1 ≠ 0 then []
            else
              (if it.flags &&& 2 ≠ 0 ∨ it.status.error_code = 0 then
                  [Call.OnReceiveResponse r.client it.head]
                else []) ++
              (if it.status.error_code = 0 then
                  [Call.OnStartLoadingResponseBody r.client it.content]
                else []) ++
              [Call.OnComplete r.client it.status])) =
        wakeUp (AddResponse url head content status redirects flags s).responses_ := by
      funext r
      unfold wakeUp
      split <;> simp only [SimulateResponse_eq]
    rw [hw, hr]
    simp only [AddResponse, AddResponseLoop_eq]

theorem get?_middle (pre rest : List PendingRequest) (x : PendingRequest) :
    (pre ++ x :: rest).get? pre.length = some x := by
  induction pre with
  | nil => rfl
  | cons y pre ih => simpa using ih

theorem ForwardLoop_none (err : Nat → Bool) (url : GURL) (p : Bool) :
    ∀ (rest pre pending : List PendingRequest), pending = pre ++ rest →
      (∀ r ∈ rest, eligible err url p r = false) →
      ForwardLoop err url p pending rest.length pre.length = none
  | [], _, _, _, _ => rfl
  | x :: rest, pre, pending, hp, hno => by
    have hx := hno x (List.mem_cons_self _ _)
    have ih := ForwardLoop_none err url p rest (pre ++ [x]) pending (by simp [hp])
      (fun r hr => hno r (List.mem_cons_of_mem _ hr))
    simp only [List.length_append, List.length_singleton] at ih
    simp only [List.length_cons, ForwardLoop]
    rw [hp, get?_middle]
    simp only [← hp]
    simp only [eligible, Bool.and_eq_false_iff, Bool.not_eq_false'] at hx
    rcases hx with hx | hx
    · simp only [hx, if_true]
      exact ih
    · by_cases he : err x.client = true
      · simp only [he, if_true]
        exact ih
      · simp only [he, hx, if_false, Bool.false_eq_true]
        exact ih

theorem ForwardLoop_some (err : Nat → Bool) (url : GURL) (p : Bool) (r : PendingRequest)
    (after : List PendingRequest) (hr : eligible err url p r = true) :
    ∀ (before pre pending : List PendingRequest), pending = pre ++ (before ++ r :: after) →
      (∀ x ∈ before, eligible err url p x = false) →
      ForwardLoop err url p pending (before.length + (after.length + 1)) pre.length =
        some (pre.length + before.length)
  | [], pre, pending, hp, _ => by
    simp only [eligible, Bool.and_eq_true, Bool.not_eq_true'] at hr
    simp only [List.length_nil, Nat.zero_add, ForwardLoop, Nat.add_zero]
    rw [hp, List.nil_append, get?_middle]
    simp [hr.1, hr.2]
  | x :: before, pre, pending, hp, hno => by
    have hx := hno x (List.mem_cons_self _ _)
    have ih := ForwardLoop_some err url p r after hr before (pre ++ [x]) pending (by simp [hp])
      (fun r hr => hno r (List.mem_cons_of_mem _ hr))
    simp only [List.length_append, List.length_singleton] at ih
    have e1 : (x :: before).length + (after.length + 1) =
        (before.length + (after.length + 1)) + 1 := by simp; omega
    have e2 : pre.length + (x :: before).length = pre.length + 1 + before.length := by
      simp; omega
    rw [e1, e2]
    simp only [ForwardLoop]
    rw [hp, List.cons_append, get?_middle]
    simp only [← List.cons_append, ← hp]
    simp only [eligible, Bool.and_eq_false_iff, Bool.not_eq_false'] at hx
    rcases hx with hx | hx
    · simp only [hx, if_true]
      exact ih
    · by_cases he : err x.client = true
      · simp only [he, if_true]
        exact ih
      · simp only [he, hx, if_false, Bool.false_eq_true]
        exact ih

theorem ReverseLoop_step (err : Nat → Bool) (url : GURL) (p : Bool)
    (pending : List PendingRequest) (i : Nat) (x : PendingRequest)
    (hget : pending.get? i = some x) (hx : eligible err url p x = false) :
    ReverseLoop err url p pending (i + 1) = ReverseLoop err url p pending i := by
  simp only [ReverseLoop, hget]
  simp only [eligible, Bool.and_eq_false_iff, Bool.not_eq_false'] at hx
  rcases hx with hx | hx
  · simp only [hx, if_true]
  · by_cases he : err x.client = true
    · simp only [he, if_true]
    · simp only [he, hx, if_false, Bool.false_eq_true]

theorem ReverseLoop_none (err : Nat → Bool) (url : GURL) (p : Bool)
    (pending : List PendingRequest) :
    ∀ (front back : List PendingRequest), pending = front ++ back →
      (∀ r ∈ front, eligible err url p r = false) →
      ReverseLoop err url p pending front.length = none := by
  intro front
  induction front using List.reverseRecOn with
  | nil => intro _ _ _; rfl
  | append_singleton front x ih =>
    intro back hp hno
    have hget : pending.get? front.length = some x := by
      rw [hp, List.append_assoc, List.singleton_append, get?_middle]
    rw [List.length_append, List.length_singleton,
      ReverseLoop_step err url p pending _ x hget (hno x (by simp))]
    exact ih ([x] ++ back) (by rw [hp, List.append_assoc])
      (fun r hr => hno r (List.mem_append_left _ hr))

theorem ReverseLoop_some (err : Nat → Bool) (url : GURL) (p : Bool) (r : PendingRequest)
    (before pending : List PendingRequest) (hr : eligible err url p r = true) :
    ∀ (mid back : List PendingRequest), pending = before ++ r :: (mid ++ back) →
      (∀ x ∈ mid, eligible err url p x = false) →
      ReverseLoop err url p pending (before.length + 1 + mid.length) = some before.length := by
  intro mid
  induction mid using List.reverseRecOn with
  | nil =>
    intro back hp _
    simp only [eligible, Bool.and_eq_true, Bool.not_eq_true'] at hr
    simp only [List.length_nil, Nat.add_zero, ReverseLoop]
    rw [hp, get?_middle]
    simp [hr.1, hr.2]
  | append_singleton mid x ih =>
    intro back hp hno
    have hget : pending.get? (before.length + 1 + mid.length) = some x := by
      have e : pending = (before ++ r :: mid) ++ x :: back := by
        rw [hp]; simp
      have hl : (before ++ r :: mid).length = before.length + 1 + mid.length := by
        simp; omega
      rw [e, ← hl, get?_middle]
    rw [List.length_append, List.length_singleton, ← Nat.add_assoc,
      ReverseLoop_step err url p pending _ x hget (hno x (by simp))]
    exact ih ([x] ++ back) (by rw [hp]; simp)
      (fun r hr => hno r (List.mem_append_left _ hr))

theorem exists_first (q : PendingRequest → Bool) :
    ∀ (l : List PendingRequest), (∃ r ∈ l, q r = true) →
      ∃ before r after, l = before ++ r :: after ∧ q r = true ∧ ∀ x ∈ before, q x = false
  | [], h => by simp at h
  | x :: l, h => by
    by_cases hx : q x = true
    · exact ⟨[], x, l, rfl, hx, by simp⟩
    · obtain ⟨r, hr, hq⟩ := h
      have hr' : r ∈ l := by
        rcases List.mem_cons.1 hr with rfl | hr'
        · exact absurd hq hx
        · exact hr'
      obtain ⟨before, r', after, hl, hq', hno⟩ := exists_first q l ⟨r, hr', hq⟩
      refine ⟨x :: before, r', after, by rw [hl]; rfl, hq', ?_⟩
      intro y hy
      rcases List.mem_cons.1 hy with rfl | hy'
      · simpa using hx
      · exact hno y hy'

theorem exists_last (q : PendingRequest → Bool) (l : List PendingRequest)
    (h : ∃ r ∈ l, q r = true) :
    ∃ before r after, l = before ++ r :: after ∧ q r = true ∧ ∀ x ∈ after, q x = false := by
  obtain ⟨r, hr, hq⟩ := h
  obtain ⟨before, r', after, hl, hq', hno⟩ :=
    exists_first q l.reverse ⟨r, List.mem_reverse.2 hr, hq⟩
  refine ⟨after.reverse, r', before.reverse, ?_, hq', fun x hx => hno x (List.mem_reverse.1 hx)⟩
  have := congrArg List.reverse hl
  simpa using this

theorem static_cast_int_small (n : Nat) (h : n < 2 ^ 31) : (static_cast_int n).toNat = n := by
  unfold static_cast_int
  have h1 : ((n : Int) + 2 ^ 31) % 2 ^ 32 = (n : Int) + 2 ^ 31 := by
    apply Int.emod_eq_of_lt <;> omega
  rw [h1]
  simp

theorem eraseIdx_middle (pre rest : List PendingRequest) (x : PendingRequest) :
    (pre ++ x :: rest).eraseIdx pre.length = pre ++ rest := by
  induction pre with
  | nil => rfl
  | cons y pre ih => simpa using ih

theorem Simulate_none (err : Nat → Bool) (url : GURL) (cs : URLLoaderCompletionStatus)
    (head : URLResponseHead) (content : List Char) (flags : Nat) (s : State)
    (hlen : s.pending_requests_.length < 2 ^ 31)
    (hno : ∀ r ∈ s.pending_requests_,
      eligible err url (decide (flags &&& kUrlMatchPrefix ≠ 0)) r = false) :
    SimulateResponseForPendingRequest err url cs head content flags s = (false, s) := by
  unfold SimulateResponseForPendingRequest
  split
  · rfl
  · simp only [static_cast_int_small _ hlen]
    have hf := ForwardLoop_none err url (decide (flags &&& kUrlMatchPrefix ≠ 0))
      s.pending_requests_ [] s.pending_requests_ rfl hno
    have hr := ReverseLoop_none err url (decide (flags &&& kUrlMatchPrefix ≠ 0))
      s.pending_requests_ s.pending_requests_ [] (by simp) hno
    simp only [List.length_nil] at hf
    simp only [hf, hr, ite_self]

theorem Simulate_forward (err : Nat → Bool) (url : GURL) (cs : URLLoaderCompletionStatus)
    (head : URLResponseHead) (content : List Char) (flags : Nat) (s : State)
    (before after : List PendingRequest) (r : PendingRequest)
    (hlen : s.pending_requests_.length < 2 ^ 31) (hflag : flags &&& kMostRecentMatch = 0)
    (hp : s.pending_requests_ = before ++ r :: after)
    (hr : eligible err url (decide (flags &&& kUrlMatchPrefix ≠ 0)) r = true)
    (hno : ∀ x ∈ before, eligible err url (decide (flags &&& kUrlMatchPrefix ≠ 0)) x = false) :
    SimulateResponseForPendingRequest err url cs head content flags s =
      (true, { s with
        pending_requests_ := before ++ after,
        calls := s.calls ++ SimulateResponse r.client [] head content
          { cs with decoded_body_length := content.length } kResponseDefault }) := by
  have hf := ForwardLoop_some err url (decide (flags &&& kUrlMatchPrefix ≠ 0)) r after hr
    before [] s.pending_requests_ (by simp [hp]) hno
  have hl : s.pending_requests_.length = before.length + (after.length + 1) := by
    rw [hp]; simp
  have hne : s.pending_requests_.isEmpty = false := by rw [hp]; cases before <;> rfl
  simp only [List.length_nil, Nat.zero_add] at hf
  unfold SimulateResponseForPendingRequest
  simp only [hne, Bool.false_eq_true, if_false, static_cast_int_small _ hlen, hflag, ne_eq,
    not_true_eq_false]
  rw [hl, hf]
  simp only [hp, get?_middle, eraseIdx_middle]

theorem Simulate_reverse (err : Nat → Bool) (url : GURL) (cs : URLLoaderCompletionStatus)
    (head : URLResponseHead) (content : List Char) (flags : Nat) (s : State)
    (before after : List PendingRequest) (r : PendingRequest)
    (hlen : s.pending_requests_.length < 2 ^ 31) (hflag : flags &&& kMostRecentMatch ≠ 0)
    (hp : s.pending_requests_ = before ++ r :: after)
    (hr : eligible err url (decide (flags &&& kUrlMatchPrefix ≠ 0)) r = true)
    (hno : ∀ x ∈ after, eligible err url (decide (flags &&& kUrlMatchPrefix ≠ 0)) x = false) :
    SimulateResponseForPendingRequest err url cs head content flags s =
      (true, { s with
        pending_requests_ := before ++ after,
        calls := s.calls ++ SimulateResponse r.client [] head content
          { cs with decoded_body_length := content.length } kResponseDefault }) := by
  have hf := ReverseLoop_some err url (decide (flags &&& kUrlMatchPrefix ≠ 0)) r before
    s.pending_requests_ hr after [] (by simp [hp]) hno
  have hl : s.pending_requests_.length = before.length + 1 + after.length := by
    rw [hp]; simp; omega
  have hne : s.pending_requests_.isEmpty = false := by rw [hp]; cases before <;> rfl
  unfold SimulateResponseForPendingRequest
  simp only [hne, Bool.false_eq_true, if_false, static_cast_int_small _ hlen, hflag, ne_eq,
    not_false_eq_true, if_true]
  rw [hl, hf]
  simp only [hp, get?_middle, eraseIdx_middle]

theorem eligible_connected (err : Nat → Bool) (url : GURL) (p : Bool) (r : PendingRequest)
    (h : err r.client = false) : eligible err url p r = urlMatches url p r := by
  simp [eligible, h]

theorem SimulateResponse_default (client : Nat) (head : URLResponseHead)
    (content : List Char) (cs : URLLoaderCompletionStatus) :
    SimulateResponse client [] head content { cs with decoded_body_length := content.length }
        kResponseDefault =
      (if cs.error_code = 0 then
        [Call.OnReceiveResponse client head, Call.OnStartLoadingResponseBody client content]
      else []) ++
      [Call.OnComplete client ⟨cs.error_code, content.length⟩] := by
  rw [SimulateResponse_eq]
  simp only [kResponseDefault, List.map_nil, List.nil_append]
  split_ifs <;> simp_all

/-- C12: `SimulateResponseForPendingRequest` answers the first (oldest) pending
request that is a match for `url`, or the most recent one when `kMostRecentMatch`
is set.  For every pending list whose clients are all still connected (and that
is short enough for its size to be an `int`): when a request matches, exactly
that one request is removed and answered (its client gets the head and the
body when the status is OK, and then `OnComplete` with the status, whose
`decoded_body_length` is the size of the content), the others stay in order and
the result is true; the result is false exactly when no request matches, the pending
list is unchanged exactly when no request matches, and nothing else changes
then. -/
theorem SimulateResponseForPendingRequest_answers_one (err : Nat → Bool) (url : GURL)
    (cs : URLLoaderCompletionStatus) (head : URLResponseHead) (content : List Char)
    (flags : Nat) (s : State)
    (hconn : ∀ r ∈ s.pending_requests_, err r.client = false)
    (hlen : s.pending_requests_.length < 2 ^ 31) :
    ((∃ r ∈ s.pending_requests_,
        urlMatches url (decide (flags &&& kUrlMatchPrefix ≠ 0)) r = true) →
      ∃ before r after, s.pending_requests_ = before ++ r :: after ∧
        urlMatches url (decide (flags &&& kUrlMatchPrefix ≠ 0)) r = true ∧
        (if flags &&& kMostRecentMatch ≠ 0 then
          ∀ x ∈ after, urlMatches url (decide (flags &&& kUrlMatchPrefix ≠ 0)) x = false
        else ∀ x ∈ before, urlMatches url (decide (flags &&& kUrlMatchPrefix ≠ 0)) x = false) ∧
        SimulateResponseForPendingRequest err url cs head content flags s =
          (true, { s with
            pending_requests_ := before ++ after,
            calls := s.calls ++
              ((if cs.error_code = 0 then
                [Call.OnReceiveResponse r.client head,
                  Call.OnStartLoadingResponseBody r.client content]
              else []) ++
              [Call.OnComplete r.client ⟨cs.error_code, content.length⟩]) })) ∧
    ((SimulateResponseForPendingRequest err url cs head content flags s).1 = false ↔
      ∀ r ∈ s.pending_requests_,
        urlMatches url (decide (flags &&& kUrlMatchPrefix ≠ 0)) r = false) ∧
    ((SimulateResponseForPendingRequest err url cs head content flags s).2.pending_requests_ =
        s.pending_requests_ ↔
      ∀ r ∈ s.pending_requests_,
        urlMatches url (decide (flags &&& kUrlMatchPrefix ≠ 0)) r = false) ∧
    ((∀ r ∈ s.pending_requests_,
        urlMatches url (decide (flags &&& kUrlMatchPrefix ≠ 0)) r = false) →
      SimulateResponseForPendingRequest err url cs head content flags s = (false, s)) := by
  have hel : ∀ r ∈ s.pending_requests_,
      eligible err url (decide (flags &&& kUrlMatchPrefix ≠ 0)) r =
        urlMatches url (decide (flags &&& kUrlMatchPrefix ≠ 0)) r :=
    fun r hr => eligible_connected err url _ r (hconn r hr)
  have hnone : (∀ r ∈ s.pending_requests_,
      urlMatches url (decide (flags &&& kUrlMatchPrefix ≠ 0)) r = false) →
      SimulateResponseForPendingRequest err url cs head content flags s = (false, s) :=
    fun hno => Simulate_none err url cs head content flags s hlen
      (fun r hr => (hel r hr).trans (hno r hr))
  have hsome : (∃ r ∈ s.pending_requests_,
        urlMatches url (decide (flags &&& kUrlMatchPrefix ≠ 0)) r = true) →
      ∃ before r after, s.pending_requests_ = before ++ r :: after ∧
        urlMatches url (decide (flags &&& kUrlMatchPrefix ≠ 0)) r = true ∧
        (if flags &&& kMostRecentMatch ≠ 0 then
          ∀ x ∈ after, urlMatches url (decide (flags &&& kUrlMatchPrefix ≠ 0)) x = false
        else ∀ x ∈ before, urlMatches url (decide (flags &&& kUrlMatchPrefix ≠ 0)) x = false) ∧
        SimulateResponseForPendingRequest err url cs head content flags s =
          (true, { s with
            pending_requests_ := before ++ after,
            calls := s.calls ++
              ((if cs.error_code = 0 then
                [Call.OnReceiveResponse r.client head,
                  Call.OnStartLoadingResponseBody r.client content]
              else []) ++
              [Call.OnComplete r.client ⟨cs.error_code, content.length⟩]) }) := by
    intro hex
    by_cases hflag : flags &&& kMostRecentMatch ≠ 0
    · obtain ⟨before, r, after, hp, hr, hno⟩ := exists_last _ _ hex
      have hmem : ∀ x ∈ after, x ∈ s.pending_requests_ := fun x hx => by
        rw [hp]; exact List.mem_append_right _ (List.mem_cons_of_mem _ hx)
      refine ⟨before, r, after, hp, hr, by rw [if_pos hflag]; exact hno, ?_⟩
      rw [← SimulateResponse_default]
      exact Simulate_reverse err url cs head content flags s before after r hlen hflag hp
        ((hel r (by rw [hp]; simp)).trans hr)
        (fun x hx => (hel x (hmem x hx)).trans (hno x hx))
    · obtain ⟨before, r, after, hp, hr, hno⟩ := exists_first _ _ hex
      have hmem : ∀ x ∈ before, x ∈ s.pending_requests_ := fun x hx => by
        rw [hp]; exact List.mem_append_left _ hx
      refine ⟨before, r, after, hp, hr, by rw [if_neg hflag]; exact hno, ?_⟩
      rw [← SimulateResponse_default]
      exact Simulate_forward err url cs head content flags s before after r hlen
        (not_not.1 hflag) hp ((hel r (by rw [hp]; simp)).trans hr)
        (fun x hx => (hel x (hmem x hx)).trans (hno x hx))
  have hcases : (∀ r ∈ s.pending_requests_,
      urlMatches url (decide (flags &&& kUrlMatchPrefix ≠ 0)) r = false) ∨
      ∃ r ∈ s.pending_requests_,
        urlMatches url (decide (flags &&& kUrlMatchPrefix ≠ 0)) r = true := by
    by_cases hex : ∃ r ∈ s.pending_requests_,
        urlMatches url (decide (flags &&& kUrlMatchPrefix ≠ 0)) r = true
    · exact Or.inr hex
    · left
      intro r hr
      by_contra hne
      exact hex ⟨r, hr, by simpa using hne⟩
  refine ⟨hsome, ?_, ?_, hnone⟩
  · constructor
    · intro hfalse
      rcases hcases with hno | hex
      · exact hno
      · obtain ⟨_, _, _, _, _, _, heq⟩ := hsome hex
        rw [heq] at hfalse
        exact absurd hfalse (by simp)
    · intro hno
      rw [hnone hno]
  · constructor
    · intro hsame
      rcases hcases with hno | hex
      · exact hno
      · obtain ⟨before, r, after, hp, _, _, heq⟩ := hsome hex
        rw [heq, hp] at hsame
        have := congrArg List.length hsame
        simp at this
    · intro hno
      rw [hnone hno]

theorem SimulateResponseForPendingRequest_answers_one_witness :
    (∀ r ∈ examplePending.pending_requests_, (fun _ => false) r.client = false) ∧
    examplePending.pending_requests_.length < 2 ^ 31 ∧
    (∃ before r after, examplePending.pending_requests_ = before ++ r :: after ∧
      urlMatches ⟨"http://a/foo".toList⟩ (decide (kMostRecentMatch &&& kUrlMatchPrefix ≠ 0)) r =
        true ∧
      (if kMostRecentMatch &&& kMostRecentMatch ≠ 0 then
        ∀ x ∈ after,
          urlMatches ⟨"http://a/foo".toList⟩ (decide (kMostRecentMatch &&& kUrlMatchPrefix ≠ 0))
            x = false
      else ∀ x ∈ before,
          urlMatches ⟨"http://a/foo".toList⟩ (decide (kMostRecentMatch &&& kUrlMatchPrefix ≠ 0))
            x = false) ∧
      SimulateResponseForPendingRequest (fun _ => false) ⟨"http://a/foo".toList⟩ ⟨0, 0⟩
          ⟨200, []⟩ ['x'] kMostRecentMatch examplePending =
        (true, { examplePending with
          pending_requests_ := before ++ after,
          calls := examplePending.calls ++
            ((if (⟨0, 0⟩ : URLLoaderCompletionStatus).error_code = 0 then
              [Call.OnReceiveResponse r.client ⟨200, []⟩,
                Call.OnStartLoadingResponseBody r.client ['x']]
            else []) ++
            [Call.OnComplete r.client
              ⟨(⟨0, 0⟩ : URLLoaderCompletionStatus).error_code,
                (['x'] : List Char).length⟩]) })) :=
  ⟨fun _ _ => rfl, by decide,
    (SimulateResponseForPendingRequest_answers_one (fun _ => false) ⟨"http://a/foo".toList⟩
      ⟨0, 0⟩ ⟨200, []⟩ ['x'] kMostRecentMatch examplePending (fun _ _ => rfl) (by decide)).1
      ⟨⟨2, ⟨"http://a/foo".toList⟩, 0⟩, by decide, by decide⟩⟩

theorem isPrefixOf_self (l : List Char) : l.isPrefixOf l = true := by
  induction l with
  | nil => rfl
  | cons x l ih => simp [List.isPrefixOf, ih]

theorem urlMatches_iff (url : GURL) (p : Bool) (r : PendingRequest) :
    urlMatches url p r = true ↔
      if p = true then
        (url.spec.map ToLowerASCII).isPrefixOf (r.request_url.spec.map ToLowerASCII) = true
      else r.request_url = url := by
  cases p
  · simp [urlMatches]
  · simp only [urlMatches, Bool.true_and, Bool.or_eq_true, beq_iff_eq, StartsWith, if_true]
    constructor
    · rintro (h | h)
      · rw [h]; exact isPrefixOf_self _
      · exact h
    · exact Or.inr

/-- With `kUrlMatchPrefix` set, the request for `http://a/Foo` is a match for
`http://a/foo` and is answered, although its URL does not start with
`http://a/foo`. -/
theorem url_match_counterexample :
    (SimulateResponseForPendingRequest (fun _ => false) ⟨"http://a/foo".toList⟩ ⟨0, 0⟩
      ⟨200, []⟩ [] kUrlMatchPrefix
      { responses_ := [], pending_requests_ := [⟨1, ⟨"http://a/Foo".toList⟩, 0⟩],
        interceptor_ := none, calls := [] }).1 = true ∧
      "http://a/foo".toList.isPrefixOf "http://a/Foo".toList = false := by
  decide

/-- C13, amended: what a match is.  `SimulateResponseForPendingRequest` finds a
request to answer exactly when some pending request with a connected client is a
match: with `kUrlMatchPrefix` set, a request whose URL starts with `url` when
ASCII letters are compared without case; without the flag, a request whose URL
equals `url`. -/
theorem url_match_ignores_case (err : Nat → Bool) (url : GURL)
    (cs : URLLoaderCompletionStatus) (head : URLResponseHead) (content : List Char)
    (flags : Nat) (s : State) (hlen : s.pending_requests_.length < 2 ^ 31) :
    (SimulateResponseForPendingRequest err url cs head content flags s).1 = true ↔
      ∃ r ∈ s.pending_requests_, err r.client = false ∧
        if flags &&& kUrlMatchPrefix ≠ 0 then
          (url.spec.map ToLowerASCII).isPrefixOf (r.request_url.spec.map ToLowerASCII) = true
        else r.request_url = url := by
  have hel : ∀ r : PendingRequest,
      eligible err url (decide (flags &&& kUrlMatchPrefix ≠ 0)) r = true ↔
        (err r.client = false ∧
          if flags &&& kUrlMatchPrefix ≠ 0 then
            (url.spec.map ToLowerASCII).isPrefixOf (r.request_url.spec.map ToLowerASCII) = true
          else r.request_url = url) := by
    intro r
    simp only [eligible, Bool.and_eq_true, Bool.not_eq_true', urlMatches_iff, decide_eq_true_eq]
  constructor
  · intro htrue
    by_contra hno
    have hno' : ∀ r ∈ s.pending_requests_,
        eligible err url (decide (flags &&& kUrlMatchPrefix ≠ 0)) r = false := by
      intro r hr
      by_contra hne
      exact hno ⟨r, hr, (hel r).1 (by simpa using hne)⟩
    rw [Simulate_none err url cs head content flags s hlen hno'] at htrue
    exact absurd htrue (by simp)
  · rintro ⟨r, hr, hmatch⟩
    have hex : ∃ r ∈ s.pending_requests_,
        eligible err url (decide (flags &&& kUrlMatchPrefix ≠ 0)) r = true :=
      ⟨r, hr, (hel r).2 hmatch⟩
    by_cases hflag : flags &&& kMostRecentMatch ≠ 0
    · obtain ⟨before, r', after, hp, hr', hno⟩ := exists_last _ _ hex
      rw [Simulate_reverse err url cs head content flags s before after r' hlen hflag hp hr' hno]
    · obtain ⟨before, r', after, hp, hr', hno⟩ := exists_first _ _ hex
      rw [Simulate_forward err url cs head content flags s before after r' hlen
        (not_not.1 hflag) hp hr' hno]

theorem url_match_ignores_case_witness :
    examplePending.pending_requests_.length < 2 ^ 31 ∧
    ((SimulateResponseForPendingRequest (fun c => c == 1) ⟨"HTTP://A/FOO".toList⟩ ⟨0, 0⟩
        ⟨200, []⟩ [] kUrlMatchPrefix examplePending).1 = true ↔
      ∃ r ∈ examplePending.pending_requests_, (fun c => c == 1) r.client = false ∧
        if kUrlMatchPrefix &&& kUrlMatchPrefix ≠ 0 then
          ((⟨"HTTP://A/FOO".toList⟩ : GURL).spec.map ToLowerASCII).isPrefixOf
            (r.request_url.spec.map ToLowerASCII) = true
        else r.request_url = ⟨"HTTP://A/FOO".toList⟩) :=
  ⟨by decide,
    url_match_ignores_case (fun c => c == 1) ⟨"HTTP://A/FOO".toList⟩ ⟨0, 0⟩ ⟨200, []⟩ []
      kUrlMatchPrefix examplePending (by decide)⟩

theorem IsPendingLoop_eq (err : Nat → Bool) (url : List Char) :
    ∀ (l : List PendingRequest) (position : Nat),
      (IsPendingLoop err url l position).1 =
        match l.find? (fun r => decide (r.request_url.spec = url)) with
        | none => false
        | some r => !err r.client
  | [], _ => rfl
  | x :: l, position => by
    by_cases hx : x.request_url.spec = url
    · simp [IsPendingLoop, hx, List.find?]
    · simp only [IsPendingLoop, hx, if_false, List.find?, decide_False]
      exact IsPendingLoop_eq err url l (position + 1)

/-- C14 on the code: of two pending requests for the same URL, the first with a
disconnected client and the second with a living one, `IsPending` looks at the
first only and returns false, although a pending request for the URL with a
living client exists (and `NumPending` counts it). -/
theorem IsPending_stops_at_first_request :
    IsPending (fun client => client == 1) "http://a/".toList exampleTwice = (false, some 0) ∧
      (∃ r ∈ exampleTwice.pending_requests_,
        r.request_url.spec = "http://a/".toList ∧ (fun client => client == 1) r.client = false) ∧
      NumPending (fun client => client == 1) exampleTwice = 1 := by
  refine ⟨by decide, ⟨⟨2, ⟨"http://a/".toList⟩, 0⟩, by decide, by decide, by decide⟩, by decide⟩

end TestURLLoaderFactory
namespace blink

/-! ### Compositor element ids -/

theorem create_eq (bits id ns : Nat) (hid : id < 2 ^ 64 / 2 ^ bits) (hns : ns < 2 ^ bits) :
    CreateCompositorElementId bits id ns = id * 2 ^ bits + ns ∧
      id * 2 ^ bits + ns < 2 ^ 64 := by
  have hpos : 0 < 2 ^ bits := Nat.pow_pos (by decide)
  have h1 : (id + 1) * 2 ^ bits ≤ 2 ^ 64 := by
    have := Nat.mul_le_of_le_div _ _ _ (Nat.succ_le_of_lt hid)
    simpa using this
  have h2 : id * 2 ^ bits + ns < 2 ^ 64 := by
    have : (id + 1) * 2 ^ bits = id * 2 ^ bits + 2 ^ bits := by ring
    omega
  have h3 : id * 2 ^ bits < 2 ^ 64 := by omega
  have h4 : ns < 2 ^ 64 := by omega
  refine ⟨?_, h2⟩
  simp only [CreateCompositorElementId, to_uint64, Nat.shiftLeft_eq, Nat.mod_eq_of_lt h3,
    Nat.mod_eq_of_lt h4, Nat.mod_eq_of_lt h2]

/-- The ids the `DCHECK` of `CreateCompositorElementId` lets through are ids of the
range `0 < id < 2^64 / kMaxRepresentable`. -/
theorem dcheck_range (kMaxRepresentable blink_id : Nat) (hk : kMaxRepresentable < 2 ^ 32)
    (h : CreateCompositorElementId_DCHECK kMaxRepresentable blink_id = true) :
    0 < blink_id ∧ blink_id < 2 ^ 64 / kMaxRepresentable := by
  simp only [CreateCompositorElementId_DCHECK, to_unsigned, Nat.mod_eq_of_lt hk,
    Bool.and_eq_true, decide_eq_true_eq] at h
  exact ⟨h.1, lt_of_lt_of_le h.2 (Nat.div_le_div_right (by decide))⟩

/-- C15: the namespace of a compositor element id can be recovered.  For every
`namespace_id <= kMax` and every `id` with `0 < id < 2^64 / kMaxRepresentable`,
where `kMaxRepresentable = 2^kCompositorNamespaceBitCount` and `kMax` is below
`kMaxRepresentable`: `NamespaceFromCompositorElementId` of
`CompositorElementIdFromUniqueObjectId(id, namespace_id)` is `namespace_id`;
neither the shift nor the sum overflows 64 bits; and another pair of the same
range with the same element id is the same pair. -/
theorem namespace_recovered (kCompositorNamespaceBitCount kMax kMaxRepresentable : Nat)
    (hrep : kMaxRepresentable = 2 ^ kCompositorNamespaceBitCount)
    (hmax : kMax < kMaxRepresentable) (id namespace_id : Nat)
    (hns : namespace_id ≤ kMax) (hpos : 0 < id) (hid : id < 2 ^ 64 / kMaxRepresentable) :
    NamespaceFromCompositorElementId kMaxRepresentable
        (CompositorElementIdFromUniqueObjectId kCompositorNamespaceBitCount id namespace_id) =
        namespace_id ∧
      id <<< kCompositorNamespaceBitCount < 2 ^ 64 ∧
      (id <<< kCompositorNamespaceBitCount) + namespace_id < 2 ^ 64 ∧
      ∀ id' namespace_id', namespace_id' ≤ kMax → 0 < id' → id' < 2 ^ 64 / kMaxRepresentable →
        CompositorElementIdFromUniqueObjectId kCompositorNamespaceBitCount id' namespace_id' =
          CompositorElementIdFromUniqueObjectId kCompositorNamespaceBitCount id namespace_id →
        id' = id ∧ namespace_id' = namespace_id := by
  subst hrep
  have hns' : namespace_id < 2 ^ kCompositorNamespaceBitCount := by omega
  obtain ⟨he, hlt⟩ := create_eq kCompositorNamespaceBitCount id namespace_id hid hns'
  have hp : 0 < 2 ^ kCompositorNamespaceBitCount := Nat.pow_pos (by decide)
  have hrep64 : 2 ^ kCompositorNamespaceBitCount < 2 ^ 64 := by
    by_contra hge
    have : 2 ^ 64 / 2 ^ kCompositorNamespaceBitCount ≤ 1 := by
      apply Nat.lt_succ_iff.1
      apply (Nat.div_lt_iff_lt_mul hp).2
      omega
    omega
  refine ⟨?_, ?_, ?_, ?_⟩
  · simp only [NamespaceFromCompositorElementId, CompositorElementIdFromUniqueObjectId, he,
      to_uint64, Nat.mod_eq_of_lt hrep64]
    rw [Nat.add_comm, Nat.add_mul_mod_self_right, Nat.mod_eq_of_lt hns']
  · rw [Nat.shiftLeft_eq]; omega
  · rw [Nat.shiftLeft_eq]; exact hlt
  · intro id' ns' hns2 _ hid2 heq
    have hns2' : ns' < 2 ^ kCompositorNamespaceBitCount := by omega
    obtain ⟨he2, _⟩ := create_eq kCompositorNamespaceBitCount id' ns' hid2 hns2'
    simp only [CompositorElementIdFromUniqueObjectId, he, he2] at heq
    have hm := congrArg (· % 2 ^ kCompositorNamespaceBitCount) heq
    simp only [] at hm
    rw [Nat.add_comm, Nat.add_mul_mod_self_right, Nat.mod_eq_of_lt hns2',
      Nat.add_comm, Nat.add_mul_mod_self_right, Nat.mod_eq_of_lt hns'] at hm
    subst hm
    have := Nat.eq_of_mul_eq_mul_right hp (Nat.add_right_cancel heq)
    exact ⟨this, rfl⟩

theorem namespace_recovered_witness :
    (16 : Nat) = 2 ^ 4 ∧ (11 : Nat) < 16 ∧ (3 : Nat) ≤ 11 ∧ (0 : Nat) < 5 ∧
      (5 : Nat) < 2 ^ 64 / 16 ∧
      (NamespaceFromCompositorElementId 16 (CompositorElementIdFromUniqueObjectId 4 5 3) = 3 ∧
        5 <<< 4 < 2 ^ 64 ∧ (5 <<< 4) + 3 < 2 ^ 64 ∧
        ∀ id' namespace_id', namespace_id' ≤ 11 → 0 < id' → id' < 2 ^ 64 / 16 →
          CompositorElementIdFromUniqueObjectId 4 id' namespace_id' =
            CompositorElementIdFromUniqueObjectId 4 5 3 →
          id' = 5 ∧ namespace_id' = 3) :=
  ⟨by decide, by decide, by decide, by decide, by decide,
    namespace_recovered 4 11 16 (by decide) (by decide) 5 3 (by decide) (by decide)
      (by decide)⟩

end blink
namespace crostini

/-! ### One operation per container -/

theorem lookup_none_not_mem {β : Type} (key : ContainerId) :
    ∀ (m : List (ContainerId × β)), m.lookup key = none → key ∉ m.map (fun p => p.1)
  | [], _ => by simp
  | (k, v) :: m, h => by
    by_cases hk : key = k
    · subst hk
      simp [List.lookup] at h
    · have hb : (key == k) = false := by simpa using hk
      simp only [List.lookup, hb] at h
      have ih := lookup_none_not_mem key m h
      simp only [List.map_cons, List.mem_cons, not_or]
      exact ⟨hk, ih⟩

theorem keys_map_assign {β : Type} (key : ContainerId) (value : β) :
    ∀ (m : List (ContainerId × β)),
      (m.map (fun p => if p.1 == key then (key, value) else p)).map (fun p => p.1) =
        m.map (fun p => p.1)
  | [] => rfl
  | (k, v) :: m => by
    simp only [List.map_cons, keys_map_assign key value m]
    by_cases hk : k = key
    · subst hk; simp
    · have hb : (k == key) = false := by simpa using hk
      simp [hb]

theorem nodup_erase {β : Type} (m : List (ContainerId × β)) (key : ContainerId)
    (h : (m.map (fun p => p.1)).Nodup) : ((erase m key).map (fun p => p.1)).Nodup :=
  h.sublist ((List.filter_sublist m).map _)

theorem nodup_assign {β : Type} (m : List (ContainerId × β)) (key : ContainerId) (value : β)
    (h : (m.map (fun p => p.1)).Nodup) : ((assign m key value).map (fun p => p.1)).Nodup := by
  unfold assign
  cases hl : m.lookup key with
  | none =>
    simp only [List.map_append, List.map_cons, List.map_nil]
    exact List.Nodup.append h (List.nodup_singleton _)
      (by simpa using lookup_none_not_mem key m hl)
  | some v =>
    simp only [keys_map_assign]
    exact h

theorem nodup_emplace {β : Type} (m : List (ContainerId × β)) (key : ContainerId) (value : β)
    (h : (m.map (fun p => p.1)).Nodup) : ((emplace m key value).map (fun p => p.1)).Nodup := by
  unfold emplace
  cases hl : m.lookup key with
  | none =>
    simp only [List.map_append, List.map_cons, List.map_nil]
    exact List.Nodup.append h (List.nodup_singleton _)
      (by simpa using lookup_none_not_mem key m hl)
  | some v => exact h

theorem lastObs_append_single (before : Option Obs) (l : List Obs) (o : Obs) :
    lastObs before (l ++ [o]) = some o := by
  simp [lastObs]

theorem wellStarted_append_single : ∀ (l : List Obs) (before : Option Obs) (o : Obs),
    wellStarted before (l ++ [o]) = (wellStarted before l && followsFinish (lastObs before l) o)
  | [], before, o => by simp [wellStarted, lastObs]
  | x :: l, before, o => by
    have ih := wellStarted_append_single l (some x) o
    have hl : lastObs before (x :: l) = lastObs (some x) l := by
      cases l with
      | nil => simp [lastObs]
      | cons y l =>
        have hne : (y :: l).getLast? = some ((y :: l).getLast (by simp)) :=
          List.getLast?_eq_getLast _ _
        simp only [lastObs, List.getLast?_cons_cons, hne]
    show (followsFinish before x && wellStarted (some x) (l ++ [o])) = _
    rw [ih, wellStarted, hl, Bool.and_assoc]

theorem inv_observe (o : Obs) (s : State) (h : Inv s)
    (ho : followsFinish (lastObs none s.log) o = true) : Inv (observe o s) := by
  refine ⟨h.1, ?_⟩
  simp only [observe, wellStarted_append_single, h.2, ho, Bool.and_self]

theorem inv_of_same (s s' : State) (h : Inv s)
    (hr : s'.running_notifications_ = s.running_notifications_) (hl : s'.log = s.log) :
    Inv s' := by
  unfold Inv runningContainers at *
  rw [hr, hl]
  exact h

theorem inv_running (s : State) (m : List (ContainerId × Option CrostiniPackageNotification))
    (h : Inv s) (hm : (m.map (fun p => p.1)).Nodup) :
    Inv { s with running_notifications_ := m } :=
  ⟨hm, h.2⟩

theorem followsFinish_update (before : Option Obs) (n : Nat) (c : ContainerId)
    (st : PackageOperationStatus) (p : Int) :
    followsFinish before (.UpdateProgress n c st p) = true := rfl

theorem UpdateWith_inv (start : ContainerId → State → Except Fault State)
    (hstart : StartOK start) : UpdateOK (UpdatePackageOperationStatusWith start) := by
  intro c st p s s' hinv h
  unfold UpdatePackageOperationStatusWith at h
  split at h
  · cases h; exact hinv
  · cases h; exact inv_running s _ hinv (nodup_erase _ _ hinv.1)
  · rename_i n hl
    simp only [] at h
    generalize hst : (if st = PackageOperationStatus.SUCCEEDED ∧ c ∈ s.has_pending_app_list_updates_
      then PackageOperationStatus.WAITING_FOR_APP_REGISTRY_UPDATE else st) = st' at h
    have hinv1 : Inv (observe (.UpdateProgress (n.UpdateProgress st' p).notification_id c st' p)
        { s with running_notifications_ :=
            assign s.running_notifications_ c (some (n.UpdateProgress st' p)) }) :=
      inv_observe _ _ (inv_running s _ hinv (nodup_assign _ _ _ hinv.1)) rfl
    have hfinish : ∀ s₂ s₃ : State, Inv s₂ →
        (match s₂.testing_state_change_callback_ with
          | some callback => (Except.ok (observe (.StateChange callback st') s₂) :
              Except Fault State)
          | none => Except.ok s₂) = Except.ok s₃ → Inv s₃ := by
      intro s₂ s₃ h₂ h₃
      split at h₃
      · cases h₃; exact inv_observe _ _ h₂ rfl
      · cases h₃; exact h₂
    split at h
    · exact absurd h (by simp)
    · rename_i s₂ hs₂
      refine hfinish s₂ s' ?_ h
      split at hs₂
      · rename_i hfin
        split at hs₂
        · refine hstart c _ s₂ ?_ ?_ hs₂
          · exact ⟨nodup_erase _ _ hinv1.1, hinv1.2⟩
          · refine ⟨(n.UpdateProgress st' p).notification_id, st', p, ?_, ?_⟩
            · simp [observe]
            · rcases hfin with hfin | hfin <;> simp [isFinal, hfin]
        · cases hs₂
          exact ⟨nodup_erase _ _ hinv1.1, hinv1.2⟩
      · cases hs₂
        exact hinv1

theorem followsFinish_start (c : ContainerId) (s : State) (id : Nat) (h : LastFinal c s) :
    followsFinish (lastObs none s.log) (.StartQueued id c) = true := by
  obtain ⟨n, st, p, hlast, hfin⟩ := h
  simp [lastObs, hlast, followsFinish, hfin]

theorem UninstallApplicationWith_inv
    (update : ContainerId → PackageOperationStatus → Int → State → Except Fault State)
    (hupd : UpdateOK update) (env : Env) (registration : Registration) (app_id : List Char)
    (s s' : State) (hinv : Inv s)
    (h : UninstallApplicationWith update env registration app_id s = .ok s') : Inv s' := by
  unfold UninstallApplicationWith at h
  simp only [] at h
  split at h
  · exact hupd _ _ _ s s' hinv h
  · cases h
    exact inv_observe _ _ hinv rfl

theorem StartWith_inv
    (update : ContainerId → PackageOperationStatus → Int → State → Except Fault State)
    (hupd : UpdateOK update) (env : Env) : StartOK (StartQueuedOperationWith update env) := by
  intro c s s' hinv hlast h
  unfold StartQueuedOperationWith at h
  split at h
  · rename_i next rest hq
    simp only [] at h
    have hinv1 : Inv (observe
        (.StartQueued (next.notification.UpdateProgress .RUNNING 0).notification_id c)
        { s with
          running_notifications_ := emplace s.running_notifications_ c
            (some (next.notification.UpdateProgress .RUNNING 0)),
          queued_uninstalls_ := assign s.queued_uninstalls_ c rest }) := by
      refine inv_observe _ _ ⟨nodup_emplace _ _ _ hinv.1, hinv.2⟩ ?_
      exact followsFinish_start c s _ hlast
    split at h
    · exact absurd h (by simp)
    · rename_i s₂ hs₂
      have hinv2 : Inv s₂ := by
        split at hs₂
        · exact UninstallApplicationWith_inv update hupd env _ _ _ s₂ hinv1 hs₂
        · exact hupd _ _ _ _ s₂ hinv1 hs₂
      split at h
      · exact absurd h (by simp)
      · split at h
        · cases h; exact inv_of_same s₂ _ hinv2 rfl rfl
        · cases h; exact hinv2
  · split at h
    · rename_i next rest hq
      simp only [] at h
      have hinv1 : Inv (observe
          (.InstallLinuxPackage c.vm_name c.container_name next.package_path next.callback)
          (observe (.StartQueued (next.notification.UpdateProgress .RUNNING 0).notification_id c)
            { s with
              running_notifications_ := emplace s.running_notifications_ c
                (some (next.notification.UpdateProgress .RUNNING 0)),
              queued_installs_ := assign s.queued_installs_ c rest })) := by
        refine inv_observe _ _ (inv_observe _ _ ⟨nodup_emplace _ _ _ hinv.1, hinv.2⟩ ?_) rfl
        exact followsFinish_start c s _ hlast
      split at h
      · cases h; exact inv_of_same _ _ hinv1 rfl rfl
      · cases h; exact hinv1
    · cases h; exact hinv

theorem UpdatePackageOperationStatus_inv (env : Env) :
    ∀ fuel, UpdateOK (UpdatePackageOperationStatus env fuel)
  | 0 => by
    unfold UpdatePackageOperationStatus
    exact UpdateWith_inv _ (fun _ _ _ _ _ h => absurd h (by simp))
  | fuel + 1 => by
    unfold UpdatePackageOperationStatus
    exact UpdateWith_inv _ (StartWith_inv _ (UpdatePackageOperationStatus_inv env fuel) env)

theorem CreateRunningNotification_inv (c : ContainerId) (t : NotificationType)
    (app_name : List Char) (s s' : State) (hinv : Inv s)
    (h : CreateRunningNotification c t app_name s = .ok s') : Inv s' := by
  unfold CreateRunningNotification at h
  split at h
  · exact absurd h (by simp)
  · rename_i s₁ hs₁
    have hinv1 : Inv s₁ := by
      split at hs₁
      · cases hs₁; exact hinv
      · exact absurd hs₁ (by simp)
      · cases hs₁; exact ⟨nodup_erase _ _ hinv.1, hinv.2⟩
    simp only [GetUniqueNotificationId] at h
    cases h
    exact ⟨nodup_assign _ _ _ hinv1.1, hinv1.2⟩

theorem FailWhileRunning_inv (env : Env) (fuel : Nat) :
    ∀ (rounds : Nat) (c : ContainerId) (s s' : State), Inv s →
      FailWhileRunning env fuel rounds c s = .ok s' → Inv s'
  | 0, c, s, s', hinv, h => by
    unfold FailWhileRunning at h
    split at h
    · exact absurd h (by simp)
    · cases h; exact hinv
  | rounds + 1, c, s, s', hinv, h => by
    unfold FailWhileRunning at h
    split at h
    · split at h
      · exact absurd h (by simp)
      · rename_i s₁ hs₁
        exact FailWhileRunning_inv env fuel rounds c s₁ s'
          (UpdatePackageOperationStatus_inv env fuel _ _ _ s s₁ hinv hs₁) h
    · cases h; exact hinv

theorem FailAll_inv (env : Env) (fuel : Nat) :
    ∀ (l : List ContainerId) (s s' : State), Inv s → FailAll env fuel l s = .ok s' → Inv s'
  | [], s, s', hinv, h => by
    unfold FailAll at h
    cases h; exact hinv
  | c :: l, s, s', hinv, h => by
    unfold FailAll at h
    split at h
    · exact absurd h (by simp)
    · rename_i s₁ hs₁
      exact FailAll_inv env fuel l s₁ s' (FailWhileRunning_inv env fuel fuel c s s₁ hinv hs₁) h

theorem step_keeps_inv (env : Env) (fuel : Nat) (e : Event) (s s' : State) (hinv : Inv s)
    (h : step env fuel e s = .ok s') : Inv s' := by
  have hupd := UpdatePackageOperationStatus_inv env fuel
  cases e with
  | QueueInstallLinuxPackage vm_name container_name path callback =>
    simp only [step, QueueInstallLinuxPackage] at h
    split at h
    · cases h; exact inv_observe _ _ hinv rfl
    · split at h
      · cases h
        exact inv_of_same s _ hinv rfl rfl
      · split at h
        · exact absurd h (by simp)
        · rename_i s₁ hs₁
          cases h
          exact inv_observe _ _ (CreateRunningNotification_inv _ _ _ s s₁ hinv hs₁) rfl
  | QueueUninstallApplication app_id =>
    simp only [step, QueueUninstallApplication] at h
    split at h
    · cases h; exact hinv
    · split at h
      · cases h
        exact inv_of_same s _ hinv rfl rfl
      · split at h
        · exact absurd h (by simp)
        · rename_i s₁ hs₁
          exact UninstallApplicationWith_inv _ hupd env _ _ s₁ s'
            (CreateRunningNotification_inv _ _ _ s s₁ hinv hs₁) h
  | OnInstallLinuxPackageProgress c status progress_percent =>
    exact hupd _ _ _ s s' hinv h
  | OnUninstallPackageProgress c status progress_percent =>
    exact hupd _ _ _ s s' hinv h
  | OnVmShutdown vm_name => exact FailAll_inv env fuel _ s s' hinv h
  | OnPendingAppListUpdates c count =>
    simp only [step, OnPendingAppListUpdates] at h
    split at h
    · cases h
      split
      · split
        · exact hinv
        · exact inv_of_same s _ hinv rfl rfl
      · exact inv_of_same s _ hinv rfl rfl
    · exact absurd h (by simp)
    · split at h
      · refine hupd _ _ _ _ s' ?_ h
        split
        · split
          · exact hinv
          · exact inv_of_same s _ hinv rfl rfl
        · exact inv_of_same s _ hinv rfl rfl
      · cases h
        split
        · split
          · exact hinv
          · exact inv_of_same s _ hinv rfl rfl
        · exact inv_of_same s _ hinv rfl rfl
  | OnInstallLinuxPackage vm_name container_name callback result =>
    simp only [step, OnInstallLinuxPackage] at h
    split at h
    · exact hupd _ _ _ _ s' (inv_observe (.InstallCallback callback result) s hinv rfl) h
    · cases h; exact inv_observe _ _ hinv rfl
  | OnCrostiniRunningForUninstall c desktop_file_id result =>
    simp only [step, OnCrostiniRunningForUninstall] at h
    split at h
    · exact hupd _ _ _ s s' hinv h
    · cases h; exact inv_observe _ _ hinv rfl
  | OnUninstallPackageOwningFile c result =>
    simp only [step, OnUninstallPackageOwningFile] at h
    split at h
    · exact hupd _ _ _ s s' hinv h
    · cases h; exact hinv
  | NotificationCompleted notification =>
    cases h; exact inv_of_same s _ hinv rfl rfl
  | SetNotificationStateChangeCallbackForTesting cb =>
    cases h; exact inv_of_same s _ hinv rfl rfl
  | Shutdown =>
    cases h
    exact ⟨List.nodup_nil, hinv.2⟩

theorem inv_initial : Inv initial := ⟨List.nodup_nil, rfl⟩

theorem inv_of_reachable (s : State) (h : Reachable s) : Inv s := by
  induction h with
  | initial => exact inv_initial
  | step env fuel e _ hstep ih => exact step_keeps_inv env fuel e _ _ ih hstep

theorem reachable_of_runEvents : ∀ (evs : List (Env × Nat × Event)) (s s' : State),
    Reachable s → runEvents evs s = .ok s' → Reachable s'
  | [], s, s', h, hr => by
    simp only [runEvents] at hr
    cases hr; exact h
  | (env, fuel, e) :: rest, s, s', h, hr => by
    simp only [runEvents] at hr
    split at hr
    · rename_i s₁ hs₁
      exact reachable_of_runEvents rest s₁ s' (Reachable.step env fuel e h hs₁) hr
    · exact absurd hr (by simp)

theorem wellStarted_append : ∀ (l₁ l₂ : List Obs) (before : Option Obs),
    wellStarted before (l₁ ++ l₂) = (wellStarted before l₁ && wellStarted (lastObs before l₁) l₂)
  | [], l₂, before => by simp [wellStarted, lastObs]
  | x :: l₁, l₂, before => by
    have ih := wellStarted_append l₁ l₂ (some x)
    have hl : lastObs before (x :: l₁) = lastObs (some x) l₁ := by
      cases l₁ with
      | nil => simp [lastObs]
      | cons y l =>
        have hne : (y :: l).getLast? = some ((y :: l).getLast (by simp)) :=
          List.getLast?_eq_getLast _ _
        simp only [lastObs, List.getLast?_cons_cons, hne]
    show (followsFinish before x && wellStarted (some x) (l₁ ++ l₂)) = _
    rw [ih, wellStarted, hl, Bool.and_assoc]

theorem start_follows_finish (log before after : List Obs) (id : Nat) (c : ContainerId)
    (hwell : wellStarted none log = true) (hlog : log = before ++ Obs.StartQueued id c :: after) :
    ∃ before' id' status p, before = before' ++ [Obs.UpdateProgress id' c status p] ∧
      (status = .SUCCEEDED ∨ status = .FAILED) := by
  rw [hlog, wellStarted_append, Bool.and_eq_true] at hwell
  have hf := hwell.2
  simp only [wellStarted, Bool.and_eq_true] at hf
  have hff := hf.1
  simp only [followsFinish] at hff
  split at hff
  · rename_i id' c' status p hlast
    simp only [Bool.and_eq_true, decide_eq_true_eq, isFinal, Bool.or_eq_true] at hff
    obtain ⟨rfl, hfin⟩ := hff
    have hl : before.getLast? = some (Obs.UpdateProgress id' c' status p) := by
      simp only [lastObs] at hlast
      split at hlast
      · rename_i o ho; rw [ho, hlast]
      · exact absurd hlast (by simp)
    obtain ⟨before', hb⟩ := List.getLast?_eq_some_iff.1 hl
    exact ⟨before', id', status, p, hb, hfin⟩
  · exact absurd hff (by simp)

theorem lookup_append_one {β : Type} (key key' : ContainerId) (value : β) :
    ∀ m : List (ContainerId × β), (m ++ [(key, value)]).lookup key' =
      (m.lookup key').or (if key' == key then some value else none)
  | [] => by cases h : key' == key <;> simp [List.lookup, h]
  | (k, v) :: m => by
    simp only [List.cons_append, List.lookup_cons]
    cases h : key' == k
    · simpa using lookup_append_one key key' value m
    · simp

theorem lookup_map_replace {β : Type} (key key' : ContainerId) (value : β) :
    ∀ m : List (ContainerId × β),
      (m.map (fun p => if p.1 == key then (key, value) else p)).lookup key' =
        if key' == key then (m.lookup key').map (fun _ => value) else m.lookup key'
  | [] => by simp
  | (k, v) :: m => by
    have ih := lookup_map_replace key key' value m
    by_cases hk : k = key
    · subst hk
      simp only [List.map_cons, beq_self_eq_true, if_true, List.lookup_cons]
      cases hu : key' == k
      · simpa [hu] using ih
      · simp
    · have hk' : (k == key) = false := by simpa using hk
      simp only [List.map_cons, hk', Bool.false_eq_true, if_false, List.lookup_cons]
      cases hu : key' == k
      · simpa using ih
      · have : key' = k := by simpa using hu
        subst this
        simp [hk']

theorem lookup_assign_same {β : Type} (m : List (ContainerId × β)) (key : ContainerId)
    (value : β) : (assign m key value).lookup key = some value := by
  unfold assign
  split
  · next h => rw [lookup_append_one, h]; simp
  · next v h => rw [lookup_map_replace, h]; simp

theorem lookup_assign_else {β : Type} (m : List (ContainerId × β)) (key key' : ContainerId)
    (value : β) (hne : key' ≠ key) : (assign m key value).lookup key' = m.lookup key' := by
  have hbeq : (key' == key) = false := by simpa using hne
  unfold assign
  split
  · rw [lookup_append_one, hbeq]; simp
  · rw [lookup_map_replace, hbeq]; simp

theorem exampleRunning_reachable : Reachable exampleRunning :=
  reachable_of_runEvents
    [(exampleEnv, 1, .QueueInstallLinuxPackage "termina".toList "penguin".toList
      (some "a.deb".toList) 1)]
    initial exampleRunning Reachable.initial (by decide)

/-- On a container with a running operation, `QueueInstallLinuxPackage` with a
package URL that does not convert to a path inside Crostini appends nothing to
the queues of the container (it runs the callback with
`INSTALL_LINUX_PACKAGE_FAILED`). -/
theorem queue_install_counterexample :
    Reachable exampleRunning ∧
      ContainerHasRunningOperation ⟨"termina".toList, "penguin".toList⟩ exampleRunning = true ∧
      ∃ s', QueueInstallLinuxPackage "termina".toList "penguin".toList none 2 exampleRunning =
          .ok s' ∧
        s'.queued_installs_ = exampleRunning.queued_installs_ ∧
        s'.queued_uninstalls_ = exampleRunning.queued_uninstalls_ ∧
        s'.queued_installs_.lookup ⟨"termina".toList, "penguin".toList⟩ = none :=
  ⟨exampleRunning_reachable, by decide, _, rfl, rfl, rfl, by decide⟩

/-- C16, amended: the service runs at most one package operation per container and
queues the rest.  In every reachable state: no container has two running
notifications; every start of a queued operation came right after
`UpdatePackageOperationStatus` moved the running notification of the same
container to `SUCCEEDED` or `FAILED`; `QueueInstallLinuxPackage` with a package
URL that converts to a path inside Crostini, on a container that has a running
operation, calls nothing, leaves the running notifications alone and appends one
entry to the install queue of that container and to no other queue; and
`QueueUninstallApplication` of a registered application whose container has a
running operation does the same with the uninstall queue. -/
theorem one_operation_per_container (s : State) (h : Reachable s) :
    (∀ c, (runningContainers s).count c ≤ 1) ∧
    (∀ before id c after, s.log = before ++ Obs.StartQueued id c :: after →
      ∃ before' id' status p, before = before' ++ [Obs.UpdateProgress id' c status p] ∧
        (status = .SUCCEEDED ∨ status = .FAILED)) ∧
    (∀ vm_name container_name path callback,
      ContainerHasRunningOperation ⟨vm_name, container_name⟩ s = true →
      ∃ s' entry, QueueInstallLinuxPackage vm_name container_name (some path) callback s = .ok s' ∧
        s'.log = s.log ∧ s'.running_notifications_ = s.running_notifications_ ∧
        s'.queued_uninstalls_ = s.queued_uninstalls_ ∧
        entry.package_path = path ∧ entry.callback = callback ∧
        entry.notification.status = .QUEUED ∧
        s'.queued_installs_.lookup ⟨vm_name, container_name⟩ =
          some ((s.queued_installs_.lookup ⟨vm_name, container_name⟩).getD [] ++ [entry]) ∧
        ∀ c, c ≠ ⟨vm_name, container_name⟩ →
          s'.queued_installs_.lookup c = s.queued_installs_.lookup c) ∧
    (∀ env fuel app_id registration, env.GetRegistration app_id = some registration →
      ContainerHasRunningOperation ⟨registration.VmName, registration.ContainerName⟩ s = true →
      ∃ s' entry, QueueUninstallApplication env fuel app_id s = .ok s' ∧
        s'.log = s.log ∧ s'.running_notifications_ = s.running_notifications_ ∧
        s'.queued_installs_ = s.queued_installs_ ∧
        entry.app_id = app_id ∧ entry.notification.status = .QUEUED ∧
        s'.queued_uninstalls_.lookup ⟨registration.VmName, registration.ContainerName⟩ =
          some ((s.queued_uninstalls_.lookup
            ⟨registration.VmName, registration.ContainerName⟩).getD [] ++ [entry]) ∧
        ∀ c, c ≠ ⟨registration.VmName, registration.ContainerName⟩ →
          s'.queued_uninstalls_.lookup c = s.queued_uninstalls_.lookup c) := by
  have hinv := inv_of_reachable s h
  refine ⟨?_, ?_, ?_, ?_⟩
  · intro c
    exact List.nodup_iff_count_le_one.1 hinv.1 c
  · intro before id c after hlog
    exact start_follows_finish s.log before after id c hinv.2 hlog
  · intro vm_name container_name path callback hrun
    refine ⟨CreateQueuedInstall ⟨vm_name, container_name⟩ path callback s,
      ⟨path, callback,
        ⟨s.next_notification_id_, .PACKAGE_INSTALL, .QUEUED, 0, ⟨vm_name, container_name⟩, [],
          false⟩⟩, ?_, rfl, rfl, rfl, rfl, rfl, rfl, ?_, ?_⟩
    · simp only [QueueInstallLinuxPackage, hrun, if_true]
    · simp only [CreateQueuedInstall, GetUniqueNotificationId]
      exact lookup_assign_same _ _ _
    · intro c hc
      simp only [CreateQueuedInstall, GetUniqueNotificationId]
      exact lookup_assign_else _ _ _ _ hc
  · intro env fuel app_id registration hreg hrun
    refine ⟨CreateQueuedUninstall ⟨registration.VmName, registration.ContainerName⟩ app_id
        registration.Name s,
      ⟨app_id, ⟨s.next_notification_id_, .APPLICATION_UNINSTALL, .QUEUED, 0,
        ⟨registration.VmName, registration.ContainerName⟩, registration.Name, false⟩⟩,
      ?_, rfl, rfl, rfl, rfl, rfl, ?_, ?_⟩
    · simp only [QueueUninstallApplication, hreg, hrun, if_true]
    · simp only [CreateQueuedUninstall, GetUniqueNotificationId]
      exact lookup_assign_same _ _ _
    · intro c hc
      simp only [CreateQueuedUninstall, GetUniqueNotificationId]
      exact lookup_assign_else _ _ _ _ hc

theorem exampleStarted_reachable : Reachable exampleStarted :=
  reachable_of_runEvents
    [(exampleEnv, 1, .QueueInstallLinuxPackage "termina".toList "penguin".toList
        (some "a.deb".toList) 1),
      (exampleEnv, 1, .QueueUninstallApplication "app".toList),
      (exampleEnv, 1, .OnInstallLinuxPackageProgress exampleContainer .SUCCEEDED 100)]
    initial exampleStarted Reachable.initial (by decide)

theorem one_operation_per_container_witness :
    Reachable exampleStarted ∧
    ((∀ c, (runningContainers exampleStarted).count c ≤ 1) ∧
    (∀ before id c after, exampleStarted.log = before ++ Obs.StartQueued id c :: after →
      ∃ before' id' status p, before = before' ++ [Obs.UpdateProgress id' c status p] ∧
        (status = .SUCCEEDED ∨ status = .FAILED)) ∧
    (∀ vm_name container_name path callback,
      ContainerHasRunningOperation ⟨vm_name, container_name⟩ exampleStarted = true →
      ∃ s' entry, QueueInstallLinuxPackage vm_name container_name (some path) callback
          exampleStarted = .ok s' ∧
        s'.log = exampleStarted.log ∧
        s'.running_notifications_ = exampleStarted.running_notifications_ ∧
        s'.queued_uninstalls_ = exampleStarted.queued_uninstalls_ ∧
        entry.package_path = path ∧ entry.callback = callback ∧
        entry.notification.status = .QUEUED ∧
        s'.queued_installs_.lookup ⟨vm_name, container_name⟩ =
          some ((exampleStarted.queued_installs_.lookup ⟨vm_name, container_name⟩).getD [] ++
            [entry]) ∧
        ∀ c, c ≠ ⟨vm_name, container_name⟩ →
          s'.queued_installs_.lookup c = exampleStarted.queued_installs_.lookup c) ∧
    (∀ env fuel app_id registration, env.GetRegistration app_id = some registration →
      ContainerHasRunningOperation ⟨registration.VmName, registration.ContainerName⟩
        exampleStarted = true →
      ∃ s' entry, QueueUninstallApplication env fuel app_id exampleStarted = .ok s' ∧
        s'.log = exampleStarted.log ∧
        s'.running_notifications_ = exampleStarted.running_notifications_ ∧
        s'.queued_installs_ = exampleStarted.queued_installs_ ∧
        entry.app_id = app_id ∧ entry.notification.status = .QUEUED ∧
        s'.queued_uninstalls_.lookup ⟨registration.VmName, registration.ContainerName⟩ =
          some ((exampleStarted.queued_uninstalls_.lookup
            ⟨registration.VmName, registration.ContainerName⟩).getD [] ++ [entry]) ∧
        ∀ c, c ≠ ⟨registration.VmName, registration.ContainerName⟩ →
          s'.queued_uninstalls_.lookup c = exampleStarted.queued_uninstalls_.lookup c)) :=
  ⟨exampleStarted_reachable, one_operation_per_container exampleStarted exampleStarted_reachable⟩

/-! ### The progress of an install -/

theorem display_progress_range (progress_percent : Int) (h0 : 0 ≤ progress_percent)
    (h100 : progress_percent ≤ 100) :
    0 ≤ display_progress .DOWNLOADING progress_percent ∧
      display_progress .DOWNLOADING progress_percent ≤ 50 ∧
      50 ≤ display_progress .INSTALLING progress_percent ∧
      display_progress .INSTALLING progress_percent ≤ 100 ∧
      (display_progress .INSTALLING progress_percent = 50 ↔ progress_percent ≤ 1) := by
  have hd : Int.tdiv progress_percent 2 = progress_percent / 2 :=
    Int.tdiv_eq_ediv h0 (by decide)
  simp only [display_progress, hd, reduceCtorEq, if_false, if_true]
  omega

theorem display_progress_mono (status : InstallLinuxPackageProgressStatus) (p q : Int)
    (h0 : 0 ≤ p) (hpq : p ≤ q) : display_progress status p ≤ display_progress status q := by
  have hp : Int.tdiv p 2 = p / 2 := Int.tdiv_eq_ediv h0 (by decide)
  have hq : Int.tdiv q 2 = q / 2 := Int.tdiv_eq_ediv (le_trans h0 hpq) (by decide)
  simp only [display_progress, hp, hq]
  split <;> omega

/-- C17 on the code: at the start of the installing phase the displayed progress
is 50, not a value of 51..100.  `OnInstallLinuxPackageProgress` with status
`INSTALLING` and a progress of 0 (or 1) gives the running notification the
progress 50, which is also what the end of the downloading phase gives. -/
theorem installing_progress_starts_at_50 :
    display_progress .INSTALLING 0 = 50 ∧ display_progress .INSTALLING 1 = 50 ∧
      display_progress .DOWNLOADING 100 = 50 ∧
      OnInstallLinuxPackageProgress exampleEnv 1 exampleContainer .INSTALLING 0 exampleRunning =
        .ok { exampleRunning with
          running_notifications_ :=
            [(exampleContainer,
              some ⟨0, .PACKAGE_INSTALL, .RUNNING, 50, exampleContainer, [], false⟩)],
          log := exampleRunning.log ++ [.UpdateProgress 0 exampleContainer .RUNNING 50] } := by
  decide

end crostini
